import Mathlib

/-!
Verification of the persistent splay-tree container `lean::splay_tree<T, CMP>`
(`src/util/splay_tree.h`).

The C++ container is a reference-counted, path-copying splay tree.  Its
functional behaviour is embedded shallowly: a handle is a value of `Tree T`,
the comparator is a three-way comparison `T → T → Int` packaged with its
contract (`Cmp`), and each C++ member function becomes a Lean function on
`Tree T`.  The descent of `insert_pull` records the path as a list of zipper
entries (direction, node value, the sibling subtree on the other side);
`splay_to_top` consumes that path exactly as the C++ loop does, two entries at
a time and then the final zig step.
-/

namespace SplayTree

/-- A splay-tree node: `node left value right`; `leaf` is the null pointer. -/
inductive Tree (T : Type) where
  | leaf : Tree T
  | node (left : Tree T) (value : T) (right : Tree T) : Tree T
deriving Repr, DecidableEq

/-- The comparator contract of `CMP`: a three-way comparison returning
negative / zero / positive, inducing a strict total order on the classes of
values that compare equal.  `asymm` says the order flips with the arguments;
`lt_trans` is transitivity; `eq_congr` says values comparing equal are
interchangeable in comparisons. -/
structure Cmp (T : Type) where
  cmp : T → T → Int
  asymm : ∀ x y, cmp x y < 0 ↔ 0 < cmp y x
  lt_trans : ∀ x y z, cmp x y < 0 → cmp y z < 0 → cmp x z < 0
  eq_congr : ∀ x y z, cmp x y = 0 → cmp x z = cmp y z

namespace Cmp

variable {T : Type} (c : Cmp T)

theorem cmp_self (x : T) : c.cmp x x = 0 := by
  rcases lt_trichotomy (c.cmp x x) 0 with h | h | h
  · exact absurd ((c.asymm x x).1 h) (by omega)
  · exact h
  · exact absurd ((c.asymm x x).2 h) (by omega)

theorem eq_symm {x y : T} (h : c.cmp x y = 0) : c.cmp y x = 0 := by
  rcases lt_trichotomy (c.cmp y x) 0 with h' | h' | h'
  · have := (c.asymm y x).1 h'
    omega
  · exact h'
  · have := (c.asymm x y).2 h'
    omega

theorem lt_congr_left {x y : T} (h : c.cmp x y = 0) (z : T) :
    c.cmp x z < 0 ↔ c.cmp y z < 0 := by
  rw [c.eq_congr x y z h]

theorem gt_congr_left {x y : T} (h : c.cmp x y = 0) (z : T) :
    0 < c.cmp x z ↔ 0 < c.cmp y z := by
  rw [c.eq_congr x y z h]

theorem lt_congr_right {x y : T} (h : c.cmp x y = 0) (z : T) :
    c.cmp z x < 0 ↔ c.cmp z y < 0 := by
  rw [c.asymm z x, c.asymm z y, ← c.gt_congr_left h z]

theorem gt_congr_right {x y : T} (h : c.cmp x y = 0) (z : T) :
    0 < c.cmp z x ↔ 0 < c.cmp z y := by
  constructor
  · intro h'
    have hx := (c.asymm x z).2 h'
    have hy := (c.lt_congr_left h z).1 hx
    exact (c.asymm y z).1 hy
  · intro h'
    have hy := (c.asymm y z).2 h'
    have hx := (c.lt_congr_left h z).2 hy
    exact (c.asymm x z).1 hx

theorem eq_zero_congr_right {x y : T} (h : c.cmp x y = 0) (z : T) :
    c.cmp z x = 0 ↔ c.cmp z y = 0 := by
  have h1 := c.lt_congr_right h z
  have h2 := c.gt_congr_right h z
  constructor <;> intro h' <;> omega

end Cmp

variable {T : Type}

/-- In-order contents of a tree (the element sequence of the handle). -/
def toList : Tree T → List T
  | .leaf => []
  | .node l v r => toList l ++ v :: toList r

/-- A recorded path entry, as in `splay_tree::entry`: `m_right` is the descent
direction taken at this node, `value` the node's value, and `other` the child
subtree on the side NOT descended into (the side the splay rewrites read). -/
structure Entry (T : Type) where
  m_right : Bool
  value : T
  other : Tree T
deriving Repr, DecidableEq

/-- Re-attach a subtree into the hole of a path entry, recovering the node as
it was when the descent passed through it. -/
def Entry.reattach (e : Entry T) (t : Tree T) : Tree T :=
  match e with
  | ⟨false, x, o⟩ => .node t x o
  | ⟨true, x, o⟩ => .node o x t

/-- Rebuild the whole tree from a zipper path (deepest entry first) and the
subtree in the hole. -/
def plug : List (Entry T) → Tree T → Tree T
  | [], t => t
  | e :: rest, t => plug rest (e.reattach t)

/-- `splay_tree::splay_to_top`: promote the node `(n A nv B)` to the root.
The path is deepest-entry-first (`path.back()` of the C++ vector is the head).
While at least two entries remain, one of the four two-level rewrites fires,
chosen by the `(parent-direction, grandparent-direction)` pair; a final single
entry fires a zig step. -/
def splay_to_top : List (Entry T) → Tree T → T → Tree T → Tree T
  | [], A, nv, B => .node A nv B
  | [⟨false, pv, C⟩], A, nv, B =>
      -- zig left: (p (n A B) C) ==> (n A (p B C))
      .node A nv (.node B pv C)
  | [⟨true, pv, A⟩], B, nv, C =>
      -- zig right: (p A (n B C)) ==> (n (p A B) C)
      .node (.node A pv B) nv C
  | ⟨false, pv, C⟩ :: ⟨false, gv, D⟩ :: rest, A, nv, B =>
      -- zig-zig left: (g (p (n A B) C) D) ==> (n A (p B (g C D)))
      splay_to_top rest A nv (.node B pv (.node C gv D))
  | ⟨true, pv, A⟩ :: ⟨false, gv, D⟩ :: rest, B, nv, C =>
      -- zig-zag left-right: (g (p A (n B C)) D) ==> (n (p A B) (g C D))
      splay_to_top rest (.node A pv B) nv (.node C gv D)
  | ⟨false, pv, D⟩ :: ⟨true, gv, A⟩ :: rest, B, nv, C =>
      -- zig-zag right-left: (g A (p (n B C) D)) ==> (n (g A B) (p C D))
      splay_to_top rest (.node A gv B) nv (.node C pv D)
  | ⟨true, pv, B⟩ :: ⟨true, gv, A⟩ :: rest, C, nv, D =>
      -- zig-zig right: (g A (p B (n C D))) ==> (n (p (g A B) C) D)
      splay_to_top rest (.node (.node A gv B) pv C) nv D

/-- `splay_tree::insert_pull`: descend from `t` comparing `v`, recording the
path; on the way the C++ clones shared nodes in place (invisible to the
functional value).  Reaching a null slot: an insert splices a fresh leaf; a
pull backs up one step (or answers `false` on an empty tree without
splaying).  Comparing equal: an insert overwrites the value.  Finally the
target is splayed to the root.  Returns `(found, new tree)`. -/
def insert_pull_loop (c : Cmp T) (v : T) (is_insert : Bool) :
    Tree T → List (Entry T) → Bool × Tree T
  | .leaf, path =>
      if is_insert then
        (false, splay_to_top path .leaf v .leaf)
      else
        match path with
        | [] => (false, .leaf)
        | ⟨false, x, o⟩ :: rest => (false, splay_to_top rest .leaf x o)
        | ⟨true, x, o⟩ :: rest => (false, splay_to_top rest o x .leaf)
  | .node l x r, path =>
      if c.cmp v x < 0 then
        insert_pull_loop c v is_insert l (⟨false, x, r⟩ :: path)
      else if 0 < c.cmp v x then
        insert_pull_loop c v is_insert r (⟨true, x, l⟩ :: path)
      else
        (true, splay_to_top path l (if is_insert then v else x) r)

/-- `splay_tree::insert` (member): `insert_pull(v, true)`. -/
def insert (c : Cmp T) (v : T) (t : Tree T) : Tree T :=
  (insert_pull_loop c v true t []).2

/-- `splay_tree::pull`: `insert_pull(v, false)`. -/
def pull (c : Cmp T) (v : T) (t : Tree T) : Bool × Tree T :=
  insert_pull_loop c v false t []

/-- Root value of a tree (`m_ptr->m_value`), `none` for the empty tree. -/
def rootVal : Tree T → Option T
  | .leaf => none
  | .node _ v _ => some v

/-- `splay_tree::find_memoize`: pull `v`; when found return the value now at
the root.  The (possibly restructured) tree is returned alongside. -/
def find_memoize (c : Cmp T) (v : T) (t : Tree T) : Option T × Tree T :=
  match pull c v t with
  | (true, t') => (rootVal t', t')
  | (false, t') => (none, t')

/-- Descent of `splay_tree::pull_max`: follow right children, then splay. -/
def pull_max_loop : Tree T → List (Entry T) → Tree T
  | .leaf, _ => .leaf
  | .node l x .leaf, path => splay_to_top path l x .leaf
  | .node l x (.node rl rv rr), path =>
      pull_max_loop (.node rl rv rr) (⟨true, x, l⟩ :: path)

/-- `splay_tree::pull_max`: splay the maximum to the root (no-op when empty). -/
def pull_max : Tree T → Tree T
  | .leaf => .leaf
  | .node l x r => pull_max_loop (.node l x r) []

/-- The join performed by `splay_tree::erase` once the erased value sits at the
root and its subtrees `l`, `r` are detached: an empty side yields the other
side; otherwise `pull_max l` brings `l`'s maximum to the root (its right child
is then null) and `r` is attached as that root's right child. -/
def join : Tree T → Tree T → Tree T
  | .leaf, r => r
  | l, .leaf => l
  | l, r =>
      match pull_max l with
      | .leaf => .leaf
      | .node l2 m _ => .node l2 m r

/-- `splay_tree::erase`: pull `v`; when found, replace the tree by the join of
the root's subtrees. -/
def erase (c : Cmp T) (v : T) (t : Tree T) : Tree T :=
  match pull c v t with
  | (false, t') => t'
  | (true, t') =>
      match t' with
      | .leaf => .leaf
      | .node l _ r => join l r

/-- `splay_tree::find`: read-only descent. -/
def find (c : Cmp T) (v : T) : Tree T → Option T
  | .leaf => none
  | .node l x r =>
      if c.cmp v x < 0 then find c v l
      else if 0 < c.cmp v x then find c v r
      else some x

/-- `splay_tree::contains`: `find(v) != nullptr`. -/
def contains (c : Cmp T) (v : T) (t : Tree T) : Bool :=
  (find c v t).isSome

/-- Number of nodes `find` examines (dereferences and compares) before it
returns. -/
def find_visits (c : Cmp T) (v : T) : Tree T → Nat
  | .leaf => 0
  | .node l x r =>
      if c.cmp v x < 0 then 1 + find_visits c v l
      else if 0 < c.cmp v x then 1 + find_visits c v r
      else 1

/-- The conjunction of the assertions of `splay_tree::check_invariant`: at
every node, a non-null left child's value compares below the node's value and
the node's value compares below a non-null right child's value. -/
def check_invariant (c : Cmp T) : Tree T → Bool
  | .leaf => true
  | .node l x r =>
      check_invariant c l &&
      (match l with
       | .leaf => true
       | .node _ lv _ => decide (c.cmp lv x < 0)) &&
      (check_invariant c r &&
       match r with
       | .leaf => true
       | .node _ rv _ => decide (c.cmp x rv < 0))

/-- `splay_tree::to_buffer`: append the elements in increasing order. -/
def to_buffer : Tree T → List T → List T
  | .leaf, acc => acc
  | .node l v r, acc => to_buffer r (to_buffer l acc ++ [v])

/-- `splay_tree::fold`. -/
def fold {R : Type} (f : T → R → R) : Tree T → R → R
  | .leaf, acc => acc
  | .node l v r, acc => fold f r (f v (fold f l acc))

/-- `splay_tree::size`: count via fold. -/
def size (t : Tree T) : Nat :=
  fold (fun _ a => a + 1) t 0

/-- Copy constructor: an O(1) alias of the same tree value. -/
def copy (t : Tree T) : Tree T := t

/-- `splay_tree::clear`. -/
def clear (_ : Tree T) : Tree T := .leaf

/-- `splay_tree::swap`. -/
def swap (a b : Tree T) : Tree T × Tree T := (b, a)

/-- Non-member `insert(t, v)`: copy, mutate the copy, return it. -/
def insert_nonmember (c : Cmp T) (t : Tree T) (v : T) : Tree T :=
  insert c v (copy t)

/-- Non-member `erase(t, v)`: copy, mutate the copy, return it. -/
def erase_nonmember (c : Cmp T) (t : Tree T) (v : T) : Tree T :=
  erase c v (copy t)

/-- The strong binary-search-tree ordering invariant: at every node all
elements of the left subtree compare below the value and all elements of the
right subtree above. -/
def allTree (p : T → Prop) : Tree T → Prop
  | .leaf => True
  | .node l v r => allTree p l ∧ p v ∧ allTree p r

/-- Strong BST invariant. -/
def BST (c : Cmp T) : Tree T → Prop
  | .leaf => True
  | .node l v r =>
      BST c l ∧ BST c r ∧
      allTree (fun y => c.cmp y v < 0) l ∧ allTree (fun y => c.cmp v y < 0) r

/-- Plain BST insert without splaying: the tree-shaped specification of where
the insert-descent places (or overwrites) `v`. -/
def bstInsert (c : Cmp T) (v : T) : Tree T → Tree T
  | .leaf => .node .leaf v .leaf
  | .node l x r =>
      if c.cmp v x < 0 then .node (bstInsert c v l) x r
      else if 0 < c.cmp v x then .node l x (bstInsert c v r)
      else .node l v r

/-- Whether the comparison-guided descent for `v` hits a node comparing
equal (the `found` flag of `insert_pull`, which depends only on the tree). -/
def dfound (c : Cmp T) (v : T) : Tree T → Bool
  | .leaf => false
  | .node l x r =>
      if c.cmp v x < 0 then dfound c v l
      else if 0 < c.cmp v x then dfound c v r
      else true

/-- Insertion with overwrite-on-equal into a sorted list: the list-level
specification of `insert`. -/
def listInsert (c : Cmp T) (v : T) : List T → List T
  | [] => [v]
  | x :: xs =>
      if c.cmp v x < 0 then v :: x :: xs
      else if 0 < c.cmp v x then x :: listInsert c v xs
      else v :: xs

section Lemmas

variable {T : Type} (c : Cmp T)

theorem toList_plug_congr (path : List (Entry T)) {t1 t2 : Tree T}
    (h : toList t1 = toList t2) :
    toList (plug path t1) = toList (plug path t2) := by
  induction path generalizing t1 t2 with
  | nil => exact h
  | cons e rest ih =>
      rcases e with ⟨d, x, o⟩
      cases d <;> exact ih (by simp [Entry.reattach, toList, h])

theorem toList_splay_to_top (path : List (Entry T)) (A : Tree T) (nv : T)
    (B : Tree T) :
    toList (splay_to_top path A nv B) = toList (plug path (.node A nv B)) := by
  induction path, A, nv, B using splay_to_top.induct <;>
    simp only [splay_to_top, plug, Entry.reattach, *] <;>
    first
      | rfl
      | simp [toList]
      | exact toList_plug_congr _ (by simp [toList])

theorem splay_to_top_root (path : List (Entry T)) (A : Tree T) (nv : T)
    (B : Tree T) :
    ∃ l r, splay_to_top path A nv B = .node l nv r := by
  induction path, A, nv, B using splay_to_top.induct <;> simp [splay_to_top, *]

theorem splay_to_top_right_of_true (path : List (Entry T)) (A : Tree T)
    (nv : T) (B : Tree T) (h : ∀ e ∈ path, e.m_right = true) :
    ∃ l, splay_to_top path A nv B = .node l nv B := by
  induction path, A, nv, B using splay_to_top.induct <;> simp_all [splay_to_top]

theorem insert_pull_loop_found (v : T) (is_insert : Bool) (t : Tree T)
    (path : List (Entry T)) :
    (insert_pull_loop c v is_insert t path).1 = dfound c v t := by
  induction t generalizing path with
  | leaf =>
      cases is_insert
      · rcases path with _ | ⟨⟨d, x, o⟩, rest⟩
        · simp [insert_pull_loop, dfound]
        · cases d <;> simp [insert_pull_loop, dfound]
      · simp [insert_pull_loop, dfound]
  | node l x r ihl ihr =>
      simp only [insert_pull_loop, dfound]
      split
      · exact ihl _
      · split
        · exact ihr _
        · simp

theorem toList_pull_loop (v : T) (t : Tree T) (path : List (Entry T)) :
    toList (insert_pull_loop c v false t path).2 = toList (plug path t) := by
  induction t generalizing path with
  | leaf =>
      rcases path with _ | ⟨⟨d, x, o⟩, rest⟩
      · simp [insert_pull_loop, plug]
      · cases d <;>
          simp [insert_pull_loop, toList_splay_to_top, plug, Entry.reattach]
  | node l x r ihl ihr =>
      simp only [insert_pull_loop]
      split
      · rw [ihl]
        simp [plug, Entry.reattach]
      · split
        · rw [ihr]
          simp [plug, Entry.reattach]
        · simp [toList_splay_to_top]

theorem toList_insert_loop (v : T) (t : Tree T) (path : List (Entry T)) :
    toList (insert_pull_loop c v true t path).2 =
      toList (plug path (bstInsert c v t)) := by
  induction t generalizing path with
  | leaf => simp [insert_pull_loop, bstInsert, toList_splay_to_top]
  | node l x r ihl ihr =>
      simp only [insert_pull_loop, bstInsert]
      split
      · rw [ihl]
        simp [plug, Entry.reattach]
      · split
        · rw [ihr]
          simp [plug, Entry.reattach]
        · simp [toList_splay_to_top]

theorem insert_loop_root (v : T) (t : Tree T) (path : List (Entry T)) :
    ∃ l r, (insert_pull_loop c v true t path).2 = .node l v r := by
  induction t generalizing path with
  | leaf =>
      simp only [insert_pull_loop, if_true]
      exact splay_to_top_root _ _ _ _
  | node l x r ihl ihr =>
      simp only [insert_pull_loop]
      split
      · exact ihl _
      · split
        · exact ihr _
        · simp only [if_true]
          exact splay_to_top_root _ _ _ _

theorem pull_loop_found_root (v : T) (t : Tree T) (path : List (Entry T))
    (h : (insert_pull_loop c v false t path).1 = true) :
    ∃ l x r, (insert_pull_loop c v false t path).2 = .node l x r ∧
      c.cmp v x = 0 := by
  induction t generalizing path with
  | leaf =>
      exfalso
      rcases path with _ | ⟨⟨d, x, o⟩, rest⟩
      · simp [insert_pull_loop] at h
      · cases d <;> simp [insert_pull_loop] at h
  | node l x r ihl ihr =>
      simp only [insert_pull_loop] at h ⊢
      by_cases h1 : c.cmp v x < 0
      · simp only [if_pos h1] at h ⊢
        exact ihl _ h
      · simp only [if_neg h1] at h ⊢
        by_cases h2 : 0 < c.cmp v x
        · simp only [if_pos h2] at h ⊢
          exact ihr _ h
        · simp only [if_neg h2]
          rcases splay_to_top_root path l x r with ⟨l', r', heq⟩
          exact ⟨l', x, r', by simpa using heq, by omega⟩

theorem pull_loop_notfound_root (v : T) (t : Tree T) (path : List (Entry T))
    (hp : ∀ e ∈ path, c.cmp v e.value ≠ 0)
    (h : (insert_pull_loop c v false t path).1 = false) :
    (insert_pull_loop c v false t path).2 = .leaf ∨
      ∃ l x r, (insert_pull_loop c v false t path).2 = .node l x r ∧
        c.cmp v x ≠ 0 := by
  induction t generalizing path with
  | leaf =>
      rcases path with _ | ⟨⟨d, x, o⟩, rest⟩
      · left
        simp [insert_pull_loop]
      · right
        have hx : c.cmp v x ≠ 0 := hp ⟨d, x, o⟩ (List.mem_cons_self _ _)
        cases d
        · rcases splay_to_top_root rest (Tree.leaf) x o with ⟨l', r', heq⟩
          exact ⟨l', x, r', by simpa [insert_pull_loop] using heq, hx⟩
        · rcases splay_to_top_root rest o x (Tree.leaf) with ⟨l', r', heq⟩
          exact ⟨l', x, r', by simpa [insert_pull_loop] using heq, hx⟩
  | node l x r ihl ihr =>
      simp only [insert_pull_loop] at h ⊢
      by_cases h1 : c.cmp v x < 0
      · simp only [if_pos h1] at h ⊢
        refine ihl _ ?_ h
        intro e he
        rcases List.mem_cons.1 he with rfl | he
        · simp
          omega
        · exact hp e he
      · simp only [if_neg h1] at h ⊢
        by_cases h2 : 0 < c.cmp v x
        · simp only [if_pos h2] at h ⊢
          refine ihr _ ?_ h
          intro e he
          rcases List.mem_cons.1 he with rfl | he
          · simp
            omega
          · exact hp e he
        · simp only [if_neg h2] at h
          simp at h

theorem allTree_iff_forall (p : T → Prop) (t : Tree T) :
    allTree p t ↔ ∀ x ∈ toList t, p x := by
  induction t with
  | leaf => simp [allTree, toList]
  | node l v r ihl ihr =>
      simp only [allTree, toList, List.mem_append, List.mem_cons, ihl, ihr]
      constructor
      · rintro ⟨h1, h2, h3⟩ x hx
        rcases hx with hx | rfl | hx
        · exact h1 x hx
        · exact h2
        · exact h3 x hx
      · intro h
        exact ⟨fun x hx => h x (Or.inl hx), h v (Or.inr (Or.inl rfl)),
          fun x hx => h x (Or.inr (Or.inr hx))⟩

/-- The in-order relation of comparing strictly below. -/
def cmpLt (c : Cmp T) (a b : T) : Prop := c.cmp a b < 0

/-- The strong BST invariant is exactly strict sortedness of the in-order
element sequence. -/
theorem bst_iff_pairwise (t : Tree T) :
    BST c t ↔ (toList t).Pairwise (cmpLt c) := by
  induction t with
  | leaf => simp [BST, toList]
  | node l v r ihl ihr =>
      rw [toList, List.pairwise_append, List.pairwise_cons]
      simp only [BST]
      constructor
      · rintro ⟨hl, hr, hal, har⟩
        rw [allTree_iff_forall] at hal har
        refine ⟨ihl.1 hl, ⟨fun b hb => har b hb, ihr.1 hr⟩, ?_⟩
        intro a ha b hb
        rcases List.mem_cons.1 hb with rfl | hb
        · exact hal a ha
        · exact c.lt_trans _ _ _ (hal a ha) (har b hb)
      · rintro ⟨hpl, ⟨hvr, hpr⟩, hcross⟩
        refine ⟨ihl.2 hpl, ihr.2 hpr, ?_, ?_⟩
        · rw [allTree_iff_forall]
          intro a ha
          exact hcross a ha v (List.mem_cons_self _ _)
        · rw [allTree_iff_forall]
          intro b hb
          exact hvr b hb

theorem dfound_eq_contains (v : T) (t : Tree T) :
    dfound c v t = contains c v t := by
  induction t with
  | leaf => simp [dfound, contains, find]
  | node l x r ihl ihr =>
      simp only [dfound, contains, find] at *
      split
      · exact ihl
      · split
        · exact ihr
        · simp

theorem find_eq_some_spec (v w : T) (t : Tree T) (h : find c v t = some w) :
    c.cmp v w = 0 ∧ w ∈ toList t := by
  induction t with
  | leaf => simp [find] at h
  | node l x r ihl ihr =>
      simp only [find] at h
      split at h
      · rcases ihl h with ⟨h1, h2⟩
        exact ⟨h1, by simp [toList, h2]⟩
      · split at h
        · rcases ihr h with ⟨h1, h2⟩
          exact ⟨h1, by simp [toList, h2]⟩
        · rename_i h1 h2
          cases h
          exact ⟨by omega, by simp [toList]⟩

theorem find_eq_none_spec (v : T) (t : Tree T) (hbst : BST c t)
    (h : find c v t = none) : ∀ w ∈ toList t, c.cmp v w ≠ 0 := by
  induction t with
  | leaf => simp [toList]
  | node l x r ihl ihr =>
      obtain ⟨hl, hr, hal, har⟩ := hbst
      rw [allTree_iff_forall] at hal har
      simp only [find] at h
      intro w hw
      rcases List.mem_append.1 hw with hw | hw'
      all_goals try rcases List.mem_cons.1 (by exact hw') with rfl | hw
      · -- w ∈ toList l
        split at h
        · exact ihl hl h w hw
        · split at h
          · rename_i h1 h2
            have hxv : c.cmp x v < 0 := (c.asymm x v).2 h2
            have hwx : c.cmp w x < 0 := hal w hw
            have : c.cmp w v < 0 := c.lt_trans _ _ _ hwx hxv
            have := (c.asymm w v).1 this
            omega
          · simp at h
      · -- w = x
        split at h
        · omega
        · split at h
          · omega
          · simp at h
      · -- w ∈ toList r
        split at h
        · rename_i h1
          have hxw : c.cmp x w < 0 := har w hw
          have : c.cmp v w < 0 := c.lt_trans _ _ _ h1 hxw
          omega
        · split at h
          · exact ihr hr h w hw
          · simp at h

theorem contains_iff_mem (v : T) (t : Tree T) (hbst : BST c t) :
    contains c v t = true ↔ ∃ w ∈ toList t, c.cmp v w = 0 := by
  constructor
  · intro h
    rw [contains, Option.isSome_iff_exists] at h
    rcases h with ⟨w, hw⟩
    rcases find_eq_some_spec c v w t hw with ⟨h1, h2⟩
    exact ⟨w, h2, h1⟩
  · rintro ⟨w, hw, hvw⟩
    by_contra hc
    have : find c v t = none := by
      rw [contains] at hc
      cases hf : find c v t
      · rfl
      · rw [hf] at hc
        simp at hc
    exact find_eq_none_spec c v t hbst this w hw hvw

theorem listInsert_append_lt (v x : T) (A B : List T) (h : c.cmp v x < 0) :
    listInsert c v (A ++ x :: B) = listInsert c v A ++ x :: B := by
  induction A with
  | nil => simp [listInsert, h]
  | cons a A ih =>
      by_cases h1 : c.cmp v a < 0
      · simp [listInsert, h1]
      · by_cases h2 : 0 < c.cmp v a
        · simp [listInsert, h1, h2, ih]
        · simp [listInsert, h1, h2]

theorem listInsert_append_gt (v x : T) (A B : List T)
    (hA : ∀ a ∈ A, 0 < c.cmp v a) (h : 0 < c.cmp v x) :
    listInsert c v (A ++ x :: B) = A ++ x :: listInsert c v B := by
  induction A with
  | nil =>
      simp only [List.nil_append, listInsert,
        if_neg (by omega : ¬c.cmp v x < 0), if_pos h]
  | cons a A ih =>
      have ha : 0 < c.cmp v a := hA a (List.mem_cons_self _ _)
      simp only [List.cons_append, listInsert, List.append_eq,
        if_neg (by omega : ¬c.cmp v a < 0), if_pos ha]
      rw [ih (fun b hb => hA b (List.mem_cons_of_mem _ hb))]

theorem listInsert_append_eq (v x : T) (A B : List T)
    (hA : ∀ a ∈ A, 0 < c.cmp v a) (h : c.cmp v x = 0) :
    listInsert c v (A ++ x :: B) = A ++ v :: B := by
  induction A with
  | nil =>
      simp only [List.nil_append, listInsert,
        if_neg (by omega : ¬c.cmp v x < 0), if_neg (by omega : ¬0 < c.cmp v x)]
  | cons a A ih =>
      have ha : 0 < c.cmp v a := hA a (List.mem_cons_self _ _)
      simp only [List.cons_append, listInsert, List.append_eq,
        if_neg (by omega : ¬c.cmp v a < 0), if_pos ha]
      rw [ih (fun b hb => hA b (List.mem_cons_of_mem _ hb))]

theorem toList_bstInsert (v : T) (t : Tree T) (hbst : BST c t) :
    toList (bstInsert c v t) = listInsert c v (toList t) := by
  induction t with
  | leaf => simp [bstInsert, toList, listInsert]
  | node l x r ihl ihr =>
      obtain ⟨hl, hr, hal, har⟩ := hbst
      rw [allTree_iff_forall] at hal har
      by_cases h1 : c.cmp v x < 0
      · simp only [bstInsert, if_pos h1, toList]
        rw [ihl hl, listInsert_append_lt c v x _ _ h1]
      · by_cases h2 : 0 < c.cmp v x
        · simp only [bstInsert, if_neg h1, if_pos h2, toList]
          rw [ihr hr, listInsert_append_gt c v x _ _ ?_ h2]
          intro a ha
          have hax : c.cmp a x < 0 := hal a ha
          have hxv : c.cmp x v < 0 := (c.asymm x v).2 h2
          have : c.cmp a v < 0 := c.lt_trans _ _ _ hax hxv
          exact (c.asymm a v).1 this
        · have h0 : c.cmp v x = 0 := by omega
          simp only [bstInsert, if_neg h1, if_neg h2, toList]
          rw [listInsert_append_eq c v x _ _ ?_ h0]
          intro a ha
          have hax : c.cmp a x < 0 := hal a ha
          have hav : c.cmp a v < 0 := (c.lt_congr_right h0 a).2 hax
          exact (c.asymm a v).1 hav

theorem mem_listInsert (v a : T) (L : List T) (h : a ∈ listInsert c v L) :
    a = v ∨ a ∈ L := by
  induction L with
  | nil => simpa [listInsert] using h
  | cons x xs ih =>
      simp only [listInsert] at h
      split at h
      · rcases List.mem_cons.1 h with rfl | h
        · exact Or.inl rfl
        · exact Or.inr h
      · split at h
        · rcases List.mem_cons.1 h with rfl | h
          · simp
          · rcases ih h with rfl | h
            · exact Or.inl rfl
            · simp [h]
        · rcases List.mem_cons.1 h with rfl | h
          · exact Or.inl rfl
          · simp [h]

theorem pairwise_listInsert (v : T) (L : List T)
    (h : L.Pairwise (cmpLt c)) :
    (listInsert c v L).Pairwise (cmpLt c) := by
  induction L with
  | nil => simp [listInsert, List.pairwise_cons, cmpLt]
  | cons x xs ih =>
      rcases List.pairwise_cons.1 h with ⟨hx, hxs⟩
      by_cases h1 : c.cmp v x < 0
      · simp only [listInsert, if_pos h1]
        rw [List.pairwise_cons]
        refine ⟨?_, h⟩
        intro b hb
        rcases List.mem_cons.1 hb with rfl | hb
        · exact h1
        · exact c.lt_trans _ _ _ h1 (hx b hb)
      · by_cases h2 : 0 < c.cmp v x
        · simp only [listInsert, if_neg h1, if_pos h2]
          rw [List.pairwise_cons]
          refine ⟨?_, ih hxs⟩
          intro b hb
          rcases mem_listInsert c v b xs hb with rfl | hb
          · exact (c.asymm x b).2 h2
          · exact hx b hb
        · have h0 : c.cmp v x = 0 := by omega
          simp only [listInsert, if_neg h1, if_neg h2]
          rw [List.pairwise_cons]
          refine ⟨?_, hxs⟩
          intro b hb
          exact (c.lt_congr_left h0 b).2 (hx b hb)

theorem toList_insert (v : T) (t : Tree T) (hbst : BST c t) :
    toList (insert c v t) = listInsert c v (toList t) := by
  rw [insert, toList_insert_loop]
  show toList (bstInsert c v t) = _
  exact toList_bstInsert c v t hbst

theorem bst_insert (v : T) (t : Tree T) (hbst : BST c t) :
    BST c (insert c v t) := by
  rw [bst_iff_pairwise, toList_insert c v t hbst]
  exact pairwise_listInsert c v _ ((bst_iff_pairwise c t).1 hbst)

theorem rootVal_insert (v : T) (t : Tree T) :
    rootVal (insert c v t) = some v := by
  rcases insert_loop_root c v t [] with ⟨l, r, h⟩
  rw [insert, h, rootVal]

theorem toList_pull (v : T) (t : Tree T) :
    toList (pull c v t).2 = toList t := by
  rw [pull, toList_pull_loop]
  rfl

theorem pull_found_eq_contains (v : T) (t : Tree T) :
    (pull c v t).1 = contains c v t := by
  rw [pull, insert_pull_loop_found, dfound_eq_contains]

theorem bst_pull (v : T) (t : Tree T) (hbst : BST c t) :
    BST c (pull c v t).2 := by
  rw [bst_iff_pairwise, toList_pull]
  exact (bst_iff_pairwise c t).1 hbst

theorem pull_found_root (v : T) (t : Tree T)
    (h : (pull c v t).1 = true) :
    ∃ l x r, (pull c v t).2 = .node l x r ∧ c.cmp v x = 0 :=
  pull_loop_found_root c v t [] h

theorem pull_notfound_root (v : T) (t : Tree T)
    (h : (pull c v t).1 = false) :
    (pull c v t).2 = .leaf ∨
      ∃ l x r, (pull c v t).2 = .node l x r ∧ c.cmp v x ≠ 0 :=
  pull_loop_notfound_root c v t [] (by simp) h

theorem toList_pull_max_loop (t : Tree T) (path : List (Entry T))
    (h : t ≠ .leaf) :
    toList (pull_max_loop t path) = toList (plug path t) := by
  induction t, path using pull_max_loop.induct with
  | case1 path => exact absurd rfl h
  | case2 l x path => simp [pull_max_loop, toList_splay_to_top]
  | case3 l x rl rv rr path ih =>
      rw [pull_max_loop, ih (by simp)]
      simp [plug, Entry.reattach]

theorem pull_max_loop_shape (t : Tree T) (path : List (Entry T))
    (h : t ≠ .leaf) (hpath : ∀ e ∈ path, e.m_right = true) :
    ∃ l' m, pull_max_loop t path = .node l' m .leaf := by
  induction t, path using pull_max_loop.induct with
  | case1 path => exact absurd rfl h
  | case2 l x path =>
      rw [pull_max_loop]
      rcases splay_to_top_right_of_true path l x .leaf hpath with ⟨l', heq⟩
      exact ⟨l', x, heq⟩
  | case3 l x rl rv rr path ih =>
      rw [pull_max_loop]
      refine ih (by simp) ?_
      intro e he
      rcases List.mem_cons.1 he with rfl | he
      · rfl
      · exact hpath e he

theorem pull_max_spec (t : Tree T) (h : t ≠ .leaf) :
    ∃ l' m, pull_max t = .node l' m .leaf ∧ toList t = toList l' ++ [m] := by
  cases t with
  | leaf => exact absurd rfl h
  | node l x r =>
      rcases pull_max_loop_shape (Tree.node l x r) []
          (by simp) (by simp) with ⟨l', m, heq⟩
      refine ⟨l', m, by rw [pull_max, heq], ?_⟩
      have hc := toList_pull_max_loop (Tree.node l x r) [] (by simp)
      rw [heq] at hc
      simp only [plug] at hc
      rw [← hc]
      simp [toList]

theorem toList_join (l r : Tree T) :
    toList (join l r) = toList l ++ toList r := by
  cases l with
  | leaf => simp [join, toList]
  | node ll lx lr =>
      cases r with
      | leaf => simp [join, toList]
      | node rl rx rr =>
          rcases pull_max_spec (Tree.node ll lx lr) (by simp) with
            ⟨l', m, heq, hlist⟩
          rw [join]
          case x_2 => simp
          case x_3 => simp
          rw [heq, toList, hlist]
          simp

theorem to_buffer_eq (t : Tree T) (acc : List T) :
    to_buffer t acc = acc ++ toList t := by
  induction t generalizing acc with
  | leaf => simp [to_buffer, toList]
  | node l v r ihl ihr =>
      rw [to_buffer, ihr, ihl, toList]
      simp

theorem check_invariant_of_bst (t : Tree T) (hbst : BST c t) :
    check_invariant c t = true := by
  induction t with
  | leaf => rfl
  | node l x r ihl ihr =>
      obtain ⟨hl, hr, hal, har⟩ := hbst
      have h1 := ihl hl
      have h2 := ihr hr
      cases l with
      | leaf =>
          cases r with
          | leaf => simp_all [check_invariant]
          | node a2 b2 d2 =>
              obtain ⟨-, hb2, -⟩ := har
              simp_all [check_invariant]
      | node a b d =>
          obtain ⟨-, hb, -⟩ := hal
          cases r with
          | leaf => simp_all [check_invariant]
          | node a2 b2 d2 =>
              obtain ⟨-, hb2, -⟩ := har
              simp_all [check_invariant]

theorem erase_spec (v : T) (t : Tree T) (hbst : BST c t) :
    BST c (erase c v t) ∧
      toList (erase c v t) =
        (toList t).filter (fun y => decide (c.cmp v y ≠ 0)) := by
  rcases hp : pull c v t with ⟨found, t'⟩
  have hcontent : toList t' = toList t := by
    have := toList_pull c v t
    rw [hp] at this
    exact this
  cases found
  · -- not found: the tree is only restructured
    have herase : erase c v t = t' := by rw [erase, hp]
    have hcont : contains c v t = false := by
      have := pull_found_eq_contains c v t
      rw [hp] at this
      exact this.symm
    have hnone : ∀ w ∈ toList t, c.cmp v w ≠ 0 := by
      intro w hw hvw
      have := (contains_iff_mem c v t hbst).2 ⟨w, hw, hvw⟩
      rw [hcont] at this
      exact Bool.false_ne_true this
    have hfilter : (toList t).filter (fun y => decide (c.cmp v y ≠ 0)) =
        toList t := by
      rw [List.filter_eq_self]
      intro a ha
      simpa using hnone a ha
    refine ⟨?_, by rw [herase, hcontent, hfilter]⟩
    rw [bst_iff_pairwise, herase, hcontent]
    exact (bst_iff_pairwise c t).1 hbst
  · -- found: the root carries the equal element, remove it by joining
    rcases pull_found_root c v t (by rw [hp]) with ⟨l, x, r, heq, hvx⟩
    rw [hp] at heq
    subst heq
    have herase : erase c v t = join l r := by rw [erase, hp]
    have hpw : (toList l ++ x :: toList r).Pairwise (cmpLt c) := by
      have := (bst_iff_pairwise c t).1 hbst
      rw [← hcontent] at this
      simpa [toList] using this
    have hbst2 : BST c (Tree.node l x r) := by
      rw [bst_iff_pairwise]
      simpa [toList] using hpw
    obtain ⟨hl, hr, hal, har⟩ := hbst2
    rw [allTree_iff_forall] at hal har
    have hlne : ∀ y ∈ toList l, c.cmp v y ≠ 0 := by
      intro y hy
      have h1 : c.cmp y v < 0 := (c.lt_congr_right hvx y).2 (hal y hy)
      have := (c.asymm y v).1 h1
      omega
    have hrne : ∀ y ∈ toList r, c.cmp v y ≠ 0 := by
      intro y hy
      have h1 : c.cmp v y < 0 := (c.lt_congr_left hvx y).2 (har y hy)
      omega
    have hfilter : (toList t).filter (fun y => decide (c.cmp v y ≠ 0)) =
        toList l ++ toList r := by
      rw [← hcontent]
      simp only [toList, List.filter_append, List.filter_cons]
      rw [List.filter_eq_self.2 (fun a ha => by simpa using hlne a ha),
        List.filter_eq_self.2 (fun a ha => by simpa using hrne a ha)]
      simp [hvx]
    have hsub : List.Sublist (toList l ++ toList r) (toList l ++ x :: toList r) :=
      List.Sublist.append_left (List.sublist_cons_self x (toList r)) (toList l)
    refine ⟨?_, by rw [herase, toList_join, hfilter]⟩
    rw [bst_iff_pairwise, herase, toList_join]
    exact hpw.sublist hsub

theorem toList_find_memoize (v : T) (t : Tree T) :
    toList (find_memoize c v t).2 = toList t := by
  rcases hp : pull c v t with ⟨found, t'⟩
  have hcontent : toList t' = toList t := by
    have := toList_pull c v t
    rw [hp] at this
    exact this
  cases found <;> simp [find_memoize, hp, hcontent]

theorem find_memoize_some_iff (v : T) (t : Tree T) (w : T) :
    (find_memoize c v t).1 = some w ↔
      rootVal (find_memoize c v t).2 = some w ∧ c.cmp v w = 0 := by
  rcases hp : pull c v t with ⟨found, t'⟩
  cases found
  · simp only [find_memoize, hp]
    constructor
    · intro h
      cases h
    · rintro ⟨hroot, hvw⟩
      exfalso
      rcases pull_notfound_root c v t (by rw [hp]) with hleaf | ⟨l, x, r, heq, hne⟩
      · rw [hp] at hleaf
        subst hleaf
        cases hroot
      · rw [hp] at heq
        subst heq
        rw [rootVal] at hroot
        cases hroot
        exact hne hvw
  · rcases pull_found_root c v t (by rw [hp]) with ⟨l, x, r, heq, hvx⟩
    rw [hp] at heq
    subst heq
    simp only [find_memoize, hp, rootVal]
    constructor
    · intro h
      cases h
      exact ⟨rfl, hvx⟩
    · rintro ⟨h, -⟩
      exact h

theorem find_visits_root_eq (v : T) (l : Tree T) (x : T) (r : Tree T)
    (h : c.cmp v x = 0) : find_visits c v (.node l x r) = 1 := by
  rw [find_visits]
  simp [h]

theorem listInsert_idem (v : T) (L : List T) :
    listInsert c v (listInsert c v L) = listInsert c v L := by
  have h0 : c.cmp v v = 0 := c.cmp_self v
  induction L with
  | nil =>
      simp only [listInsert, if_neg (by omega : ¬c.cmp v v < 0),
        if_neg (by omega : ¬0 < c.cmp v v)]
  | cons x xs ih =>
      by_cases h1 : c.cmp v x < 0
      · simp only [listInsert, if_pos h1, if_neg (by omega : ¬c.cmp v v < 0),
          if_neg (by omega : ¬0 < c.cmp v v)]
      · by_cases h2 : 0 < c.cmp v x
        · simp only [listInsert, if_neg h1, if_pos h2, ih]
        · simp only [listInsert, if_neg h1, if_neg h2,
            if_neg (by omega : ¬c.cmp v v < 0),
            if_neg (by omega : ¬0 < c.cmp v v)]

theorem listInsert_comm_of_lt (u v : T) (huv : c.cmp u v < 0) (L : List T) :
    listInsert c u (listInsert c v L) = listInsert c v (listInsert c u L) := by
  have hvu : 0 < c.cmp v u := (c.asymm u v).1 huv
  induction L with
  | nil =>
      simp only [listInsert, if_pos huv, if_neg (by omega : ¬c.cmp v u < 0),
        if_pos hvu]
  | cons x xs ih =>
      by_cases hvx1 : c.cmp v x < 0
      · have hux : c.cmp u x < 0 := c.lt_trans _ _ _ huv hvx1
        simp only [listInsert, if_pos hvx1, if_pos hux, if_pos huv,
          if_neg (by omega : ¬c.cmp v u < 0), if_pos hvu]
      · by_cases hvx2 : 0 < c.cmp v x
        · by_cases hux1 : c.cmp u x < 0
          · simp only [listInsert, if_neg hvx1, if_pos hvx2, if_pos hux1,
              if_neg (by omega : ¬c.cmp v u < 0), if_pos hvu]
          · by_cases hux2 : 0 < c.cmp u x
            · simp only [listInsert, if_neg hvx1, if_pos hvx2, if_neg hux1,
                if_pos hux2, ih]
            · have hux0 : c.cmp u x = 0 := by omega
              simp only [listInsert, if_neg hvx1, if_pos hvx2, if_neg hux1,
                if_neg hux2, if_neg (by omega : ¬c.cmp v u < 0), if_pos hvu]
        · have hvx0 : c.cmp v x = 0 := by omega
          have hux : c.cmp u x < 0 := (c.lt_congr_right hvx0 u).1 huv
          simp only [listInsert, if_neg hvx1, if_neg hvx2, if_pos hux,
            if_pos huv, if_neg (by omega : ¬c.cmp v u < 0), if_pos hvu]

theorem listInsert_comm (u v : T) (huv : c.cmp u v ≠ 0) (L : List T) :
    listInsert c u (listInsert c v L) = listInsert c v (listInsert c u L) := by
  rcases lt_trichotomy (c.cmp u v) 0 with h | h | h
  · exact listInsert_comm_of_lt c u v h L
  · exact absurd h huv
  · exact (listInsert_comm_of_lt c v u ((c.asymm v u).2 h) L).symm

theorem mem_listInsert_iff (v w : T) (L : List T)
    (hL : L.Pairwise (cmpLt c)) :
    w ∈ listInsert c v L ↔ w = v ∨ (w ∈ L ∧ c.cmp v w ≠ 0) := by
  induction L with
  | nil => simp [listInsert]
  | cons x xs ih =>
      rcases List.pairwise_cons.1 hL with ⟨hx, hxs⟩
      by_cases h1 : c.cmp v x < 0
      · simp only [listInsert, if_pos h1, List.mem_cons]
        constructor
        · rintro (rfl | rfl | hw)
          · exact Or.inl rfl
          · exact Or.inr ⟨Or.inl rfl, by omega⟩
          · have hxw : c.cmp x w < 0 := hx w hw
            have : c.cmp v w < 0 := c.lt_trans _ _ _ h1 hxw
            exact Or.inr ⟨Or.inr hw, by omega⟩
        · rintro (rfl | ⟨hw, -⟩)
          · exact Or.inl rfl
          · exact Or.inr hw
      · by_cases h2 : 0 < c.cmp v x
        · simp only [listInsert, if_neg h1, if_pos h2, List.mem_cons, ih hxs]
          have hvx : c.cmp v x ≠ 0 := by omega
          constructor
          · rintro (rfl | rfl | ⟨hw, hne⟩)
            · exact Or.inr ⟨Or.inl rfl, hvx⟩
            · exact Or.inl rfl
            · exact Or.inr ⟨Or.inr hw, hne⟩
          · rintro (rfl | ⟨rfl | hw, hne⟩)
            · exact Or.inr (Or.inl rfl)
            · exact Or.inl rfl
            · exact Or.inr (Or.inr ⟨hw, hne⟩)
        · have h0 : c.cmp v x = 0 := by omega
          simp only [listInsert, if_neg h1, if_neg h2, List.mem_cons]
          constructor
          · rintro (rfl | hw)
            · exact Or.inl rfl
            · have hxw : c.cmp x w < 0 := hx w hw
              have hvw : c.cmp v w < 0 := (c.lt_congr_left h0 w).2 hxw
              exact Or.inr ⟨Or.inr hw, by omega⟩
          · rintro (rfl | ⟨rfl | hw, hne⟩)
            · exact Or.inl rfl
            · exact absurd h0 hne
            · exact Or.inr hw

theorem pairwise_nodup (L : List T) (h : L.Pairwise (cmpLt c)) : L.Nodup := by
  refine h.imp ?_
  intro a b hab
  intro heq
  subst heq
  have := c.cmp_self a
  rw [cmpLt] at hab
  omega

theorem find_root_of_equiv (w v : T) (l r : Tree T) (h : c.cmp w v = 0) :
    find c w (.node l v r) = some v := by
  rw [find]
  rw [if_neg (by omega : ¬c.cmp w v < 0), if_neg (by omega : ¬0 < c.cmp w v)]

theorem insert_node (v : T) (t : Tree T) :
    ∃ l r, insert c v t = .node l v r := insert_loop_root c v t []

theorem contains_insert_self (v : T) (t : Tree T) :
    contains c v (insert c v t) = true := by
  rcases insert_node c v t with ⟨l, r, h⟩
  rw [contains, h, find_root_of_equiv c v v l r (c.cmp_self v)]
  rfl

theorem find_insert_equiv (v w : T) (t : Tree T) (h : c.cmp w v = 0) :
    find c w (insert c v t) = some v := by
  rcases insert_node c v t with ⟨l, r, heq⟩
  rw [heq, find_root_of_equiv c w v l r h]

theorem toList_erase_not_found (v : T) (t : Tree T)
    (h : contains c v t = false) : toList (erase c v t) = toList t := by
  rcases hp : pull c v t with ⟨found, t'⟩
  have hf : found = false := by
    have := pull_found_eq_contains c v t
    rw [hp, h] at this
    exact this
  subst hf
  rw [erase, hp]
  have := toList_pull c v t
  rw [hp] at this
  exact this

theorem contains_erase_self (v : T) (t : Tree T) (hbst : BST c t) :
    contains c v (erase c v t) = false := by
  rcases erase_spec c v t hbst with ⟨hbst2, hlist⟩
  cases hct : contains c v (erase c v t)
  · rfl
  · exfalso
    rcases (contains_iff_mem c v _ hbst2).1 hct with ⟨w, hw, h0⟩
    rw [hlist] at hw
    rcases List.mem_filter.1 hw with ⟨-, hpred⟩
    rw [decide_eq_true_iff] at hpred
    exact hpred h0

theorem bst_erase (v : T) (t : Tree T) (hbst : BST c t) :
    BST c (erase c v t) := (erase_spec c v t hbst).1

theorem bst_find_memoize (v : T) (t : Tree T) (hbst : BST c t) :
    BST c (find_memoize c v t).2 := by
  rw [bst_iff_pairwise, toList_find_memoize]
  exact (bst_iff_pairwise c t).1 hbst

end Lemmas

/-- The invariant package the spec requires after every operation: the strong
BST order, the assertions of `check_invariant`, and a strictly ascending,
duplicate-free `to_buffer` sequence. -/
def goodTree {T : Type} (c : Cmp T) (t : Tree T) : Prop :=
  BST c t ∧ check_invariant c t = true ∧
    (to_buffer t []).Pairwise (cmpLt c) ∧ (to_buffer t []).Nodup

theorem goodTree_of_bst {T : Type} (c : Cmp T) (t : Tree T) (h : BST c t) :
    goodTree c t := by
  have hpw : (to_buffer t []).Pairwise (cmpLt c) := by
    rw [to_buffer_eq, List.nil_append]
    exact (bst_iff_pairwise c t).1 h
  exact ⟨h, check_invariant_of_bst c t h, hpw, pairwise_nodup c _ hpw⟩

/-- The integer three-way comparator `cmp(a, b) = sign(a - b)` used in the
spec's end-to-end scenarios. -/
def intCmpFn (a b : Int) : Int :=
  if a < b then -1 else if b < a then 1 else 0

/-- `intCmpFn` packaged with its comparator contract. -/
def intCmp : Cmp Int where
  cmp := intCmpFn
  asymm := by
    intro x y
    unfold intCmpFn
    split <;> split <;> omega
  lt_trans := by
    intro x y z
    unfold intCmpFn
    split <;> split <;> split <;> omega
  eq_congr := by
    intro x y z h
    have hxy : x = y := by
      unfold intCmpFn at h
      split at h
      · omega
      · split at h <;> omega
    subst hxy
    rfl

/-- A key-payload comparator on pairs: only the first component (the key)
takes part in the comparison; the second is payload. -/
def pairCmpFn (a b : Int × Int) : Int :=
  if a.1 < b.1 then -1 else if b.1 < a.1 then 1 else 0

/-- `pairCmpFn` packaged with its comparator contract. -/
def pairCmp : Cmp (Int × Int) where
  cmp := pairCmpFn
  asymm := by
    intro x y
    unfold pairCmpFn
    split <;> split <;> omega
  lt_trans := by
    intro x y z
    unfold pairCmpFn
    split <;> split <;> split <;> omega
  eq_congr := by
    intro x y z h
    have hxy : x.1 = y.1 := by
      unfold pairCmpFn at h
      split at h
      · omega
      · split at h <;> omega
    unfold pairCmpFn
    rw [hxy]

/-- The two-element tree `{1, 2}` of scenario S5. -/
def tree12 : Tree Int := insert intCmp 2 (insert intCmp 1 .leaf)

/-- The one-element tree `{1}` of scenario S5. -/
def tree1 : Tree Int := insert intCmp 1 .leaf

theorem tree12_bst : BST intCmp tree12 :=
  bst_insert intCmp 2 _ (bst_insert intCmp 1 _ trivial)

theorem tree1_bst : BST intCmp tree1 :=
  bst_insert intCmp 1 _ trivial

/-- C1: the splay phase applies exactly six rewrite cases chosen by the
(parent-direction, grandparent-direction) pair, and each case transforms the
before-shape to the after-shape of the spec's tables: zig-zig left
`(g (p (n A B) C) D) => (n A (p B (g C D)))`, zig-zag L-R
`(g (p A (n B C)) D) => (n (p A B) (g C D))`, zig-zag R-L
`(g A (p (n B C) D)) => (n (g A B) (p C D))`, zig-zig right
`(g A (p B (n C D))) => (n (p (g A B) C) D)`, zig left
`(p (n A B) C) => (n A (p B C))`, zig right `(p A (n B C)) => (n (p A B) C)`.
Each subtree variable A..D occurs exactly once on each side: the references
are moved, not duplicated. -/
theorem claim_C1_splay_cases {T : Type} (A B C D : Tree T) (nv pv gv : T) :
    splay_to_top [⟨false, pv, C⟩, ⟨false, gv, D⟩] A nv B
        = .node A nv (.node B pv (.node C gv D)) ∧
    splay_to_top [⟨true, pv, A⟩, ⟨false, gv, D⟩] B nv C
        = .node (.node A pv B) nv (.node C gv D) ∧
    splay_to_top [⟨false, pv, D⟩, ⟨true, gv, A⟩] B nv C
        = .node (.node A gv B) nv (.node C pv D) ∧
    splay_to_top [⟨true, pv, B⟩, ⟨true, gv, A⟩] C nv D
        = .node (.node (.node A gv B) pv C) nv D ∧
    splay_to_top [⟨false, pv, C⟩] A nv B = .node A nv (.node B pv C) ∧
    splay_to_top [⟨true, pv, A⟩] B nv C = .node (.node A pv B) nv C :=
  ⟨rfl, rfl, rfl, rfl, rfl, rfl⟩

/-- C2: erase removes the element comparing equal to `v` when present
(`contains` afterwards is false, and the in-order contents are exactly the old
contents with the equal element filtered out); when no element compares equal,
the element sequence is unchanged.  Concretely, erasing 1 from `{1, 2}` yields
`{2}`, from `{1}` yields the empty set, and from the empty set yields the
empty set. -/
theorem claim_C2_erase :
    (∀ (T : Type) (c : Cmp T) (v : T) (t : Tree T), BST c t →
      contains c v (erase c v t) = false ∧
      toList (erase c v t)
        = (toList t).filter (fun y => decide (c.cmp v y ≠ 0)) ∧
      (contains c v t = false → toList (erase c v t) = toList t)) ∧
    toList (erase intCmp 1 tree12) = [2] ∧
    toList (erase intCmp 1 tree1) = [] ∧
    toList (erase intCmp (1 : Int) .leaf) = [] := by
  refine ⟨?_, by decide, by decide, by decide⟩
  intro T c v t hbst
  exact ⟨contains_erase_self c v t hbst, (erase_spec c v t hbst).2,
    fun h => toList_erase_not_found c v t h⟩

theorem claim_C2_erase_witness :
    contains intCmp 1 (erase intCmp 1 tree12) = false ∧
    toList (erase intCmp 1 tree12)
      = (toList tree12).filter (fun y => decide (intCmp.cmp 1 y ≠ 0)) ∧
    (contains intCmp 1 tree12 = false →
      toList (erase intCmp 1 tree12) = toList tree12) :=
  claim_C2_erase.1 Int intCmp 1 tree12 tree12_bst

/-- C3: when `erase(v)` finds `v`, the splayed tree decomposes as
`node l x r` with `x` comparing equal to `v`, and the result is the join of
`l` and `r`: the other side when one side is empty, and otherwise the maximum
of `l` is splayed to `l`'s root (`pull_max`), its right child is then empty,
and `r` is attached there.  Every element of `l` compares strictly below every
element of `r`, and the join satisfies the BST invariant. -/
theorem claim_C3_erase_join {T : Type} (c : Cmp T) (v : T) (t : Tree T)
    (hbst : BST c t) (hfound : (pull c v t).1 = true) :
    ∃ l x r, (pull c v t).2 = .node l x r ∧ c.cmp v x = 0 ∧
      erase c v t = join l r ∧
      (l = .leaf → erase c v t = r) ∧
      (r = .leaf → erase c v t = l) ∧
      (∀ a ∈ toList l, ∀ b ∈ toList r, c.cmp a b < 0) ∧
      (l ≠ .leaf → ∃ l2 m, pull_max l = .node l2 m .leaf ∧
        (∀ a ∈ toList l2, c.cmp a m < 0) ∧
        (r ≠ .leaf → erase c v t = .node l2 m r)) ∧
      BST c (erase c v t) := by
  rcases hp : pull c v t with ⟨found, t'⟩
  rcases pull_found_root c v t hfound with ⟨l, x, r, heq, hvx⟩
  rw [hp] at heq
  have hfound' : found = true := by rw [hp] at hfound; exact hfound
  subst hfound'
  subst heq
  have herase : erase c v t = join l r := by rw [erase, hp]
  have hbst2 : BST c (Tree.node l x r) := by
    have := bst_pull c v t hbst
    rw [hp] at this
    exact this
  obtain ⟨hl, hr, hal, har⟩ := hbst2
  rw [allTree_iff_forall] at hal har
  refine ⟨l, x, r, by simp [hp], hvx, herase, ?_, ?_, ?_, ?_, ?_⟩
  · rintro rfl
    rw [herase, join]
  · rintro rfl
    rw [herase]
    cases l <;> rfl
  · intro a ha b hb
    exact c.lt_trans _ _ _ (hal a ha) (har b hb)
  · intro hlne
    rcases pull_max_spec l hlne with ⟨l2, m, hshape, hlist⟩
    refine ⟨l2, m, hshape, ?_, ?_⟩
    · have hpw : (toList l).Pairwise (cmpLt c) := (bst_iff_pairwise c l).1 hl
      rw [hlist] at hpw
      intro a ha
      rcases List.pairwise_append.1 hpw with ⟨-, -, hcross⟩
      exact hcross a ha m (by simp)
    · intro hrne
      rw [herase]
      cases l with
      | leaf => exact absurd rfl hlne
      | node la lb lc =>
          cases r with
          | leaf => exact absurd rfl hrne
          | node ra rb rc =>
              rw [join]
              case x_2 => simp
              case x_3 => simp
              rw [hshape]
  · rw [herase]
    have := bst_erase c v t hbst
    rw [herase] at this
    exact this

theorem claim_C3_erase_join_witness :
    ∃ l x r, (pull intCmp 1 tree12).2 = .node l x r ∧ intCmp.cmp 1 x = 0 ∧
      erase intCmp 1 tree12 = join l r ∧
      (l = .leaf → erase intCmp 1 tree12 = r) ∧
      (r = .leaf → erase intCmp 1 tree12 = l) ∧
      (∀ a ∈ toList l, ∀ b ∈ toList r, intCmp.cmp a b < 0) ∧
      (l ≠ .leaf → ∃ l2 m, pull_max l = .node l2 m .leaf ∧
        (∀ a ∈ toList l2, intCmp.cmp a m < 0) ∧
        (r ≠ .leaf → erase intCmp 1 tree12 = .node l2 m r)) ∧
      BST intCmp (erase intCmp 1 tree12) :=
  claim_C3_erase_join intCmp 1 tree12 tree12_bst (by decide)

/-- C4: `insert(v)` has overwrite-on-equal semantics: afterwards `v` is at the
root (the splay target was the fresh leaf or the overwritten node), `contains`
holds, any key comparing equal to `v` finds exactly the newly stored value,
and the element sequence is the old one with `v` added and any element
comparing equal to `v` replaced.  With a comparator that compares only a key
field, inserting a second value with an equal key replaces the stored payload,
as `find` reads back. -/
theorem claim_C4_insert :
    (∀ (T : Type) (c : Cmp T) (v : T) (t : Tree T),
      rootVal (insert c v t) = some v ∧
      contains c v (insert c v t) = true ∧
      (∀ w, c.cmp w v = 0 → find c w (insert c v t) = some v) ∧
      (BST c t → ∀ w, w ∈ toList (insert c v t) ↔
        w = v ∨ (w ∈ toList t ∧ c.cmp v w ≠ 0))) ∧
    find pairCmp (1, 99)
      (insert pairCmp (1, 20) (insert pairCmp (1, 10) .leaf))
      = some (1, 20) := by
  refine ⟨?_, by decide⟩
  intro T c v t
  refine ⟨rootVal_insert c v t, contains_insert_self c v t,
    fun w hw => find_insert_equiv c v w t hw, ?_⟩
  intro hbst w
  rw [toList_insert c v t hbst]
  exact mem_listInsert_iff c v w (toList t) ((bst_iff_pairwise c t).1 hbst)

theorem claim_C4_insert_witness :
    find intCmp 5 (insert intCmp 5 tree12) = some 5 ∧
    (5 ∈ toList (insert intCmp 5 tree12) ↔
      (5 : Int) = 5 ∨ (5 ∈ toList tree12 ∧ intCmp.cmp 5 5 ≠ 0)) :=
  ⟨(claim_C4_insert.1 Int intCmp 5 tree12).2.2.1 5 (intCmp.cmp_self 5),
    (claim_C4_insert.1 Int intCmp 5 tree12).2.2.2 tree12_bst 5⟩

/-- C5: `find_memoize(v)` returns the value at the new root iff that root
compares equal to `v`; consequently, after a present result the root compares
equal to `v`, so a subsequent `find(v)` examines exactly one node (the root)
and succeeds there. -/
theorem claim_C5_find_memoize {T : Type} (c : Cmp T) (v : T) (t : Tree T)
    (w : T) :
    ((find_memoize c v t).1 = some w ↔
      rootVal (find_memoize c v t).2 = some w ∧ c.cmp v w = 0) ∧
    ((find_memoize c v t).1 = some w →
      find_visits c v (find_memoize c v t).2 = 1 ∧
      find c v (find_memoize c v t).2 = some w) := by
  refine ⟨find_memoize_some_iff c v t w, ?_⟩
  intro h
  rcases (find_memoize_some_iff c v t w).1 h with ⟨hroot, hvw⟩
  cases ht : (find_memoize c v t).2 with
  | leaf =>
      rw [ht] at hroot
      cases hroot
  | node l x r =>
      rw [ht] at hroot
      rw [rootVal] at hroot
      cases hroot
      exact ⟨find_visits_root_eq c v l w r hvw,
        find_root_of_equiv c v w l r hvw⟩

theorem claim_C5_find_memoize_witness :
    find_visits intCmp 2 (find_memoize intCmp 2 tree12).2 = 1 ∧
    find intCmp 2 (find_memoize intCmp 2 tree12).2 = some 2 :=
  (claim_C5_find_memoize intCmp 2 tree12 2).2 (by decide)

/-- C6: after every operation (insert, erase, find_memoize, and the trivially
content-preserving find/copy/clear/swap), the BST-order invariant holds — both
the strong form and the per-node assertions of `check_invariant` — and
`to_buffer` yields the elements in strictly ascending order with no
duplicates. -/
theorem claim_C6_invariant {T : Type} (c : Cmp T) (v : T) (t u : Tree T)
    (hbst : BST c t) (hbstu : BST c u) :
    goodTree c (insert c v t) ∧
    goodTree c (erase c v t) ∧
    goodTree c (find_memoize c v t).2 ∧
    goodTree c (copy t) ∧
    goodTree c (clear t) ∧
    goodTree c (swap t u).1 ∧
    goodTree c (swap t u).2 :=
  ⟨goodTree_of_bst c _ (bst_insert c v t hbst),
    goodTree_of_bst c _ (bst_erase c v t hbst),
    goodTree_of_bst c _ (bst_find_memoize c v t hbst),
    goodTree_of_bst c _ hbst,
    goodTree_of_bst c _ trivial,
    goodTree_of_bst c _ hbstu,
    goodTree_of_bst c _ hbst⟩

theorem claim_C6_invariant_witness :
    goodTree intCmp (insert intCmp 5 tree12) ∧
    goodTree intCmp (erase intCmp 5 tree12) ∧
    goodTree intCmp (find_memoize intCmp 5 tree12).2 ∧
    goodTree intCmp (copy tree12) ∧
    goodTree intCmp (clear tree12) ∧
    goodTree intCmp (swap tree12 tree1).1 ∧
    goodTree intCmp (swap tree12 tree1).2 :=
  claim_C6_invariant intCmp 5 tree12 tree1 tree12_bst tree1_bst

/-- C9: `find_memoize(v)` never changes the element sequence of the handle;
when it returns a present value, that value now sits at the root and compares
equal to `v`; on the empty tree it returns absent and the tree stays empty. -/
theorem claim_C9_find_memoize_frame {T : Type} (c : Cmp T) (v : T)
    (t : Tree T) :
    toList (find_memoize c v t).2 = toList t ∧
    (∀ w, (find_memoize c v t).1 = some w →
      rootVal (find_memoize c v t).2 = some w ∧ c.cmp v w = 0) ∧
    (t = .leaf → (find_memoize c v t).1 = none ∧
      (find_memoize c v t).2 = .leaf) := by
  refine ⟨toList_find_memoize c v t, ?_, ?_⟩
  · intro w h
    exact (find_memoize_some_iff c v t w).1 h
  · rintro rfl
    exact ⟨rfl, rfl⟩

theorem claim_C9_find_memoize_frame_witness :
    (rootVal (find_memoize intCmp 1 tree12).2 = some 1 ∧
      intCmp.cmp 1 1 = 0) ∧
    ((find_memoize intCmp 1 (.leaf : Tree Int)).1 = none ∧
      (find_memoize intCmp 1 (.leaf : Tree Int)).2 = .leaf) :=
  ⟨(claim_C9_find_memoize_frame intCmp 1 tree12).2.1 1 (by decide),
    (claim_C9_find_memoize_frame intCmp 1 (.leaf : Tree Int)).2.2 rfl⟩

/-- C10: insert and erase are idempotent on the element sequence, and inserts
of keys comparing unequal commute on the element sequence. -/
theorem claim_C10_algebra {T : Type} (c : Cmp T) (u v : T) (t : Tree T)
    (hbst : BST c t) :
    toList (insert c v (insert c v t)) = toList (insert c v t) ∧
    toList (erase c v (erase c v t)) = toList (erase c v t) ∧
    (c.cmp u v ≠ 0 →
      toList (insert c v (insert c u t))
        = toList (insert c u (insert c v t))) := by
  refine ⟨?_, ?_, ?_⟩
  · rw [toList_insert c v (insert c v t) (bst_insert c v t hbst),
      toList_insert c v t hbst, listInsert_idem]
  · exact toList_erase_not_found c v (erase c v t)
      (contains_erase_self c v t hbst)
  · intro huv
    rw [toList_insert c v (insert c u t) (bst_insert c u t hbst),
      toList_insert c u t hbst,
      toList_insert c u (insert c v t) (bst_insert c v t hbst),
      toList_insert c v t hbst]
    refine listInsert_comm c v u ?_ (toList t)
    intro h
    exact huv (c.eq_symm h)

theorem claim_C10_algebra_witness :
    toList (insert intCmp 2 (insert intCmp 2 tree12))
      = toList (insert intCmp 2 tree12) ∧
    toList (erase intCmp 2 (erase intCmp 2 tree12))
      = toList (erase intCmp 2 tree12) ∧
    toList (insert intCmp 2 (insert intCmp 1 tree12))
      = toList (insert intCmp 1 (insert intCmp 2 tree12)) :=
  ⟨(claim_C10_algebra intCmp 1 2 tree12 tree12_bst).1,
   (claim_C10_algebra intCmp 1 2 tree12 tree12_bst).2.1,
   (claim_C10_algebra intCmp 1 2 tree12 tree12_bst).2.2 (by decide)⟩

/-!
## Pointer-heap model

The functional embedding above cannot speak about reference counts or
aliasing between handles, so the path-copy-on-write discipline is modelled
again at the pointer level: a heap of reference-counted nodes, handle root
slots, and the operations of `splay_tree` as heap transformers that mirror the
C++ statement by statement (cloning shared nodes during descent, re-linking
parents, in-place child rewrites during splay, recursive release).
-/

namespace HeapModel

/-- An allocated node: child pointers, payload, reference count (`m_rc`). -/
structure HNode (T : Type) where
  left : Option Nat
  right : Option Nat
  value : T
  rc : Nat
deriving Repr, DecidableEq

/-- The node store: a partial map from addresses to nodes, with an explicit
finite domain list and a counter yielding fresh addresses. -/
structure Heap (T : Type) where
  dom : List Nat
  f : Nat → Option (HNode T)
  next : Nat

variable {T : Type}

/-- Dereference an address. -/
def lookupH (H : Heap T) (a : Nat) : Option (HNode T) := H.f a

/-- Overwrite the node stored at `a`. -/
def writeH (H : Heap T) (a : Nat) (n : HNode T) : Heap T :=
  ⟨H.dom, Function.update H.f a (some n), H.next⟩

/-- `new node(...)`: allocate at a fresh address. -/
def allocH (H : Heap T) (n : HNode T) : Heap T × Nat :=
  (⟨H.next :: H.dom, Function.update H.f H.next (some n), H.next + 1⟩, H.next)

/-- `delete`: deallocate. -/
def removeH (H : Heap T) (a : Nat) : Heap T :=
  ⟨H.dom.filter (fun b => b != a), Function.update H.f a none, H.next⟩

/-- How many of `n`'s two child slots point at `a`. -/
def slotCount (n : HNode T) (a : Nat) : Nat :=
  (if n.left = some a then 1 else 0) + (if n.right = some a then 1 else 0)

/-- `slotCount` lifted to a possibly-absent node. -/
def slotCountO (o : Option (HNode T)) (a : Nat) : Nat :=
  match o with
  | some n => slotCount n a
  | none => 0

theorem slotCountO_some (n : HNode T) (x : Nat) :
    slotCountO (some n) x = slotCount n x := rfl

theorem slotCountO_none (x : Nat) : slotCountO (none : Option (HNode T)) x = 0 := rfl

/-- Number of child slots of allocated nodes pointing at `x`. -/
def incomingN (H : Heap T) (x : Nat) : Nat :=
  (H.dom.map (fun a => slotCountO (H.f a) x)).sum

/-- Number of handle root slots pointing at `x`. -/
def rootCount (roots : List (Option Nat)) (x : Nat) : Nat :=
  roots.countP (fun r => decide (r = some x))

/-- Total number of references to `x`: parent child slots plus handle root
slots. -/
def incoming (H : Heap T) (roots : List (Option Nat)) (x : Nat) : Nat :=
  incomingN H x + rootCount roots x

/-- Refcount correctness: every allocated node's `rc` equals the number of
references pointing at it. -/
def rcCorrect (H : Heap T) (roots : List (Option Nat)) : Prop :=
  ∀ a n, lookupH H a = some n → n.rc = incoming H roots a

/-- A possibly-null pointer is valid when it is null or allocated. -/
def okPtr (H : Heap T) (oa : Option Nat) : Prop :=
  ∀ a, oa = some a → (lookupH H a).isSome = true

/-- Heap-internal well-formedness: the domain list is exact and duplicate
free, every address is below the fresh counter, and child pointers are
valid. -/
structure HWF (H : Heap T) : Prop where
  nodup : H.dom.Nodup
  domOK : ∀ a, (H.f a).isSome = true ↔ a ∈ H.dom
  fresh : ∀ a ∈ H.dom, a < H.next
  cvalid : ∀ a n, H.f a = some n → okPtr H n.left ∧ okPtr H n.right

theorem lookupH_writeH (H : Heap T) (a x : Nat) (n : HNode T) :
    lookupH (writeH H a n) x = if x = a then some n else lookupH H x := by
  simp only [lookupH, writeH, Function.update]
  split <;> simp_all

theorem lookupH_allocH (H : Heap T) (n : HNode T) (x : Nat) :
    lookupH (allocH H n).1 x =
      if x = H.next then some n else lookupH H x := by
  simp only [lookupH, allocH, Function.update]
  split <;> simp_all

theorem lookupH_removeH (H : Heap T) (a x : Nat) :
    lookupH (removeH H a) x = if x = a then none else lookupH H x := by
  simp only [lookupH, removeH, Function.update]
  split <;> simp_all

/-- Summing a function over a duplicate-free list after changing it at one
member: the difference is the difference at that member. -/
theorem sum_map_update (dom : List Nat) (hnd : dom.Nodup) (a : Nat)
    (ha : a ∈ dom) (F G : Nat → Nat)
    (agree : ∀ b ∈ dom, b ≠ a → F b = G b) :
    (dom.map F).sum + G a = (dom.map G).sum + F a := by
  induction dom with
  | nil => cases ha
  | cons b l ih =>
      rcases List.nodup_cons.1 hnd with ⟨hb, hl⟩
      rcases List.mem_cons.1 ha with rfl | ha'
      · have : ∀ x ∈ l, F x = G x := by
          intro x hx
          exact agree x (List.mem_cons_of_mem _ hx) (fun h => hb (h ▸ hx))
        rw [List.map_cons, List.map_cons, List.sum_cons, List.sum_cons,
          List.map_congr_left this]
        omega
      · have hba : b ≠ a := fun h => hb (h ▸ ha')
        have := ih hl ha' (fun x hx hxa => agree x (List.mem_cons_of_mem _ hx) hxa)
        rw [List.map_cons, List.map_cons, List.sum_cons, List.sum_cons,
          agree b (List.mem_cons_self _ _) hba]
        omega

/-- Summing a function over a duplicate-free list with one member filtered
out. -/
theorem sum_map_filter_ne (dom : List Nat) (hnd : dom.Nodup) (a : Nat)
    (ha : a ∈ dom) (F : Nat → Nat) :
    ((dom.filter (fun b => b != a)).map F).sum + F a = (dom.map F).sum := by
  induction dom with
  | nil => cases ha
  | cons b l ih =>
      rcases List.nodup_cons.1 hnd with ⟨hb, hl⟩
      rcases List.mem_cons.1 ha with rfl | ha'
      · have hfl : l.filter (fun x => x != a) = l := by
          rw [List.filter_eq_self]
          intro x hx
          simp only [bne_iff_ne, ne_eq, decide_eq_true_eq]
          exact fun h => hb (h ▸ hx)
        simp only [List.filter_cons, bne_self_eq_false, Bool.false_eq_true,
          if_false, hfl, List.map_cons, List.sum_cons]
        omega
      · have hba : (b != a) = true := by
          simp only [bne_iff_ne, ne_eq]
          exact fun h => hb (h ▸ ha')
        simp only [List.filter_cons, hba, if_true, List.map_cons,
          List.sum_cons]
        have := ih hl ha'
        omega

theorem incomingN_writeH (H : Heap T) (hwf : HWF H) (a : Nat)
    (ha : a ∈ H.dom) (n : HNode T) (x : Nat) :
    incomingN (writeH H a n) x + slotCountO (H.f a) x
      = incomingN H x + slotCount n x := by
  simp only [incomingN, writeH]
  have := sum_map_update H.dom hwf.nodup a ha
    (fun b => slotCountO (Function.update H.f a (some n) b) x)
    (fun b => slotCountO (H.f b) x)
    (fun b _ hba => by simp only [Function.update_noteq hba])
  simp only [Function.update_same, slotCountO_some] at this
  omega

theorem incomingN_allocH (H : Heap T) (hwf : HWF H) (n : HNode T)
    (x : Nat) :
    incomingN (allocH H n).1 x = incomingN H x + slotCount n x := by
  simp only [incomingN, allocH, List.map_cons, List.sum_cons,
    Function.update_same]
  have : ∀ b ∈ H.dom,
      slotCountO (Function.update H.f H.next (some n) b) x
        = slotCountO (H.f b) x := by
    intro b hb
    have hbn : b ≠ H.next := by
      have := hwf.fresh b hb
      omega
    rw [Function.update_noteq hbn]
  rw [List.map_congr_left this, slotCountO_some]
  exact Nat.add_comm _ _

theorem incomingN_removeH (H : Heap T) (hwf : HWF H) (a : Nat)
    (ha : a ∈ H.dom) (x : Nat) :
    incomingN (removeH H a) x + slotCountO (H.f a) x = incomingN H x := by
  simp only [incomingN, removeH]
  have hagree : ∀ b ∈ H.dom.filter (fun b => b != a),
      slotCountO (Function.update H.f a none b) x = slotCountO (H.f b) x := by
    intro b hb
    rcases List.mem_filter.1 hb with ⟨-, hba⟩
    rw [Function.update_noteq (by simpa using hba)]
  rw [List.map_congr_left hagree]
  exact sum_map_filter_ne H.dom hwf.nodup a ha (fun b => slotCountO (H.f b) x)

theorem rootCount_cons (r : Option Nat) (roots : List (Option Nat))
    (x : Nat) :
    rootCount (r :: roots) x
      = (if r = some x then 1 else 0) + rootCount roots x := by
  simp only [rootCount, List.countP_cons]
  split <;> simp_all <;> omega

theorem sum_map_split (dom : List Nat) (hnd : dom.Nodup) (b : Nat)
    (hb : b ∈ dom) (F : Nat → Nat) :
    (dom.map F).sum = F b + ((dom.filter (fun x => x != b)).map F).sum := by
  have := sum_map_filter_ne dom hnd b hb F
  omega

theorem le_incomingN (H : Heap T) (hwf : HWF H) (b : Nat) (nd : HNode T)
    (hb : H.f b = some nd) (x : Nat) :
    slotCount nd x ≤ incomingN H x := by
  have hbdom : b ∈ H.dom := (hwf.domOK b).1 (by rw [hb]; rfl)
  have hmem : slotCount nd x ∈ H.dom.map (fun a => slotCountO (H.f a) x) := by
    have : slotCountO (H.f b) x = slotCount nd x := by rw [hb, slotCountO_some]
    exact this ▸ List.mem_map_of_mem _ hbdom
  exact List.single_le_sum (fun y _ => Nat.zero_le y) _ hmem

/-- The node payload without the reference count: what tree reading sees. -/
def nodeCore (n : HNode T) : Option Nat × Option Nat × T :=
  (n.left, n.right, n.value)

/-- Map a function over the values of a tree. -/
def mapT {S U : Type} (f : S → U) : Tree S → Tree U
  | .leaf => .leaf
  | .node l v r => .node (mapT f l) (f v) (mapT f r)

/-- Strip the address annotations from an annotated tree. -/
def stripT (t : Tree (Nat × T)) : Tree T := mapT Prod.snd t

/-- The addresses of an annotated tree. -/
def addrsT : Tree (Nat × T) → List Nat
  | .leaf => []
  | .node l (a, _) r => a :: (addrsT l ++ addrsT r)

/-- The representation relation: the heap subgraph hanging off a pointer spells
out an (address-annotated) functional tree. -/
inductive RT (H : Heap T) : Option Nat → Tree (Nat × T) → Prop
  | leaf : RT H none .leaf
  | node {a : Nat} {nd : HNode T} {tl tr : Tree (Nat × T)} :
      lookupH H a = some nd →
      RT H nd.left tl → RT H nd.right tr →
      RT H (some a) (.node tl (a, nd.value) tr)

theorem RT_congr {H H' : Heap T} {oa : Option Nat} {at_ : Tree (Nat × T)}
    (h : RT H oa at_)
    (hagree : ∀ b ∈ addrsT at_, (H'.f b).map nodeCore = (H.f b).map nodeCore) :
    RT H' oa at_ := by
  induction h with
  | leaf => exact RT.leaf
  | node hl htl htr ihl ihr =>
      rename_i a nd tl tr
      have ha : (H'.f a).map nodeCore = (H.f a).map nodeCore :=
        hagree a (by simp [addrsT])
      rw [show H.f a = some nd from hl] at ha
      cases hnd' : H'.f a with
      | none => rw [hnd'] at ha; cases ha
      | some nd' =>
          rw [hnd'] at ha
          have hcore : nodeCore nd' = nodeCore nd := by
            simpa using ha
          have hleft : nd'.left = nd.left := congrArg Prod.fst hcore
          have hright : nd'.right = nd.right := by
            have := congrArg Prod.snd hcore
            exact congrArg Prod.fst this
          have hval : nd'.value = nd.value := by
            have := congrArg Prod.snd hcore
            exact congrArg Prod.snd this
          have h1 : RT H' nd'.left tl := by
            rw [hleft]
            exact ihl (fun b hb => hagree b (by simp [addrsT, hb]))
          have h2 : RT H' nd'.right tr := by
            rw [hright]
            exact ihr (fun b hb => hagree b (by simp [addrsT, hb]))
          have := RT.node hnd' h1 h2
          rw [hval] at this
          exact this

/-- `node::inc_ref` through a possibly-null pointer. -/
def incRefO (H : Heap T) (oa : Option Nat) : Heap T :=
  match oa with
  | none => H
  | some a =>
      match lookupH H a with
      | some n => writeH H a { n with rc := n.rc + 1 }
      | none => H

/-- `node::dec_ref` through a possibly-null pointer: decrement the count and,
on reaching zero, delete the node and release its children.  `fuel` bounds the
recursion depth and is immaterial whenever it exceeds the height of the
released tree. -/
def decRefO : Nat → Heap T → Option Nat → Heap T
  | _, H, none => H
  | 0, H, some _ => H
  | fuel + 1, H, some a =>
      match lookupH H a with
      | none => H
      | some n =>
          if n.rc ≤ 1 then
            let H1 := removeH H a
            let H2 := decRefO fuel H1 n.left
            decRefO fuel H2 n.right
          else
            writeH H a { n with rc := n.rc - 1 }

/-- `splay_tree::update`: rewrite both child slots in place.  The boolean is
the `lean_assert(!n->is_shared())` guarding the mutation. -/
def setChildren (H : Heap T) (a : Nat) (l r : Option Nat) : Heap T × Bool :=
  match lookupH H a with
  | some n => (writeH H a { n with left := l, right := r }, decide (n.rc ≤ 1))
  | none => (H, false)

/-- `splay_tree::splay_to_top` on the heap: the path is deepest entry first
(`path.back()` of the C++ vector is the head); two-entry steps perform the
four double rotations, a final single entry the zig step.  All child-slot
rewrites are in place and no reference count is touched.  The boolean collects
every `is_shared` assertion on a mutated node. -/
def splayH : Heap T → List (Bool × Nat) → Nat → Heap T × Bool
  | H, [], _ => (H, true)
  | H, [(pr, p)], n =>
      match lookupH H n, lookupH H p with
      | some nn, some pn =>
          if pr then
            -- zig right: (p A (n B C)) ==> (n (p A B) C)
            let s1 := setChildren H p pn.left nn.left
            let s2 := setChildren s1.1 n (some p) nn.right
            (s2.1, s1.2 && s2.2)
          else
            -- zig left: (p (n A B) C) ==> (n A (p B C))
            let s1 := setChildren H p nn.right pn.right
            let s2 := setChildren s1.1 n nn.left (some p)
            (s2.1, s1.2 && s2.2)
      | _, _ => (H, false)
  | H, (pr, p) :: (gr, g) :: rest, n =>
      match lookupH H n, lookupH H p, lookupH H g with
      | some nn, some pn, some gn =>
          if gr then
            if pr then
              -- zig-zig right: (g A (p B (n C D))) ==> (n (p (g A B) C) D)
              let s1 := setChildren H g gn.left pn.left
              let s2 := setChildren s1.1 p (some g) nn.left
              let s3 := setChildren s2.1 n (some p) nn.right
              let rec1 := splayH s3.1 rest n
              (rec1.1, s1.2 && s2.2 && s3.2 && rec1.2)
            else
              -- zig-zag right-left: (g A (p (n B C) D)) ==> (n (g A B) (p C D))
              let s1 := setChildren H g gn.left nn.left
              let s2 := setChildren s1.1 p nn.right pn.right
              let s3 := setChildren s2.1 n (some g) (some p)
              let rec1 := splayH s3.1 rest n
              (rec1.1, s1.2 && s2.2 && s3.2 && rec1.2)
          else
            if pr then
              -- zig-zag left-right: (g (p A (n B C)) D) ==> (n (p A B) (g C D))
              let s1 := setChildren H p pn.left nn.left
              let s2 := setChildren s1.1 g nn.right gn.right
              let s3 := setChildren s2.1 n (some p) (some g)
              let rec1 := splayH s3.1 rest n
              (rec1.1, s1.2 && s2.2 && s3.2 && rec1.2)
            else
              -- zig-zig left: (g (p (n A B) C) D) ==> (n A (p B (g C D)))
              let s1 := setChildren H g pn.right gn.right
              let s2 := setChildren s1.1 p nn.right (some g)
              let s3 := setChildren s2.1 n nn.left (some p)
              let rec1 := splayH s3.1 rest n
              (rec1.1, s1.2 && s2.2 && s3.2 && rec1.2)
      | _, _, _ => (H, false)

/-- `splay_tree::update_parent`: acquire `child`, release whatever the parent
slot (or the handle root slot, when the path is empty) held, and point it at
`child`.  Returns the possibly-updated root and the `is_shared` assertion on
the parent. -/
def update_parentH (fuel : Nat) (H : Heap T) (path : List (Bool × Nat))
    (root : Option Nat) (child : Nat) : Heap T × Option Nat × Bool :=
  match path with
  | [] =>
      let H1 := incRefO H (some child)
      let H2 := decRefO fuel H1 root
      (H2, some child, true)
  | (d, p) :: _ =>
      let H1 := incRefO H (some child)
      match lookupH H1 p with
      | none => (H1, root, false)
      | some pn =>
          let okp := decide (pn.rc ≤ 1)
          let old := if d then pn.right else pn.left
          let H2 := decRefO fuel H1 old
          match lookupH H2 p with
          | none => (H2, root, false)
          | some pn2 =>
              let pn3 := if d then { pn2 with right := some child }
                         else { pn2 with left := some child }
              (writeH H2 p pn3, root, okp)

/-- One visit of the `insert_pull` descent loop, after the null check and
clone-if-shared step: compare and either descend, or stop. -/
structure DescentRes (T : Type) where
  H : Heap T
  root : Option Nat
  path : List (Bool × Nat)
  target : Option Nat
  found : Bool
  ok : Bool

/-- The descent loop of `splay_tree::insert_pull` on the heap: clone shared
nodes in place (re-linking the parent), then compare and descend; a null slot
either receives a fresh leaf (insert) or pops the path entry above (pull).
`target` is the node to splay, `none` when an erase-descent started from an
empty tree (the C++ `return false`). -/
def ipLoop (c : Cmp T) (v : T) (is_insert : Bool) :
    Nat → Heap T → Option Nat → Option Nat → List (Bool × Nat) → DescentRes T
  | 0, H, root, _, path => ⟨H, root, path, none, false, false⟩
  | _ + 1, H, root, none, path =>
      if is_insert then
        let al := allocH H ⟨none, none, v, 0⟩
        let up := update_parentH (H.dom.length + 1) al.1 path root al.2
        ⟨up.1, up.2.1, path, some al.2, false, up.2.2⟩
      else
        match path with
        | [] => ⟨H, root, [], none, false, true⟩
        | (_, p) :: rest => ⟨H, root, rest, some p, false, true⟩
  | fuel + 1, H, root, some a, path =>
      match lookupH H a with
      | none => ⟨H, root, path, none, false, false⟩
      | some nd =>
          if nd.rc > 1 then
            -- shared: clone in place (the copy constructor acquires both
            -- children), then re-link the parent slot to the clone
            let al := allocH H ⟨nd.left, nd.right, nd.value, 0⟩
            let H1 := incRefO al.1 nd.left
            let H2 := incRefO H1 nd.right
            let up := update_parentH (H.dom.length + 1) H2 path root al.2
            let c0 := c.cmp v nd.value
            if c0 < 0 then
              let r := ipLoop c v is_insert fuel up.1 up.2.1 nd.left
                ((false, al.2) :: path)
              { r with ok := up.2.2 && r.ok }
            else if 0 < c0 then
              let r := ipLoop c v is_insert fuel up.1 up.2.1 nd.right
                ((true, al.2) :: path)
              { r with ok := up.2.2 && r.ok }
            else
              match lookupH up.1 al.2 with
              | some nd2 =>
                  if is_insert then
                    ⟨writeH up.1 al.2 { nd2 with value := v }, up.2.1, path,
                      some al.2, true, up.2.2 && decide (nd2.rc ≤ 1)⟩
                  else
                    ⟨up.1, up.2.1, path, some al.2, true, up.2.2⟩
              | none => ⟨up.1, up.2.1, path, some al.2, true, false⟩
          else
            let c0 := c.cmp v nd.value
            if c0 < 0 then
              ipLoop c v is_insert fuel H root nd.left ((false, a) :: path)
            else if 0 < c0 then
              ipLoop c v is_insert fuel H root nd.right ((true, a) :: path)
            else
              if is_insert then
                (⟨writeH H a { nd with value := v }, root, path, some a, true,
                  decide (nd.rc ≤ 1)⟩ : DescentRes T)
              else
                ⟨H, root, path, some a, true, true⟩

/-- `splay_tree::insert_pull` on the heap: descend, then splay the target to
the top and publish it as the root (`m_ptr = n`, with no reference-count
adjustment). -/
def insert_pullH (c : Cmp T) (v : T) (is_insert : Bool) (fuel : Nat)
    (H : Heap T) (root : Option Nat) : Heap T × Option Nat × Bool × Bool :=
  let r := ipLoop c v is_insert fuel H root root []
  match r.target with
  | none => (r.H, r.root, false, r.ok)
  | some n =>
      let s := splayH r.H r.path n
      (s.1, some n, r.found, r.ok && s.2)

/-- Member `insert` on the heap. -/
def insertH (c : Cmp T) (v : T) (fuel : Nat) (H : Heap T)
    (root : Option Nat) : Heap T × Option Nat × Bool :=
  let r := insert_pullH c v true fuel H root
  (r.1, r.2.1, r.2.2.2)

/-- `pull` on the heap. -/
def pullH (c : Cmp T) (v : T) (fuel : Nat) (H : Heap T)
    (root : Option Nat) : Heap T × Option Nat × Bool × Bool :=
  insert_pullH c v false fuel H root

/-- `find_memoize` on the heap: pull, and on success read the root value. -/
def find_memoizeH (c : Cmp T) (v : T) (fuel : Nat) (H : Heap T)
    (root : Option Nat) : Heap T × Option Nat × Option T × Bool :=
  let r := pullH c v fuel H root
  if r.2.2.1 then
    match r.2.1 with
    | some a =>
        match lookupH r.1 a with
        | some nd => (r.1, r.2.1, some nd.value, r.2.2.2)
        | none => (r.1, r.2.1, none, false)
    | none => (r.1, r.2.1, none, false)
  else
    (r.1, r.2.1, none, r.2.2.2)

/-- The descent loop of `splay_tree::pull_max`: clone shared nodes in place,
follow right children, then splay. -/
def pmLoop : Nat → Heap T → Option Nat → Nat → List (Bool × Nat) →
    Heap T × Option Nat × Bool
  | 0, H, root, _, _ => (H, root, false)
  | fuel + 1, H, root, a, path =>
      match lookupH H a with
      | none => (H, root, false)
      | some nd =>
          if nd.rc > 1 then
            let al := allocH H ⟨nd.left, nd.right, nd.value, 0⟩
            let H1 := incRefO al.1 nd.left
            let H2 := incRefO H1 nd.right
            let up := update_parentH (H.dom.length + 1) H2 path root al.2
            match nd.right with
            | some rr =>
                let r := pmLoop fuel up.1 up.2.1 rr ((true, al.2) :: path)
                (r.1, r.2.1, up.2.2 && r.2.2)
            | none =>
                let s := splayH up.1 path al.2
                (s.1, some al.2, up.2.2 && s.2)
          else
            match nd.right with
            | some rr => pmLoop fuel H root rr ((true, a) :: path)
            | none =>
                let s := splayH H path a
                (s.1, some a, s.2)

/-- `splay_tree::pull_max` on the heap. -/
def pull_maxH (fuel : Nat) (H : Heap T) (root : Option Nat) :
    Heap T × Option Nat × Bool :=
  match root with
  | none => (H, root, true)
  | some a => pmLoop fuel H root a []

/-- `splay_tree::erase` on the heap: pull `v`; when found, detach the root's
children into two temporary handles, release the old root, splay the maximum
of the left part, attach the right part, and publish.  Mirrors the
constructor/`clear`/`swap`/destructor sequence of the C++ including every
reference-count adjustment. -/
def eraseH (c : Cmp T) (v : T) (fuel : Nat) (H : Heap T)
    (root : Option Nat) : Heap T × Option Nat × Bool :=
  let r := pullH c v fuel H root
  if r.2.2.1 then
    match r.2.1 with
    | none => (r.1, r.2.1, false)
    | some a =>
        match lookupH r.1 a with
        | none => (r.1, r.2.1, false)
        | some nd =>
            -- splay_tree left(*this, n->m_left); splay_tree right(*this, n->m_right)
            let H1 := incRefO r.1 nd.left
            let H2 := incRefO H1 nd.right
            match nd.left with
            | none =>
                -- swap(right); ~right releases the old root; ~left is null
                let H3 := decRefO fuel H2 (some a)
                (H3, nd.right, r.2.2.2)
            | some la =>
                match nd.right with
                | none =>
                    let H3 := decRefO fuel H2 (some a)
                    (H3, nd.left, r.2.2.2)
                | some ra =>
                    -- clear(): release the old root (frees it, children
                    -- keep one reference each from the temporaries)
                    let H3 := decRefO fuel H2 (some a)
                    -- left.pull_max()
                    let pm := pull_maxH fuel H3 (some la)
                    match pm.2.1 with
                    | none => (pm.1, none, false)
                    | some lm =>
                        match lookupH pm.1 lm with
                        | none => (pm.1, none, false)
                        | some lmn =>
                            -- right.m_ptr->inc_ref(); left root's right := right
                            let H4 := incRefO pm.1 (some ra)
                            let H5 := writeH H4 lm
                              { (lookupH H4 lm).getD lmn with right := some ra }
                            -- swap(left); ~right releases ra once
                            let H6 := decRefO fuel H5 (some ra)
                            (H6, some lm, r.2.2.2 && pm.2.2 &&
                              decide (lmn.right = none))
  else
    (r.1, r.2.1, r.2.2.2)

/-- Copy construction `B := copy(A)`: share the root and acquire it. -/
def copyH (H : Heap T) (root : Option Nat) : Heap T × Option Nat :=
  (incRefO H root, root)

/-- `splay_tree::clear` on the heap. -/
def clearH (fuel : Nat) (H : Heap T) (root : Option Nat) :
    Heap T × Option Nat :=
  (decRefO fuel H root, none)

/-- `splay_tree::swap` exchanges the two root slots; the heap is untouched. -/
def swapH (a b : Option Nat) : Option Nat × Option Nat := (b, a)

/-- Executable fueled unfolding of the heap into an annotated tree. -/
def readT (H : Heap T) : Nat → Option Nat → Option (Tree (Nat × T))
  | _, none => some .leaf
  | 0, some _ => none
  | fuel + 1, some a =>
      match lookupH H a with
      | none => none
      | some nd =>
          match readT H fuel nd.left, readT H fuel nd.right with
          | some tl, some tr => some (.node tl (a, nd.value) tr)
          | _, _ => none

/-- Executable check of refcount correctness. -/
def rcOK (H : Heap T) (roots : List (Option Nat)) : Bool :=
  H.dom.all (fun a =>
    match H.f a with
    | some n => n.rc == incoming H roots a
    | none => true)

theorem readT_some_RT (H : Heap T) (fuel : Nat) (oa : Option Nat)
    (at_ : Tree (Nat × T)) (h : readT H fuel oa = some at_) : RT H oa at_ := by
  induction fuel generalizing oa at_ with
  | zero =>
      cases oa with
      | none => cases h; exact RT.leaf
      | some a => cases h
  | succ fuel ih =>
      cases oa with
      | none => cases h; exact RT.leaf
      | some a =>
          cases hnd : lookupH H a with
          | none =>
              simp only [readT, hnd] at h
              cases h
          | some nd =>
              simp only [readT, hnd] at h
              split at h
              · rename_i tl tr hl hr
                cases h
                exact RT.node hnd (ih _ _ hl) (ih _ _ hr)
              · cases h

theorem RT_readT (H : Heap T) (oa : Option Nat) (at_ : Tree (Nat × T))
    (h : RT H oa at_) : ∃ fuel, ∀ f, fuel ≤ f → readT H f oa = some at_ := by
  induction h with
  | leaf =>
      exact ⟨0, fun f _ => by cases f <;> rfl⟩
  | node hnd hl hr ihl ihr =>
      rcases ihl with ⟨f1, hf1⟩
      rcases ihr with ⟨f2, hf2⟩
      refine ⟨f1 + f2 + 1, fun f hf => ?_⟩
      cases f with
      | zero => omega
      | succ f =>
          simp only [readT, hnd, hf1 f (by omega), hf2 f (by omega)]

theorem dom_writeH (H : Heap T) (a : Nat) (n : HNode T) :
    (writeH H a n).dom = H.dom := rfl

theorem next_writeH (H : Heap T) (a : Nat) (n : HNode T) :
    (writeH H a n).next = H.next := rfl

theorem f_writeH (H : Heap T) (a : Nat) (n : HNode T) (x : Nat) :
    (writeH H a n).f x = if x = a then some n else H.f x := by
  simp only [writeH, Function.update]
  split <;> simp_all

theorem lookupH_incRefO (H : Heap T) (oa : Option Nat) (x : Nat) :
    lookupH (incRefO H oa) x =
      if oa = some x then
        (lookupH H x).map (fun n => { n with rc := n.rc + 1 })
      else lookupH H x := by
  cases oa with
  | none => simp [incRefO]
  | some a =>
      simp only [incRefO]
      cases hn : lookupH H a with
      | none =>
          by_cases hxa : a = x
          · subst hxa
            simp [hn]
          · rw [if_neg (show ¬(some a = some x) by simp [hxa])]
      | some n =>
          rw [show lookupH (writeH H a { n with rc := n.rc + 1 }) x
            = _ from lookupH_writeH H a x _]
          by_cases hxa : x = a
          · subst hxa
            simp [hn]
          · rw [if_neg hxa, if_neg (by simpa using (Ne.symm hxa))]

theorem core_incRefO (H : Heap T) (oa : Option Nat) (x : Nat) :
    ((incRefO H oa).f x).map nodeCore = (H.f x).map nodeCore := by
  have := lookupH_incRefO H oa x
  simp only [lookupH] at this
  rw [this]
  split
  · cases H.f x <;> rfl
  · rfl

theorem dom_incRefO (H : Heap T) (oa : Option Nat) :
    (incRefO H oa).dom = H.dom := by
  cases oa with
  | none => rfl
  | some a =>
      simp only [incRefO]
      cases lookupH H a <;> rfl

theorem next_incRefO (H : Heap T) (oa : Option Nat) :
    (incRefO H oa).next = H.next := by
  cases oa with
  | none => rfl
  | some a =>
      simp only [incRefO]
      cases lookupH H a <;> rfl

theorem incomingN_congr (H H' : Heap T) (hdom : H'.dom = H.dom)
    (hcore : ∀ b ∈ H.dom, (H'.f b).map nodeCore = (H.f b).map nodeCore)
    (x : Nat) : incomingN H' x = incomingN H x := by
  simp only [incomingN, hdom]
  congr 1
  refine List.map_congr_left ?_
  intro b hb
  have := hcore b hb
  cases h1 : H.f b with
  | none =>
      rw [h1] at this
      cases h2 : H'.f b with
      | none => rfl
      | some m => rw [h2] at this; cases this
  | some m =>
      rw [h1] at this
      cases h2 : H'.f b with
      | none => rw [h2] at this; cases this
      | some m' =>
          rw [h2] at this
          simp only [Option.map_some'] at this
          have hl : m'.left = m.left := congrArg Prod.fst (by injection this)
          have hr : m'.right = m.right := by
            have h3 := congrArg Prod.snd (show nodeCore m' = nodeCore m by injection this)
            exact congrArg Prod.fst h3
          simp [slotCountO, slotCount, hl, hr]

theorem incomingN_incRefO (H : Heap T) (oa : Option Nat) (x : Nat) :
    incomingN (incRefO H oa) x = incomingN H x := by
  refine incomingN_congr H (incRefO H oa) (dom_incRefO H oa) ?_ x
  intro b _
  exact core_incRefO H oa b

/-- An annotated path entry: direction, node address, node value, and the
annotated sibling subtree. -/
structure AEntry (T : Type) where
  m_right : Bool
  addr : Nat
  value : T
  other : Tree (Nat × T)

/-- Reattach an annotated subtree under an annotated entry. -/
def AEntry.reattachA (e : AEntry T) (t : Tree (Nat × T)) : Tree (Nat × T) :=
  if e.m_right then .node e.other (e.addr, e.value) t
  else .node t (e.addr, e.value) e.other

/-- Rebuild the annotated tree of the whole handle from the annotated path
(deepest entry first) and the annotated subtree in the hole. -/
def aplug : List (AEntry T) → Tree (Nat × T) → Tree (Nat × T)
  | [], t => t
  | e :: rest, t => aplug rest (e.reattachA t)

/-- The functional path entry of an annotated one. -/
def AEntry.toEntry (e : AEntry T) : Entry T :=
  ⟨e.m_right, e.value, stripT e.other⟩

/-- The heap path entry of an annotated one. -/
def AEntry.toPair (e : AEntry T) : Bool × Nat := (e.m_right, e.addr)

theorem stripT_leaf : stripT (.leaf : Tree (Nat × T)) = .leaf := rfl

theorem stripT_node (l : Tree (Nat × T)) (a : Nat) (v : T)
    (r : Tree (Nat × T)) :
    stripT (.node l (a, v) r) = .node (stripT l) v (stripT r) := rfl

theorem stripT_node2 (l : Tree (Nat × T)) (p : Nat × T) (r : Tree (Nat × T)) :
    stripT (.node l p r) = .node (stripT l) p.2 (stripT r) := rfl

theorem stripT_aplug (aes : List (AEntry T)) (t : Tree (Nat × T)) :
    stripT (aplug aes t) = plug (aes.map AEntry.toEntry) (stripT t) := by
  induction aes generalizing t with
  | nil => rfl
  | cons e rest ih =>
      simp only [aplug, List.map_cons, plug]
      rw [ih]
      congr 1
      rcases e with ⟨d, a, v, o⟩
      cases d <;> rfl

/-- Height of a tree (for fuel bounds). -/
def heightT {S : Type} : Tree S → Nat
  | .leaf => 0
  | .node l _ r => 1 + max (heightT l) (heightT r)

theorem addrsT_reattachA (e : AEntry T) (t : Tree (Nat × T)) :
    addrsT (e.reattachA t) =
      if e.m_right then e.addr :: (addrsT e.other ++ addrsT t)
      else e.addr :: (addrsT t ++ addrsT e.other) := by
  rcases e with ⟨d, a, v, o⟩
  cases d <;> simp [AEntry.reattachA, addrsT]

theorem mem_addrsT_aplug_target (aes : List (AEntry T))
    (t : Tree (Nat × T)) (x : Nat) (hx : x ∈ addrsT t) :
    x ∈ addrsT (aplug aes t) := by
  induction aes generalizing t with
  | nil => exact hx
  | cons e rest ih =>
      simp only [aplug]
      refine ih _ ?_
      rw [addrsT_reattachA]
      split <;> simp [hx]

theorem mem_addrsT_aplug_entry (aes : List (AEntry T))
    (t : Tree (Nat × T)) (e : AEntry T) (he : e ∈ aes) :
    e.addr ∈ addrsT (aplug aes t) := by
  induction aes generalizing t with
  | nil => cases he
  | cons e' rest ih =>
      rcases List.mem_cons.1 he with rfl | he'
      · simp only [aplug]
        refine mem_addrsT_aplug_target rest _ _ ?_
        rw [addrsT_reattachA]
        split <;> simp
      · exact ih _ he'

theorem nat_sum_zero (l : List Nat) (h : l.sum = 0) : ∀ x ∈ l, x = 0 := by
  induction l with
  | nil => intro x hx; cases hx
  | cons a l ih =>
      rw [List.sum_cons] at h
      intro x hx
      rcases List.mem_cons.1 hx with rfl | hx
      · omega
      · exact ih (by omega) x hx

/-- If `x` occurs in a represented tree, the root pointer is `x` or some node
of the tree has a child slot pointing at `x`. -/
theorem mem_addrsT_parent {H : Heap T} {oa : Option Nat}
    {tr : Tree (Nat × T)} (h : RT H oa tr) (x : Nat) (hx : x ∈ addrsT tr) :
    oa = some x ∨ ∃ b nb, b ∈ addrsT tr ∧ lookupH H b = some nb ∧
      (nb.left = some x ∨ nb.right = some x) := by
  induction h with
  | leaf => cases hx
  | node hnd hl hr ihl ihr =>
      rename_i a nd tl tr'
      simp only [addrsT, List.mem_cons, List.mem_append] at hx
      rcases hx with rfl | hx | hx
      · exact Or.inl rfl
      · rcases ihl hx with heq | ⟨b, nb, hb, hnb, hslot⟩
        · exact Or.inr ⟨a, nd, by simp [addrsT], hnd, Or.inl heq⟩
        · exact Or.inr ⟨b, nb, by simp [addrsT, hb], hnb, hslot⟩
      · rcases ihr hx with heq | ⟨b, nb, hb, hnb, hslot⟩
        · exact Or.inr ⟨a, nd, by simp [addrsT], hnd, Or.inr heq⟩
        · exact Or.inr ⟨b, nb, by simp [addrsT, hb], hnb, hslot⟩

theorem rootCount_pos (roots : List (Option Nat)) (x : Nat)
    (h : some x ∈ roots) : 1 ≤ rootCount roots x := by
  simp only [rootCount]
  exact List.countP_pos.2 ⟨some x, h, by simp⟩

/-- A single child-slot reference accounts for the whole count of a node with
`rc = 1`: no root points at it and no other node's slot does. -/
theorem rc1_slot_unique (H : Heap T) (hwf : HWF H)
    (roots : List (Option Nat)) (hrc : rcCorrect H roots) (x : Nat)
    (nx : HNode T) (hx : lookupH H x = some nx) (h1 : nx.rc = 1)
    (b : Nat) (nb : HNode T) (hb : lookupH H b = some nb)
    (hslot : 1 ≤ slotCount nb x) :
    (∀ r ∈ roots, r ≠ some x) ∧
      (∀ b' nb', lookupH H b' = some nb' → b' ≠ b → slotCount nb' x = 0) := by
  have hacc := hrc x nx hx
  simp only [incoming] at hacc
  have hbin : slotCount nb x ≤ incomingN H x := le_incomingN H hwf b nb hb x
  have hroot0 : rootCount roots x = 0 := by omega
  have hbdom : b ∈ H.dom := (hwf.domOK b).1 (by rw [show H.f b = lookupH H b from rfl, hb]; rfl)
  have hsplit : (H.dom.map (fun a => slotCountO (H.f a) x)).sum
      = slotCountO (H.f b) x
        + ((H.dom.filter (fun y => y != b)).map
            (fun a => slotCountO (H.f a) x)).sum :=
    sum_map_split H.dom hwf.nodup b hbdom (fun a => slotCountO (H.f a) x)
  have hFb : slotCountO (H.f b) x = slotCount nb x := by
    rw [show H.f b = lookupH H b from rfl, hb, slotCountO_some]
  have hrest : ((H.dom.filter (fun y => y != b)).map
      (fun a => slotCountO (H.f a) x)).sum = 0 := by
    simp only [incomingN] at hacc hbin
    omega
  constructor
  · intro r hr heq
    subst heq
    have := rootCount_pos roots x hr
    omega
  · intro b' nb' hb' hbb
    have hb'dom : b' ∈ H.dom :=
      (hwf.domOK b').1 (by rw [show H.f b' = lookupH H b' from rfl, hb']; rfl)
    have hb'f : b' ∈ H.dom.filter (fun y => y != b) := by
      rw [List.mem_filter]
      exact ⟨hb'dom, by simpa using hbb⟩
    have := nat_sum_zero _ hrest (slotCountO (H.f b') x)
      (List.mem_map_of_mem _ hb'f)
    rw [show H.f b' = lookupH H b' from rfl, hb', slotCountO_some] at this
    exact this

/-- A root-slot reference at the head of the handle list accounts for the
whole count of a node with `rc = 1`. -/
theorem rc1_root_unique (H : Heap T) (hwf : HWF H) (root : Option Nat)
    (others : List (Option Nat)) (hrc : rcCorrect H (root :: others))
    (x : Nat) (nx : HNode T) (hx : lookupH H x = some nx) (h1 : nx.rc = 1)
    (hroot : root = some x) :
    (∀ r ∈ others, r ≠ some x) ∧
      (∀ b' nb', lookupH H b' = some nb' → slotCount nb' x = 0) := by
  have hacc := hrc x nx hx
  simp only [incoming, rootCount_cons, hroot, if_true] at hacc
  have hin0 : incomingN H x = 0 := by omega
  have hro0 : rootCount others x = 0 := by omega
  constructor
  · intro r hr heq
    subst heq
    have := rootCount_pos others x hr
    omega
  · intro b' nb' hb'
    have hb'dom : b' ∈ H.dom :=
      (hwf.domOK b').1 (by rw [show H.f b' = lookupH H b' from rfl, hb']; rfl)
    have := nat_sum_zero _ hin0 (slotCountO (H.f b') x)
      (List.mem_map_of_mem _ hb'dom)
    rw [show H.f b' = lookupH H b' from rfl, hb', slotCountO_some] at this
    exact this

/-- Nodes anchored to the current root through a chain of `rc = 1` links:
the handle root itself when singly referenced, and any singly referenced
child of an anchored node.  These are exactly the nodes the path-copy
discipline may mutate in place. -/
inductive Anchored (H : Heap T) (root : Option Nat) : Nat → Prop
  | base {x : Nat} {nx : HNode T} :
      root = some x → lookupH H x = some nx → nx.rc = 1 → Anchored H root x
  | step {b x : Nat} {nb nx : HNode T} :
      Anchored H root b → lookupH H b = some nb →
      (nb.left = some x ∨ nb.right = some x) →
      lookupH H x = some nx → nx.rc = 1 → Anchored H root x

/-- The central sharing-safety argument: an anchored node cannot occur in a
tree hanging off any other live handle. -/
theorem anchored_notin_other (H : Heap T) (hwf : HWF H) (root : Option Nat)
    (others : List (Option Nat)) (hrc : rcCorrect H (root :: others))
    (r : Option Nat) (hr : r ∈ others) (tr : Tree (Nat × T))
    (hRTr : RT H r tr) (x : Nat) (hx : Anchored H root x) :
    x ∉ addrsT tr := by
  induction hx with
  | base hroot hlook h1 =>
      rename_i y ny
      intro hmem
      rcases rc1_root_unique H hwf root others hrc y ny hlook h1 hroot with
        ⟨hothers, hslots⟩
      rcases mem_addrsT_parent hRTr y hmem with heq | ⟨b, nb, _, hnb, hslot⟩
      · exact hothers r hr heq
      · have := hslots b nb hnb
        rcases hslot with h | h <;> simp [slotCount, h] at this
  | step hanc hlookb hslot hlookx h1 ih =>
      rename_i b y nb ny
      intro hmem
      have hslot1 : 1 ≤ slotCount nb y := by
        rcases hslot with h | h <;> simp [slotCount, h]
      rcases rc1_slot_unique H hwf (root :: others) hrc y ny hlookx h1
          b nb hlookb hslot1 with ⟨hroots, hslots⟩
      rcases mem_addrsT_parent hRTr y hmem with heq | ⟨b', nb', hb', hnb', hslot'⟩
      · exact hroots r (List.mem_cons_of_mem _ hr) heq
      · by_cases hbb : b' = b
        · subst hbb
          exact ih hb'
        · have := hslots b' nb' hnb' hbb
          rcases hslot' with h | h <;> simp [slotCount, h] at this

theorem lookupH_eq (H : Heap T) (a : Nat) : lookupH H a = H.f a := rfl

theorem slotCount_eq_zero {n : HNode T} {a : Nat} (h : slotCount n a = 0) :
    n.left ≠ some a ∧ n.right ≠ some a := by
  simp only [slotCount] at h
  constructor <;> intro heq <;> rw [heq] at h <;> simp at h

theorem one_le_slotCount {n : HNode T} {a : Nat}
    (h : n.left = some a ∨ n.right = some a) : 1 ≤ slotCount n a := by
  rcases h with h | h <;> simp [slotCount, h]

/-- Refcount correctness with pending releases: each occurrence in `P` stands
for a reference already removed from the heap whose matching decrement is
still outstanding. -/
def rcCorrectP (H : Heap T) (roots : List (Option Nat)) (P : List Nat) :
    Prop :=
  ∀ a n, lookupH H a = some n → n.rc = incoming H roots a + P.count a

theorem rcCorrectP_nil (H : Heap T) (roots : List (Option Nat)) :
    rcCorrectP H roots [] ↔ rcCorrect H roots := by
  simp [rcCorrectP, rcCorrect]

/-- Push a pending release for a possibly-null pointer. -/
def pushP : Option Nat → List Nat → List Nat
  | none, P => P
  | some a, P => a :: P

theorem count_pushP (oa : Option Nat) (P : List Nat) (b : Nat) :
    (pushP oa P).count b = P.count b + (if oa = some b then 1 else 0) := by
  cases oa with
  | none => simp [pushP]
  | some a =>
      simp only [pushP, List.count_cons]
      by_cases hab : a = b
      · subst hab
        simp
      · simp [hab]

theorem dom_removeH (H : Heap T) (a : Nat) :
    (removeH H a).dom = H.dom.filter (fun b => b != a) := rfl

theorem HWF_removeH (H : Heap T) (hwf : HWF H) (a : Nat)
    (hin0 : incomingN H a = 0) : HWF (removeH H a) := by
  refine ⟨hwf.nodup.filter _, ?_, ?_, ?_⟩
  · intro b
    rw [show (removeH H a).f b = if b = a then none else H.f b by
      simp only [removeH, Function.update]
      split <;> simp_all]
    by_cases hba : b = a
    · subst hba
      simp only [if_pos rfl, dom_removeH, List.mem_filter]
      simp
    · rw [if_neg hba, dom_removeH, List.mem_filter]
      rw [hwf.domOK b]
      simp [hba]
  · intro b hb
    rw [dom_removeH, List.mem_filter] at hb
    exact hwf.fresh b hb.1
  · intro b m hm
    have hba : b ≠ a := by
      intro h
      subst h
      simp only [removeH, Function.update_same] at hm
      cases hm
    rw [show (removeH H a).f b = H.f b by
      simp only [removeH]
      rw [Function.update_noteq hba]] at hm
    rcases hwf.cvalid b m hm with ⟨hl, hr⟩
    have hslot : slotCount m a = 0 := by
      have h1 : slotCount m a ≤ incomingN H a := le_incomingN H hwf b m hm a
      omega
    rcases slotCount_eq_zero hslot with ⟨hnl, hnr⟩
    constructor
    · intro cAddr hc
      have := hl cAddr hc
      rw [show lookupH (removeH H a) cAddr = lookupH H cAddr by
        rw [lookupH_eq, lookupH_eq]
        simp only [removeH]
        rw [Function.update_noteq (by rintro rfl; exact hnl hc)]]
      exact this
    · intro cAddr hc
      have := hr cAddr hc
      rw [show lookupH (removeH H a) cAddr = lookupH H cAddr by
        rw [lookupH_eq, lookupH_eq]
        simp only [removeH]
        rw [Function.update_noteq (by rintro rfl; exact hnr hc)]]
      exact this

theorem rcCorrectP_removeH (H : Heap T) (roots : List (Option Nat))
    (P : List Nat) (hwf : HWF H) (a : Nat) (nd : HNode T)
    (hnd : lookupH H a = some nd) (h1 : nd.rc = 1)
    (hrc : rcCorrectP H roots (a :: P)) :
    rcCorrectP (removeH H a) roots (pushP nd.left (pushP nd.right P)) ∧
      incomingN H a = 0 ∧ rootCount roots a = 0 ∧ P.count a = 0 := by
  have hacc := hrc a nd hnd
  simp only [incoming, List.count_cons, beq_self_eq_true, if_true] at hacc
  have hin0 : incomingN H a = 0 := by omega
  have hro0 : rootCount roots a = 0 := by omega
  have hpc0 : P.count a = 0 := by omega
  refine ⟨?_, hin0, hro0, hpc0⟩
  intro b m hm
  have hba : b ≠ a := by
    intro h
    subst h
    rw [lookupH_eq] at hm
    simp only [removeH, Function.update_same] at hm
    cases hm
  have hmH : lookupH H b = some m := by
    rw [lookupH_eq] at hm ⊢
    simp only [removeH] at hm
    rwa [Function.update_noteq hba] at hm
  have hold := hrc b m hmH
  simp only [incoming, List.count_cons, beq_iff_eq,
    if_neg (Ne.symm hba)] at hold
  have hadom : a ∈ H.dom := (hwf.domOK a).1 (by rw [← lookupH_eq, hnd]; rfl)
  have hremove := incomingN_removeH H hwf a hadom b
  rw [lookupH_eq] at hnd
  rw [hnd, slotCountO_some] at hremove
  simp only [incoming]
  rw [count_pushP, count_pushP]
  simp only [slotCount] at hremove ⊢
  omega

theorem RT_congr_f {H H' : Heap T} {oa : Option Nat} {at_ : Tree (Nat × T)}
    (h : RT H oa at_) (hagree : ∀ b ∈ addrsT at_, H'.f b = H.f b) :
    RT H' oa at_ :=
  RT_congr h (fun b hb => by rw [hagree b hb])

theorem f_removeH (H : Heap T) (a b : Nat) :
    (removeH H a).f b = if b = a then none else H.f b := by
  simp only [removeH, Function.update]
  split <;> simp_all

theorem HWF_congr (H H' : Heap T) (hwf : HWF H) (hdom : H'.dom = H.dom)
    (hnext : H'.next = H.next)
    (hsome : ∀ b, ((H'.f b).isSome = true) ↔ ((H.f b).isSome = true))
    (hcore : ∀ b, (H'.f b).map nodeCore = (H.f b).map nodeCore) : HWF H' := by
  refine ⟨hdom ▸ hwf.nodup, ?_, ?_, ?_⟩
  · intro b
    rw [hdom, hsome b]
    exact hwf.domOK b
  · intro b hb
    rw [hdom] at hb
    rw [hnext]
    exact hwf.fresh b hb
  · intro b m hm
    have hcb := hcore b
    rw [hm] at hcb
    cases hmo : H.f b with
    | none => rw [hmo] at hcb; cases hcb
    | some m0 =>
        rw [hmo] at hcb
        simp only [Option.map_some'] at hcb
        have hcoreEq : nodeCore m = nodeCore m0 := by injection hcb
        have hml : m.left = m0.left := congrArg Prod.fst hcoreEq
        have hmr : m.right = m0.right :=
          congrArg Prod.fst (congrArg Prod.snd hcoreEq)
        rcases hwf.cvalid b m0 hmo with ⟨hvl, hvr⟩
        constructor
        · intro cAddr hc
          rw [hml] at hc
          rw [lookupH_eq, hsome cAddr]
          exact hvl cAddr hc
        · intro cAddr hc
          rw [hmr] at hc
          rw [lookupH_eq, hsome cAddr]
          exact hvr cAddr hc

/-- The master specification of `dec_ref`: releasing one pending reference to
a representable subgraph keeps the heap well formed and the counts correct,
touches only the subgraph's addresses, and only ever deletes nodes whose
count reached zero (survivors keep their payload and children). -/
theorem decRefO_master (at_ : Tree (Nat × T)) :
    ∀ fuel H roots P oa,
    HWF H → RT H oa at_ → (addrsT at_).Nodup →
    rcCorrectP H roots (pushP oa P) →
    heightT at_ < fuel →
    HWF (decRefO fuel H oa) ∧
    rcCorrectP (decRefO fuel H oa) roots P ∧
    (∀ b, b ∉ addrsT at_ → (decRefO fuel H oa).f b = H.f b) ∧
    (∀ b, (((decRefO fuel H oa).f b).isSome = true →
      ((decRefO fuel H oa).f b).map nodeCore = (H.f b).map nodeCore)) ∧
    (∀ b, b ∈ (decRefO fuel H oa).dom → b ∈ H.dom) ∧
    (decRefO fuel H oa).next = H.next := by
  induction at_ with
  | leaf =>
      intro fuel H roots P oa hwf hrt hnd hrc hh
      cases hrt
      have : decRefO fuel H none = H := by cases fuel <;> rfl
      rw [this]
      exact ⟨hwf, hrc, fun b _ => rfl, fun b _ => rfl, fun b hb => hb, rfl⟩
  | node tl pr tr ihl ihr =>
      intro fuel H roots P oa hwf hrt hnd hrc hh
      cases hrt with
      | node hlook hl hr =>
          rename_i a nd
          cases fuel with
          | zero => simp [heightT] at hh
          | succ fuel =>
              have hhl : heightT tl < fuel := by
                simp only [heightT] at hh
                omega
              have hhr : heightT tr < fuel := by
                simp only [heightT] at hh
                omega
              simp only [addrsT, List.nodup_cons, List.nodup_append] at hnd
              obtain ⟨hna, hntl, hntr, hdisj⟩ := hnd
              simp only [decRefO, hlook]
              by_cases hshared : nd.rc ≤ 1
              · rw [if_pos hshared]
                -- the count reached zero: free the node, release children
                have h1 : nd.rc = 1 := by
                  have := hrc a nd hlook
                  simp only [pushP, List.count_cons, beq_self_eq_true,
                    if_true] at this
                  omega
                rcases rcCorrectP_removeH H roots P hwf a nd hlook h1 hrc with
                  ⟨hrc1, hin0, -, -⟩
                have hwf1 : HWF (removeH H a) := HWF_removeH H hwf a hin0
                have hfr1 : ∀ b, b ≠ a → (removeH H a).f b = H.f b := by
                  intro b hb
                  rw [f_removeH, if_neg hb]
                have hrtl1 : RT (removeH H a) nd.left tl :=
                  RT_congr_f hl (fun b hb =>
                    hfr1 b (by rintro rfl; exact hna (by simp [hb])))
                have hrtr1 : RT (removeH H a) nd.right tr :=
                  RT_congr_f hr (fun b hb =>
                    hfr1 b (by rintro rfl; exact hna (by simp [hb])))
                rcases ihl fuel (removeH H a) roots (pushP nd.right P) nd.left
                    hwf1 hrtl1 hntl hrc1 hhl with
                  ⟨hwf2, hrc2, hfr2, hcore2, hdom2, hnext2⟩
                set H2 := decRefO fuel (removeH H a) nd.left with hH2
                have hrtr2 : RT H2 nd.right tr :=
                  RT_congr_f hrtr1 (fun b hb =>
                    hfr2 b (fun hbl => absurd hb (hdisj hbl)))
                rcases ihr fuel H2 roots P nd.right hwf2 hrtr2 hntr hrc2
                    hhr with ⟨hwf3, hrc3, hfr3, hcore3, hdom3, hnext3⟩
                refine ⟨hwf3, hrc3, ?_, ?_, ?_, ?_⟩
                · intro b hb
                  simp only [addrsT, List.mem_cons, List.mem_append] at hb
                  push_neg at hb
                  rw [hfr3 b hb.2.2, hfr2 b hb.2.1, hfr1 b hb.1]
                · intro b hsome
                  have hb2 : (H2.f b).isSome = true := by
                    have hbdom := hdom3 b ((hwf3.domOK b).1 hsome)
                    exact (hwf2.domOK b).2 hbdom
                  have e3 := hcore3 b hsome
                  have e2 := hcore2 b hb2
                  have hb1 : ((removeH H a).f b).isSome = true := by
                    have hbdom := hdom2 b ((hwf2.domOK b).1 hb2)
                    exact (hwf1.domOK b).2 hbdom
                  have hba : b ≠ a := by
                    intro h
                    subst h
                    rw [f_removeH, if_pos rfl] at hb1
                    cases hb1
                  rw [e3, e2, hfr1 b hba]
                · intro b hb
                  have hb2 := hdom2 b (hdom3 b hb)
                  rw [dom_removeH, List.mem_filter] at hb2
                  exact hb2.1
                · rw [hnext3, hnext2]
                  rfl
              · rw [if_neg hshared]
                -- shared: only decrement
                set H' := writeH H a { nd with rc := nd.rc - 1 } with hH'
                have hfb : ∀ b, b ≠ a → H'.f b = H.f b := by
                  intro b hb
                  rw [hH', f_writeH, if_neg hb]
                have hfa : H'.f a = some { nd with rc := nd.rc - 1 } := by
                  rw [hH', f_writeH, if_pos rfl]
                have hcore : ∀ b, (H'.f b).map nodeCore = (H.f b).map nodeCore := by
                  intro b
                  by_cases hba : b = a
                  · subst hba
                    rw [hfa, ← lookupH_eq, hlook]
                    rfl
                  · rw [hfb b hba]
                have hsome : ∀ b, ((H'.f b).isSome = true) ↔ ((H.f b).isSome = true) := by
                  intro b
                  by_cases hba : b = a
                  · subst hba
                    rw [hfa, ← lookupH_eq, hlook]
                    simp
                  · rw [hfb b hba]
                have hwf' : HWF H' := HWF_congr H H' hwf rfl rfl hsome hcore
                have hinc : ∀ x, incoming H' roots x = incoming H roots x := by
                  intro x
                  simp only [incoming]
                  rw [incomingN_congr H H' rfl (fun b _ => hcore b) x]
                refine ⟨hwf', ?_, ?_, fun b _ => hcore b, fun b hb => hb, rfl⟩
                · intro b m hm
                  rw [lookupH_eq] at hm
                  by_cases hba : b = a
                  · subst hba
                    rw [hfa] at hm
                    cases hm
                    have hacc := hrc b nd hlook
                    simp only [pushP, List.count_cons, beq_self_eq_true,
                      if_true] at hacc
                    rw [hinc b]
                    simp only
                    omega
                  · rw [hfb b hba] at hm
                    have hacc := hrc b m (by rw [lookupH_eq, hm])
                    simp only [pushP, List.count_cons, beq_iff_eq,
                      if_neg (Ne.symm hba)] at hacc
                    rw [hinc b]
                    omega
                · intro b hb
                  refine hfb b ?_
                  rintro rfl
                  exact hb (by simp [addrsT])

/-- Annotated version of the splay rewrite `splay_to_top`: identical shape
juggling, carrying the node addresses along. -/
def splayA : List (AEntry T) → Tree (Nat × T) → (Nat × T) → Tree (Nat × T) →
    Tree (Nat × T)
  | [], A, nv, B => .node A nv B
  | [⟨false, pa, pv, C⟩], A, nv, B => .node A nv (.node B (pa, pv) C)
  | [⟨true, pa, pv, A2⟩], B, nv, C => .node (.node A2 (pa, pv) B) nv C
  | ⟨false, pa, pv, C⟩ :: ⟨false, ga, gv, D⟩ :: rest, A, nv, B =>
      splayA rest A nv (.node B (pa, pv) (.node C (ga, gv) D))
  | ⟨true, pa, pv, A2⟩ :: ⟨false, ga, gv, D⟩ :: rest, B, nv, C =>
      splayA rest (.node A2 (pa, pv) B) nv (.node C (ga, gv) D)
  | ⟨false, pa, pv, D⟩ :: ⟨true, ga, gv, A2⟩ :: rest, B, nv, C =>
      splayA rest (.node A2 (ga, gv) B) nv (.node C (pa, pv) D)
  | ⟨true, pa, pv, B2⟩ :: ⟨true, ga, gv, A2⟩ :: rest, C, nv, D =>
      splayA rest (.node (.node A2 (ga, gv) B2) (pa, pv) C) nv D

theorem stripT_splayA (aes : List (AEntry T)) (A : Tree (Nat × T))
    (nv : Nat × T) (B : Tree (Nat × T)) :
    stripT (splayA aes A nv B) =
      splay_to_top (aes.map AEntry.toEntry) (stripT A) nv.2 (stripT B) := by
  induction aes, A, nv, B using splayA.induct <;>
    simp [splayA, splay_to_top, AEntry.toEntry, stripT_node, stripT_node2, *]

/-- The address multiset of an annotated tree. -/
def maddrs (t : Tree (Nat × T)) : Multiset Nat := (addrsT t : Multiset Nat)

theorem maddrs_leaf : maddrs (.leaf : Tree (Nat × T)) = 0 := rfl

theorem maddrs_node (l : Tree (Nat × T)) (a : Nat) (v : T)
    (r : Tree (Nat × T)) :
    maddrs (.node l (a, v) r) = {a} + maddrs l + maddrs r := by
  simp [maddrs, addrsT, Multiset.singleton_add, add_assoc]

theorem maddrs_aplug_congr (aes : List (AEntry T)) {X Y : Tree (Nat × T)}
    (h : maddrs X = maddrs Y) :
    maddrs (aplug aes X) = maddrs (aplug aes Y) := by
  induction aes generalizing X Y with
  | nil => exact h
  | cons e rest ih =>
      simp only [aplug]
      refine ih ?_
      rcases e with ⟨d, a, v, o⟩
      cases d <;> simp [AEntry.reattachA, maddrs_node, h]

/-- The address multiset of the splayed tree is exactly that of the plugged
zipper: the rewrite moves the subtrees, never duplicating or dropping one. -/
theorem maddrs_splayA (aes : List (AEntry T)) (A : Tree (Nat × T))
    (nv : Nat × T) (B : Tree (Nat × T)) :
    maddrs (splayA aes A nv B) = maddrs (aplug aes (.node A nv B)) := by
  induction aes, A, nv, B using splayA.induct with
  | case1 A nv B => rfl
  | case2 pa pv C A nv B =>
      rcases nv with ⟨n, v⟩
      simp only [splayA, aplug, AEntry.reattachA]
      simp [maddrs_node, Multiset.singleton_add, Multiset.cons_swap,
        add_comm, add_left_comm, add_assoc]
  | case3 pa pv A2 B nv C =>
      rcases nv with ⟨n, v⟩
      simp only [splayA, aplug, AEntry.reattachA]
      simp [maddrs_node, Multiset.singleton_add, Multiset.cons_swap,
        add_comm, add_left_comm, add_assoc]
  | case4 pa pv C ga gv D rest A nv B ih =>
      rcases nv with ⟨n, v⟩
      simp only [splayA, aplug, AEntry.reattachA] at ih ⊢
      rw [ih]
      refine maddrs_aplug_congr rest ?_
      simp [maddrs_node, Multiset.singleton_add, Multiset.cons_swap,
        add_comm, add_left_comm, add_assoc]
  | case5 pa pv A2 ga gv D rest B nv C ih =>
      rcases nv with ⟨n, v⟩
      simp only [splayA, aplug, AEntry.reattachA] at ih ⊢
      rw [ih]
      refine maddrs_aplug_congr rest ?_
      simp [maddrs_node, Multiset.singleton_add, Multiset.cons_swap,
        add_comm, add_left_comm, add_assoc]
  | case6 pa pv D ga gv A2 rest B nv C ih =>
      rcases nv with ⟨n, v⟩
      simp only [splayA, aplug, AEntry.reattachA] at ih ⊢
      rw [ih]
      refine maddrs_aplug_congr rest ?_
      simp [maddrs_node, Multiset.singleton_add, Multiset.cons_swap,
        add_comm, add_left_comm, add_assoc]
  | case7 pa pv B2 ga gv A2 rest C nv D ih =>
      rcases nv with ⟨n, v⟩
      simp only [splayA, aplug, AEntry.reattachA] at ih ⊢
      rw [ih]
      refine maddrs_aplug_congr rest ?_
      simp [maddrs_node, Multiset.singleton_add, Multiset.cons_swap,
        add_comm, add_left_comm, add_assoc]

/-- The addresses appearing in a zipper context: entry nodes and their
sibling subtrees. -/
def zipL : List (AEntry T) → List Nat
  | [] => []
  | e :: rest => e.addr :: (addrsT e.other ++ zipL rest)

theorem maddrs_aplug (aes : List (AEntry T)) (t : Tree (Nat × T)) :
    maddrs (aplug aes t) = maddrs t + (zipL aes : Multiset Nat) := by
  induction aes generalizing t with
  | nil => simp [aplug, zipL]
  | cons e rest ih =>
      simp only [aplug, zipL]
      rw [ih]
      rcases e with ⟨d, a, v, o⟩
      have h3 : ((a :: (addrsT o ++ zipL rest) : List Nat) : Multiset Nat)
          = {a} + ((addrsT o : Multiset Nat) + (zipL rest : Multiset Nat)) := by
        simp [Multiset.singleton_add]
      rw [h3]
      cases d <;>
      · simp [AEntry.reattachA, maddrs_node, maddrs, add_comm, add_left_comm,
          add_assoc]
        refine List.perm_iff_count.2 (fun x => ?_)
        simp [List.count_append, List.count_cons, addrsT]
        omega

/-- The chain of already-recorded path nodes above the current position:
deepest entry first, each entry's descent slot pointing at the previous
element (`x` for the head), each singly referenced, siblings represented. -/
def linkAbove (H : Heap T) (root : Option Nat) :
    List (AEntry T) → Nat → Prop
  | [], x => root = some x
  | e :: rest, x =>
      ∃ ne, lookupH H e.addr = some ne ∧ ne.rc = 1 ∧ ne.value = e.value ∧
        (if e.m_right then ne.right = some x ∧ RT H ne.left e.other
         else ne.left = some x ∧ RT H ne.right e.other) ∧
        linkAbove H root rest e.addr

/-- The mid-splay accounting view: the deepest remaining entry's descent slot
(or the handle root when no entry remains) is redirected to the splay
target. -/
def adjust (H : Heap T) (root : Option Nat) (aes : List (AEntry T))
    (n : Nat) : Heap T × Option Nat :=
  match aes with
  | [] => (H, some n)
  | e :: _ =>
      match lookupH H e.addr with
      | some ne =>
          (writeH H e.addr
            (if e.m_right then { ne with right := some n }
             else { ne with left := some n }), root)
      | none => (H, root)

theorem HWF_writeH (H : Heap T) (hwf : HWF H) (a : Nat) (m : HNode T)
    (ha : (H.f a).isSome = true) (hl : okPtr H m.left)
    (hr : okPtr H m.right) : HWF (writeH H a m) := by
  have hsome : ∀ b, (((writeH H a m).f b).isSome = true) ↔
      ((H.f b).isSome = true) := by
    intro b
    rw [f_writeH]
    by_cases hba : b = a
    · subst hba
      simp [ha]
    · rw [if_neg hba]
  refine ⟨hwf.nodup, ?_, hwf.fresh, ?_⟩
  · intro b
    rw [dom_writeH, hsome b]
    exact hwf.domOK b
  · intro b m' hm'
    rw [f_writeH] at hm'
    by_cases hba : b = a
    · rw [if_pos hba] at hm'
      cases hm'
      constructor
      · intro cAddr hc
        rw [lookupH_eq, f_writeH]
        split
        · rfl
        · exact hl cAddr hc
      · intro cAddr hc
        rw [lookupH_eq, f_writeH]
        split
        · rfl
        · exact hr cAddr hc
    · rw [if_neg hba] at hm'
      rcases hwf.cvalid b m' hm' with ⟨hvl, hvr⟩
      constructor
      · intro cAddr hc
        rw [lookupH_eq, f_writeH]
        split
        · rfl
        · exact hvl cAddr hc
      · intro cAddr hc
        rw [lookupH_eq, f_writeH]
        split
        · rfl
        · exact hvr cAddr hc

theorem linkAbove_congr {H H' : Heap T} {root : Option Nat}
    {aes : List (AEntry T)} {x : Nat}
    (h : linkAbove H root aes x)
    (hagree : ∀ b ∈ zipL aes, H'.f b = H.f b) :
    linkAbove H' root aes x := by
  induction aes generalizing x with
  | nil => exact h
  | cons e rest ih =>
      rcases h with ⟨ne, hne, hrc, hval, hslot, hrest⟩
      refine ⟨ne, ?_, hrc, hval, ?_, ?_⟩
      · rw [lookupH_eq, hagree e.addr (by simp [zipL]), ← lookupH_eq]
        exact hne
      · split at hslot <;> rename_i hd
        · rw [if_pos hd]
          exact ⟨hslot.1, RT_congr_f hslot.2
            (fun b hb => hagree b (by simp [zipL, hb]))⟩
        · rw [if_neg hd]
          exact ⟨hslot.1, RT_congr_f hslot.2
            (fun b hb => hagree b (by simp [zipL, hb]))⟩
      · exact ih hrest (fun b hb => hagree b (by simp [zipL, hb]))

theorem setChildren_eq (H : Heap T) (a : Nat) (m : HNode T)
    (hm : lookupH H a = some m) (l r : Option Nat) :
    setChildren H a l r =
      (writeH H a { m with left := l, right := r }, decide (m.rc ≤ 1)) := by
  simp [setChildren, hm]

theorem rc_writeH_children (H : Heap T) (a : Nat) (m : HNode T)
    (hm : H.f a = some m) (l r : Option Nat) (b : Nat) :
    ((writeH H a { m with left := l, right := r }).f b).map HNode.rc
      = (H.f b).map HNode.rc := by
  rw [f_writeH]
  by_cases hba : b = a
  · subst hba
    rw [if_pos rfl, hm]
    rfl
  · rw [if_neg hba]

theorem rcCorrect_ext (H H' : Heap T) (hf : ∀ b, H'.f b = H.f b)
    (hdom : H'.dom = H.dom) (R : List (Option Nat)) (h : rcCorrect H R) :
    rcCorrect H' R := by
  intro a m hm
  rw [lookupH_eq, hf a, ← lookupH_eq] at hm
  have := h a m hm
  rw [this]
  simp only [incoming, incomingN, hdom]
  congr 1
  congr 1
  refine List.map_congr_left ?_
  intro b _
  rw [hf b]

theorem RT_det {H : Heap T} {oa : Option Nat} {t1 t2 : Tree (Nat × T)}
    (h1 : RT H oa t1) (h2 : RT H oa t2) : t1 = t2 := by
  induction h1 generalizing t2 with
  | leaf => cases h2 <;> rfl
  | node hl htl htr ihl ihr =>
      rename_i a nd tl tr
      cases h2 with
      | node hl' htl' htr' =>
          rename_i nd' tl' tr'
          rw [hl] at hl'
          cases hl'
          rw [ihl htl', ihr htr']

end HeapModel

end SplayTree
namespace SplayTree
namespace HeapModel
variable {T : Type}

/-- Inversion of the representation relation at a non-null pointer. -/
theorem RT_node_inv {H : Heap T} {a : Nat} {l r : Tree (Nat × T)}
    {p : Nat × T} (h : RT H (some a) (.node l p r)) :
    ∃ nd, lookupH H a = some nd ∧ p = (a, nd.value) ∧
      RT H nd.left l ∧ RT H nd.right r := by
  cases h with
  | node hl htl htr => exact ⟨_, hl, rfl, htl, htr⟩

/-- `incomingN_writeH` needing only the duplicate-freeness of the domain. -/
theorem incomingN_writeH_nd (H : Heap T) (hnd : H.dom.Nodup) (a : Nat)
    (ha : a ∈ H.dom) (n : HNode T) (x : Nat) :
    incomingN (writeH H a n) x + slotCountO (H.f a) x
      = incomingN H x + slotCount n x := by
  simp only [incomingN, writeH]
  have := sum_map_update H.dom hnd a ha
    (fun b => slotCountO (Function.update H.f a (some n) b) x)
    (fun b => slotCountO (H.f b) x)
    (fun b _ hba => by simp only [Function.update_noteq hba])
  simp only [Function.update_same, slotCountO_some] at this
  omega

/-- The reference balance of a single in-place child rewrite. -/
theorem incoming_writeH (H : Heap T) (hnd : H.dom.Nodup) (a : Nat)
    (ha : a ∈ H.dom) (old : HNode T) (hold : H.f a = some old)
    (m : HNode T) (roots : List (Option Nat)) (x : Nat) :
    incoming (writeH H a m) roots x + slotCount old x
      = incoming H roots x + slotCount m x := by
  have := incomingN_writeH_nd H hnd a ha m x
  rw [hold, slotCountO_some] at this
  simp only [incoming]
  omega

/-- The reference balance of two successive in-place child rewrites at
distinct addresses. -/
theorem incoming_writeH2 (H : Heap T) (hnd : H.dom.Nodup)
    (a1 a2 : Nat) (h21 : a2 ≠ a1)
    (m1 m2 w1 w2 : HNode T)
    (hm1 : H.f a1 = some m1) (hm2 : H.f a2 = some m2)
    (ha1 : a1 ∈ H.dom) (ha2 : a2 ∈ H.dom)
    (R : List (Option Nat)) (x : Nat) :
    incoming (writeH (writeH H a1 w1) a2 w2) R x
        + (slotCount m1 x + slotCount m2 x)
      = incoming H R x + (slotCount w1 x + slotCount w2 x) := by
  have e1 := incoming_writeH H hnd a1 ha1 m1 hm1 w1 R x
  have h2f : (writeH H a1 w1).f a2 = some m2 := by
    rw [f_writeH, if_neg h21]
    exact hm2
  have e2 := incoming_writeH (writeH H a1 w1) hnd a2 ha2 m2 h2f w2 R x
  omega

/-- The reference balance of three successive in-place child rewrites at
pairwise distinct addresses. -/
theorem incoming_writeH3 (H : Heap T) (hnd : H.dom.Nodup)
    (a1 a2 a3 : Nat) (h21 : a2 ≠ a1) (h31 : a3 ≠ a1) (h32 : a3 ≠ a2)
    (m1 m2 m3 w1 w2 w3 : HNode T)
    (hm1 : H.f a1 = some m1) (hm2 : H.f a2 = some m2)
    (hm3 : H.f a3 = some m3)
    (ha1 : a1 ∈ H.dom) (ha2 : a2 ∈ H.dom) (ha3 : a3 ∈ H.dom)
    (R : List (Option Nat)) (x : Nat) :
    incoming (writeH (writeH (writeH H a1 w1) a2 w2) a3 w3) R x
        + (slotCount m1 x + slotCount m2 x + slotCount m3 x)
      = incoming H R x
        + (slotCount w1 x + slotCount w2 x + slotCount w3 x) := by
  have e12 := incoming_writeH2 H hnd a1 a2 h21 m1 m2 w1 w2 hm1 hm2 ha1 ha2 R x
  have h3f : (writeH (writeH H a1 w1) a2 w2).f a3 = some m3 := by
    rw [f_writeH, if_neg h32, f_writeH, if_neg h31]
    exact hm3
  have e3 := incoming_writeH (writeH (writeH H a1 w1) a2 w2) hnd a3 ha3 m3
    h3f w3 R x
  omega

/-- In-place writes never invalidate a pointer. -/
theorem okPtr_writeH (H : Heap T) (a : Nat) (m : HNode T)
    {o : Option Nat} (h : okPtr H o) : okPtr (writeH H a m) o := by
  intro x hx
  rw [lookupH_eq, f_writeH]
  split
  · rfl
  · exact h x hx

/-- Refcount correctness transfers across a heap change that preserves every
stored reference count and every reference total. -/
theorem rcCorrect_transfer (H H' : Heap T) (R R' : List (Option Nat))
    (hrcmap : ∀ b, ((H'.f b).map HNode.rc) = ((H.f b).map HNode.rc))
    (hpoint : ∀ x, incoming H' R' x = incoming H R x)
    (h : rcCorrect H R) : rcCorrect H' R' := by
  intro a m hm
  have hmap := hrcmap a
  rw [lookupH_eq] at hm
  rw [hm] at hmap
  cases hm0 : H.f a with
  | none => rw [hm0] at hmap; cases hmap
  | some m0 =>
      rw [hm0] at hmap
      have hrcs : m.rc = m0.rc := by simpa using hmap
      rw [hrcs, hpoint a]
      exact h a m0 (by rw [lookupH_eq]; exact hm0)

/-- The duplicate-freeness of a plugged zipper, read as a flat list. -/
theorem nodup_split (aes : List (AEntry T)) (t : Tree (Nat × T))
    (h : (maddrs (aplug aes t)).Nodup) :
    (addrsT t ++ zipL aes).Nodup := by
  have he : maddrs (aplug aes t)
      = ((addrsT t ++ zipL aes : List Nat) : Multiset Nat) := by
    rw [maddrs_aplug]
    simp [maddrs]
  rw [he] at h
  exact Multiset.coe_nodup.1 h

/-- The reference held by the slot that `adjust` redirects: the handle root
when no path entry remains, otherwise the deepest entry's descent slot. -/
def staleCount (H : Heap T) (root : Option Nat) (aes : List (AEntry T))
    (x : Nat) : Nat :=
  match aes with
  | [] => if root = some x then 1 else 0
  | e :: _ =>
      match lookupH H e.addr with
      | some ne =>
          if (if e.m_right then ne.right else ne.left) = some x then 1 else 0
      | none => 0

/-- Redirecting the deepest slot to the splay target trades the stale
reference for one to the target. -/
theorem incoming_adjust (H : Heap T) (hnd : H.dom.Nodup)
    (hdom : ∀ a m, H.f a = some m → a ∈ H.dom)
    (root : Option Nat) (aes : List (AEntry T)) (n : Nat)
    (hne : ∀ e aes', aes = e :: aes' → (lookupH H e.addr).isSome = true)
    (others : List (Option Nat)) (x : Nat) :
    incoming (adjust H root aes n).1 ((adjust H root aes n).2 :: others) x
        + staleCount H root aes x
      = incoming H (root :: others) x + (if n = x then 1 else 0) := by
  match aes with
  | [] =>
      simp only [adjust, staleCount]
      rw [incoming, incoming, rootCount_cons, rootCount_cons]
      simp only [Option.some.injEq]
      linarith
  | e :: aes' =>
      have hs := hne e aes' rfl
      cases hle : lookupH H e.addr with
      | none => rw [hle] at hs; cases hs
      | some ne =>
          have hea : e.addr ∈ H.dom := hdom e.addr ne hle
          simp only [adjust, staleCount, hle]
          cases hd : e.m_right
          · simp only [hd, Bool.false_eq_true, if_false]
            have e1 := incoming_writeH H hnd e.addr hea ne hle
              { ne with left := some n } (root :: others) x
            simp only [slotCount] at e1
            simp only [Option.some.injEq] at e1 ⊢
            linarith
          · simp only [hd, if_true]
            have e1 := incoming_writeH H hnd e.addr hea ne hle
              { ne with right := some n } (root :: others) x
            simp only [slotCount] at e1
            simp only [Option.some.injEq] at e1 ⊢
            linarith

/-- The redirection never touches a reference count. -/
theorem rcmap_adjust (H : Heap T) (root : Option Nat)
    (aes : List (AEntry T)) (n : Nat) (b : Nat) :
    (((adjust H root aes n).1.f b).map HNode.rc) = ((H.f b).map HNode.rc) := by
  match aes with
  | [] => rfl
  | e :: _ =>
      cases hle : lookupH H e.addr with
      | none => simp [adjust, hle]
      | some ne =>
          simp only [adjust, hle]
          cases hd : e.m_right
          · simp only [hd, Bool.false_eq_true, if_false]
            exact rc_writeH_children H e.addr ne hle (some n) ne.right b
          · simp only [hd, if_true]
            exact rc_writeH_children H e.addr ne hle ne.left (some n) b

/-- Along a linked path the stale slot always holds the previous descent
position. -/
theorem staleCount_eq (H : Heap T) (root : Option Nat)
    (aes : List (AEntry T)) (g : Nat) (hlink : linkAbove H root aes g)
    (x : Nat) :
    staleCount H root aes x
      = if (some g : Option Nat) = some x then 1 else 0 := by
  match aes with
  | [] =>
      simp only [linkAbove] at hlink
      simp only [staleCount, hlink]
  | e :: rest =>
      rcases hlink with ⟨ne, hne, _, _, hslot, _⟩
      simp only [staleCount, hne]
      split at hslot <;> rename_i hd
      · rw [if_pos hd, hslot.1]
      · rw [if_neg hd, hslot.1]

/-- The hypotheses carried through the splay loop: well-formed heap, the
recorded path linked above the target, a represented target node that is
singly referenced, duplicate-free addresses, and refcount correctness of the
redirected view. -/
def splayPre (H : Heap T) (root : Option Nat) (others : List (Option Nat))
    (y : Nat) (aes : List (AEntry T)) (A : Tree (Nat × T)) (nvp : Nat × T)
    (B : Tree (Nat × T)) : Prop :=
  HWF H ∧ linkAbove H root aes y ∧ RT H (some nvp.1) (.node A nvp B) ∧
    (∀ m, lookupH H nvp.1 = some m → m.rc = 1) ∧
    (maddrs (aplug aes (.node A nvp B))).Nodup ∧
    rcCorrect (adjust H root aes nvp.1).1 ((adjust H root aes nvp.1).2 :: others)

/-- What the splay loop guarantees: the rotated tree is represented at the
target, every mutation assertion passed, refcounts are correct with the
target as the new root, the heap stays well formed with unchanged domain,
off-path nodes are untouched, and no reference count changes at all. -/
def splayPost (H : Heap T) (others : List (Option Nat))
    (aes : List (AEntry T)) (A : Tree (Nat × T)) (nvp : Nat × T)
    (B : Tree (Nat × T)) : Prop :=
  RT (splayH H (aes.map AEntry.toPair) nvp.1).1 (some nvp.1)
      (splayA aes A nvp B) ∧
  (splayH H (aes.map AEntry.toPair) nvp.1).2 = true ∧
  rcCorrect (splayH H (aes.map AEntry.toPair) nvp.1).1 (some nvp.1 :: others) ∧
  HWF (splayH H (aes.map AEntry.toPair) nvp.1).1 ∧
  (splayH H (aes.map AEntry.toPair) nvp.1).1.dom = H.dom ∧
  (splayH H (aes.map AEntry.toPair) nvp.1).1.next = H.next ∧
  (∀ b, b ∉ aes.map AEntry.addr → b ≠ nvp.1 →
    (splayH H (aes.map AEntry.toPair) nvp.1).1.f b = H.f b) ∧
  (∀ b, ((splayH H (aes.map AEntry.toPair) nvp.1).1.f b).map HNode.rc
    = (H.f b).map HNode.rc)

set_option maxHeartbeats 800000 in
/-- Final zig left step of the splay loop. -/
theorem splayH_step_zigL (pa : Nat) (pv : T) (C A B : Tree (Nat × T)) (n : Nat) (nv : T) :
    ∀ (H : Heap T) (root : Option Nat) (others : List (Option Nat)) (y : Nat),
    splayPre H root others y
      [(⟨false, pa, pv, C⟩ : AEntry T)] A (n, nv) B →
    splayPost H others
      [(⟨false, pa, pv, C⟩ : AEntry T)] A (n, nv) B := by
      -- zig left: (p (n A B) C) ==> (n A (p B C))
      intro H root others y hpre
      obtain ⟨hwf, hlink, hRT, hnrc, hnd, hrc⟩ := hpre
      unfold splayPost
      dsimp only at hnrc hnd hrc ⊢
      rcases hlink with ⟨pn, hpn, hprc, hpval, hslot, hroot⟩
      simp only [if_neg (Bool.false_ne_true)] at hslot
      rcases hslot with ⟨hpleft, hpC⟩
      simp only [linkAbove] at hroot
      subst hroot
      subst hpval
      rcases RT_node_inv hRT with ⟨nn, hnn, hp, hA, hB⟩
      injection hp with hp1 hnval
      subst hnval
      have hpn' : H.f pa = some pn := hpn
      have hnn' : H.f n = some nn := hnn
      have hnnrc : nn.rc = 1 := hnrc nn hnn
      -- distinctness of the touched addresses and the preserved subtrees
      have hnd2 := nodup_split _ _ hnd
      simp only [addrsT, zipL, List.append_nil, List.cons_append] at hnd2
      rcases List.nodup_cons.1 hnd2 with ⟨hn_notin, hnd3⟩
      rcases List.nodup_append.1 hnd3 with ⟨hndAB, hndpaC, hdisj⟩
      have hnpa : n ≠ pa := fun h => hn_notin (by simp [h])
      have hnA : n ∉ addrsT A := fun h => hn_notin (by simp [h])
      have hnB : n ∉ addrsT B := fun h => hn_notin (by simp [h])
      have hnC : n ∉ addrsT C := fun h => hn_notin (by simp [h])
      have hpaA : pa ∉ addrsT A :=
        fun h => hdisj (List.mem_append_left _ h) (by simp)
      have hpaB : pa ∉ addrsT B :=
        fun h => hdisj (List.mem_append_right _ h) (by simp)
      have hpaC : pa ∉ addrsT C := (List.nodup_cons.1 hndpaC).1
      -- the two in-place writes
      have hlook2 : lookupH (writeH H pa
          { pn with left := nn.right, right := pn.right }) n = some nn := by
        rw [lookupH_eq, f_writeH, if_neg hnpa]
        exact hnn'
      have hsplay : splayH H (List.map AEntry.toPair
            [(⟨false, pa, pn.value, C⟩ : AEntry T)]) n
          = (writeH (writeH H pa { pn with left := nn.right, right := pn.right })
                n { nn with left := nn.left, right := some pa },
              decide (pn.rc ≤ 1) && decide (nn.rc ≤ 1)) := by
        show splayH H [(false, pa)] n = _
        simp only [splayH, hnn, hpn]
        rw [if_neg (Bool.false_ne_true)]
        rw [setChildren_eq H pa pn hpn nn.right pn.right]
        rw [setChildren_eq _ n nn hlook2 nn.left (some pa)]
      rw [hsplay]
      dsimp only
      -- the adjusted pre-state
      simp only [adjust, hpn, if_neg (Bool.false_ne_true)] at hrc
      have hdomn : n ∈ H.dom := (hwf.domOK n).1 (by rw [hnn']; rfl)
      have hdompa : pa ∈ H.dom := (hwf.domOK pa).1 (by rw [hpn']; rfl)
      have hwf1 : HWF (writeH H pa
          { pn with left := nn.right, right := pn.right }) :=
        HWF_writeH H hwf pa _ (by rw [hpn']; rfl)
          ((hwf.cvalid n nn hnn').2) ((hwf.cvalid pa pn hpn').2)
      have hwf2 : HWF (writeH (writeH H pa
          { pn with left := nn.right, right := pn.right })
            n { nn with left := nn.left, right := some pa }) := by
        refine HWF_writeH _ hwf1 n _ ?_ ?_ ?_
        · rw [f_writeH, if_neg hnpa, hnn']; rfl
        · exact okPtr_writeH _ _ _ ((hwf.cvalid n nn hnn').1)
        · intro a ha
          injection ha with ha
          subst ha
          rw [lookupH_eq, f_writeH, if_pos rfl]
          rfl
      have hframe : ∀ b, b ≠ n → b ≠ pa →
          (writeH (writeH H pa { pn with left := nn.right, right := pn.right })
            n { nn with left := nn.left, right := some pa }).f b = H.f b := by
        intro b hbn hbpa
        rw [f_writeH, if_neg hbn, f_writeH, if_neg hbpa]
      have hrcmap : ∀ b,
          (((writeH (writeH H pa
              { pn with left := nn.right, right := pn.right })
              n { nn with left := nn.left, right := some pa }).f b).map
            HNode.rc) = ((H.f b).map HNode.rc) := by
        intro b
        rw [rc_writeH_children _ n nn (by rw [f_writeH, if_neg hnpa]; exact hnn')
          nn.left (some pa) b]
        rw [rc_writeH_children H pa pn hpn' nn.right pn.right b]
      refine ⟨?_, ?_, ?_, hwf2, rfl, rfl, ?_, hrcmap⟩
      · -- representation of the rotated tree
        show RT _ (some n) (.node A (n, nn.value) (.node B (pa, pn.value) C))
        have hAgree : ∀ X : Tree (Nat × T), n ∉ addrsT X → pa ∉ addrsT X →
            ∀ b ∈ addrsT X,
            (writeH (writeH H pa
              { pn with left := nn.right, right := pn.right })
              n { nn with left := nn.left, right := some pa }).f b = H.f b := by
          intro X hX1 hX2 b hb
          exact hframe b (fun h => hX1 (h ▸ hb)) (fun h => hX2 (h ▸ hb))
        have hA2 : RT _ nn.left A := RT_congr_f hA (hAgree A hnA hpaA)
        have hB2 : RT _ nn.right B := RT_congr_f hB (hAgree B hnB hpaB)
        have hC2 : RT _ pn.right C := RT_congr_f hpC (hAgree C hnC hpaC)
        have hlookpa : lookupH (writeH (writeH H pa
            { pn with left := nn.right, right := pn.right })
            n { nn with left := nn.left, right := some pa }) pa
            = some { pn with left := nn.right, right := pn.right } := by
          rw [lookupH_eq, f_writeH, if_neg (fun h => hnpa h.symm), f_writeH,
            if_pos rfl]
        have hlookn : lookupH (writeH (writeH H pa
            { pn with left := nn.right, right := pn.right })
            n { nn with left := nn.left, right := some pa }) n
            = some { nn with left := nn.left, right := some pa } := by
          rw [lookupH_eq, f_writeH, if_pos rfl]
        have hsub : RT (writeH (writeH H pa
            { pn with left := nn.right, right := pn.right })
            n { nn with left := nn.left, right := some pa }) (some pa)
            (.node B (pa, pn.value) C) :=
          @RT.node T _ pa { pn with left := nn.right, right := pn.right }
            B C hlookpa hB2 hC2
        exact @RT.node T _ n { nn with left := nn.left, right := some pa }
          A (.node B (pa, pn.value) C) hlookn hA2 hsub
      · -- every mutated node was singly referenced
        simp [hprc, hnnrc]
      · -- refcount correctness with the new root
        refine rcCorrect_transfer _ _ _ _
          (fun b => by
            rw [hrcmap b,
              ← rc_writeH_children H pa pn hpn' (some n) pn.right b])
          (fun x => ?_) hrc
        have e1 := incoming_writeH H hwf.nodup pa hdompa pn hpn'
          { pn with left := some n } (some pa :: others) x
        have e2 := incoming_writeH2 H hwf.nodup pa n hnpa pn nn
          { pn with left := nn.right, right := pn.right }
          { nn with left := nn.left, right := some pa }
          hpn' hnn' hdompa hdomn (some n :: others) x
        have er1 : incoming H (some pa :: others) x
            = incomingN H x + ((if (some pa : Option Nat) = some x then 1
                else 0) + rootCount others x) := by
          rw [incoming, rootCount_cons]
        have er2 : incoming H (some n :: others) x
            = incomingN H x + ((if (some n : Option Nat) = some x then 1
                else 0) + rootCount others x) := by
          rw [incoming, rootCount_cons]
        simp only [slotCount] at e1 e2
        rw [er1] at e1
        rw [er2] at e2
        linarith
      · intro b hb hbn
        simp only [List.map_cons, List.map_nil, List.mem_cons,
          List.not_mem_nil] at hb
        exact hframe b hbn (fun h => hb (Or.inl h))
set_option maxHeartbeats 800000 in
/-- Final zig right step of the splay loop. -/
theorem splayH_step_zigR (pa : Nat) (pv : T) (A2 B C : Tree (Nat × T)) (n : Nat) (nv : T) :
    ∀ (H : Heap T) (root : Option Nat) (others : List (Option Nat)) (y : Nat),
    splayPre H root others y
      [(⟨true, pa, pv, A2⟩ : AEntry T)] B (n, nv) C →
    splayPost H others
      [(⟨true, pa, pv, A2⟩ : AEntry T)] B (n, nv) C := by
      -- zig right: (p A (n B C)) ==> (n (p A B) C)
      intro H root others y hpre
      obtain ⟨hwf, hlink, hRT, hnrc, hnd, hrc⟩ := hpre
      unfold splayPost
      dsimp only at hnrc hnd hrc ⊢
      rcases hlink with ⟨pn, hpn, hprc, hpval, hslot, hroot⟩
      simp only [if_pos rfl] at hslot
      rcases hslot with ⟨hpright, hpA2⟩
      simp only [linkAbove] at hroot
      subst hroot
      subst hpval
      rcases RT_node_inv hRT with ⟨nn, hnn, hp, hB, hC⟩
      injection hp with hp1 hnval
      subst hnval
      have hpn' : H.f pa = some pn := hpn
      have hnn' : H.f n = some nn := hnn
      have hnnrc : nn.rc = 1 := hnrc nn hnn
      have hnd2 := nodup_split _ _ hnd
      simp only [addrsT, zipL, List.append_nil, List.cons_append] at hnd2
      rcases List.nodup_cons.1 hnd2 with ⟨hn_notin, hnd3⟩
      rcases List.nodup_append.1 hnd3 with ⟨hndBC, hndpaA2, hdisj⟩
      have hnpa : n ≠ pa := fun h => hn_notin (by simp [h])
      have hnB : n ∉ addrsT B := fun h => hn_notin (by simp [h])
      have hnC : n ∉ addrsT C := fun h => hn_notin (by simp [h])
      have hnA2 : n ∉ addrsT A2 := fun h => hn_notin (by simp [h])
      have hpaB : pa ∉ addrsT B :=
        fun h => hdisj (List.mem_append_left _ h) (by simp)
      have hpaC : pa ∉ addrsT C :=
        fun h => hdisj (List.mem_append_right _ h) (by simp)
      have hpaA2 : pa ∉ addrsT A2 := (List.nodup_cons.1 hndpaA2).1
      have hlook2 : lookupH (writeH H pa
          { pn with left := pn.left, right := nn.left }) n = some nn := by
        rw [lookupH_eq, f_writeH, if_neg hnpa]
        exact hnn'
      have hsplay : splayH H (List.map AEntry.toPair
            [(⟨true, pa, pn.value, A2⟩ : AEntry T)]) n
          = (writeH (writeH H pa { pn with left := pn.left, right := nn.left })
                n { nn with left := some pa, right := nn.right },
              decide (pn.rc ≤ 1) && decide (nn.rc ≤ 1)) := by
        show splayH H [(true, pa)] n = _
        simp only [splayH, hnn, hpn, if_true]
        rw [setChildren_eq H pa pn hpn pn.left nn.left]
        rw [setChildren_eq _ n nn hlook2 (some pa) nn.right]
      rw [hsplay]
      dsimp only
      simp only [adjust, hpn, if_true] at hrc
      have hdomn : n ∈ H.dom := (hwf.domOK n).1 (by rw [hnn']; rfl)
      have hdompa : pa ∈ H.dom := (hwf.domOK pa).1 (by rw [hpn']; rfl)
      have hwf1 : HWF (writeH H pa
          { pn with left := pn.left, right := nn.left }) :=
        HWF_writeH H hwf pa _ (by rw [hpn']; rfl)
          ((hwf.cvalid pa pn hpn').1) ((hwf.cvalid n nn hnn').1)
      have hwf2 : HWF (writeH (writeH H pa
          { pn with left := pn.left, right := nn.left })
            n { nn with left := some pa, right := nn.right }) := by
        refine HWF_writeH _ hwf1 n _ ?_ ?_ ?_
        · rw [f_writeH, if_neg hnpa, hnn']; rfl
        · intro a ha
          injection ha with ha
          subst ha
          rw [lookupH_eq, f_writeH, if_pos rfl]
          rfl
        · exact okPtr_writeH _ _ _ ((hwf.cvalid n nn hnn').2)
      have hframe : ∀ b, b ≠ n → b ≠ pa →
          (writeH (writeH H pa { pn with left := pn.left, right := nn.left })
            n { nn with left := some pa, right := nn.right }).f b = H.f b := by
        intro b hbn hbpa
        rw [f_writeH, if_neg hbn, f_writeH, if_neg hbpa]
      have hrcmap : ∀ b,
          (((writeH (writeH H pa
              { pn with left := pn.left, right := nn.left })
              n { nn with left := some pa, right := nn.right }).f b).map
            HNode.rc) = ((H.f b).map HNode.rc) := by
        intro b
        rw [rc_writeH_children _ n nn (by rw [f_writeH, if_neg hnpa]; exact hnn')
          (some pa) nn.right b]
        rw [rc_writeH_children H pa pn hpn' pn.left nn.left b]
      refine ⟨?_, ?_, ?_, hwf2, rfl, rfl, ?_, hrcmap⟩
      · show RT _ (some n) (.node (.node A2 (pa, pn.value) B) (n, nn.value) C)
        have hAgree : ∀ X : Tree (Nat × T), n ∉ addrsT X → pa ∉ addrsT X →
            ∀ b ∈ addrsT X,
            (writeH (writeH H pa
              { pn with left := pn.left, right := nn.left })
              n { nn with left := some pa, right := nn.right }).f b = H.f b := by
          intro X hX1 hX2 b hb
          exact hframe b (fun h => hX1 (h ▸ hb)) (fun h => hX2 (h ▸ hb))
        have hA22 : RT _ pn.left A2 := RT_congr_f hpA2 (hAgree A2 hnA2 hpaA2)
        have hB2 : RT _ nn.left B := RT_congr_f hB (hAgree B hnB hpaB)
        have hC2 : RT _ nn.right C := RT_congr_f hC (hAgree C hnC hpaC)
        have hlookpa : lookupH (writeH (writeH H pa
            { pn with left := pn.left, right := nn.left })
            n { nn with left := some pa, right := nn.right }) pa
            = some { pn with left := pn.left, right := nn.left } := by
          rw [lookupH_eq, f_writeH, if_neg (fun h => hnpa h.symm), f_writeH,
            if_pos rfl]
        have hlookn : lookupH (writeH (writeH H pa
            { pn with left := pn.left, right := nn.left })
            n { nn with left := some pa, right := nn.right }) n
            = some { nn with left := some pa, right := nn.right } := by
          rw [lookupH_eq, f_writeH, if_pos rfl]
        have hsub : RT (writeH (writeH H pa
            { pn with left := pn.left, right := nn.left })
            n { nn with left := some pa, right := nn.right }) (some pa)
            (.node A2 (pa, pn.value) B) :=
          @RT.node T _ pa { pn with left := pn.left, right := nn.left }
            A2 B hlookpa hA22 hB2
        exact @RT.node T _ n { nn with left := some pa, right := nn.right }
          (.node A2 (pa, pn.value) B) C hlookn hsub hC2
      · simp [hprc, hnnrc]
      · refine rcCorrect_transfer _ _ _ _
          (fun b => by
            rw [hrcmap b,
              ← rc_writeH_children H pa pn hpn' pn.left (some n) b])
          (fun x => ?_) hrc
        have e1 := incoming_writeH H hwf.nodup pa hdompa pn hpn'
          { pn with right := some n } (some pa :: others) x
        have e2 := incoming_writeH2 H hwf.nodup pa n hnpa pn nn
          { pn with left := pn.left, right := nn.left }
          { nn with left := some pa, right := nn.right }
          hpn' hnn' hdompa hdomn (some n :: others) x
        have er1 : incoming H (some pa :: others) x
            = incomingN H x + ((if (some pa : Option Nat) = some x then 1
                else 0) + rootCount others x) := by
          rw [incoming, rootCount_cons]
        have er2 : incoming H (some n :: others) x
            = incomingN H x + ((if (some n : Option Nat) = some x then 1
                else 0) + rootCount others x) := by
          rw [incoming, rootCount_cons]
        simp only [slotCount] at e1 e2
        rw [er1] at e1
        rw [er2] at e2
        linarith
      · intro b hb hbn
        simp only [List.map_cons, List.map_nil, List.mem_cons,
          List.not_mem_nil] at hb
        exact hframe b hbn (fun h => hb (Or.inl h))
set_option maxHeartbeats 1600000 in
/-- Zig-zig left step of the splay loop. -/
theorem splayH_step_zzL (pa : Nat) (pv : T) (C : Tree (Nat × T)) (ga : Nat)
    (gv : T) (D : Tree (Nat × T)) (rest : List (AEntry T))
    (A B : Tree (Nat × T)) (n : Nat) (nv : T)
    (ih : ∀ (H : Heap T) (root : Option Nat) (others : List (Option Nat))
      (y : Nat), splayPre H root others y rest A (n, nv)
        (.node B (pa, pv) (.node C (ga, gv) D)) →
      splayPost H others rest A (n, nv)
        (.node B (pa, pv) (.node C (ga, gv) D))) :
    ∀ (H : Heap T) (root : Option Nat) (others : List (Option Nat)) (y : Nat),
    splayPre H root others y
      ((⟨false, pa, pv, C⟩ : AEntry T)
        :: (⟨false, ga, gv, D⟩ : AEntry T) :: rest) A (n, nv) B →
    splayPost H others
      ((⟨false, pa, pv, C⟩ : AEntry T)
        :: (⟨false, ga, gv, D⟩ : AEntry T) :: rest) A (n, nv) B := by
      -- zig-zig left: (g (p (n A B) C) D) ==> (n A (p B (g C D)))
      intro H root others y hpre
      obtain ⟨hwf, hlink, hRT, hnrc, hnd, hrc⟩ := hpre
      unfold splayPost
      dsimp only at hnrc hnd hrc ⊢
      rcases hlink with ⟨pn, hpn, hprc, hpval, hpslot, hlink2⟩
      simp only [if_neg (Bool.false_ne_true)] at hpslot
      rcases hpslot with ⟨hpleft, hpC⟩
      rcases hlink2 with ⟨gn, hgn, hgrc, hgval, hgslot, hrest⟩
      simp only [if_neg (Bool.false_ne_true)] at hgslot
      rcases hgslot with ⟨hgleft, hgD⟩
      dsimp only at hpn hgn hgleft hrest
      subst hpval
      subst hgval
      rcases RT_node_inv hRT with ⟨nn, hnn, hp, hA, hB⟩
      injection hp with hp1 hnval
      subst hnval
      have hpn' : H.f pa = some pn := hpn
      have hgn' : H.f ga = some gn := hgn
      have hnn' : H.f n = some nn := hnn
      have hnnrc : nn.rc = 1 := hnrc nn hnn
      -- distinctness of all touched addresses
      have hnd2 := nodup_split _ _ hnd
      simp only [addrsT, zipL, List.cons_append] at hnd2
      rcases List.nodup_cons.1 hnd2 with ⟨hn_notin, hnd3⟩
      rcases List.nodup_append.1 hnd3 with ⟨hndAB, hndr1, hdisj1⟩
      rcases List.nodup_cons.1 hndr1 with ⟨hpa_notin, hnd4⟩
      rcases List.nodup_append.1 hnd4 with ⟨hndC, hnd5, hdisj2⟩
      rcases List.nodup_cons.1 hnd5 with ⟨hga_notin, hnd6⟩
      have hnpa : n ≠ pa := fun h => hn_notin (by simp [h])
      have hnga : n ≠ ga := fun h => hn_notin (by simp [h])
      have hpaga : pa ≠ ga := fun h => hpa_notin (by simp [h])
      have hnA : n ∉ addrsT A := fun h => hn_notin (by simp [h])
      have hnB : n ∉ addrsT B := fun h => hn_notin (by simp [h])
      have hnC : n ∉ addrsT C := fun h => hn_notin (by simp [h])
      have hnD : n ∉ addrsT D := fun h => hn_notin (by simp [h])
      have hnz : n ∉ zipL rest := fun h => hn_notin (by simp [h])
      have hpaA : pa ∉ addrsT A :=
        fun h => hdisj1 (List.mem_append_left _ h) (by simp)
      have hpaB : pa ∉ addrsT B :=
        fun h => hdisj1 (List.mem_append_right _ h) (by simp)
      have hpaC : pa ∉ addrsT C := fun h => hpa_notin (by simp [h])
      have hpaD : pa ∉ addrsT D := fun h => hpa_notin (by simp [h])
      have hpaz : pa ∉ zipL rest := fun h => hpa_notin (by simp [h])
      have hgaA : ga ∉ addrsT A :=
        fun h => hdisj1 (List.mem_append_left _ h) (by simp)
      have hgaB : ga ∉ addrsT B :=
        fun h => hdisj1 (List.mem_append_right _ h) (by simp)
      have hgaC : ga ∉ addrsT C := fun h => hdisj2 h (by simp)
      have hgaD : ga ∉ addrsT D := fun h => hga_notin (by simp [h])
      have hgaz : ga ∉ zipL rest := fun h => hga_notin (by simp [h])
      have hdomn : n ∈ H.dom := (hwf.domOK n).1 (by rw [hnn']; rfl)
      have hdompa : pa ∈ H.dom := (hwf.domOK pa).1 (by rw [hpn']; rfl)
      have hdomga : ga ∈ H.dom := (hwf.domOK ga).1 (by rw [hgn']; rfl)
      -- the three in-place writes
      have hlookp1 : lookupH (writeH H ga
          { gn with left := pn.right, right := gn.right }) pa = some pn := by
        rw [lookupH_eq, f_writeH, if_neg hpaga]
        exact hpn'
      have hlookn2 : lookupH (writeH (writeH H ga
          { gn with left := pn.right, right := gn.right }) pa
          { pn with left := nn.right, right := some ga }) n = some nn := by
        rw [lookupH_eq, f_writeH, if_neg hnpa, f_writeH, if_neg hnga]
        exact hnn'
      have hsp : splayH H (List.map AEntry.toPair
            ((⟨false, pa, pn.value, C⟩ : AEntry T)
              :: (⟨false, ga, gn.value, D⟩ : AEntry T) :: rest)) n
          = ((splayH (writeH (writeH (writeH H ga
                { gn with left := pn.right, right := gn.right }) pa
                { pn with left := nn.right, right := some ga }) n
                { nn with left := nn.left, right := some pa })
              (List.map AEntry.toPair rest) n).1,
             decide (gn.rc ≤ 1) && decide (pn.rc ≤ 1) && decide (nn.rc ≤ 1)
              && (splayH (writeH (writeH (writeH H ga
                { gn with left := pn.right, right := gn.right }) pa
                { pn with left := nn.right, right := some ga }) n
                { nn with left := nn.left, right := some pa })
              (List.map AEntry.toPair rest) n).2) := by
        show splayH H ((false, pa) :: (false, ga)
            :: List.map AEntry.toPair rest) n = _
        simp only [splayH, hnn, hpn, hgn]
        rw [if_neg (Bool.false_ne_true), if_neg (Bool.false_ne_true)]
        rw [setChildren_eq H ga gn hgn pn.right gn.right]
        dsimp only
        rw [setChildren_eq _ pa pn hlookp1 nn.right (some ga)]
        dsimp only
        rw [setChildren_eq _ n nn hlookn2 nn.left (some pa)]
      rw [hsp]
      dsimp only
      simp only [adjust, hpn, if_neg (Bool.false_ne_true)] at hrc
      have hwf1 : HWF (writeH H ga
          { gn with left := pn.right, right := gn.right }) :=
        HWF_writeH H hwf ga _ (by rw [hgn']; rfl)
          ((hwf.cvalid pa pn hpn').2) ((hwf.cvalid ga gn hgn').2)
      have hwf2 : HWF (writeH (writeH H ga
          { gn with left := pn.right, right := gn.right }) pa
          { pn with left := nn.right, right := some ga }) := by
        refine HWF_writeH _ hwf1 pa _ ?_ ?_ ?_
        · rw [f_writeH, if_neg hpaga, hpn']; rfl
        · exact okPtr_writeH _ _ _ ((hwf.cvalid n nn hnn').2)
        · intro a ha
          injection ha with ha
          subst ha
          rw [lookupH_eq, f_writeH, if_pos rfl]
          rfl
      have hwf3 : HWF (writeH (writeH (writeH H ga
          { gn with left := pn.right, right := gn.right }) pa
          { pn with left := nn.right, right := some ga }) n
          { nn with left := nn.left, right := some pa }) := by
        refine HWF_writeH _ hwf2 n _ ?_ ?_ ?_
        · rw [f_writeH, if_neg hnpa, f_writeH, if_neg hnga, hnn']; rfl
        · exact okPtr_writeH _ _ _ (okPtr_writeH _ _ _
            ((hwf.cvalid n nn hnn').1))
        · intro a ha
          injection ha with ha
          subst ha
          rw [lookupH_eq, f_writeH, if_pos rfl]
          rfl
      have hframe : ∀ b, b ≠ n → b ≠ pa → b ≠ ga →
          (writeH (writeH (writeH H ga
            { gn with left := pn.right, right := gn.right }) pa
            { pn with left := nn.right, right := some ga }) n
            { nn with left := nn.left, right := some pa }).f b = H.f b := by
        intro b hbn hbpa hbga
        rw [f_writeH, if_neg hbn, f_writeH, if_neg hbpa, f_writeH, if_neg hbga]
      have hrcmapH3 : ∀ b,
          (((writeH (writeH (writeH H ga
              { gn with left := pn.right, right := gn.right }) pa
              { pn with left := nn.right, right := some ga }) n
              { nn with left := nn.left, right := some pa }).f b).map
            HNode.rc) = ((H.f b).map HNode.rc) := by
        intro b
        rw [rc_writeH_children _ n nn
          (by rw [f_writeH, if_neg hnpa, f_writeH, if_neg hnga]; exact hnn')
          nn.left (some pa) b]
        rw [rc_writeH_children _ pa pn
          (by rw [f_writeH, if_neg hpaga]; exact hpn')
          nn.right (some ga) b]
        rw [rc_writeH_children H ga gn hgn' pn.right gn.right b]
      -- representation of the rotated tree in the written heap
      have hAgree : ∀ X : Tree (Nat × T), n ∉ addrsT X → pa ∉ addrsT X →
          ga ∉ addrsT X → ∀ b ∈ addrsT X,
          (writeH (writeH (writeH H ga
            { gn with left := pn.right, right := gn.right }) pa
            { pn with left := nn.right, right := some ga }) n
            { nn with left := nn.left, right := some pa }).f b = H.f b := by
        intro X hX1 hX2 hX3 b hb
        exact hframe b (fun h => hX1 (h ▸ hb)) (fun h => hX2 (h ▸ hb))
          (fun h => hX3 (h ▸ hb))
      have hRT3 : RT (writeH (writeH (writeH H ga
          { gn with left := pn.right, right := gn.right }) pa
          { pn with left := nn.right, right := some ga }) n
          { nn with left := nn.left, right := some pa }) (some n)
          (.node A (n, nn.value) (.node B (pa, pn.value)
            (.node C (ga, gn.value) D))) := by
        have hA2 : RT _ nn.left A := RT_congr_f hA (hAgree A hnA hpaA hgaA)
        have hB2 : RT _ nn.right B := RT_congr_f hB (hAgree B hnB hpaB hgaB)
        have hC2 : RT _ pn.right C := RT_congr_f hpC (hAgree C hnC hpaC hgaC)
        have hD2 : RT _ gn.right D := RT_congr_f hgD (hAgree D hnD hpaD hgaD)
        have hlookga : lookupH (writeH (writeH (writeH H ga
            { gn with left := pn.right, right := gn.right }) pa
            { pn with left := nn.right, right := some ga }) n
            { nn with left := nn.left, right := some pa }) ga
            = some { gn with left := pn.right, right := gn.right } := by
          rw [lookupH_eq, f_writeH, if_neg (fun h => hnga h.symm), f_writeH,
            if_neg (fun h => hpaga h.symm), f_writeH, if_pos rfl]
        have hlookpa : lookupH (writeH (writeH (writeH H ga
            { gn with left := pn.right, right := gn.right }) pa
            { pn with left := nn.right, right := some ga }) n
            { nn with left := nn.left, right := some pa }) pa
            = some { pn with left := nn.right, right := some ga } := by
          rw [lookupH_eq, f_writeH, if_neg (fun h => hnpa h.symm), f_writeH,
            if_pos rfl]
        have hlookn : lookupH (writeH (writeH (writeH H ga
            { gn with left := pn.right, right := gn.right }) pa
            { pn with left := nn.right, right := some ga }) n
            { nn with left := nn.left, right := some pa }) n
            = some { nn with left := nn.left, right := some pa } := by
          rw [lookupH_eq, f_writeH, if_pos rfl]
        have hsubg : RT _ (some ga) (.node C (ga, gn.value) D) :=
          @RT.node T _ ga { gn with left := pn.right, right := gn.right }
            C D hlookga hC2 hD2
        have hsubp : RT _ (some pa) (.node B (pa, pn.value)
            (.node C (ga, gn.value) D)) :=
          @RT.node T _ pa { pn with left := nn.right, right := some ga }
            B (.node C (ga, gn.value) D) hlookpa hB2 hsubg
        exact @RT.node T _ n { nn with left := nn.left, right := some pa }
          A (.node B (pa, pn.value) (.node C (ga, gn.value) D)) hlookn
          hA2 hsubp
      have hlink3 : linkAbove (writeH (writeH (writeH H ga
          { gn with left := pn.right, right := gn.right }) pa
          { pn with left := nn.right, right := some ga }) n
          { nn with left := nn.left, right := some pa }) root rest ga := by
        refine linkAbove_congr hrest ?_
        intro b hb
        exact hframe b (fun h => hnz (h ▸ hb)) (fun h => hpaz (h ▸ hb))
          (fun h => hgaz (h ▸ hb))
      have hnrc3 : ∀ m, lookupH (writeH (writeH (writeH H ga
          { gn with left := pn.right, right := gn.right }) pa
          { pn with left := nn.right, right := some ga }) n
          { nn with left := nn.left, right := some pa }) n = some m →
          m.rc = 1 := by
        intro m hm
        rw [lookupH_eq, f_writeH, if_pos rfl] at hm
        injection hm with hm
        subst hm
        exact hnnrc
      have hndIH : (maddrs (aplug rest (.node A (n, nn.value)
          (.node B (pa, pn.value) (.node C (ga, gn.value) D))))).Nodup := by
        have hmeq : maddrs (aplug rest (.node A (n, nn.value)
            (.node B (pa, pn.value) (.node C (ga, gn.value) D))))
            = maddrs (aplug ((⟨false, pa, pn.value, C⟩ : AEntry T)
              :: (⟨false, ga, gn.value, D⟩ : AEntry T) :: rest)
              (.node A (n, nn.value) B)) := by
          simp only [aplug, AEntry.reattachA]
          rw [if_neg (Bool.false_ne_true), if_neg (Bool.false_ne_true)]
          refine maddrs_aplug_congr rest ?_
          simp [maddrs_node, Multiset.singleton_add, Multiset.cons_swap,
            add_comm, add_left_comm, add_assoc]
        rw [hmeq]
        exact hnd
      have hne3 : ∀ (e : AEntry T) aes', rest = e :: aes' →
          (lookupH (writeH (writeH (writeH H ga
            { gn with left := pn.right, right := gn.right }) pa
            { pn with left := nn.right, right := some ga }) n
            { nn with left := nn.left, right := some pa }) e.addr).isSome
            = true := by
        intro e aes' heq
        have hbz : e.addr ∈ zipL rest := by rw [heq]; simp [zipL]
        rw [heq] at hrest
        rcases hrest with ⟨qn, hq, -⟩
        rw [lookupH_eq, hframe e.addr (fun h => hnz (h ▸ hbz))
          (fun h => hpaz (h ▸ hbz)) (fun h => hgaz (h ▸ hbz)),
          ← lookupH_eq, hq]
        rfl
      have hrc3 : rcCorrect (adjust (writeH (writeH (writeH H ga
          { gn with left := pn.right, right := gn.right }) pa
          { pn with left := nn.right, right := some ga }) n
          { nn with left := nn.left, right := some pa }) root rest n).1
          ((adjust (writeH (writeH (writeH H ga
          { gn with left := pn.right, right := gn.right }) pa
          { pn with left := nn.right, right := some ga }) n
          { nn with left := nn.left, right := some pa }) root rest n).2
            :: others) := by
        refine rcCorrect_transfer _ _ _ _
          (fun b => by
            rw [rcmap_adjust, hrcmapH3 b,
              ← rc_writeH_children H pa pn hpn' (some n) pn.right b])
          (fun x => ?_) hrc
        have hpre := incoming_writeH H hwf.nodup pa hdompa pn hpn'
          { pn with left := some n } (root :: others) x
        have hpost := incoming_adjust _ hwf3.nodup
          (fun a m hm => (hwf3.domOK a).1 (by rw [hm]; rfl))
          root rest n hne3 others x
        have h3 := incoming_writeH3 H hwf.nodup ga pa n hpaga hnga hnpa
          gn pn nn { gn with left := pn.right, right := gn.right }
          { pn with left := nn.right, right := some ga }
          { nn with left := nn.left, right := some pa }
          hgn' hpn' hnn' hdomga hdompa hdomn (root :: others) x
        rw [staleCount_eq _ root rest ga hlink3 x] at hpost
        simp only [slotCount] at hpre h3
        rw [hgleft] at h3
        simp only [Option.some.injEq] at hpre h3 hpost
        linarith
      have hpost := ih _ root others ga ⟨hwf3, hlink3, hRT3, hnrc3,
        hndIH, hrc3⟩
      unfold splayPost at hpost
      obtain ⟨c1, c2, c3, c4, c5, c6, c7, c8⟩ := hpost
      refine ⟨c1, ?_, c3, c4, c5, c6, ?_, ?_⟩
      · rw [c2]
        simp [hprc, hgrc, hnnrc]
      · intro b hb hbn
        simp only [List.map_cons, List.mem_cons, not_or] at hb
        rcases hb with ⟨hbpa, hbga, hbr⟩
        rw [c7 b hbr hbn]
        exact hframe b hbn hbpa hbga
      · intro b
        rw [c8 b]
        exact hrcmapH3 b
set_option maxHeartbeats 1600000 in
/-- Zig-zag left-right step of the splay loop. -/
theorem splayH_step_zzLR (pa : Nat) (pv : T) (A2 : Tree (Nat × T)) (ga : Nat)
    (gv : T) (D : Tree (Nat × T)) (rest : List (AEntry T))
    (B C : Tree (Nat × T)) (n : Nat) (nv : T)
    (ih : ∀ (H : Heap T) (root : Option Nat) (others : List (Option Nat))
      (y : Nat), splayPre H root others y rest (.node A2 (pa, pv) B) (n, nv)
        (.node C (ga, gv) D) →
      splayPost H others rest (.node A2 (pa, pv) B) (n, nv)
        (.node C (ga, gv) D)) :
    ∀ (H : Heap T) (root : Option Nat) (others : List (Option Nat)) (y : Nat),
    splayPre H root others y
      ((⟨true, pa, pv, A2⟩ : AEntry T)
        :: (⟨false, ga, gv, D⟩ : AEntry T) :: rest) B (n, nv) C →
    splayPost H others
      ((⟨true, pa, pv, A2⟩ : AEntry T)
        :: (⟨false, ga, gv, D⟩ : AEntry T) :: rest) B (n, nv) C := by
      -- zig-zag left-right: (g (p A (n B C)) D) ==> (n (p A B) (g C D))
      intro H root others y hpre
      obtain ⟨hwf, hlink, hRT, hnrc, hnd, hrc⟩ := hpre
      unfold splayPost
      dsimp only at hnrc hnd hrc ⊢
      rcases hlink with ⟨pn, hpn, hprc, hpval, hpslot, hlink2⟩
      simp only [if_true] at hpslot
      rcases hpslot with ⟨hpright, hpA2⟩
      rcases hlink2 with ⟨gn, hgn, hgrc, hgval, hgslot, hrest⟩
      simp only [if_neg (Bool.false_ne_true)] at hgslot
      rcases hgslot with ⟨hgleft, hgD⟩
      dsimp only at hpn hgn hgleft hrest
      subst hpval
      subst hgval
      rcases RT_node_inv hRT with ⟨nn, hnn, hp, hB, hC⟩
      injection hp with hp1 hnval
      subst hnval
      have hpn' : H.f pa = some pn := hpn
      have hgn' : H.f ga = some gn := hgn
      have hnn' : H.f n = some nn := hnn
      have hnnrc : nn.rc = 1 := hnrc nn hnn
      have hnd2 := nodup_split _ _ hnd
      simp only [addrsT, zipL, List.cons_append] at hnd2
      rcases List.nodup_cons.1 hnd2 with ⟨hn_notin, hnd3⟩
      rcases List.nodup_append.1 hnd3 with ⟨hndBC, hndr1, hdisj1⟩
      rcases List.nodup_cons.1 hndr1 with ⟨hpa_notin, hnd4⟩
      rcases List.nodup_append.1 hnd4 with ⟨hndA2, hnd5, hdisj2⟩
      rcases List.nodup_cons.1 hnd5 with ⟨hga_notin, hnd6⟩
      have hnpa : n ≠ pa := fun h => hn_notin (by simp [h])
      have hnga : n ≠ ga := fun h => hn_notin (by simp [h])
      have hpaga : pa ≠ ga := fun h => hpa_notin (by simp [h])
      have hnB : n ∉ addrsT B := fun h => hn_notin (by simp [h])
      have hnC : n ∉ addrsT C := fun h => hn_notin (by simp [h])
      have hnA2 : n ∉ addrsT A2 := fun h => hn_notin (by simp [h])
      have hnD : n ∉ addrsT D := fun h => hn_notin (by simp [h])
      have hnz : n ∉ zipL rest := fun h => hn_notin (by simp [h])
      have hpaB : pa ∉ addrsT B :=
        fun h => hdisj1 (List.mem_append_left _ h) (by simp)
      have hpaC : pa ∉ addrsT C :=
        fun h => hdisj1 (List.mem_append_right _ h) (by simp)
      have hpaA2 : pa ∉ addrsT A2 := fun h => hpa_notin (by simp [h])
      have hpaD : pa ∉ addrsT D := fun h => hpa_notin (by simp [h])
      have hpaz : pa ∉ zipL rest := fun h => hpa_notin (by simp [h])
      have hgaB : ga ∉ addrsT B :=
        fun h => hdisj1 (List.mem_append_left _ h) (by simp)
      have hgaC : ga ∉ addrsT C :=
        fun h => hdisj1 (List.mem_append_right _ h) (by simp)
      have hgaA2 : ga ∉ addrsT A2 := fun h => hdisj2 h (by simp)
      have hgaD : ga ∉ addrsT D := fun h => hga_notin (by simp [h])
      have hgaz : ga ∉ zipL rest := fun h => hga_notin (by simp [h])
      have hdomn : n ∈ H.dom := (hwf.domOK n).1 (by rw [hnn']; rfl)
      have hdompa : pa ∈ H.dom := (hwf.domOK pa).1 (by rw [hpn']; rfl)
      have hdomga : ga ∈ H.dom := (hwf.domOK ga).1 (by rw [hgn']; rfl)
      have hlookg1 : lookupH (writeH H pa
          { pn with left := pn.left, right := nn.left }) ga = some gn := by
        rw [lookupH_eq, f_writeH, if_neg (fun h => hpaga h.symm)]
        exact hgn'
      have hlookn2 : lookupH (writeH (writeH H pa
          { pn with left := pn.left, right := nn.left }) ga
          { gn with left := nn.right, right := gn.right }) n = some nn := by
        rw [lookupH_eq, f_writeH, if_neg hnga, f_writeH, if_neg hnpa]
        exact hnn'
      have hsp : splayH H (List.map AEntry.toPair
            ((⟨true, pa, pn.value, A2⟩ : AEntry T)
              :: (⟨false, ga, gn.value, D⟩ : AEntry T) :: rest)) n
          = ((splayH (writeH (writeH (writeH H pa
                { pn with left := pn.left, right := nn.left }) ga
                { gn with left := nn.right, right := gn.right }) n
                { nn with left := some pa, right := some ga })
              (List.map AEntry.toPair rest) n).1,
             decide (pn.rc ≤ 1) && decide (gn.rc ≤ 1) && decide (nn.rc ≤ 1)
              && (splayH (writeH (writeH (writeH H pa
                { pn with left := pn.left, right := nn.left }) ga
                { gn with left := nn.right, right := gn.right }) n
                { nn with left := some pa, right := some ga })
              (List.map AEntry.toPair rest) n).2) := by
        show splayH H ((true, pa) :: (false, ga)
            :: List.map AEntry.toPair rest) n = _
        simp only [splayH, hnn, hpn, hgn, if_true]
        rw [if_neg (Bool.false_ne_true)]
        rw [setChildren_eq H pa pn hpn pn.left nn.left]
        dsimp only
        rw [setChildren_eq _ ga gn hlookg1 nn.right gn.right]
        dsimp only
        rw [setChildren_eq _ n nn hlookn2 (some pa) (some ga)]
      rw [hsp]
      dsimp only
      simp only [adjust, hpn, if_true] at hrc
      have hwf1 : HWF (writeH H pa
          { pn with left := pn.left, right := nn.left }) :=
        HWF_writeH H hwf pa _ (by rw [hpn']; rfl)
          ((hwf.cvalid pa pn hpn').1) ((hwf.cvalid n nn hnn').1)
      have hwf2 : HWF (writeH (writeH H pa
          { pn with left := pn.left, right := nn.left }) ga
          { gn with left := nn.right, right := gn.right }) := by
        refine HWF_writeH _ hwf1 ga _ ?_ ?_ ?_
        · rw [f_writeH, if_neg (fun h => hpaga h.symm), hgn']; rfl
        · exact okPtr_writeH _ _ _ ((hwf.cvalid n nn hnn').2)
        · exact okPtr_writeH _ _ _ ((hwf.cvalid ga gn hgn').2)
      have hwf3 : HWF (writeH (writeH (writeH H pa
          { pn with left := pn.left, right := nn.left }) ga
          { gn with left := nn.right, right := gn.right }) n
          { nn with left := some pa, right := some ga }) := by
        refine HWF_writeH _ hwf2 n _ ?_ ?_ ?_
        · rw [f_writeH, if_neg hnga, f_writeH, if_neg hnpa, hnn']; rfl
        · intro a ha
          injection ha with ha
          subst ha
          rw [lookupH_eq, f_writeH, if_neg hpaga, f_writeH, if_pos rfl]
          rfl
        · intro a ha
          injection ha with ha
          subst ha
          rw [lookupH_eq, f_writeH, if_pos rfl]
          rfl
      have hframe : ∀ b, b ≠ n → b ≠ pa → b ≠ ga →
          (writeH (writeH (writeH H pa
            { pn with left := pn.left, right := nn.left }) ga
            { gn with left := nn.right, right := gn.right }) n
            { nn with left := some pa, right := some ga }).f b = H.f b := by
        intro b hbn hbpa hbga
        rw [f_writeH, if_neg hbn, f_writeH, if_neg hbga, f_writeH, if_neg hbpa]
      have hrcmapH3 : ∀ b,
          (((writeH (writeH (writeH H pa
              { pn with left := pn.left, right := nn.left }) ga
              { gn with left := nn.right, right := gn.right }) n
              { nn with left := some pa, right := some ga }).f b).map
            HNode.rc) = ((H.f b).map HNode.rc) := by
        intro b
        rw [rc_writeH_children _ n nn
          (by rw [f_writeH, if_neg hnga, f_writeH, if_neg hnpa]; exact hnn')
          (some pa) (some ga) b]
        rw [rc_writeH_children _ ga gn
          (by rw [f_writeH, if_neg (fun h => hpaga h.symm)]; exact hgn')
          nn.right gn.right b]
        rw [rc_writeH_children H pa pn hpn' pn.left nn.left b]
      have hAgree : ∀ X : Tree (Nat × T), n ∉ addrsT X → pa ∉ addrsT X →
          ga ∉ addrsT X → ∀ b ∈ addrsT X,
          (writeH (writeH (writeH H pa
            { pn with left := pn.left, right := nn.left }) ga
            { gn with left := nn.right, right := gn.right }) n
            { nn with left := some pa, right := some ga }).f b = H.f b := by
        intro X hX1 hX2 hX3 b hb
        exact hframe b (fun h => hX1 (h ▸ hb)) (fun h => hX2 (h ▸ hb))
          (fun h => hX3 (h ▸ hb))
      have hRT3 : RT (writeH (writeH (writeH H pa
          { pn with left := pn.left, right := nn.left }) ga
          { gn with left := nn.right, right := gn.right }) n
          { nn with left := some pa, right := some ga }) (some n)
          (.node (.node A2 (pa, pn.value) B) (n, nn.value)
            (.node C (ga, gn.value) D)) := by
        have hA22 : RT _ pn.left A2 :=
          RT_congr_f hpA2 (hAgree A2 hnA2 hpaA2 hgaA2)
        have hB2 : RT _ nn.left B := RT_congr_f hB (hAgree B hnB hpaB hgaB)
        have hC2 : RT _ nn.right C := RT_congr_f hC (hAgree C hnC hpaC hgaC)
        have hD2 : RT _ gn.right D := RT_congr_f hgD (hAgree D hnD hpaD hgaD)
        have hlookpa : lookupH (writeH (writeH (writeH H pa
            { pn with left := pn.left, right := nn.left }) ga
            { gn with left := nn.right, right := gn.right }) n
            { nn with left := some pa, right := some ga }) pa
            = some { pn with left := pn.left, right := nn.left } := by
          rw [lookupH_eq, f_writeH, if_neg (fun h => hnpa h.symm), f_writeH,
            if_neg hpaga, f_writeH, if_pos rfl]
        have hlookga : lookupH (writeH (writeH (writeH H pa
            { pn with left := pn.left, right := nn.left }) ga
            { gn with left := nn.right, right := gn.right }) n
            { nn with left := some pa, right := some ga }) ga
            = some { gn with left := nn.right, right := gn.right } := by
          rw [lookupH_eq, f_writeH, if_neg (fun h => hnga h.symm), f_writeH,
            if_pos rfl]
        have hlookn : lookupH (writeH (writeH (writeH H pa
            { pn with left := pn.left, right := nn.left }) ga
            { gn with left := nn.right, right := gn.right }) n
            { nn with left := some pa, right := some ga }) n
            = some { nn with left := some pa, right := some ga } := by
          rw [lookupH_eq, f_writeH, if_pos rfl]
        have hsubp : RT _ (some pa) (.node A2 (pa, pn.value) B) :=
          @RT.node T _ pa { pn with left := pn.left, right := nn.left }
            A2 B hlookpa hA22 hB2
        have hsubg : RT _ (some ga) (.node C (ga, gn.value) D) :=
          @RT.node T _ ga { gn with left := nn.right, right := gn.right }
            C D hlookga hC2 hD2
        exact @RT.node T _ n { nn with left := some pa, right := some ga }
          (.node A2 (pa, pn.value) B) (.node C (ga, gn.value) D) hlookn
          hsubp hsubg
      have hlink3 : linkAbove (writeH (writeH (writeH H pa
          { pn with left := pn.left, right := nn.left }) ga
          { gn with left := nn.right, right := gn.right }) n
          { nn with left := some pa, right := some ga }) root rest ga := by
        refine linkAbove_congr hrest ?_
        intro b hb
        exact hframe b (fun h => hnz (h ▸ hb)) (fun h => hpaz (h ▸ hb))
          (fun h => hgaz (h ▸ hb))
      have hnrc3 : ∀ m, lookupH (writeH (writeH (writeH H pa
          { pn with left := pn.left, right := nn.left }) ga
          { gn with left := nn.right, right := gn.right }) n
          { nn with left := some pa, right := some ga }) n = some m →
          m.rc = 1 := by
        intro m hm
        rw [lookupH_eq, f_writeH, if_pos rfl] at hm
        injection hm with hm
        subst hm
        exact hnnrc
      have hndIH : (maddrs (aplug rest (.node (.node A2 (pa, pn.value) B)
          (n, nn.value) (.node C (ga, gn.value) D)))).Nodup := by
        have hmeq : maddrs (aplug rest (.node (.node A2 (pa, pn.value) B)
            (n, nn.value) (.node C (ga, gn.value) D)))
            = maddrs (aplug ((⟨true, pa, pn.value, A2⟩ : AEntry T)
              :: (⟨false, ga, gn.value, D⟩ : AEntry T) :: rest)
              (.node B (n, nn.value) C)) := by
          simp only [aplug, AEntry.reattachA, if_true]
          rw [if_neg (Bool.false_ne_true)]
          refine maddrs_aplug_congr rest ?_
          simp [maddrs_node, Multiset.singleton_add, Multiset.cons_swap,
            add_comm, add_left_comm, add_assoc]
        rw [hmeq]
        exact hnd
      have hne3 : ∀ (e : AEntry T) aes', rest = e :: aes' →
          (lookupH (writeH (writeH (writeH H pa
            { pn with left := pn.left, right := nn.left }) ga
            { gn with left := nn.right, right := gn.right }) n
            { nn with left := some pa, right := some ga }) e.addr).isSome
            = true := by
        intro e aes' heq
        have hbz : e.addr ∈ zipL rest := by rw [heq]; simp [zipL]
        rw [heq] at hrest
        rcases hrest with ⟨qn, hq, -⟩
        rw [lookupH_eq, hframe e.addr (fun h => hnz (h ▸ hbz))
          (fun h => hpaz (h ▸ hbz)) (fun h => hgaz (h ▸ hbz)),
          ← lookupH_eq, hq]
        rfl
      have hrc3 : rcCorrect (adjust (writeH (writeH (writeH H pa
          { pn with left := pn.left, right := nn.left }) ga
          { gn with left := nn.right, right := gn.right }) n
          { nn with left := some pa, right := some ga }) root rest n).1
          ((adjust (writeH (writeH (writeH H pa
          { pn with left := pn.left, right := nn.left }) ga
          { gn with left := nn.right, right := gn.right }) n
          { nn with left := some pa, right := some ga }) root rest n).2
            :: others) := by
        refine rcCorrect_transfer _ _ _ _
          (fun b => by
            rw [rcmap_adjust, hrcmapH3 b,
              ← rc_writeH_children H pa pn hpn' pn.left (some n) b])
          (fun x => ?_) hrc
        have hpre := incoming_writeH H hwf.nodup pa hdompa pn hpn'
          { pn with right := some n } (root :: others) x
        have hpost := incoming_adjust _ hwf3.nodup
          (fun a m hm => (hwf3.domOK a).1 (by rw [hm]; rfl))
          root rest n hne3 others x
        have h3 := incoming_writeH3 H hwf.nodup pa ga n
          (fun h => hpaga h.symm) hnpa hnga
          pn gn nn { pn with left := pn.left, right := nn.left }
          { gn with left := nn.right, right := gn.right }
          { nn with left := some pa, right := some ga }
          hpn' hgn' hnn' hdompa hdomga hdomn (root :: others) x
        rw [staleCount_eq _ root rest ga hlink3 x] at hpost
        simp only [slotCount] at hpre h3
        rw [hgleft] at h3
        simp only [Option.some.injEq] at hpre h3 hpost
        linarith
      have hpost := ih _ root others ga ⟨hwf3, hlink3, hRT3, hnrc3,
        hndIH, hrc3⟩
      unfold splayPost at hpost
      obtain ⟨c1, c2, c3, c4, c5, c6, c7, c8⟩ := hpost
      refine ⟨c1, ?_, c3, c4, c5, c6, ?_, ?_⟩
      · rw [c2]
        simp [hprc, hgrc, hnnrc]
      · intro b hb hbn
        simp only [List.map_cons, List.mem_cons, not_or] at hb
        rcases hb with ⟨hbpa, hbga, hbr⟩
        rw [c7 b hbr hbn]
        exact hframe b hbn hbpa hbga
      · intro b
        rw [c8 b]
        exact hrcmapH3 b
set_option maxHeartbeats 1600000 in
/-- Zig-zag right-left step of the splay loop. -/
theorem splayH_step_zzRL (pa : Nat) (pv : T) (D : Tree (Nat × T)) (ga : Nat)
    (gv : T) (A2 : Tree (Nat × T)) (rest : List (AEntry T))
    (B C : Tree (Nat × T)) (n : Nat) (nv : T)
    (ih : ∀ (H : Heap T) (root : Option Nat) (others : List (Option Nat))
      (y : Nat), splayPre H root others y rest (.node A2 (ga, gv) B) (n, nv)
        (.node C (pa, pv) D) →
      splayPost H others rest (.node A2 (ga, gv) B) (n, nv)
        (.node C (pa, pv) D)) :
    ∀ (H : Heap T) (root : Option Nat) (others : List (Option Nat)) (y : Nat),
    splayPre H root others y
      ((⟨false, pa, pv, D⟩ : AEntry T)
        :: (⟨true, ga, gv, A2⟩ : AEntry T) :: rest) B (n, nv) C →
    splayPost H others
      ((⟨false, pa, pv, D⟩ : AEntry T)
        :: (⟨true, ga, gv, A2⟩ : AEntry T) :: rest) B (n, nv) C := by
      -- zig-zag right-left: (g A (p (n B C) D)) ==> (n (g A B) (p C D))
      intro H root others y hpre
      obtain ⟨hwf, hlink, hRT, hnrc, hnd, hrc⟩ := hpre
      unfold splayPost
      dsimp only at hnrc hnd hrc ⊢
      rcases hlink with ⟨pn, hpn, hprc, hpval, hpslot, hlink2⟩
      simp only [if_neg (Bool.false_ne_true)] at hpslot
      rcases hpslot with ⟨hpleft, hpD⟩
      rcases hlink2 with ⟨gn, hgn, hgrc, hgval, hgslot, hrest⟩
      simp only [if_true] at hgslot
      rcases hgslot with ⟨hgright, hgA2⟩
      dsimp only at hpn hgn hgright hrest
      subst hpval
      subst hgval
      rcases RT_node_inv hRT with ⟨nn, hnn, hp, hB, hC⟩
      injection hp with hp1 hnval
      subst hnval
      have hpn' : H.f pa = some pn := hpn
      have hgn' : H.f ga = some gn := hgn
      have hnn' : H.f n = some nn := hnn
      have hnnrc : nn.rc = 1 := hnrc nn hnn
      have hnd2 := nodup_split _ _ hnd
      simp only [addrsT, zipL, List.cons_append] at hnd2
      rcases List.nodup_cons.1 hnd2 with ⟨hn_notin, hnd3⟩
      rcases List.nodup_append.1 hnd3 with ⟨hndBC, hndr1, hdisj1⟩
      rcases List.nodup_cons.1 hndr1 with ⟨hpa_notin, hnd4⟩
      rcases List.nodup_append.1 hnd4 with ⟨hndD, hnd5, hdisj2⟩
      rcases List.nodup_cons.1 hnd5 with ⟨hga_notin, hnd6⟩
      have hnpa : n ≠ pa := fun h => hn_notin (by simp [h])
      have hnga : n ≠ ga := fun h => hn_notin (by simp [h])
      have hpaga : pa ≠ ga := fun h => hpa_notin (by simp [h])
      have hnB : n ∉ addrsT B := fun h => hn_notin (by simp [h])
      have hnC : n ∉ addrsT C := fun h => hn_notin (by simp [h])
      have hnD : n ∉ addrsT D := fun h => hn_notin (by simp [h])
      have hnA2 : n ∉ addrsT A2 := fun h => hn_notin (by simp [h])
      have hnz : n ∉ zipL rest := fun h => hn_notin (by simp [h])
      have hpaB : pa ∉ addrsT B :=
        fun h => hdisj1 (List.mem_append_left _ h) (by simp)
      have hpaC : pa ∉ addrsT C :=
        fun h => hdisj1 (List.mem_append_right _ h) (by simp)
      have hpaD : pa ∉ addrsT D := fun h => hpa_notin (by simp [h])
      have hpaA2 : pa ∉ addrsT A2 := fun h => hpa_notin (by simp [h])
      have hpaz : pa ∉ zipL rest := fun h => hpa_notin (by simp [h])
      have hgaB : ga ∉ addrsT B :=
        fun h => hdisj1 (List.mem_append_left _ h) (by simp)
      have hgaC : ga ∉ addrsT C :=
        fun h => hdisj1 (List.mem_append_right _ h) (by simp)
      have hgaD : ga ∉ addrsT D := fun h => hdisj2 h (by simp)
      have hgaA2 : ga ∉ addrsT A2 := fun h => hga_notin (by simp [h])
      have hgaz : ga ∉ zipL rest := fun h => hga_notin (by simp [h])
      have hdomn : n ∈ H.dom := (hwf.domOK n).1 (by rw [hnn']; rfl)
      have hdompa : pa ∈ H.dom := (hwf.domOK pa).1 (by rw [hpn']; rfl)
      have hdomga : ga ∈ H.dom := (hwf.domOK ga).1 (by rw [hgn']; rfl)
      have hlookp1 : lookupH (writeH H ga
          { gn with left := gn.left, right := nn.left }) pa = some pn := by
        rw [lookupH_eq, f_writeH, if_neg hpaga]
        exact hpn'
      have hlookn2 : lookupH (writeH (writeH H ga
          { gn with left := gn.left, right := nn.left }) pa
          { pn with left := nn.right, right := pn.right }) n = some nn := by
        rw [lookupH_eq, f_writeH, if_neg hnpa, f_writeH, if_neg hnga]
        exact hnn'
      have hsp : splayH H (List.map AEntry.toPair
            ((⟨false, pa, pn.value, D⟩ : AEntry T)
              :: (⟨true, ga, gn.value, A2⟩ : AEntry T) :: rest)) n
          = ((splayH (writeH (writeH (writeH H ga
                { gn with left := gn.left, right := nn.left }) pa
                { pn with left := nn.right, right := pn.right }) n
                { nn with left := some ga, right := some pa })
              (List.map AEntry.toPair rest) n).1,
             decide (gn.rc ≤ 1) && decide (pn.rc ≤ 1) && decide (nn.rc ≤ 1)
              && (splayH (writeH (writeH (writeH H ga
                { gn with left := gn.left, right := nn.left }) pa
                { pn with left := nn.right, right := pn.right }) n
                { nn with left := some ga, right := some pa })
              (List.map AEntry.toPair rest) n).2) := by
        show splayH H ((false, pa) :: (true, ga)
            :: List.map AEntry.toPair rest) n = _
        simp only [splayH, hnn, hpn, hgn, if_true]
        rw [if_neg (Bool.false_ne_true)]
        rw [setChildren_eq H ga gn hgn gn.left nn.left]
        dsimp only
        rw [setChildren_eq _ pa pn hlookp1 nn.right pn.right]
        dsimp only
        rw [setChildren_eq _ n nn hlookn2 (some ga) (some pa)]
      rw [hsp]
      dsimp only
      simp only [adjust, hpn, if_neg (Bool.false_ne_true)] at hrc
      have hwf1 : HWF (writeH H ga
          { gn with left := gn.left, right := nn.left }) :=
        HWF_writeH H hwf ga _ (by rw [hgn']; rfl)
          ((hwf.cvalid ga gn hgn').1) ((hwf.cvalid n nn hnn').1)
      have hwf2 : HWF (writeH (writeH H ga
          { gn with left := gn.left, right := nn.left }) pa
          { pn with left := nn.right, right := pn.right }) := by
        refine HWF_writeH _ hwf1 pa _ ?_ ?_ ?_
        · rw [f_writeH, if_neg hpaga, hpn']; rfl
        · exact okPtr_writeH _ _ _ ((hwf.cvalid n nn hnn').2)
        · exact okPtr_writeH _ _ _ ((hwf.cvalid pa pn hpn').2)
      have hwf3 : HWF (writeH (writeH (writeH H ga
          { gn with left := gn.left, right := nn.left }) pa
          { pn with left := nn.right, right := pn.right }) n
          { nn with left := some ga, right := some pa }) := by
        refine HWF_writeH _ hwf2 n _ ?_ ?_ ?_
        · rw [f_writeH, if_neg hnpa, f_writeH, if_neg hnga, hnn']; rfl
        · intro a ha
          injection ha with ha
          subst ha
          rw [lookupH_eq, f_writeH, if_neg (fun h => hpaga h.symm), f_writeH,
            if_pos rfl]
          rfl
        · intro a ha
          injection ha with ha
          subst ha
          rw [lookupH_eq, f_writeH, if_pos rfl]
          rfl
      have hframe : ∀ b, b ≠ n → b ≠ pa → b ≠ ga →
          (writeH (writeH (writeH H ga
            { gn with left := gn.left, right := nn.left }) pa
            { pn with left := nn.right, right := pn.right }) n
            { nn with left := some ga, right := some pa }).f b = H.f b := by
        intro b hbn hbpa hbga
        rw [f_writeH, if_neg hbn, f_writeH, if_neg hbpa, f_writeH, if_neg hbga]
      have hrcmapH3 : ∀ b,
          (((writeH (writeH (writeH H ga
              { gn with left := gn.left, right := nn.left }) pa
              { pn with left := nn.right, right := pn.right }) n
              { nn with left := some ga, right := some pa }).f b).map
            HNode.rc) = ((H.f b).map HNode.rc) := by
        intro b
        rw [rc_writeH_children _ n nn
          (by rw [f_writeH, if_neg hnpa, f_writeH, if_neg hnga]; exact hnn')
          (some ga) (some pa) b]
        rw [rc_writeH_children _ pa pn
          (by rw [f_writeH, if_neg hpaga]; exact hpn')
          nn.right pn.right b]
        rw [rc_writeH_children H ga gn hgn' gn.left nn.left b]
      have hAgree : ∀ X : Tree (Nat × T), n ∉ addrsT X → pa ∉ addrsT X →
          ga ∉ addrsT X → ∀ b ∈ addrsT X,
          (writeH (writeH (writeH H ga
            { gn with left := gn.left, right := nn.left }) pa
            { pn with left := nn.right, right := pn.right }) n
            { nn with left := some ga, right := some pa }).f b = H.f b := by
        intro X hX1 hX2 hX3 b hb
        exact hframe b (fun h => hX1 (h ▸ hb)) (fun h => hX2 (h ▸ hb))
          (fun h => hX3 (h ▸ hb))
      have hRT3 : RT (writeH (writeH (writeH H ga
          { gn with left := gn.left, right := nn.left }) pa
          { pn with left := nn.right, right := pn.right }) n
          { nn with left := some ga, right := some pa }) (some n)
          (.node (.node A2 (ga, gn.value) B) (n, nn.value)
            (.node C (pa, pn.value) D)) := by
        have hA22 : RT _ gn.left A2 :=
          RT_congr_f hgA2 (hAgree A2 hnA2 hpaA2 hgaA2)
        have hB2 : RT _ nn.left B := RT_congr_f hB (hAgree B hnB hpaB hgaB)
        have hC2 : RT _ nn.right C := RT_congr_f hC (hAgree C hnC hpaC hgaC)
        have hD2 : RT _ pn.right D := RT_congr_f hpD (hAgree D hnD hpaD hgaD)
        have hlookga : lookupH (writeH (writeH (writeH H ga
            { gn with left := gn.left, right := nn.left }) pa
            { pn with left := nn.right, right := pn.right }) n
            { nn with left := some ga, right := some pa }) ga
            = some { gn with left := gn.left, right := nn.left } := by
          rw [lookupH_eq, f_writeH, if_neg (fun h => hnga h.symm), f_writeH,
            if_neg (fun h => hpaga h.symm), f_writeH, if_pos rfl]
        have hlookpa : lookupH (writeH (writeH (writeH H ga
            { gn with left := gn.left, right := nn.left }) pa
            { pn with left := nn.right, right := pn.right }) n
            { nn with left := some ga, right := some pa }) pa
            = some { pn with left := nn.right, right := pn.right } := by
          rw [lookupH_eq, f_writeH, if_neg (fun h => hnpa h.symm), f_writeH,
            if_pos rfl]
        have hlookn : lookupH (writeH (writeH (writeH H ga
            { gn with left := gn.left, right := nn.left }) pa
            { pn with left := nn.right, right := pn.right }) n
            { nn with left := some ga, right := some pa }) n
            = some { nn with left := some ga, right := some pa } := by
          rw [lookupH_eq, f_writeH, if_pos rfl]
        have hsubg : RT _ (some ga) (.node A2 (ga, gn.value) B) :=
          @RT.node T _ ga { gn with left := gn.left, right := nn.left }
            A2 B hlookga hA22 hB2
        have hsubp : RT _ (some pa) (.node C (pa, pn.value) D) :=
          @RT.node T _ pa { pn with left := nn.right, right := pn.right }
            C D hlookpa hC2 hD2
        exact @RT.node T _ n { nn with left := some ga, right := some pa }
          (.node A2 (ga, gn.value) B) (.node C (pa, pn.value) D) hlookn
          hsubg hsubp
      have hlink3 : linkAbove (writeH (writeH (writeH H ga
          { gn with left := gn.left, right := nn.left }) pa
          { pn with left := nn.right, right := pn.right }) n
          { nn with left := some ga, right := some pa }) root rest ga := by
        refine linkAbove_congr hrest ?_
        intro b hb
        exact hframe b (fun h => hnz (h ▸ hb)) (fun h => hpaz (h ▸ hb))
          (fun h => hgaz (h ▸ hb))
      have hnrc3 : ∀ m, lookupH (writeH (writeH (writeH H ga
          { gn with left := gn.left, right := nn.left }) pa
          { pn with left := nn.right, right := pn.right }) n
          { nn with left := some ga, right := some pa }) n = some m →
          m.rc = 1 := by
        intro m hm
        rw [lookupH_eq, f_writeH, if_pos rfl] at hm
        injection hm with hm
        subst hm
        exact hnnrc
      have hndIH : (maddrs (aplug rest (.node (.node A2 (ga, gn.value) B)
          (n, nn.value) (.node C (pa, pn.value) D)))).Nodup := by
        have hmeq : maddrs (aplug rest (.node (.node A2 (ga, gn.value) B)
            (n, nn.value) (.node C (pa, pn.value) D)))
            = maddrs (aplug ((⟨false, pa, pn.value, D⟩ : AEntry T)
              :: (⟨true, ga, gn.value, A2⟩ : AEntry T) :: rest)
              (.node B (n, nn.value) C)) := by
          simp only [aplug, AEntry.reattachA, if_true]
          rw [if_neg (Bool.false_ne_true)]
          refine maddrs_aplug_congr rest ?_
          simp [maddrs_node, Multiset.singleton_add, Multiset.cons_swap,
            add_comm, add_left_comm, add_assoc]
        rw [hmeq]
        exact hnd
      have hne3 : ∀ (e : AEntry T) aes', rest = e :: aes' →
          (lookupH (writeH (writeH (writeH H ga
            { gn with left := gn.left, right := nn.left }) pa
            { pn with left := nn.right, right := pn.right }) n
            { nn with left := some ga, right := some pa }) e.addr).isSome
            = true := by
        intro e aes' heq
        have hbz : e.addr ∈ zipL rest := by rw [heq]; simp [zipL]
        rw [heq] at hrest
        rcases hrest with ⟨qn, hq, -⟩
        rw [lookupH_eq, hframe e.addr (fun h => hnz (h ▸ hbz))
          (fun h => hpaz (h ▸ hbz)) (fun h => hgaz (h ▸ hbz)),
          ← lookupH_eq, hq]
        rfl
      have hrc3 : rcCorrect (adjust (writeH (writeH (writeH H ga
          { gn with left := gn.left, right := nn.left }) pa
          { pn with left := nn.right, right := pn.right }) n
          { nn with left := some ga, right := some pa }) root rest n).1
          ((adjust (writeH (writeH (writeH H ga
          { gn with left := gn.left, right := nn.left }) pa
          { pn with left := nn.right, right := pn.right }) n
          { nn with left := some ga, right := some pa }) root rest n).2
            :: others) := by
        refine rcCorrect_transfer _ _ _ _
          (fun b => by
            rw [rcmap_adjust, hrcmapH3 b,
              ← rc_writeH_children H pa pn hpn' (some n) pn.right b])
          (fun x => ?_) hrc
        have hpre := incoming_writeH H hwf.nodup pa hdompa pn hpn'
          { pn with left := some n } (root :: others) x
        have hpost := incoming_adjust _ hwf3.nodup
          (fun a m hm => (hwf3.domOK a).1 (by rw [hm]; rfl))
          root rest n hne3 others x
        have h3 := incoming_writeH3 H hwf.nodup ga pa n hpaga hnga hnpa
          gn pn nn { gn with left := gn.left, right := nn.left }
          { pn with left := nn.right, right := pn.right }
          { nn with left := some ga, right := some pa }
          hgn' hpn' hnn' hdomga hdompa hdomn (root :: others) x
        rw [staleCount_eq _ root rest ga hlink3 x] at hpost
        simp only [slotCount] at hpre h3
        rw [hgright] at h3
        simp only [Option.some.injEq] at hpre h3 hpost
        linarith
      have hpost := ih _ root others ga ⟨hwf3, hlink3, hRT3, hnrc3,
        hndIH, hrc3⟩
      unfold splayPost at hpost
      obtain ⟨c1, c2, c3, c4, c5, c6, c7, c8⟩ := hpost
      refine ⟨c1, ?_, c3, c4, c5, c6, ?_, ?_⟩
      · rw [c2]
        simp [hprc, hgrc, hnnrc]
      · intro b hb hbn
        simp only [List.map_cons, List.mem_cons, not_or] at hb
        rcases hb with ⟨hbpa, hbga, hbr⟩
        rw [c7 b hbr hbn]
        exact hframe b hbn hbpa hbga
      · intro b
        rw [c8 b]
        exact hrcmapH3 b
set_option maxHeartbeats 1600000 in
/-- Zig-zig right step of the splay loop. -/
theorem splayH_step_zzR (pa : Nat) (pv : T) (B2 : Tree (Nat × T)) (ga : Nat)
    (gv : T) (A2 : Tree (Nat × T)) (rest : List (AEntry T))
    (C D : Tree (Nat × T)) (n : Nat) (nv : T)
    (ih : ∀ (H : Heap T) (root : Option Nat) (others : List (Option Nat))
      (y : Nat), splayPre H root others y rest
        (.node (.node A2 (ga, gv) B2) (pa, pv) C) (n, nv) D →
      splayPost H others rest
        (.node (.node A2 (ga, gv) B2) (pa, pv) C) (n, nv) D) :
    ∀ (H : Heap T) (root : Option Nat) (others : List (Option Nat)) (y : Nat),
    splayPre H root others y
      ((⟨true, pa, pv, B2⟩ : AEntry T)
        :: (⟨true, ga, gv, A2⟩ : AEntry T) :: rest) C (n, nv) D →
    splayPost H others
      ((⟨true, pa, pv, B2⟩ : AEntry T)
        :: (⟨true, ga, gv, A2⟩ : AEntry T) :: rest) C (n, nv) D := by
  intro H root others y hpre
  obtain ⟨hwf, hlink, hRT, hnrc, hnd, hrc⟩ := hpre
  unfold splayPost
  dsimp only at hnrc hnd hrc ⊢
  rcases hlink with ⟨pn, hpn, hprc, hpval, hpslot, hlink2⟩
  simp only [if_true] at hpslot
  rcases hpslot with ⟨hpright, hpB2⟩
  rcases hlink2 with ⟨gn, hgn, hgrc, hgval, hgslot, hrest⟩
  simp only [if_true] at hgslot
  rcases hgslot with ⟨hgright, hgA2⟩
  dsimp only at hpn hgn hgright hrest
  subst hpval
  subst hgval
  rcases RT_node_inv hRT with ⟨nn, hnn, hp, hC, hD⟩
  injection hp with hp1 hnval
  subst hnval
  have hpn' : H.f pa = some pn := hpn
  have hgn' : H.f ga = some gn := hgn
  have hnn' : H.f n = some nn := hnn
  have hnnrc : nn.rc = 1 := hnrc nn hnn
  have hnd2 := nodup_split _ _ hnd
  simp only [addrsT, zipL, List.cons_append] at hnd2
  rcases List.nodup_cons.1 hnd2 with ⟨hn_notin, hnd3⟩
  rcases List.nodup_append.1 hnd3 with ⟨hndCD, hndr1, hdisj1⟩
  rcases List.nodup_cons.1 hndr1 with ⟨hpa_notin, hnd4⟩
  rcases List.nodup_append.1 hnd4 with ⟨hndB2, hnd5, hdisj2⟩
  rcases List.nodup_cons.1 hnd5 with ⟨hga_notin, hnd6⟩
  have hnpa : n ≠ pa := fun h => hn_notin (by simp [h])
  have hnga : n ≠ ga := fun h => hn_notin (by simp [h])
  have hpaga : pa ≠ ga := fun h => hpa_notin (by simp [h])
  have hnC : n ∉ addrsT C := fun h => hn_notin (by simp [h])
  have hnD : n ∉ addrsT D := fun h => hn_notin (by simp [h])
  have hnB2 : n ∉ addrsT B2 := fun h => hn_notin (by simp [h])
  have hnA2 : n ∉ addrsT A2 := fun h => hn_notin (by simp [h])
  have hnz : n ∉ zipL rest := fun h => hn_notin (by simp [h])
  have hpaC : pa ∉ addrsT C :=
    fun h => hdisj1 (List.mem_append_left _ h) (by simp)
  have hpaD : pa ∉ addrsT D :=
    fun h => hdisj1 (List.mem_append_right _ h) (by simp)
  have hpaB2 : pa ∉ addrsT B2 := fun h => hpa_notin (by simp [h])
  have hpaA2 : pa ∉ addrsT A2 := fun h => hpa_notin (by simp [h])
  have hpaz : pa ∉ zipL rest := fun h => hpa_notin (by simp [h])
  have hgaC : ga ∉ addrsT C :=
    fun h => hdisj1 (List.mem_append_left _ h) (by simp)
  have hgaD : ga ∉ addrsT D :=
    fun h => hdisj1 (List.mem_append_right _ h) (by simp)
  have hgaB2 : ga ∉ addrsT B2 := fun h => hdisj2 h (by simp)
  have hgaA2 : ga ∉ addrsT A2 := fun h => hga_notin (by simp [h])
  have hgaz : ga ∉ zipL rest := fun h => hga_notin (by simp [h])
  have hdomn : n ∈ H.dom := (hwf.domOK n).1 (by rw [hnn']; rfl)
  have hdompa : pa ∈ H.dom := (hwf.domOK pa).1 (by rw [hpn']; rfl)
  have hdomga : ga ∈ H.dom := (hwf.domOK ga).1 (by rw [hgn']; rfl)
  have hlookp1 : lookupH (writeH H ga
      { gn with left := gn.left, right := pn.left }) pa = some pn := by
    rw [lookupH_eq, f_writeH, if_neg hpaga]
    exact hpn'
  have hlookn2 : lookupH (writeH (writeH H ga
      { gn with left := gn.left, right := pn.left }) pa
      { pn with left := some ga, right := nn.left }) n = some nn := by
    rw [lookupH_eq, f_writeH, if_neg hnpa, f_writeH, if_neg hnga]
    exact hnn'
  have hsp : splayH H (List.map AEntry.toPair
        ((⟨true, pa, pn.value, B2⟩ : AEntry T)
          :: (⟨true, ga, gn.value, A2⟩ : AEntry T) :: rest)) n
      = ((splayH (writeH (writeH (writeH H ga
            { gn with left := gn.left, right := pn.left }) pa
            { pn with left := some ga, right := nn.left }) n
            { nn with left := some pa, right := nn.right })
          (List.map AEntry.toPair rest) n).1,
         decide (gn.rc ≤ 1) && decide (pn.rc ≤ 1) && decide (nn.rc ≤ 1)
          && (splayH (writeH (writeH (writeH H ga
            { gn with left := gn.left, right := pn.left }) pa
            { pn with left := some ga, right := nn.left }) n
            { nn with left := some pa, right := nn.right })
          (List.map AEntry.toPair rest) n).2) := by
    show splayH H ((true, pa) :: (true, ga)
        :: List.map AEntry.toPair rest) n = _
    simp only [splayH, hnn, hpn, hgn, if_true]
    rw [setChildren_eq H ga gn hgn gn.left pn.left]
    dsimp only
    rw [setChildren_eq _ pa pn hlookp1 (some ga) nn.left]
    dsimp only
    rw [setChildren_eq _ n nn hlookn2 (some pa) nn.right]
  rw [hsp]
  dsimp only
  simp only [adjust, hpn, if_true] at hrc
  have hwf1 : HWF (writeH H ga
      { gn with left := gn.left, right := pn.left }) :=
    HWF_writeH H hwf ga _ (by rw [hgn']; rfl)
      ((hwf.cvalid ga gn hgn').1) ((hwf.cvalid pa pn hpn').1)
  have hwf2 : HWF (writeH (writeH H ga
      { gn with left := gn.left, right := pn.left }) pa
      { pn with left := some ga, right := nn.left }) := by
    refine HWF_writeH _ hwf1 pa _ ?_ ?_ ?_
    · rw [f_writeH, if_neg hpaga, hpn']; rfl
    · intro a ha
      injection ha with ha
      subst ha
      rw [lookupH_eq, f_writeH, if_pos rfl]
      rfl
    · exact okPtr_writeH _ _ _ ((hwf.cvalid n nn hnn').1)
  have hwf3 : HWF (writeH (writeH (writeH H ga
      { gn with left := gn.left, right := pn.left }) pa
      { pn with left := some ga, right := nn.left }) n
      { nn with left := some pa, right := nn.right }) := by
    refine HWF_writeH _ hwf2 n _ ?_ ?_ ?_
    · rw [f_writeH, if_neg hnpa, f_writeH, if_neg hnga, hnn']; rfl
    · intro a ha
      injection ha with ha
      subst ha
      rw [lookupH_eq, f_writeH, if_pos rfl]
      rfl
    · exact okPtr_writeH _ _ _ (okPtr_writeH _ _ _
        ((hwf.cvalid n nn hnn').2))
  have hframe : ∀ b, b ≠ n → b ≠ pa → b ≠ ga →
      (writeH (writeH (writeH H ga
        { gn with left := gn.left, right := pn.left }) pa
        { pn with left := some ga, right := nn.left }) n
        { nn with left := some pa, right := nn.right }).f b = H.f b := by
    intro b hbn hbpa hbga
    rw [f_writeH, if_neg hbn, f_writeH, if_neg hbpa, f_writeH, if_neg hbga]
  have hrcmapH3 : ∀ b,
      (((writeH (writeH (writeH H ga
          { gn with left := gn.left, right := pn.left }) pa
          { pn with left := some ga, right := nn.left }) n
          { nn with left := some pa, right := nn.right }).f b).map
        HNode.rc) = ((H.f b).map HNode.rc) := by
    intro b
    rw [rc_writeH_children _ n nn
      (by rw [f_writeH, if_neg hnpa, f_writeH, if_neg hnga]; exact hnn')
      (some pa) nn.right b]
    rw [rc_writeH_children _ pa pn
      (by rw [f_writeH, if_neg hpaga]; exact hpn')
      (some ga) nn.left b]
    rw [rc_writeH_children H ga gn hgn' gn.left pn.left b]
  have hAgree : ∀ X : Tree (Nat × T), n ∉ addrsT X → pa ∉ addrsT X →
      ga ∉ addrsT X → ∀ b ∈ addrsT X,
      (writeH (writeH (writeH H ga
        { gn with left := gn.left, right := pn.left }) pa
        { pn with left := some ga, right := nn.left }) n
        { nn with left := some pa, right := nn.right }).f b = H.f b := by
    intro X hX1 hX2 hX3 b hb
    exact hframe b (fun h => hX1 (h ▸ hb)) (fun h => hX2 (h ▸ hb))
      (fun h => hX3 (h ▸ hb))
  have hRT3 : RT (writeH (writeH (writeH H ga
      { gn with left := gn.left, right := pn.left }) pa
      { pn with left := some ga, right := nn.left }) n
      { nn with left := some pa, right := nn.right }) (some n)
      (.node (.node (.node A2 (ga, gn.value) B2) (pa, pn.value) C)
        (n, nn.value) D) := by
    have hA22 : RT _ gn.left A2 :=
      RT_congr_f hgA2 (hAgree A2 hnA2 hpaA2 hgaA2)
    have hB22 : RT _ pn.left B2 :=
      RT_congr_f hpB2 (hAgree B2 hnB2 hpaB2 hgaB2)
    have hC2 : RT _ nn.left C := RT_congr_f hC (hAgree C hnC hpaC hgaC)
    have hD2 : RT _ nn.right D := RT_congr_f hD (hAgree D hnD hpaD hgaD)
    have hlookga : lookupH (writeH (writeH (writeH H ga
        { gn with left := gn.left, right := pn.left }) pa
        { pn with left := some ga, right := nn.left }) n
        { nn with left := some pa, right := nn.right }) ga
        = some { gn with left := gn.left, right := pn.left } := by
      rw [lookupH_eq, f_writeH, if_neg (fun h => hnga h.symm), f_writeH,
        if_neg (fun h => hpaga h.symm), f_writeH, if_pos rfl]
    have hlookpa : lookupH (writeH (writeH (writeH H ga
        { gn with left := gn.left, right := pn.left }) pa
        { pn with left := some ga, right := nn.left }) n
        { nn with left := some pa, right := nn.right }) pa
        = some { pn with left := some ga, right := nn.left } := by
      rw [lookupH_eq, f_writeH, if_neg (fun h => hnpa h.symm), f_writeH,
        if_pos rfl]
    have hlookn : lookupH (writeH (writeH (writeH H ga
        { gn with left := gn.left, right := pn.left }) pa
        { pn with left := some ga, right := nn.left }) n
        { nn with left := some pa, right := nn.right }) n
        = some { nn with left := some pa, right := nn.right } := by
      rw [lookupH_eq, f_writeH, if_pos rfl]
    have hsubg : RT _ (some ga) (.node A2 (ga, gn.value) B2) :=
      @RT.node T _ ga { gn with left := gn.left, right := pn.left }
        A2 B2 hlookga hA22 hB22
    have hsubp : RT _ (some pa) (.node (.node A2 (ga, gn.value) B2)
        (pa, pn.value) C) :=
      @RT.node T _ pa { pn with left := some ga, right := nn.left }
        (.node A2 (ga, gn.value) B2) C hlookpa hsubg hC2
    exact @RT.node T _ n { nn with left := some pa, right := nn.right }
      (.node (.node A2 (ga, gn.value) B2) (pa, pn.value) C) D hlookn
      hsubp hD2
  have hlink3 : linkAbove (writeH (writeH (writeH H ga
      { gn with left := gn.left, right := pn.left }) pa
      { pn with left := some ga, right := nn.left }) n
      { nn with left := some pa, right := nn.right }) root rest ga := by
    refine linkAbove_congr hrest ?_
    intro b hb
    exact hframe b (fun h => hnz (h ▸ hb)) (fun h => hpaz (h ▸ hb))
      (fun h => hgaz (h ▸ hb))
  have hnrc3 : ∀ m, lookupH (writeH (writeH (writeH H ga
      { gn with left := gn.left, right := pn.left }) pa
      { pn with left := some ga, right := nn.left }) n
      { nn with left := some pa, right := nn.right }) n = some m →
      m.rc = 1 := by
    intro m hm
    rw [lookupH_eq, f_writeH, if_pos rfl] at hm
    injection hm with hm
    subst hm
    exact hnnrc
  have hndIH : (maddrs (aplug rest (.node (.node (.node A2 (ga, gn.value) B2)
      (pa, pn.value) C) (n, nn.value) D))).Nodup := by
    have hmeq : maddrs (aplug rest (.node (.node (.node A2 (ga, gn.value) B2)
        (pa, pn.value) C) (n, nn.value) D))
        = maddrs (aplug ((⟨true, pa, pn.value, B2⟩ : AEntry T)
          :: (⟨true, ga, gn.value, A2⟩ : AEntry T) :: rest)
          (.node C (n, nn.value) D)) := by
      simp only [aplug, AEntry.reattachA, if_true]
      refine maddrs_aplug_congr rest ?_
      simp [maddrs_node, Multiset.singleton_add, Multiset.cons_swap,
        add_comm, add_left_comm, add_assoc]
    rw [hmeq]
    exact hnd
  have hne3 : ∀ (e : AEntry T) aes', rest = e :: aes' →
      (lookupH (writeH (writeH (writeH H ga
        { gn with left := gn.left, right := pn.left }) pa
        { pn with left := some ga, right := nn.left }) n
        { nn with left := some pa, right := nn.right }) e.addr).isSome
        = true := by
    intro e aes' heq
    have hbz : e.addr ∈ zipL rest := by rw [heq]; simp [zipL]
    rw [heq] at hrest
    rcases hrest with ⟨qn, hq, -⟩
    rw [lookupH_eq, hframe e.addr (fun h => hnz (h ▸ hbz))
      (fun h => hpaz (h ▸ hbz)) (fun h => hgaz (h ▸ hbz)),
      ← lookupH_eq, hq]
    rfl
  have hrc3 : rcCorrect (adjust (writeH (writeH (writeH H ga
      { gn with left := gn.left, right := pn.left }) pa
      { pn with left := some ga, right := nn.left }) n
      { nn with left := some pa, right := nn.right }) root rest n).1
      ((adjust (writeH (writeH (writeH H ga
      { gn with left := gn.left, right := pn.left }) pa
      { pn with left := some ga, right := nn.left }) n
      { nn with left := some pa, right := nn.right }) root rest n).2
        :: others) := by
    refine rcCorrect_transfer _ _ _ _
      (fun b => by
        rw [rcmap_adjust, hrcmapH3 b,
          ← rc_writeH_children H pa pn hpn' pn.left (some n) b])
      (fun x => ?_) hrc
    have hpre := incoming_writeH H hwf.nodup pa hdompa pn hpn'
      { pn with right := some n } (root :: others) x
    have hpost := incoming_adjust _ hwf3.nodup
      (fun a m hm => (hwf3.domOK a).1 (by rw [hm]; rfl))
      root rest n hne3 others x
    have h3 := incoming_writeH3 H hwf.nodup ga pa n hpaga hnga hnpa
      gn pn nn { gn with left := gn.left, right := pn.left }
      { pn with left := some ga, right := nn.left }
      { nn with left := some pa, right := nn.right }
      hgn' hpn' hnn' hdomga hdompa hdomn (root :: others) x
    rw [staleCount_eq _ root rest ga hlink3 x] at hpost
    simp only [slotCount] at hpre h3
    rw [hgright] at h3
    simp only [Option.some.injEq] at hpre h3 hpost
    linarith
  have hpost := ih _ root others ga ⟨hwf3, hlink3, hRT3, hnrc3,
    hndIH, hrc3⟩
  unfold splayPost at hpost
  obtain ⟨c1, c2, c3, c4, c5, c6, c7, c8⟩ := hpost
  refine ⟨c1, ?_, c3, c4, c5, c6, ?_, ?_⟩
  · rw [c2]
    simp [hprc, hgrc, hnnrc]
  · intro b hb hbn
    simp only [List.map_cons, List.mem_cons, not_or] at hb
    rcases hb with ⟨hbpa, hbga, hbr⟩
    rw [c7 b hbr hbn]
    exact hframe b hbn hbpa hbga
  · intro b
    rw [c8 b]
    exact hrcmapH3 b

set_option maxHeartbeats 800000 in
/-- Master invariant of the heap splay loop: starting from a linked
recorded path with a singly-referenced target whose redirected view is
refcount correct, applying the recorded rewrites bottom-up yields the
functional splay result, passes every sharing assertion, and restores exact
refcount correctness with the target as the root. -/
theorem splayH_master :
    ∀ (aes : List (AEntry T)) (A : Tree (Nat × T)) (nvp : Nat × T)
      (B : Tree (Nat × T)),
    ∀ (H : Heap T) (root : Option Nat) (others : List (Option Nat)) (y : Nat),
    splayPre H root others y aes A nvp B → splayPost H others aes A nvp B := by
  intro aes A nvp B
  induction aes, A, nvp, B using splayA.induct with
  | case1 A nvp B =>
      intro H root others y hpre
      obtain ⟨hwf, hlink, hRT, hnrc, hnd, hrc⟩ := hpre
      unfold splayPost
      exact ⟨hRT, rfl, hrc, hwf, rfl, rfl, fun b _ _ => rfl, fun b => rfl⟩
  | case2 pa pv C A nvp B =>
      exact splayH_step_zigL pa pv C A B nvp.1 nvp.2
  | case3 pa pv A2 B nvp C =>
      exact splayH_step_zigR pa pv A2 B C nvp.1 nvp.2
  | case4 pa pv C ga gv D rest A nvp B ih =>
      exact splayH_step_zzL pa pv C ga gv D rest A B nvp.1 nvp.2 ih
  | case5 pa pv A2 ga gv D rest B nvp C ih =>
      exact splayH_step_zzLR pa pv A2 ga gv D rest B C nvp.1 nvp.2 ih
  | case6 pa pv D ga gv A2 rest B nvp C ih =>
      exact splayH_step_zzRL pa pv D ga gv A2 rest B C nvp.1 nvp.2 ih
  | case7 pa pv B2 ga gv A2 rest C nvp D ih =>
      exact splayH_step_zzR pa pv B2 ga gv A2 rest C D nvp.1 nvp.2 ih


/-- The chain above the current descent position, where the deepest slot may
be empty: `linkAbove` generalised to an optional slot content. -/
def linkAboveO (H : Heap T) (root : Option Nat) :
    List (AEntry T) → Option Nat → Prop
  | [], o => root = o
  | e :: rest, o =>
      ∃ ne, lookupH H e.addr = some ne ∧ ne.rc = 1 ∧ ne.value = e.value ∧
        (if e.m_right then ne.right = o ∧ RT H ne.left e.other
         else ne.left = o ∧ RT H ne.right e.other) ∧
        linkAbove H root rest e.addr

theorem linkAboveO_some (H : Heap T) (root : Option Nat)
    (aes : List (AEntry T)) (n : Nat) :
    linkAboveO H root aes (some n) ↔ linkAbove H root aes n := by
  cases aes <;> exact Iff.rfl

/-- Writing back the value already stored is a no-op. -/
theorem writeH_self (H : Heap T) (a : Nat) (ne : HNode T)
    (hne : H.f a = some ne) : writeH H a ne = H := by
  simp only [writeH]
  cases H with
  | mk d f nx =>
      simp only at hne ⊢
      congr 1
      funext b
      rw [Function.update_apply]
      split
      · rename_i hba
        subst hba
        exact hne.symm
      · rfl

/-- When the deepest slot already holds the splay target, the redirection is
the identity. -/
theorem adjust_id (H : Heap T) (root : Option Nat) (aes : List (AEntry T))
    (n : Nat) (hlink : linkAbove H root aes n) :
    adjust H root aes n = (H, root) := by
  cases aes with
  | nil =>
      simp only [linkAbove] at hlink
      simp [adjust, hlink]
  | cons e rest =>
      rcases hlink with ⟨ne, hne, _, _, hslot, -⟩
      simp only [adjust, hne]
      split at hslot <;> rename_i hd
      · rw [if_pos hd, ← hslot.1]
        rw [writeH_self H e.addr ne hne]
      · rw [if_neg hd, ← hslot.1]
        rw [writeH_self H e.addr ne hne]

/-- The splay target of a linked path is anchored. -/
theorem linkAbove_anchored (H : Heap T) (root : Option Nat)
    (aes : List (AEntry T)) (n : Nat) (hlink : linkAbove H root aes n)
    (nn : HNode T) (hnn : lookupH H n = some nn) (h1 : nn.rc = 1) :
    Anchored H root n := by
  induction aes generalizing n nn with
  | nil => exact Anchored.base hlink hnn h1
  | cons e rest ih =>
      rcases hlink with ⟨ne, hne, hrc, -, hslot, hrest⟩
      have hanc : Anchored H root e.addr := ih e.addr hrest ne hne hrc
      have hsl : ne.left = some n ∨ ne.right = some n := by
        split at hslot <;> [exact Or.inr hslot.1; exact Or.inl hslot.1]
      exact Anchored.step hanc hne hsl hnn h1

/-- Every entry of a linked path is anchored. -/
theorem linkAbove_anchored_entry (H : Heap T) (root : Option Nat)
    (aes : List (AEntry T)) (n : Nat) (hlink : linkAbove H root aes n) :
    ∀ e ∈ aes, Anchored H root e.addr := by
  induction aes generalizing n with
  | nil => intro e he; cases he
  | cons e' rest ih =>
      rcases hlink with ⟨ne, hne, hrc, -, -, hrest⟩
      intro e he
      rcases List.mem_cons.1 he with rfl | he'
      · exact linkAbove_anchored H root rest e.addr hrest ne hne hrc
      · exact ih e'.addr hrest e he'

/-- Allocation preserves heap well-formedness. -/
theorem HWF_allocH (H : Heap T) (hwf : HWF H) (nd : HNode T)
    (hl : okPtr H nd.left) (hr : okPtr H nd.right) : HWF (allocH H nd).1 := by
  have hfresh : H.next ∉ H.dom := fun h => by
    have := hwf.fresh H.next h
    omega
  have hlook : ∀ x, lookupH (allocH H nd).1 x
      = if x = H.next then some nd else lookupH H x := lookupH_allocH H nd
  refine ⟨?_, ?_, ?_, ?_⟩
  · exact List.nodup_cons.2 ⟨hfresh, hwf.nodup⟩
  · intro b
    have := hlook b
    simp only [lookupH] at this
    rw [this]
    by_cases hb : b = H.next
    · subst hb
      simp [allocH]
    · rw [if_neg hb]
      simp only [allocH, List.mem_cons]
      rw [(hwf.domOK b)]
      simp [hb]
  · intro b hb
    simp only [allocH, List.mem_cons] at hb ⊢
    rcases hb with rfl | hb
    · omega
    · have := hwf.fresh b hb
      omega
  · intro b m hm
    have hok : ∀ o : Option Nat, okPtr H o → okPtr (allocH H nd).1 o := by
      intro o h x hx
      rw [hlook x]
      split
      · rfl
      · exact h x hx
    have := hlook b
    simp only [lookupH] at this
    rw [this] at hm
    by_cases hb : b = H.next
    · rw [if_pos hb] at hm
      cases hm
      exact ⟨hok _ hl, hok _ hr⟩
    · rw [if_neg hb] at hm
      rcases hwf.cvalid b m hm with ⟨h1, h2⟩
      exact ⟨hok _ h1, hok _ h2⟩

/-- Reference-count bumps preserve heap well-formedness. -/
theorem HWF_incRefO (H : Heap T) (hwf : HWF H) (oa : Option Nat) :
    HWF (incRefO H oa) := by
  refine HWF_congr H _ hwf (dom_incRefO H oa) (next_incRefO H oa) ?_
    (core_incRefO H oa)
  intro b
  have := lookupH_incRefO H oa b
  simp only [lookupH] at this
  rw [this]
  split
  · cases H.f b <;> simp
  · exact Iff.rfl

/-- Every address of a represented tree is allocated. -/
theorem RT_mem_isSome {H : Heap T} {oa : Option Nat} {t : Tree (Nat × T)}
    (h : RT H oa t) : ∀ b ∈ addrsT t, (H.f b).isSome = true := by
  induction h with
  | leaf => intro b hb; cases hb
  | node hlook hlt hrt ihl ihr =>
      intro b hb
      simp only [addrsT, List.mem_cons, List.mem_append] at hb
      rcases hb with rfl | hb | hb
      · rw [show H.f b = lookupH H b from rfl, hlook]; rfl
      · exact ihl b hb
      · exact ihr b hb

/-- Every address of a linked path context is allocated. -/
theorem linkAbove_zip_isSome (H : Heap T) (root : Option Nat)
    (aes : List (AEntry T)) (n : Nat) (hlink : linkAbove H root aes n) :
    ∀ b ∈ zipL aes, (H.f b).isSome = true := by
  induction aes generalizing n with
  | nil => intro b hb; cases hb
  | cons e rest ih =>
      rcases hlink with ⟨ne, hne, -, -, hslot, hrest⟩
      intro b hb
      simp only [zipL, List.mem_cons, List.mem_append] at hb
      rcases hb with rfl | hb | hb
      · rw [show H.f e.addr = lookupH H e.addr from rfl, hne]; rfl
      · have hsib : RT H (if e.m_right then ne.left else ne.right) e.other := by
          split at hslot <;> rename_i hd
          · rw [if_pos hd]; exact hslot.2
          · rw [if_neg hd]; exact hslot.2
        exact RT_mem_isSome hsib b hb
      · exact ih e.addr hrest b hb

/-- Validity of a list of handle roots. -/
def rootsOK (H : Heap T) (R : List (Option Nat)) : Prop :=
  ∀ r ∈ R, ∀ x, r = some x → (H.f x).isSome = true

/-- The fresh address is unallocated. -/
theorem f_next_none (H : Heap T) (hwf : HWF H) : H.f H.next = none := by
  cases h : H.f H.next with
  | none => rfl
  | some m =>
      have : H.next ∈ H.dom := (hwf.domOK H.next).1 (by rw [h]; rfl)
      have := hwf.fresh H.next this
      omega

/-- No allocated node's slot can reference an unallocated address. -/
theorem slotCountO_unalloc (H : Heap T) (hwf : HWF H) (b : Nat) (x : Nat)
    (hx : H.f x = none) : slotCountO (H.f b) x = 0 := by
  cases hb : H.f b with
  | none => rfl
  | some m =>
      rcases hwf.cvalid b m hb with ⟨hl, hr⟩
      simp only [slotCountO_some, slotCount]
      have h1 : m.left ≠ some x := fun h => by
        have := hl x h
        rw [lookupH_eq, hx] at this
        cases this
      have h2 : m.right ≠ some x := fun h => by
        have := hr x h
        rw [lookupH_eq, hx] at this
        cases this
      rw [if_neg h1, if_neg h2]

/-- Nothing references an unallocated address. -/
theorem incomingN_unalloc (H : Heap T) (hwf : HWF H) (x : Nat)
    (hx : H.f x = none) : incomingN H x = 0 := by
  simp only [incomingN]
  refine List.sum_eq_zero ?_
  intro s hs
  rcases List.mem_map.1 hs with ⟨b, -, rfl⟩
  exact slotCountO_unalloc H hwf b x hx

/-- No valid root slot references an unallocated address. -/
theorem rootCount_unalloc (H : Heap T) (R : List (Option Nat))
    (hR : rootsOK H R) (x : Nat) (hx : H.f x = none) : rootCount R x = 0 := by
  simp only [rootCount]
  rw [List.countP_eq_zero]
  intro r hr
  simp only [decide_eq_true_eq]
  intro heq
  have := hR r hr x heq
  rw [hx] at this
  cases this

/-- `slotCountO` only depends on the node core. -/
theorem slotCountO_core_congr {o1 o2 : Option (HNode T)}
    (h : o1.map nodeCore = o2.map nodeCore) (x : Nat) :
    slotCountO o1 x = slotCountO o2 x := by
  cases h1 : o1 with
  | none =>
      rw [h1] at h
      cases h2 : o2 with
      | none => rfl
      | some m => rw [h2] at h; cases h
  | some m =>
      rw [h1] at h
      cases h2 : o2 with
      | none => rw [h2] at h; cases h
      | some m' =>
          rw [h2] at h
          simp only [Option.map_some'] at h
          have hc : nodeCore m = nodeCore m' := by injection h
          have hl : m.left = m'.left := congrArg Prod.fst hc
          have hr : m.right = m'.right := by
            have := congrArg Prod.snd hc
            exact congrArg Prod.fst this
          simp [slotCountO_some, slotCount, hl, hr]

/-- `incomingN` of a heap extending `H` by one address with unchanged cores. -/
theorem incomingN_cons_core (Hc H : Heap T) (a2 : Nat)
    (hdom : Hc.dom = a2 :: H.dom)
    (hcore : ∀ b ∈ H.dom, (Hc.f b).map nodeCore = (H.f b).map nodeCore)
    (x : Nat) :
    incomingN Hc x = slotCountO (Hc.f a2) x + incomingN H x := by
  simp only [incomingN, hdom, List.map_cons, List.sum_cons]
  refine congrArg (slotCountO (Hc.f a2) x + ·) ?_
  refine congrArg List.sum (List.map_congr_left ?_)
  intro b hb
  exact slotCountO_core_congr (hcore b hb) x

/-- The heap state after cloning a shared node: allocate the copy, acquire
both children, and re-link the parent slot (or the root) to the copy. -/
def cloneHeap (H : Heap T) (nd : HNode T) (fl : Nat)
    (path : List (Bool × Nat)) (root : Option Nat) :
    Heap T × Option Nat × Bool :=
  update_parentH fl (incRefO (incRefO
      (allocH H ⟨nd.left, nd.right, nd.value, 0⟩).1 nd.left) nd.right)
    path root H.next

/-- Pointwise description of a reference-count bump. -/
theorem lookupH_incRefO_formula (H : Heap T) (o : Option Nat) (x : Nat) :
    lookupH (incRefO H o) x = (lookupH H x).map
      (fun m => { m with rc := m.rc + (if o = some x then 1 else 0) }) := by
  rw [lookupH_incRefO]
  by_cases ho : o = some x
  · rw [if_pos ho, if_pos ho]
  · rw [if_neg ho, if_neg ho]
    cases lookupH H x <;> rfl

/-- Dereferencing after the allocate-and-acquire prefix of a clone. -/
theorem clone_lookup (H : Heap T) (hwf : HWF H) (a : Nat) (nd : HNode T)
    (hlook : lookupH H a = some nd) :
    ∀ x, lookupH (incRefO (incRefO
        (allocH H ⟨nd.left, nd.right, nd.value, 0⟩).1 nd.left) nd.right) x
      = if x = H.next then some ⟨nd.left, nd.right, nd.value, 0⟩
        else (lookupH H x).map
          (fun m => { m with rc := m.rc + slotCount nd x }) := by
  have hnone : H.f H.next = none := f_next_none H hwf
  rcases hwf.cvalid a nd hlook with ⟨hvl, hvr⟩
  have hla : nd.left ≠ some H.next := fun h => by
    have := hvl H.next h
    rw [lookupH_eq, hnone] at this
    cases this
  have hra : nd.right ≠ some H.next := fun h => by
    have := hvr H.next h
    rw [lookupH_eq, hnone] at this
    cases this
  intro x
  rw [lookupH_incRefO_formula, lookupH_incRefO_formula, lookupH_allocH]
  by_cases hx : x = H.next
  · subst hx
    rw [if_pos rfl, if_pos rfl]
    simp [hla, hra]
  · rw [if_neg hx, if_neg hx]
    cases lookupH H x with
    | none => rfl
    | some m => simp [slotCount, Nat.add_assoc]


/-- The root of a represented subtree occurs among its addresses. -/
theorem RT_some_mem {H : Heap T} {x : Nat} {t : Tree (Nat × T)}
    (h : RT H (some x) t) : x ∈ addrsT t := by
  cases h
  simp [addrsT]

/-- Every entry of an optionally-linked path is anchored. -/
theorem linkAboveO_anchored_entry (H : Heap T) (root : Option Nat)
    (aes : List (AEntry T)) (o : Option Nat)
    (hlink : linkAboveO H root aes o) :
    ∀ e ∈ aes, Anchored H root e.addr := by
  cases aes with
  | nil => intro e he; cases he
  | cons e' rest =>
      rcases hlink with ⟨ne, hne, hrc, -, -, hrest⟩
      intro e he
      rcases List.mem_cons.1 he with rfl | he'
      · exact linkAbove_anchored H root rest e.addr hrest ne hne hrc
      · exact linkAbove_anchored_entry H root rest e'.addr hrest e he'

/-- Duplicate-freeness of a plugged zipper from its flat list. -/
theorem nodup_unsplit (aes : List (AEntry T)) (t : Tree (Nat × T))
    (h : (addrsT t ++ zipL aes).Nodup) :
    (maddrs (aplug aes t)).Nodup := by
  have he : maddrs (aplug aes t)
      = ((addrsT t ++ zipL aes : List Nat) : Multiset Nat) := by
    rw [maddrs_aplug]
    simp [maddrs]
  rw [he]
  exact Multiset.coe_nodup.2 h

/-- Every address of an optionally-linked path context is allocated. -/
theorem linkAboveO_zip_isSome (H : Heap T) (root : Option Nat)
    (aes : List (AEntry T)) (o : Option Nat)
    (hlink : linkAboveO H root aes o) :
    ∀ b ∈ zipL aes, (H.f b).isSome = true := by
  cases aes with
  | nil => intro b hb; cases hb
  | cons e rest =>
      rcases hlink with ⟨ne, hne, -, -, hslot, hrest⟩
      intro b hb
      simp only [zipL, List.mem_cons, List.mem_append] at hb
      rcases hb with rfl | hb | hb
      · rw [show H.f e.addr = lookupH H e.addr from rfl, hne]; rfl
      · have hsib : RT H (if e.m_right then ne.left else ne.right) e.other := by
          split at hslot <;> rename_i hd
          · rw [if_pos hd]; exact hslot.2
          · rw [if_neg hd]; exact hslot.2
        exact RT_mem_isSome hsib b hb
      · exact linkAbove_zip_isSome H root rest e.addr hrest b hb

set_option maxHeartbeats 1600000 in
/-- Cloning a shared node during the descent: the copy carries the payload
and both children (each acquired once), the parent slot or the handle root
moves to the copy, the original keeps its other owners, and refcount
correctness is restored exactly. -/
theorem cloneStep (H : Heap T) (root : Option Nat) (others : List (Option Nat))
    (aes : List (AEntry T)) (a : Nat) (nd : HNode T) (tl tr : Tree (Nat × T))
    (fl : Nat) (hfl : 1 ≤ fl) (hwf : HWF H)
    (hrc : rcCorrect H (root :: others))
    (hrts : rootsOK H (root :: others))
    (hlook : lookupH H a = some nd) (hsh : 2 ≤ nd.rc)
    (hlt : RT H nd.left tl) (hrt : RT H nd.right tr)
    (hlink : linkAboveO H root aes (some a))
    (hndup : (maddrs (aplug aes (.node tl (a, nd.value) tr))).Nodup) :
    (cloneHeap H nd fl (aes.map AEntry.toPair) root).2.2 = true ∧
    HWF (cloneHeap H nd fl (aes.map AEntry.toPair) root).1 ∧
    rcCorrect (cloneHeap H nd fl (aes.map AEntry.toPair) root).1
      ((cloneHeap H nd fl (aes.map AEntry.toPair) root).2.1 :: others) ∧
    rootsOK (cloneHeap H nd fl (aes.map AEntry.toPair) root).1
      ((cloneHeap H nd fl (aes.map AEntry.toPair) root).2.1 :: others) ∧
    lookupH (cloneHeap H nd fl (aes.map AEntry.toPair) root).1 H.next
      = some ⟨nd.left, nd.right, nd.value, 1⟩ ∧
    linkAboveO (cloneHeap H nd fl (aes.map AEntry.toPair) root).1
      (cloneHeap H nd fl (aes.map AEntry.toPair) root).2.1 aes
      (some H.next) ∧
    RT (cloneHeap H nd fl (aes.map AEntry.toPair) root).1 nd.left tl ∧
    RT (cloneHeap H nd fl (aes.map AEntry.toPair) root).1 nd.right tr ∧
    (maddrs (aplug aes (.node tl (H.next, nd.value) tr))).Nodup ∧
    (∀ oB tB, oB ∈ others → RT H oB tB →
      RT (cloneHeap H nd fl (aes.map AEntry.toPair) root).1 oB tB) ∧
    (cloneHeap H nd fl (aes.map AEntry.toPair) root).1.next = H.next + 1 ∧
    (cloneHeap H nd fl (aes.map AEntry.toPair) root).1.dom
      = H.next :: H.dom := by
  have hfa : H.f H.next = none := f_next_none H hwf
  have hadom : a ∈ H.dom := (hwf.domOK a).1 (by
    rw [show H.f a = lookupH H a from rfl, hlook]; rfl)
  have haa : a ≠ H.next := by
    intro h
    rw [lookupH_eq, h, hfa] at hlook
    cases hlook
  rcases hwf.cvalid a nd hlook with ⟨hvl, hvr⟩
  have hla : nd.left ≠ some H.next := fun h => by
    have := hvl H.next h
    rw [lookupH_eq, hfa] at this
    cases this
  have hra : nd.right ≠ some H.next := fun h => by
    have := hvr H.next h
    rw [lookupH_eq, hfa] at this
    cases this
  have hnd2 := nodup_split aes _ hndup
  simp only [addrsT, List.cons_append] at hnd2
  rcases List.nodup_cons.1 hnd2 with ⟨ha_notin, hnd3⟩
  rcases List.nodup_append.1 hnd3 with ⟨hndTT, hndzip, hdisjTZ⟩
  have hslot_a : slotCount nd a = 0 := by
    have h1 : nd.left ≠ some a := by
      intro h
      rw [h] at hlt
      exact ha_notin (List.mem_append_left _
        (List.mem_append_left _ (RT_some_mem hlt)))
    have h2 : nd.right ≠ some a := by
      intro h
      rw [h] at hrt
      exact ha_notin (List.mem_append_left _
        (List.mem_append_right _ (RT_some_mem hrt)))
    simp [slotCount, h1, h2]
  have hslot_T : ∀ b, b ∉ addrsT tl ++ addrsT tr → slotCount nd b = 0 := by
    intro b hb
    have h1 : nd.left ≠ some b := by
      intro h
      rw [h] at hlt
      exact hb (List.mem_append_left _ (RT_some_mem hlt))
    have h2 : nd.right ≠ some b := by
      intro h
      rw [h] at hrt
      exact hb (List.mem_append_right _ (RT_some_mem hrt))
    simp [slotCount, h1, h2]
  have hslot_n : slotCount nd H.next = 0 := by
    simp [slotCount, hla, hra]
  have hstep := clone_lookup H hwf a nd hlook
  have hINf : incomingN H H.next = 0 := incomingN_unalloc H hwf _ hfa
  have hRCf : rootCount (root :: others) H.next = 0 :=
    rootCount_unalloc H _ hrts _ hfa
  have hTfresh : ∀ b, b ∈ addrsT tl ++ addrsT tr → b ≠ H.next := by
    intro b hb h
    rw [h] at hb
    rcases List.mem_append.1 hb with hb | hb
    · have := RT_mem_isSome hlt _ hb
      rw [hfa] at this
      cases this
    · have := RT_mem_isSome hrt _ hb
      rw [hfa] at this
      cases this
  have hZfresh : ∀ b, b ∈ zipL aes → b ≠ H.next := by
    intro b hb h
    rw [h] at hb
    have := linkAboveO_zip_isSome H root aes (some a) hlink _ hb
    rw [hfa] at this
    cases this
  obtain ⟨k, rfl⟩ : ∃ k, fl = k + 1 := ⟨fl - 1, by omega⟩
  -- the heap after allocate, acquire both children and acquire the copy
  have hstep3 : ∀ x, lookupH (incRefO (incRefO (incRefO
      (allocH H ⟨nd.left, nd.right, nd.value, 0⟩).1 nd.left) nd.right)
      (some H.next)) x
      = if x = H.next then some ⟨nd.left, nd.right, nd.value, 1⟩
        else (lookupH H x).map
          (fun m => { m with rc := m.rc + slotCount nd x }) := by
    intro x
    rw [lookupH_incRefO_formula, hstep x]
    by_cases hx : x = H.next
    · subst hx
      rw [if_pos rfl, if_pos rfl]
      simp
    · have hns : ¬((some H.next : Option Nat) = some x) := by
        simp [Ne.symm hx]
      rw [if_neg hx, if_neg hx]
      cases lookupH H x with
      | none => rfl
      | some m => simp [hns]
  have hlook3a : lookupH (incRefO (incRefO (incRefO
      (allocH H ⟨nd.left, nd.right, nd.value, 0⟩).1 nd.left) nd.right)
      (some H.next)) a = some nd := by
    rw [hstep3 a, if_neg haa, hlook, Option.map_some', hslot_a]
    rfl
  have hdec : decRefO (k + 1) (incRefO (incRefO (incRefO
      (allocH H ⟨nd.left, nd.right, nd.value, 0⟩).1 nd.left) nd.right)
      (some H.next)) (some a)
      = writeH (incRefO (incRefO (incRefO
          (allocH H ⟨nd.left, nd.right, nd.value, 0⟩).1 nd.left) nd.right)
          (some H.next)) a { nd with rc := nd.rc - 1 } := by
    simp only [decRefO, hlook3a]
    rw [if_neg (by omega : ¬ nd.rc ≤ 1)]
  -- pointwise description of the written heap
  have hfin : ∀ x, (writeH (incRefO (incRefO (incRefO
      (allocH H ⟨nd.left, nd.right, nd.value, 0⟩).1 nd.left) nd.right)
      (some H.next)) a { nd with rc := nd.rc - 1 }).f x
      = if x = a then some { nd with rc := nd.rc - 1 }
        else if x = H.next then some ⟨nd.left, nd.right, nd.value, 1⟩
        else (H.f x).map
          (fun m => { m with rc := m.rc + slotCount nd x }) := by
    intro x
    rw [f_writeH]
    by_cases hx : x = a
    · rw [if_pos hx, if_pos hx]
    · rw [if_neg hx, if_neg hx]
      exact hstep3 x
  have hdom4 : (writeH (incRefO (incRefO (incRefO
      (allocH H ⟨nd.left, nd.right, nd.value, 0⟩).1 nd.left) nd.right)
      (some H.next)) a { nd with rc := nd.rc - 1 }).dom
      = H.next :: H.dom := by
    rw [dom_writeH, dom_incRefO, dom_incRefO, dom_incRefO]
    rfl
  have hnext4 : (writeH (incRefO (incRefO (incRefO
      (allocH H ⟨nd.left, nd.right, nd.value, 0⟩).1 nd.left) nd.right)
      (some H.next)) a { nd with rc := nd.rc - 1 }).next
      = H.next + 1 := by
    rw [next_writeH, next_incRefO, next_incRefO, next_incRefO]
    rfl
  have hnd4 : (H.next :: H.dom).Nodup := by
    refine List.nodup_cons.2 ⟨fun h => ?_, hwf.nodup⟩
    have := hwf.fresh H.next h
    omega
  have hcoreAll : ∀ b, b ≠ H.next →
      ((writeH (incRefO (incRefO (incRefO
        (allocH H ⟨nd.left, nd.right, nd.value, 0⟩).1 nd.left) nd.right)
        (some H.next)) a { nd with rc := nd.rc - 1 }).f b).map nodeCore
      = (H.f b).map nodeCore := by
    intro b hb
    by_cases hba : b = a
    · subst hba
      rw [hfin b, if_pos rfl, show H.f b = some nd from hlook]
      rfl
    · rw [hfin b, if_neg hba, if_neg hb]
      cases H.f b <;> rfl
  have hmono : ∀ b, (H.f b).isSome = true →
      (((writeH (incRefO (incRefO (incRefO
        (allocH H ⟨nd.left, nd.right, nd.value, 0⟩).1 nd.left) nd.right)
        (some H.next)) a { nd with rc := nd.rc - 1 }).f b).isSome = true) := by
    intro b hb
    rw [hfin b]
    by_cases hba : b = a
    · rw [if_pos hba]; rfl
    · by_cases hbn : b = H.next
      · rw [if_neg hba, if_pos hbn]; rfl
      · rw [if_neg hba, if_neg hbn]
        cases ho : H.f b with
        | none => rw [ho] at hb; cases hb
        | some m => rfl
  have hwfA : HWF (allocH H ⟨nd.left, nd.right, nd.value, 0⟩).1 :=
    HWF_allocH H hwf _ hvl hvr
  have hwf3 : HWF (incRefO (incRefO (incRefO
      (allocH H ⟨nd.left, nd.right, nd.value, 0⟩).1 nd.left) nd.right)
      (some H.next)) :=
    HWF_incRefO _ (HWF_incRefO _ (HWF_incRefO _ hwfA _) _) _
  have hwfF : HWF (writeH (incRefO (incRefO (incRefO
      (allocH H ⟨nd.left, nd.right, nd.value, 0⟩).1 nd.left) nd.right)
      (some H.next)) a { nd with rc := nd.rc - 1 }) := by
    refine HWF_writeH _ hwf3 a _ ?_ ?_ ?_
    · rw [show (incRefO (incRefO (incRefO
        (allocH H ⟨nd.left, nd.right, nd.value, 0⟩).1 nd.left) nd.right)
        (some H.next)).f a = lookupH _ a from rfl, hlook3a]
      rfl
    · exact (hwf3.cvalid a nd hlook3a).1
    · exact (hwf3.cvalid a nd hlook3a).2
  have hIN4 : ∀ x, incomingN (writeH (incRefO (incRefO (incRefO
      (allocH H ⟨nd.left, nd.right, nd.value, 0⟩).1 nd.left) nd.right)
      (some H.next)) a { nd with rc := nd.rc - 1 }) x
      = slotCount nd x + incomingN H x := by
    intro x
    rw [incomingN_cons_core _ H H.next hdom4
      (fun b hb => hcoreAll b (fun h => by
        subst h
        have := hwf.fresh _ hb
        omega)) x]
    rw [hfin H.next, if_neg (fun h => haa h.symm), if_pos rfl,
      slotCountO_some]
    rfl
  cases aes with
  | nil =>
      have hroot : root = some a := hlink
      subst hroot
      have hHc : cloneHeap H nd (k + 1)
          (List.map AEntry.toPair ([] : List (AEntry T))) (some a)
          = (writeH (incRefO (incRefO (incRefO
              (allocH H ⟨nd.left, nd.right, nd.value, 0⟩).1 nd.left)
              nd.right) (some H.next)) a { nd with rc := nd.rc - 1 },
             some H.next, true) := by
        show update_parentH (k + 1) _ [] (some a) H.next = _
        simp only [update_parentH]
        rw [hdec]
      rw [hHc]
      dsimp only
      have hrcfin : rcCorrect (writeH (incRefO (incRefO (incRefO
          (allocH H ⟨nd.left, nd.right, nd.value, 0⟩).1 nd.left) nd.right)
          (some H.next)) a { nd with rc := nd.rc - 1 })
          (some H.next :: others) := by
        intro b m hm
        rw [lookupH_eq, hfin b] at hm
        rw [incoming, hIN4 b, rootCount_cons]
        by_cases hba : b = a
        · subst hba
          rw [if_pos rfl] at hm
          injection hm with hm
          subst hm
          have hold := hrc b nd hlook
          rw [incoming, rootCount_cons, if_pos rfl] at hold
          have hxx : ¬((some H.next : Option Nat) = some b) := by
            intro h
            injection h with h
            exact haa h.symm
          rw [hslot_a, if_neg hxx]
          dsimp only
          omega
        · by_cases hbn : b = H.next
          · subst hbn
            rw [if_neg hba, if_pos rfl] at hm
            injection hm with hm
            subst hm
            rw [hslot_n, if_pos rfl]
            rw [rootCount_cons] at hRCf
            dsimp only
            omega
          · rw [if_neg hba, if_neg hbn] at hm
            cases ho : H.f b with
            | none => rw [ho] at hm; cases hm
            | some m0 =>
                rw [ho] at hm
                injection hm with hm
                subst hm
                have hold := hrc b m0 (by rw [lookupH_eq, ho])
                rw [incoming, rootCount_cons] at hold
                rw [if_neg (show ¬((some a : Option Nat) = some b) by
                  simp [Ne.symm hba])] at hold
                rw [if_neg (show ¬((some H.next : Option Nat) = some b) by
                  simp [Ne.symm hbn])]
                dsimp only
                omega
      refine ⟨rfl, hwfF, hrcfin, ?_, ?_, rfl, ?_, ?_, ?_, ?_, hnext4, hdom4⟩
      · intro r hr x heq
        rcases List.mem_cons.1 hr with rfl | hr
        · injection heq with heq
          subst heq
          rw [hfin H.next, if_neg (fun h => haa h.symm), if_pos rfl]
          rfl
        · exact hmono x (hrts r (List.mem_cons_of_mem _ hr) x heq)
      · rw [lookupH_eq, hfin H.next, if_neg (fun h => haa h.symm), if_pos rfl]
      · exact RT_congr hlt
          (fun b hb => hcoreAll b (hTfresh b (List.mem_append_left _ hb)))
      · exact RT_congr hrt
          (fun b hb => hcoreAll b (hTfresh b (List.mem_append_right _ hb)))
      · refine nodup_unsplit [] _ ?_
        simp only [addrsT, zipL, List.append_nil]
        refine List.nodup_cons.2 ⟨?_, hndTT⟩
        intro h
        exact hTfresh _ h rfl
      · intro oB tB hB hRTB
        refine RT_congr hRTB ?_
        intro b hb
        refine hcoreAll b ?_
        intro h
        have := RT_mem_isSome hRTB b hb
        rw [h, hfa] at this
        cases this
  | cons e rest =>
      have hanch := linkAboveO_anchored_entry H root (e :: rest) (some a) hlink
      rcases hlink with ⟨ne, hne, hnerc, hneval, hneslot, hrest⟩
      have hez : e.addr ∈ zipL (e :: rest) := by simp [zipL]
      have hea : e.addr ≠ a := by
        intro h
        exact ha_notin (List.mem_append_right _ (h ▸ hez))
      have hean : e.addr ≠ H.next := hZfresh _ hez
      have heslot : slotCount nd e.addr = 0 := by
        refine hslot_T e.addr ?_
        intro hmem
        exact hdisjTZ hmem hez
      have hedom : e.addr ∈ H.dom := (hwf.domOK e.addr).1 (by
        rw [show H.f e.addr = lookupH H e.addr from rfl, hne]; rfl)
      have holdeq : (if e.m_right then ne.right else ne.left) = some a := by
        split at hneslot <;> rename_i hd
        · rw [if_pos hd]
          exact hneslot.1
        · rw [if_neg hd]
          exact hneslot.1
      have hznd := hndzip
      simp only [zipL] at hznd
      rcases List.nodup_cons.1 hznd with ⟨he_notin, hznd2⟩
      have hlook3e : lookupH (incRefO (incRefO (incRefO
          (allocH H ⟨nd.left, nd.right, nd.value, 0⟩).1 nd.left) nd.right)
          (some H.next)) e.addr = some ne := by
        rw [hstep3 e.addr, if_neg hean, hne, Option.map_some', heslot]
        rfl
      have hlook4e : lookupH (writeH (incRefO (incRefO (incRefO
          (allocH H ⟨nd.left, nd.right, nd.value, 0⟩).1 nd.left) nd.right)
          (some H.next)) a { nd with rc := nd.rc - 1 }) e.addr = some ne := by
        rw [lookupH_eq, f_writeH, if_neg hea]
        exact hlook3e
      have hHc : cloneHeap H nd (k + 1)
          (List.map AEntry.toPair (e :: rest)) root
          = (writeH (writeH (incRefO (incRefO (incRefO
                (allocH H ⟨nd.left, nd.right, nd.value, 0⟩).1 nd.left)
                nd.right) (some H.next)) a { nd with rc := nd.rc - 1 })
              e.addr (if e.m_right then { ne with right := some H.next }
                      else { ne with left := some H.next }),
             root, decide (ne.rc ≤ 1)) := by
        show update_parentH (k + 1) _ ((e.m_right, e.addr) :: _) root H.next
            = _
        simp only [update_parentH]
        rw [hlook3e]
        dsimp only
        rw [holdeq, hdec, hlook4e]
      rw [hHc]
      dsimp only
      have hpn3rc : (if e.m_right then { ne with right := some H.next }
          else { ne with left := some H.next }).rc = ne.rc := by
        split <;> rfl
      have hpn3val : (if e.m_right then { ne with right := some H.next }
          else { ne with left := some H.next }).value = ne.value := by
        split <;> rfl
      have hswap : ∀ x, slotCount (if e.m_right then
            { ne with right := some H.next } else
            { ne with left := some H.next }) x
          + (if (some a : Option Nat) = some x then 1 else 0)
          = slotCount ne x
            + (if (some H.next : Option Nat) = some x then 1 else 0) := by
        intro x
        split <;> rename_i hd
        · rw [if_pos hd] at hneslot
          simp only [slotCount, hneslot.1]
          linarith
        · rw [if_neg hd] at hneslot
          simp only [slotCount, hneslot.1]
          linarith
      have hcoreHF : ∀ b, b ≠ H.next → b ≠ e.addr →
          ((writeH (writeH (incRefO (incRefO (incRefO
            (allocH H ⟨nd.left, nd.right, nd.value, 0⟩).1 nd.left)
            nd.right) (some H.next)) a { nd with rc := nd.rc - 1 })
            e.addr (if e.m_right then { ne with right := some H.next }
                    else { ne with left := some H.next })).f b).map nodeCore
          = (H.f b).map nodeCore := by
        intro b h1 h2
        rw [f_writeH, if_neg h2]
        exact hcoreAll b h1
      have hfHF_zip : ∀ b, b ∈ zipL rest →
          (writeH (writeH (incRefO (incRefO (incRefO
            (allocH H ⟨nd.left, nd.right, nd.value, 0⟩).1 nd.left)
            nd.right) (some H.next)) a { nd with rc := nd.rc - 1 })
            e.addr (if e.m_right then { ne with right := some H.next }
                    else { ne with left := some H.next })).f b = H.f b := by
        intro b hb
        have hbz : b ∈ zipL (e :: rest) := by
          simp [zipL, hb]
        have h1 : b ≠ e.addr := by
          intro h
          rw [h] at hb
          exact he_notin (List.mem_append_right _ hb)
        have h2 : b ≠ a := by
          intro h
          exact ha_notin (List.mem_append_right _ (h ▸ hbz))
        have h3 : b ≠ H.next := hZfresh b hbz
        have h4 : slotCount nd b = 0 :=
          hslot_T b (fun hmem => hdisjTZ hmem hbz)
        rw [f_writeH, if_neg h1, hfin b, if_neg h2, if_neg h3, h4]
        cases H.f b <;> rfl
      have hIN_HF : ∀ x, incomingN (writeH (writeH (incRefO (incRefO (incRefO
            (allocH H ⟨nd.left, nd.right, nd.value, 0⟩).1 nd.left)
            nd.right) (some H.next)) a { nd with rc := nd.rc - 1 })
            e.addr (if e.m_right then { ne with right := some H.next }
                    else { ne with left := some H.next })) x
          + slotCount ne x
          = slotCount nd x + incomingN H x
            + slotCount (if e.m_right then { ne with right := some H.next }
                else { ne with left := some H.next }) x := by
        intro x
        have h1 := incomingN_writeH_nd _ (by rw [hdom4]; exact hnd4) e.addr
          (by rw [hdom4]; exact List.mem_cons_of_mem _ hedom)
          (if e.m_right then { ne with right := some H.next }
           else { ne with left := some H.next }) x
        rw [show (writeH (incRefO (incRefO (incRefO
            (allocH H ⟨nd.left, nd.right, nd.value, 0⟩).1 nd.left)
            nd.right) (some H.next)) a { nd with rc := nd.rc - 1 }).f e.addr
            = some ne from hlook4e, slotCountO_some, hIN4 x] at h1
        omega
      have hrcHF : rcCorrect (writeH (writeH (incRefO (incRefO (incRefO
            (allocH H ⟨nd.left, nd.right, nd.value, 0⟩).1 nd.left)
            nd.right) (some H.next)) a { nd with rc := nd.rc - 1 })
            e.addr (if e.m_right then { ne with right := some H.next }
                    else { ne with left := some H.next }))
          (root :: others) := by
        intro b m hm
        rw [lookupH_eq, f_writeH] at hm
        rw [incoming]
        have hIN := hIN_HF b
        have hsw := hswap b
        by_cases hbe : b = e.addr
        · rw [if_pos hbe] at hm
          injection hm with hm
          subst hm
          have hold := hrc e.addr ne hne
          rw [incoming, ← hbe] at hold
          have h1 : ¬((some a : Option Nat) = some b) := by
            intro h
            injection h with h
            rw [hbe] at h
            exact hea h.symm
          have h2 : ¬((some H.next : Option Nat) = some b) := by
            intro h
            injection h with h
            rw [hbe] at h
            exact hean h.symm
          rw [if_neg h1, if_neg h2] at hsw
          have h3 : slotCount nd b = 0 := by
            rw [hbe]
            exact heslot
          rw [hpn3rc]
          omega
        · rw [if_neg hbe] at hm
          rw [hfin b] at hm
          by_cases hba : b = a
          · rw [if_pos hba] at hm
            injection hm with hm
            subst hm
            have hold := hrc a nd hlook
            rw [incoming, ← hba] at hold
            have h2 : ¬((some H.next : Option Nat) = some b) := by
              intro h
              injection h with h
              rw [hba] at h
              exact haa h.symm
            have h3 : slotCount nd b = 0 := by
              rw [hba]
              exact hslot_a
            rw [if_pos (show (some a : Option Nat) = some b by rw [hba]),
              if_neg h2] at hsw
            dsimp only
            omega
          · by_cases hbn : b = H.next
            · subst hbn
              rw [if_neg hba, if_pos rfl] at hm
              injection hm with hm
              subst hm
              have h1 : ¬((some a : Option Nat) = some H.next) := by
                intro h
                injection h with h
                exact haa h
              rw [if_neg h1, if_pos rfl] at hsw
              rw [hslot_n, hINf] at hIN
              dsimp only
              omega
            · rw [if_neg hba, if_neg hbn] at hm
              cases ho : H.f b with
              | none => rw [ho] at hm; cases hm
              | some m0 =>
                  rw [ho] at hm
                  injection hm with hm
                  subst hm
                  have hold := hrc b m0 (by rw [lookupH_eq, ho])
                  rw [incoming] at hold
                  have h1 : ¬((some a : Option Nat) = some b) := by
                    intro h
                    injection h with h
                    exact hba h.symm
                  have h2 : ¬((some H.next : Option Nat) = some b) := by
                    intro h
                    injection h with h
                    exact hbn h.symm
                  rw [if_neg h1, if_neg h2] at hsw
                  dsimp only
                  omega
      refine ⟨by simp [hnerc], ?_, hrcHF, ?_, ?_, ?_, ?_, ?_, ?_, ?_, ?_, ?_⟩
      · refine HWF_writeH _ hwfF e.addr _ ?_ ?_ ?_
        · rw [show (writeH (incRefO (incRefO (incRefO
            (allocH H ⟨nd.left, nd.right, nd.value, 0⟩).1 nd.left)
            nd.right) (some H.next)) a { nd with rc := nd.rc - 1 }).f e.addr
            = some ne from hlook4e]
          rfl
        · split <;> rename_i hd
          · exact (hwfF.cvalid e.addr ne hlook4e).1
          · intro x hx
            injection hx with hx
            subst hx
            rw [lookupH_eq, hfin H.next, if_neg (fun h => haa h.symm),
              if_pos rfl]
            rfl
        · split <;> rename_i hd
          · intro x hx
            injection hx with hx
            subst hx
            rw [lookupH_eq, hfin H.next, if_neg (fun h => haa h.symm),
              if_pos rfl]
            rfl
          · exact (hwfF.cvalid e.addr ne hlook4e).2
      · intro r hr x heq
        have hold : (H.f x).isSome = true := by
          rcases List.mem_cons.1 hr with rfl | hr
          · exact hrts r (List.mem_cons_self _ _) x heq
          · exact hrts r (List.mem_cons_of_mem _ hr) x heq
        rw [f_writeH]
        split
        · rfl
        · exact hmono x hold
      · rw [lookupH_eq, f_writeH, if_neg (fun h => hean h.symm), hfin H.next,
          if_neg (fun h => haa h.symm), if_pos rfl]
      · refine ⟨(if e.m_right then { ne with right := some H.next }
            else { ne with left := some H.next }), ?_, ?_, ?_, ?_, ?_⟩
        · rw [lookupH_eq, f_writeH, if_pos rfl]
        · rw [hpn3rc]
          exact hnerc
        · rw [hpn3val]
          exact hneval
        · have hsibcore : ∀ (w : HNode T), ∀ b ∈ addrsT e.other,
              ((writeH (writeH (incRefO (incRefO (incRefO
                (allocH H ⟨nd.left, nd.right, nd.value, 0⟩).1 nd.left)
                nd.right) (some H.next)) a { nd with rc := nd.rc - 1 })
                e.addr w).f b).map
                nodeCore = (H.f b).map nodeCore := by
            intro w b hb
            have hbz : b ∈ zipL (e :: rest) := by
              simp [zipL, hb]
            have h1 : b ≠ H.next := hZfresh b hbz
            have h2 : b ≠ e.addr := by
              intro h
              rw [h] at hb
              exact he_notin (List.mem_append_left _ hb)
            rw [f_writeH, if_neg h2]
            exact hcoreAll b h1
          split <;> rename_i hd
          · rw [if_pos hd] at hneslot
            exact ⟨rfl, RT_congr hneslot.2 (hsibcore _)⟩
          · rw [if_neg hd] at hneslot
            exact ⟨rfl, RT_congr hneslot.2 (hsibcore _)⟩
        · exact linkAbove_congr hrest hfHF_zip
      · refine RT_congr hlt ?_
        intro b hb
        have h1 : b ≠ H.next := hTfresh b (List.mem_append_left _ hb)
        have h2 : b ≠ e.addr := by
          intro h
          exact hdisjTZ (List.mem_append_left _ hb) (h ▸ hez)
        exact hcoreHF b h1 h2
      · refine RT_congr hrt ?_
        intro b hb
        have h1 : b ≠ H.next := hTfresh b (List.mem_append_right _ hb)
        have h2 : b ≠ e.addr := by
          intro h
          exact hdisjTZ (List.mem_append_right _ hb) (h ▸ hez)
        exact hcoreHF b h1 h2
      · refine nodup_unsplit (e :: rest) _ ?_
        simp only [addrsT, List.cons_append]
        refine List.nodup_cons.2 ⟨?_, hnd3⟩
        intro h
        rcases List.mem_append.1 h with h | h
        · exact hTfresh _ h rfl
        · exact hZfresh _ h rfl
      · intro oB tB hBmem hRTB
        refine RT_congr hRTB ?_
        intro b hb
        have h1 : b ≠ H.next := by
          intro h
          have := RT_mem_isSome hRTB b hb
          rw [h, hfa] at this
          cases this
        have h2 : b ≠ e.addr := by
          intro h
          have hno := anchored_notin_other H hwf root others hrc oB hBmem
            tB hRTB e.addr (hanch e (List.mem_cons_self _ _))
          exact hno (h ▸ hb)
        exact hcoreHF b h1 h2
      · rw [next_writeH]
        exact hnext4
      · rw [dom_writeH]
        exact hdom4

/-- The invariant of the `insert_pull` descent loop. -/
def ipPre (H : Heap T) (root cur : Option Nat) (others : List (Option Nat))
    (aes : List (AEntry T)) (tcur : Tree (Nat × T)) : Prop :=
  HWF H ∧ linkAboveO H root aes cur ∧ RT H cur tcur ∧
    rcCorrect H (root :: others) ∧ rootsOK H (root :: others) ∧
    (maddrs (aplug aes tcur)).Nodup

/-- What the descent loop guarantees: the found flag matches the functional
descent, every sharing assertion passes, the invariants persist, other
handles' trees are untouched, and the exit state describes the functional
splay input exactly. -/
def ipPost (c : Cmp T) (v : T) (is_insert : Bool) (fuel : Nat) (H : Heap T)
    (root cur : Option Nat) (others : List (Option Nat))
    (aes : List (AEntry T)) (tcur : Tree (Nat × T)) : Prop :=
  let r := ipLoop c v is_insert fuel H root cur (aes.map AEntry.toPair)
  let fr := insert_pull_loop c v is_insert (stripT tcur)
    (aes.map AEntry.toEntry)
  r.found = fr.1 ∧ r.ok = true ∧ HWF r.H ∧
  rcCorrect r.H (r.root :: others) ∧ rootsOK r.H (r.root :: others) ∧
  (∀ oB tB, oB ∈ others → RT H oB tB → RT r.H oB tB) ∧
  (match r.target with
   | none => r.H = H ∧ r.root = root ∧ fr.2 = .leaf ∧ root = none
   | some n => ∃ aes2 A2 nv2 B2, r.path = aes2.map AEntry.toPair ∧
       RT r.H (some n) (.node A2 (n, nv2) B2) ∧
       (∀ m, lookupH r.H n = some m → m.rc = 1) ∧
       linkAbove r.H r.root aes2 n ∧
       (maddrs (aplug aes2 (.node A2 (n, nv2) B2))).Nodup ∧
       splay_to_top (aes2.map AEntry.toEntry) (stripT A2) nv2 (stripT B2)
         = fr.2)

/-- Overwriting the payload of the singly-referenced descent target keeps
every invariant and rewrites the represented node value. -/
theorem valueWriteStep (H : Heap T) (root : Option Nat)
    (others : List (Option Nat)) (aes : List (AEntry T)) (a : Nat)
    (nd : HNode T) (tl tr : Tree (Nat × T)) (w : T)
    (hwf : HWF H) (hrc : rcCorrect H (root :: others))
    (hrts : rootsOK H (root :: others))
    (hlook : lookupH H a = some nd) (hrc1 : nd.rc = 1)
    (hlt : RT H nd.left tl) (hrt : RT H nd.right tr)
    (hlink : linkAboveO H root aes (some a))
    (hndup : (maddrs (aplug aes (.node tl (a, nd.value) tr))).Nodup) :
    HWF (writeH H a { nd with value := w }) ∧
    rcCorrect (writeH H a { nd with value := w }) (root :: others) ∧
    rootsOK (writeH H a { nd with value := w }) (root :: others) ∧
    (∀ oB tB, oB ∈ others → RT H oB tB →
      RT (writeH H a { nd with value := w }) oB tB) ∧
    RT (writeH H a { nd with value := w }) (some a) (.node tl (a, w) tr) ∧
    (∀ m, lookupH (writeH H a { nd with value := w }) a = some m →
      m.rc = nd.rc) ∧
    linkAbove (writeH H a { nd with value := w }) root aes a ∧
    (maddrs (aplug aes (.node tl (a, w) tr))).Nodup := by
  have hadom : a ∈ H.dom := (hwf.domOK a).1 (by
    rw [show H.f a = lookupH H a from rfl, hlook]; rfl)
  have hnd2 := nodup_split aes _ hndup
  simp only [addrsT, List.cons_append] at hnd2
  rcases List.nodup_cons.1 hnd2 with ⟨ha_notin, hnd3⟩
  have hframe : ∀ b, b ≠ a →
      (writeH H a { nd with value := w }).f b = H.f b := by
    intro b hb
    rw [f_writeH, if_neg hb]
  have hrcmap : ∀ b, (((writeH H a { nd with value := w }).f b).map HNode.rc)
      = ((H.f b).map HNode.rc) := by
    intro b
    rw [f_writeH]
    by_cases hb : b = a
    · rw [if_pos hb, hb, show H.f a = some nd from hlook]
      rfl
    · rw [if_neg hb]
  have hpoint : ∀ x, incoming (writeH H a { nd with value := w })
      (root :: others) x = incoming H (root :: others) x := by
    intro x
    have h1 := incoming_writeH H hwf.nodup a hadom nd hlook
      { nd with value := w } (root :: others) x
    have h2 : slotCount { nd with value := w } x = slotCount nd x := rfl
    omega
  refine ⟨?_, ?_, ?_, ?_, ?_, ?_, ?_, ?_⟩
  · refine HWF_writeH H hwf a _ ?_ (hwf.cvalid a nd hlook).1
      (hwf.cvalid a nd hlook).2
    rw [← lookupH_eq, hlook]
    rfl
  · exact rcCorrect_transfer H _ _ _ hrcmap hpoint hrc
  · intro r hr x heq
    have := hrts r hr x heq
    rw [f_writeH]
    split
    · rfl
    · exact this
  · intro oB tB hBmem hRTB
    refine RT_congr hRTB ?_
    intro b hb
    have hba : b ≠ a := by
      intro h
      have hanc := linkAbove_anchored H root aes a
        ((linkAboveO_some H root aes a).1 hlink) nd hlook hrc1
      have := anchored_notin_other H hwf root others hrc oB hBmem tB hRTB
        a hanc
      exact this (h ▸ hb)
    rw [f_writeH, if_neg hba]
  · have hlooknew : lookupH (writeH H a { nd with value := w }) a
        = some { nd with value := w } := by
      rw [lookupH_eq, f_writeH, if_pos rfl]
    have hlt2 : RT (writeH H a { nd with value := w }) nd.left tl :=
      RT_congr_f hlt (fun b hb => hframe b (fun h => ha_notin
        (List.mem_append_left _ (List.mem_append_left _ (h ▸ hb)))))
    have hrt2 : RT (writeH H a { nd with value := w }) nd.right tr :=
      RT_congr_f hrt (fun b hb => hframe b (fun h => ha_notin
        (List.mem_append_left _ (List.mem_append_right _ (h ▸ hb)))))
    exact @RT.node T _ a { nd with value := w } tl tr hlooknew hlt2 hrt2
  · intro m hm
    rw [lookupH_eq, f_writeH, if_pos rfl] at hm
    injection hm with hm
    subst hm
    rfl
  · refine linkAbove_congr ((linkAboveO_some H root aes a).1 hlink) ?_
    intro b hb
    refine hframe b ?_
    intro h
    exact ha_notin (List.mem_append_right _ (h ▸ hb))
  · have heq : maddrs (aplug aes (.node tl (a, w) tr))
        = maddrs (aplug aes (.node tl (a, nd.value) tr)) := by
      refine maddrs_aplug_congr aes ?_
      rw [maddrs_node, maddrs_node]
    rw [heq]
    exact hndup

set_option maxHeartbeats 1600000 in
/-- Allocating the fresh leaf at an empty descent slot: the new node takes
one reference from the parent slot (or the handle root) and every invariant
is preserved. -/
theorem leafStep (H : Heap T) (root : Option Nat)
    (others : List (Option Nat)) (aes : List (AEntry T)) (v : T)
    (fl : Nat) (hwf : HWF H)
    (hrc : rcCorrect H (root :: others))
    (hrts : rootsOK H (root :: others))
    (hlink : linkAboveO H root aes none)
    (hndup : (maddrs (aplug aes (.leaf : Tree (Nat × T)))).Nodup) :
    (update_parentH fl (allocH H ⟨none, none, v, 0⟩).1
      (aes.map AEntry.toPair) root H.next).2.2 = true ∧
    HWF (update_parentH fl (allocH H ⟨none, none, v, 0⟩).1
      (aes.map AEntry.toPair) root H.next).1 ∧
    rcCorrect (update_parentH fl (allocH H ⟨none, none, v, 0⟩).1
      (aes.map AEntry.toPair) root H.next).1
      ((update_parentH fl (allocH H ⟨none, none, v, 0⟩).1
        (aes.map AEntry.toPair) root H.next).2.1 :: others) ∧
    rootsOK (update_parentH fl (allocH H ⟨none, none, v, 0⟩).1
      (aes.map AEntry.toPair) root H.next).1
      ((update_parentH fl (allocH H ⟨none, none, v, 0⟩).1
        (aes.map AEntry.toPair) root H.next).2.1 :: others) ∧
    RT (update_parentH fl (allocH H ⟨none, none, v, 0⟩).1
      (aes.map AEntry.toPair) root H.next).1 (some H.next)
      (.node .leaf (H.next, v) .leaf) ∧
    (∀ m, lookupH (update_parentH fl (allocH H ⟨none, none, v, 0⟩).1
      (aes.map AEntry.toPair) root H.next).1 H.next = some m → m.rc = 1) ∧
    linkAbove (update_parentH fl (allocH H ⟨none, none, v, 0⟩).1
      (aes.map AEntry.toPair) root H.next).1
      (update_parentH fl (allocH H ⟨none, none, v, 0⟩).1
        (aes.map AEntry.toPair) root H.next).2.1 aes H.next ∧
    (maddrs (aplug aes (.node (.leaf : Tree (Nat × T)) (H.next, v)
      .leaf))).Nodup ∧
    (∀ oB tB, oB ∈ others → RT H oB tB →
      RT (update_parentH fl (allocH H ⟨none, none, v, 0⟩).1
        (aes.map AEntry.toPair) root H.next).1 oB tB) := by
  have hfa : H.f H.next = none := f_next_none H hwf
  have hINf : incomingN H H.next = 0 := incomingN_unalloc H hwf _ hfa
  have hRCf : rootCount (root :: others) H.next = 0 :=
    rootCount_unalloc H _ hrts _ hfa
  have hndz : (zipL aes).Nodup := by
    have := nodup_split aes _ hndup
    simpa [addrsT] using this
  have hZfresh : ∀ b, b ∈ zipL aes → b ≠ H.next := by
    intro b hb h
    rw [h] at hb
    have := linkAboveO_zip_isSome H root aes none hlink _ hb
    rw [hfa] at this
    cases this
  -- the two acquire steps behave identically for both path shapes
  have hstep1 : ∀ x, lookupH (incRefO
      (allocH H ⟨none, none, v, 0⟩).1 (some H.next)) x
      = if x = H.next then some ⟨none, none, v, 1⟩ else lookupH H x := by
    intro x
    rw [lookupH_incRefO_formula, lookupH_allocH]
    by_cases hx : x = H.next
    · subst hx
      simp
    · have hns : ¬((some H.next : Option Nat) = some x) := by
        simp [Ne.symm hx]
      rw [if_neg hx, if_neg hx]
      cases lookupH H x with
      | none => rfl
      | some m => simp [hns]
  have hdom1 : (incRefO (allocH H ⟨none, none, v, 0⟩).1 (some H.next)).dom
      = H.next :: H.dom := by
    rw [dom_incRefO]
    rfl
  have hnext1 : (incRefO (allocH H ⟨none, none, v, 0⟩).1 (some H.next)).next
      = H.next + 1 := by
    rw [next_incRefO]
    rfl
  have hnd1 : (H.next :: H.dom).Nodup := by
    refine List.nodup_cons.2 ⟨fun h => ?_, hwf.nodup⟩
    have := hwf.fresh H.next h
    omega
  have hcore1 : ∀ b, b ≠ H.next →
      ((incRefO (allocH H ⟨none, none, v, 0⟩).1 (some H.next)).f b).map
        nodeCore = (H.f b).map nodeCore := by
    intro b hb
    have := hstep1 b
    simp only [lookupH] at this
    rw [this, if_neg hb]
  have hwf1 : HWF (incRefO (allocH H ⟨none, none, v, 0⟩).1 (some H.next)) :=
    HWF_incRefO _ (HWF_allocH H hwf _ (fun x hx => by cases hx)
      (fun x hx => by cases hx)) _
  have hIN1 : ∀ x, incomingN (incRefO
      (allocH H ⟨none, none, v, 0⟩).1 (some H.next)) x = incomingN H x := by
    intro x
    rw [incomingN_cons_core _ H H.next hdom1
      (fun b hb => hcore1 b (fun h => by
        rw [h] at hb
        have := hwf.fresh _ hb
        omega)) x]
    have : (incRefO (allocH H ⟨none, none, v, 0⟩).1 (some H.next)).f H.next
        = some ⟨none, none, v, 1⟩ := by
      have h := hstep1 H.next
      rw [if_pos rfl] at h
      exact h
    rw [this, slotCountO_some]
    simp [slotCount]
  cases aes with
  | nil =>
      have hroot : root = none := hlink
      subst hroot
      have hup : update_parentH fl (allocH H ⟨none, none, v, 0⟩).1
          (List.map AEntry.toPair ([] : List (AEntry T))) none H.next
          = (incRefO (allocH H ⟨none, none, v, 0⟩).1 (some H.next),
             some H.next, true) := by
        show update_parentH fl _ [] none H.next = _
        simp only [update_parentH]
        have : ∀ (HH : Heap T), decRefO fl HH none = HH := by
          intro HH
          cases fl <;> rfl
        rw [this]
      rw [hup]
      dsimp only
      have hlooknew : lookupH (incRefO (allocH H ⟨none, none, v, 0⟩).1
          (some H.next)) H.next = some ⟨none, none, v, 1⟩ := by
        rw [hstep1 H.next, if_pos rfl]
      refine ⟨rfl, hwf1, ?_, ?_, ?_, ?_, rfl, ?_, ?_⟩
      · intro b m hm
        rw [incoming, hIN1 b, rootCount_cons]
        by_cases hb : b = H.next
        · subst hb
          rw [hstep1 H.next, if_pos rfl] at hm
          injection hm with hm
          subst hm
          rw [if_pos rfl, hINf]
          have h0 := hRCf
          rw [rootCount_cons, if_neg (show ¬((none : Option Nat)
            = some H.next) by simp)] at h0
          dsimp only
          omega
        · rw [hstep1 b, if_neg hb] at hm
          have hold := hrc b m hm
          rw [incoming, rootCount_cons] at hold
          have h1 : ¬((some H.next : Option Nat) = some b) := by
            intro h
            injection h with h
            exact hb h.symm
          rw [if_neg h1]
          rw [if_neg (show ¬((none : Option Nat)
            = some b) by simp)] at hold
          omega
      · intro r hr x heq
        rcases List.mem_cons.1 hr with rfl | hr
        · injection heq with heq
          subst heq
          rw [show (incRefO (allocH H ⟨none, none, v, 0⟩).1
            (some H.next)).f H.next = some ⟨none, none, v, 1⟩ by
              have h := hstep1 H.next
              rw [if_pos rfl] at h
              exact h]
          rfl
        · have := hrts r (List.mem_cons_of_mem _ hr) x heq
          have h2 := hstep1 x
          simp only [lookupH] at h2
          rw [h2]
          split
          · rfl
          · exact this
      · exact @RT.node T _ H.next ⟨none, none, v, 1⟩ .leaf .leaf
          hlooknew RT.leaf RT.leaf
      · intro m hm
        rw [hlooknew] at hm
        injection hm with hm
        subst hm
        rfl
      · refine nodup_unsplit [] _ ?_
        simp [addrsT, zipL]
      · intro oB tB hBmem hRTB
        refine RT_congr hRTB ?_
        intro b hb
        refine hcore1 b ?_
        intro h
        have := RT_mem_isSome hRTB b hb
        rw [h, hfa] at this
        cases this
  | cons e rest =>
      have hanch := linkAboveO_anchored_entry H root (e :: rest) none hlink
      rcases hlink with ⟨ne, hne, hnerc, hneval, hneslot, hrest⟩
      have hez : e.addr ∈ zipL (e :: rest) := by simp [zipL]
      have hean : e.addr ≠ H.next := hZfresh _ hez
      have hedom : e.addr ∈ H.dom := (hwf.domOK e.addr).1 (by
        rw [show H.f e.addr = lookupH H e.addr from rfl, hne]; rfl)
      have holdeq : (if e.m_right then ne.right else ne.left)
          = (none : Option Nat) := by
        split at hneslot <;> rename_i hd
        · rw [if_pos hd]
          exact hneslot.1
        · rw [if_neg hd]
          exact hneslot.1
      have hlook1e : lookupH (incRefO (allocH H ⟨none, none, v, 0⟩).1
          (some H.next)) e.addr = some ne := by
        rw [hstep1 e.addr, if_neg hean]
        exact hne
      have hznd := hndz
      simp only [zipL] at hznd
      rcases List.nodup_cons.1 hznd with ⟨he_notin, hznd2⟩
      have hup : update_parentH fl (allocH H ⟨none, none, v, 0⟩).1
          (List.map AEntry.toPair (e :: rest)) root H.next
          = (writeH (incRefO (allocH H ⟨none, none, v, 0⟩).1 (some H.next))
              e.addr (if e.m_right then { ne with right := some H.next }
                      else { ne with left := some H.next }),
             root, decide (ne.rc ≤ 1)) := by
        show update_parentH fl _ ((e.m_right, e.addr) :: _) root H.next = _
        simp only [update_parentH]
        rw [hlook1e]
        dsimp only
        rw [holdeq]
        have hnone : ∀ (HH : Heap T), decRefO fl HH none = HH := by
          intro HH
          cases fl <;> rfl
        rw [hnone, hlook1e]
      rw [hup]
      dsimp only
      have hpn3rc : (if e.m_right then { ne with right := some H.next }
          else { ne with left := some H.next }).rc = ne.rc := by
        split <;> rfl
      have hpn3val : (if e.m_right then { ne with right := some H.next }
          else { ne with left := some H.next }).value = ne.value := by
        split <;> rfl
      have hswap : ∀ x, slotCount (if e.m_right then
            { ne with right := some H.next } else
            { ne with left := some H.next }) x
          = slotCount ne x
            + (if (some H.next : Option Nat) = some x then 1 else 0) := by
        intro x
        split <;> rename_i hd
        · rw [if_pos hd] at hneslot
          simp only [slotCount, hneslot.1]
          simp
        · rw [if_neg hd] at hneslot
          simp only [slotCount, hneslot.1]
          simp
          exact Nat.add_comm _ _
      have hokNext : okPtr (incRefO (allocH H ⟨none, none, v, 0⟩).1
          (some H.next)) (some H.next) := by
        intro b hb
        injection hb with hb
        rw [← hb, hstep1 H.next, if_pos rfl]
        rfl
      have hcv := hwf1.cvalid e.addr ne hlook1e
      have hokl : okPtr (incRefO (allocH H ⟨none, none, v, 0⟩).1
          (some H.next))
          (if e.m_right = true then { ne with right := some H.next }
           else { ne with left := some H.next }).left := by
        split
        · exact hcv.1
        · exact hokNext
      have hokr : okPtr (incRefO (allocH H ⟨none, none, v, 0⟩).1
          (some H.next))
          (if e.m_right = true then { ne with right := some H.next }
           else { ne with left := some H.next }).right := by
        split
        · exact hokNext
        · exact hcv.2
      have hbal : ∀ x, incoming (writeH (incRefO
            (allocH H ⟨none, none, v, 0⟩).1 (some H.next)) e.addr
            (if e.m_right = true then { ne with right := some H.next }
             else { ne with left := some H.next })) (root :: others) x
          = incoming H (root :: others) x
            + (if (some H.next : Option Nat) = some x then 1 else 0) := by
        intro x
        have e1 := incoming_writeH (incRefO
            (allocH H ⟨none, none, v, 0⟩).1 (some H.next))
          (by rw [hdom1]; exact hnd1) e.addr
          (by rw [hdom1]; exact List.mem_cons_of_mem _ hedom) ne hlook1e
          (if e.m_right = true then { ne with right := some H.next }
           else { ne with left := some H.next }) (root :: others) x
        have e2 := hswap x
        have e3 : incoming (incRefO (allocH H ⟨none, none, v, 0⟩).1
            (some H.next)) (root :: others) x
            = incoming H (root :: others) x := by
          simp only [incoming, hIN1]
        linarith
      have hfFb : ∀ b, b ≠ e.addr → b ≠ H.next →
          (writeH (incRefO (allocH H ⟨none, none, v, 0⟩).1 (some H.next))
            e.addr (if e.m_right = true then
                      { ne with right := some H.next }
                    else { ne with left := some H.next })).f b = H.f b := by
        intro b h1 h2
        rw [f_writeH, if_neg h1]
        have h3 := hstep1 b
        simp only [lookupH] at h3
        rw [h3, if_neg h2]
      have hlookFn : lookupH (writeH (incRefO
          (allocH H ⟨none, none, v, 0⟩).1 (some H.next)) e.addr
          (if e.m_right = true then { ne with right := some H.next }
           else { ne with left := some H.next })) H.next
          = some ⟨none, none, v, 1⟩ := by
        rw [lookupH_writeH, if_neg (fun h => hean h.symm),
          hstep1 H.next, if_pos rfl]
      refine ⟨by rw [hnerc]; rfl, ?_, ?_, ?_, ?_, ?_, ?_, ?_, ?_⟩
      · refine HWF_writeH _ hwf1 e.addr _ ?_ hokl hokr
        rw [← lookupH_eq, hlook1e]
        rfl
      · intro b m hm
        rw [lookupH_writeH] at hm
        by_cases hbe : b = e.addr
        · rw [if_pos hbe] at hm
          injection hm with hm
          subst hm
          rw [hpn3rc, hbal b, hbe,
            if_neg (show ¬((some H.next : Option Nat) = some e.addr) by
              intro h
              injection h with h
              exact hean h.symm)]
          have h4 := hrc e.addr ne hne
          omega
        · rw [if_neg hbe, hstep1 b] at hm
          by_cases hbn : b = H.next
          · rw [if_pos hbn] at hm
            injection hm with hm
            subst hm
            rw [hbal b, hbn, if_pos rfl]
            simp [incoming, hINf, hRCf]
          · rw [if_neg hbn] at hm
            rw [hbal b,
              if_neg (show ¬((some H.next : Option Nat) = some b) by
                intro h
                injection h with h
                exact hbn h.symm)]
            have h4 := hrc b m hm
            omega
      · intro r hr x heq
        have hH := hrts r hr x heq
        rw [f_writeH]
        split
        · rfl
        · have h2 := hstep1 x
          simp only [lookupH] at h2
          rw [h2]
          split
          · rfl
          · exact hH
      · exact @RT.node T _ H.next ⟨none, none, v, 1⟩ .leaf .leaf
          hlookFn RT.leaf RT.leaf
      · intro m hm
        rw [hlookFn] at hm
        injection hm with hm
        subst hm
        rfl
      · refine ⟨(if e.m_right = true then { ne with right := some H.next }
             else { ne with left := some H.next }), ?_, ?_, ?_, ?_, ?_⟩
        · rw [lookupH_writeH, if_pos rfl]
        · rw [hpn3rc, hnerc]
        · rw [hpn3val, hneval]
        · split <;> rename_i hd
          · rw [if_pos hd] at hneslot
            refine ⟨rfl, RT_congr_f hneslot.2 ?_⟩
            intro b hb
            have h6 := hfFb b
              (fun h => he_notin (List.mem_append.2 (Or.inl (h ▸ hb))))
              (hZfresh b (List.mem_cons_of_mem _
                (List.mem_append.2 (Or.inl hb))))
            rw [if_pos hd] at h6
            exact h6
          · rw [if_neg hd] at hneslot
            refine ⟨rfl, RT_congr_f hneslot.2 ?_⟩
            intro b hb
            have h6 := hfFb b
              (fun h => he_notin (List.mem_append.2 (Or.inl (h ▸ hb))))
              (hZfresh b (List.mem_cons_of_mem _
                (List.mem_append.2 (Or.inl hb))))
            rw [if_neg hd] at h6
            exact h6
        · refine linkAbove_congr hrest ?_
          intro b hb
          refine hfFb b ?_ ?_
          · intro h
            rw [h] at hb
            exact he_notin (List.mem_append.2 (Or.inr hb))
          · exact hZfresh b
              (List.mem_cons_of_mem _ (List.mem_append.2 (Or.inr hb)))
      · refine nodup_unsplit _ _ ?_
        have heq : addrsT (.node (.leaf : Tree (Nat × T)) (H.next, v) .leaf)
            ++ zipL (e :: rest) = H.next :: zipL (e :: rest) := by
          simp [addrsT]
        rw [heq]
        exact List.nodup_cons.2 ⟨fun h => hZfresh _ h rfl, hndz⟩
      · intro oB tB hB hRT
        refine RT_congr_f hRT ?_
        intro b hb
        refine hfFb b ?_ ?_
        · intro h
          rw [h] at hb
          exact anchored_notin_other H hwf root others hrc oB hB tB hRT
            e.addr (hanch e (List.mem_cons_self _ _)) hb
        · intro h
          have h5 := RT_mem_isSome hRT b hb
          rw [h, hfa] at h5
          cases h5

/-- A linked path always hangs from a non-null handle root. -/
theorem linkAbove_root_some (H : Heap T) (root : Option Nat) :
    ∀ aes (x : Nat), linkAbove H root aes x → ∃ y, root = some y := by
  intro aes
  induction aes with
  | nil => intro x h; exact ⟨x, h⟩
  | cons e rest ih =>
      intro x h
      rcases h with ⟨ne, _, _, _, _, hrest⟩
      exact ih e.addr hrest

/-- One step of the descent transfers the loop contract: if the fuel-`n`
call on the extended path satisfies the contract and the fuel-`n + 1` call
reduces to it (on both the heap and the functional side), so does the
original call. -/
theorem ipPost_step_congr (c : Cmp T) (v : T) (is_insert : Bool) (n : Nat)
    (H : Heap T) (root cur cur2 : Option Nat) (others : List (Option Nat))
    (aes aes2 : List (AEntry T)) (tcur tcur2 : Tree (Nat × T))
    (hstep : ipLoop c v is_insert (n + 1) H root cur (aes.map AEntry.toPair)
      = ipLoop c v is_insert n H root cur2 (aes2.map AEntry.toPair))
    (hfr : insert_pull_loop c v is_insert (stripT tcur)
        (aes.map AEntry.toEntry)
      = insert_pull_loop c v is_insert (stripT tcur2)
        (aes2.map AEntry.toEntry))
    (h : ipPost c v is_insert n H root cur2 others aes2 tcur2) :
    ipPost c v is_insert (n + 1) H root cur others aes tcur := by
  unfold ipPost at h ⊢
  dsimp only at h ⊢
  rw [hstep, hfr]
  exact h

/-- Descent-step transfer through the clone branch: the fuel-`n + 1` call
reduces to the fuel-`n` call on the cloned heap with the ok flag of the
re-link and-ed in, the re-link flag is true, and other handles' trees
survive the clone. -/
theorem ipPost_clone_congr (c : Cmp T) (v : T) (is_insert : Bool) (n : Nat)
    (H Hc : Heap T) (root rootc cur cur2 : Option Nat)
    (others : List (Option Nat)) (aes aes2 : List (AEntry T))
    (tcur tcur2 : Tree (Nat × T)) (okb : Bool)
    (hokb : okb = true)
    (hoth : ∀ oB tB, oB ∈ others → RT H oB tB → RT Hc oB tB)
    (hrootc : rootc ≠ none)
    (hstep : ipLoop c v is_insert (n + 1) H root cur (aes.map AEntry.toPair)
      = { ipLoop c v is_insert n Hc rootc cur2 (aes2.map AEntry.toPair) with
          ok := okb && (ipLoop c v is_insert n Hc rootc cur2
            (aes2.map AEntry.toPair)).ok })
    (hfr : insert_pull_loop c v is_insert (stripT tcur)
        (aes.map AEntry.toEntry)
      = insert_pull_loop c v is_insert (stripT tcur2)
        (aes2.map AEntry.toEntry))
    (h : ipPost c v is_insert n Hc rootc cur2 others aes2 tcur2) :
    ipPost c v is_insert (n + 1) H root cur others aes tcur := by
  unfold ipPost at h ⊢
  dsimp only at h ⊢
  rw [hstep, hfr]
  dsimp only
  obtain ⟨hfound, hok2, hwf2, hrc2, hrts2, hoth2, htgt⟩ := h
  refine ⟨hfound, ?_, hwf2, hrc2, hrts2,
    fun oB tB hB hR => hoth2 oB tB hB (hoth oB tB hB hR), ?_⟩
  · rw [hokb, hok2]
    rfl
  · rcases hT : (ipLoop c v is_insert n Hc rootc cur2
        (aes2.map AEntry.toPair)).target with _ | n2
    · rw [hT] at htgt
      exact absurd htgt.2.2.2 hrootc
    · rw [hT] at htgt
      exact htgt

/-- The descent loop master theorem: given a well-linked recorded path and
enough fuel, `ipLoop` mirrors the functional `insert_pull_loop` exactly,
keeps every invariant, passes every sharing assertion, and leaves the trees
of all other handles untouched. -/
theorem ipLoop_master (c : Cmp T) (v : T) (is_insert : Bool) :
    ∀ (fuel : Nat) (tcur : Tree (Nat × T)) (H : Heap T)
      (root cur : Option Nat) (others : List (Option Nat))
      (aes : List (AEntry T)),
      ipPre H root cur others aes tcur → heightT tcur < fuel →
      ipPost c v is_insert fuel H root cur others aes tcur := by
  intro fuel
  induction fuel with
  | zero =>
      intro tcur H root cur others aes hpre hh
      exact absurd hh (by omega)
  | succ n ih =>
      intro tcur H root cur others aes hpre hh
      obtain ⟨hwf, hlink, hRT, hrc, hrts, hndup⟩ := hpre
      cases cur with
      | none =>
          cases hRT
          cases is_insert with
          | true =>
              have hLS := leafStep H root others aes v (H.dom.length + 1)
                hwf hrc hrts hlink hndup
              obtain ⟨hok, hwfU, hrcU, hrtsU, hRTU, hrc1U, hlinkU, hndU,
                hothU⟩ := hLS
              have hstep : ipLoop c v true (n + 1) H root none
                  (aes.map AEntry.toPair)
                  = ⟨(update_parentH (H.dom.length + 1)
                        (allocH H ⟨none, none, v, 0⟩).1
                        (aes.map AEntry.toPair) root H.next).1,
                     (update_parentH (H.dom.length + 1)
                        (allocH H ⟨none, none, v, 0⟩).1
                        (aes.map AEntry.toPair) root H.next).2.1,
                     aes.map AEntry.toPair, some H.next, false,
                     (update_parentH (H.dom.length + 1)
                        (allocH H ⟨none, none, v, 0⟩).1
                        (aes.map AEntry.toPair) root H.next).2.2⟩ := rfl
              unfold ipPost
              dsimp only
              rw [hstep]
              dsimp only
              exact ⟨rfl, hok, hwfU, hrcU, hrtsU, hothU,
                aes, .leaf, v, .leaf, rfl, hRTU, hrc1U, hlinkU, hndU, rfl⟩
          | false =>
              cases aes with
              | nil =>
                  have hroot : root = none := hlink
                  unfold ipPost
                  dsimp only
                  exact ⟨rfl, rfl, hwf, hrc, hrts, fun _ _ _ h => h,
                    rfl, rfl, rfl, hroot⟩
              | cons e rest =>
                  obtain ⟨d, ea, ev, eo⟩ := e
                  rcases hlink with ⟨ne, hne, hrcne, hvalne, hslot, hrest⟩
                  dsimp only at hslot hvalne hne
                  cases d with
                  | false =>
                      rw [if_neg Bool.false_ne_true] at hslot
                      unfold ipPost
                      dsimp only
                      refine ⟨rfl, rfl, hwf, hrc, hrts, fun _ _ _ h => h,
                        rest, .leaf, ne.value, eo, rfl, ?_, ?_, hrest,
                        ?_, ?_⟩
                      · exact @RT.node T _ ea ne .leaf eo hne
                          (by rw [hslot.1]; exact RT.leaf) hslot.2
                      · intro m hm
                        have hm2 : lookupH H ea = some m := hm
                        rw [hne] at hm2
                        injection hm2 with hm2
                        subst hm2
                        exact hrcne
                      · rw [hvalne]
                        exact hndup
                      · rw [hvalne]
                        rfl
                  | true =>
                      rw [if_pos rfl] at hslot
                      unfold ipPost
                      dsimp only
                      refine ⟨rfl, rfl, hwf, hrc, hrts, fun _ _ _ h => h,
                        rest, eo, ne.value, .leaf, rfl, ?_, ?_, hrest,
                        ?_, ?_⟩
                      · exact @RT.node T _ ea ne eo .leaf hne hslot.2
                          (by rw [hslot.1]; exact RT.leaf)
                      · intro m hm
                        have hm2 : lookupH H ea = some m := hm
                        rw [hne] at hm2
                        injection hm2 with hm2
                        subst hm2
                        exact hrcne
                      · rw [hvalne]
                        exact hndup
                      · rw [hvalne]
                        rfl
      | some a =>
          cases hRT with
          | node hlook hl hr =>
              rename_i nd tl tr
              have hhl : heightT tl < n := by
                simp only [heightT] at hh
                omega
              have hhr : heightT tr < n := by
                simp only [heightT] at hh
                omega
              have hrcge1 : 1 ≤ nd.rc := by
                have hval := hrc a nd hlook
                cases aes with
                | nil =>
                    have hroot : root = some a := hlink
                    have h2 : 1 ≤ rootCount (root :: others) a := by
                      rw [rootCount_cons, hroot, if_pos rfl]
                      omega
                    rw [hval]
                    show 1 ≤ incomingN H a + rootCount (root :: others) a
                    omega
                | cons e rest =>
                    rcases hlink with ⟨ne, hne, _, _, hslot, _⟩
                    have hle : slotCount ne a ≤ incomingN H a :=
                      le_incomingN H hwf e.addr ne hne a
                    have hslot1 : 1 ≤ slotCount ne a := by
                      simp only [slotCount]
                      split at hslot
                      · rw [hslot.1, if_pos rfl]
                        omega
                      · rw [hslot.1, if_pos rfl]
                        omega
                    rw [hval]
                    show 1 ≤ incomingN H a + rootCount (root :: others) a
                    omega
              by_cases hsh : nd.rc > 1
              · have hCS := cloneStep H root others aes a nd tl tr
                  (H.dom.length + 1) (by omega) hwf hrc hrts hlook
                  (by omega) hl hr hlink hndup
                obtain ⟨hokC, hwfC, hrcC, hrtsC, hlookC, hlinkC, hltC,
                  hrtC, hndC, hothC, hnextC, hdomC⟩ := hCS
                have hrootC : (cloneHeap H nd (H.dom.length + 1)
                    (aes.map AEntry.toPair) root).2.1 ≠ none := by
                  rcases linkAbove_root_some _ _ aes H.next
                    ((linkAboveO_some _ _ aes H.next).mp hlinkC) with ⟨y, hy⟩
                  rw [hy]
                  simp
                rcases lt_trichotomy (c.cmp v nd.value) 0 with hc | hc | hc
                · refine ipPost_clone_congr c v is_insert n H
                    (cloneHeap H nd (H.dom.length + 1)
                      (aes.map AEntry.toPair) root).1 root
                    (cloneHeap H nd (H.dom.length + 1)
                      (aes.map AEntry.toPair) root).2.1 (some a) nd.left
                    others aes
                    ((⟨false, H.next, nd.value, tr⟩ : AEntry T) :: aes)
                    (.node tl (a, nd.value) tr) tl
                    (cloneHeap H nd (H.dom.length + 1)
                      (aes.map AEntry.toPair) root).2.2
                    hokC hothC hrootC ?_ ?_
                    (ih tl _ _ nd.left others
                      ((⟨false, H.next, nd.value, tr⟩ : AEntry T) :: aes)
                      ⟨hwfC, ⟨⟨nd.left, nd.right, nd.value, 1⟩, hlookC, rfl,
                        rfl, ⟨rfl, hrtC⟩,
                        (linkAboveO_some _ _ aes H.next).mp hlinkC⟩,
                       hltC, hrcC, hrtsC, hndC⟩ hhl)
                  · simp only [ipLoop, hlook]
                    rw [if_pos hsh]
                    rw [show (allocH H (⟨nd.left, nd.right, nd.value, 0⟩
                        : HNode T)).2 = H.next from rfl]
                    rw [show update_parentH (H.dom.length + 1)
                        (incRefO (incRefO (allocH H
                          (⟨nd.left, nd.right, nd.value, 0⟩ : HNode T)).1
                          nd.left) nd.right) (aes.map AEntry.toPair) root
                          H.next
                        = cloneHeap H nd (H.dom.length + 1)
                          (aes.map AEntry.toPair) root from rfl]
                    rw [if_pos hc]
                    rfl
                  · show insert_pull_loop c v is_insert
                        (.node (stripT tl) nd.value (stripT tr))
                        (aes.map AEntry.toEntry) = _
                    simp only [insert_pull_loop]
                    rw [if_pos hc]
                    rfl
                · cases is_insert with
                  | true =>
                      have hVW := valueWriteStep
                        (cloneHeap H nd (H.dom.length + 1)
                      (aes.map AEntry.toPair) root).1
                        (cloneHeap H nd (H.dom.length + 1)
                      (aes.map AEntry.toPair) root).2.1
                        others aes H.next ⟨nd.left, nd.right, nd.value, 1⟩
                        tl tr v hwfC hrcC hrtsC hlookC rfl hltC hrtC hlinkC
                        hndC
                      obtain ⟨hwfW, hrcW, hrtsW, hothW, hRTW, hrcpW,
                        hlinkW, hndW⟩ := hVW
                      have hstep : ipLoop c v true (n + 1) H root (some a)
                          (aes.map AEntry.toPair)
                          = ⟨writeH (cloneHeap H nd (H.dom.length + 1)
                              (aes.map AEntry.toPair) root).1 H.next
                              ⟨nd.left, nd.right, v, 1⟩,
                             (cloneHeap H nd (H.dom.length + 1)
                              (aes.map AEntry.toPair) root).2.1,
                             aes.map AEntry.toPair, some H.next, true,
                             (cloneHeap H nd (H.dom.length + 1)
                              (aes.map AEntry.toPair) root).2.2 &&
                               decide ((1 : Nat) ≤ 1)⟩ := by
                        simp only [ipLoop, hlook]
                        rw [if_pos hsh]
                        rw [show (allocH H (⟨nd.left, nd.right, nd.value, 0⟩
                            : HNode T)).2 = H.next from rfl]
                        rw [show update_parentH (H.dom.length + 1)
                            (incRefO (incRefO (allocH H
                              (⟨nd.left, nd.right, nd.value, 0⟩ : HNode T)).1
                              nd.left) nd.right) (aes.map AEntry.toPair) root
                              H.next
                            = cloneHeap H nd (H.dom.length + 1)
                              (aes.map AEntry.toPair) root from rfl]
                        rw [if_neg (by omega : ¬ c.cmp v nd.value < 0),
                          if_neg (by omega : ¬ (0 : Int) < c.cmp v nd.value),
                          hlookC]
                        rfl
                      have hfr : insert_pull_loop c v true
                          (stripT (.node tl (a, nd.value) tr))
                          (aes.map AEntry.toEntry)
                          = (true, splay_to_top (aes.map AEntry.toEntry)
                              (stripT tl) v (stripT tr)) := by
                        show insert_pull_loop c v true
                            (.node (stripT tl) nd.value (stripT tr))
                            (aes.map AEntry.toEntry) = _
                        simp only [insert_pull_loop]
                        rw [if_neg (by omega : ¬ c.cmp v nd.value < 0),
                          if_neg (by omega : ¬ (0 : Int) < c.cmp v nd.value)]
                        rfl
                      unfold ipPost
                      dsimp only
                      rw [hstep, hfr]
                      dsimp only
                      refine ⟨rfl, ?_, ?_, ?_, ?_, ?_,
                        aes, tl, v, tr, rfl, ?_, ?_, ?_, ?_, rfl⟩
                      · rw [hokC]
                        rfl
                      · exact hwfW
                      · exact hrcW
                      · exact hrtsW
                      · exact fun oB tB hB hR =>
                          hothW oB tB hB (hothC oB tB hB hR)
                      · exact hRTW
                      · exact fun m hm => hrcpW m hm
                      · exact hlinkW
                      · exact hndW
                  | false =>
                      have hstep : ipLoop c v false (n + 1) H root (some a)
                          (aes.map AEntry.toPair)
                          = ⟨(cloneHeap H nd (H.dom.length + 1)
                              (aes.map AEntry.toPair) root).1,
                             (cloneHeap H nd (H.dom.length + 1)
                              (aes.map AEntry.toPair) root).2.1,
                             aes.map AEntry.toPair, some H.next, true,
                             (cloneHeap H nd (H.dom.length + 1)
                              (aes.map AEntry.toPair) root).2.2⟩ := by
                        simp only [ipLoop, hlook]
                        rw [if_pos hsh]
                        rw [show (allocH H (⟨nd.left, nd.right, nd.value, 0⟩
                            : HNode T)).2 = H.next from rfl]
                        rw [show update_parentH (H.dom.length + 1)
                            (incRefO (incRefO (allocH H
                              (⟨nd.left, nd.right, nd.value, 0⟩ : HNode T)).1
                              nd.left) nd.right) (aes.map AEntry.toPair) root
                              H.next
                            = cloneHeap H nd (H.dom.length + 1)
                              (aes.map AEntry.toPair) root from rfl]
                        rw [if_neg (by omega : ¬ c.cmp v nd.value < 0),
                          if_neg (by omega : ¬ (0 : Int) < c.cmp v nd.value),
                          hlookC]
                        rfl
                      have hfr : insert_pull_loop c v false
                          (stripT (.node tl (a, nd.value) tr))
                          (aes.map AEntry.toEntry)
                          = (true, splay_to_top (aes.map AEntry.toEntry)
                              (stripT tl) nd.value (stripT tr)) := by
                        show insert_pull_loop c v false
                            (.node (stripT tl) nd.value (stripT tr))
                            (aes.map AEntry.toEntry) = _
                        simp only [insert_pull_loop]
                        rw [if_neg (by omega : ¬ c.cmp v nd.value < 0),
                          if_neg (by omega : ¬ (0 : Int) < c.cmp v nd.value)]
                        rfl
                      unfold ipPost
                      dsimp only
                      rw [hstep, hfr]
                      dsimp only
                      refine ⟨rfl, hokC, ?_, ?_, ?_, hothC,
                        aes, tl, nd.value, tr, rfl, ?_, ?_, ?_, ?_, rfl⟩
                      · exact hwfC
                      · exact hrcC
                      · exact hrtsC
                      · exact @RT.node T _ H.next
                          ⟨nd.left, nd.right, nd.value, 1⟩ tl tr hlookC
                          hltC hrtC
                      · intro m hm
                        rw [hlookC] at hm
                        injection hm with hm
                        subst hm
                        rfl
                      · exact (linkAboveO_some _ _ aes H.next).mp hlinkC
                      · exact hndC
                · refine ipPost_clone_congr c v is_insert n H
                    (cloneHeap H nd (H.dom.length + 1)
                      (aes.map AEntry.toPair) root).1 root
                    (cloneHeap H nd (H.dom.length + 1)
                      (aes.map AEntry.toPair) root).2.1 (some a) nd.right
                    others aes
                    ((⟨true, H.next, nd.value, tl⟩ : AEntry T) :: aes)
                    (.node tl (a, nd.value) tr) tr
                    (cloneHeap H nd (H.dom.length + 1)
                      (aes.map AEntry.toPair) root).2.2
                    hokC hothC hrootC ?_ ?_
                    (ih tr _ _ nd.right others
                      ((⟨true, H.next, nd.value, tl⟩ : AEntry T) :: aes)
                      ⟨hwfC, ⟨⟨nd.left, nd.right, nd.value, 1⟩, hlookC, rfl,
                        rfl, ⟨rfl, hltC⟩,
                        (linkAboveO_some _ _ aes H.next).mp hlinkC⟩,
                       hrtC, hrcC, hrtsC, hndC⟩ hhr)
                  · simp only [ipLoop, hlook]
                    rw [if_pos hsh]
                    rw [show (allocH H (⟨nd.left, nd.right, nd.value, 0⟩
                        : HNode T)).2 = H.next from rfl]
                    rw [show update_parentH (H.dom.length + 1)
                        (incRefO (incRefO (allocH H
                          (⟨nd.left, nd.right, nd.value, 0⟩ : HNode T)).1
                          nd.left) nd.right) (aes.map AEntry.toPair) root
                          H.next
                        = cloneHeap H nd (H.dom.length + 1)
                          (aes.map AEntry.toPair) root from rfl]
                    rw [if_neg (by omega : ¬ c.cmp v nd.value < 0),
                      if_pos hc]
                    rfl
                  · show insert_pull_loop c v is_insert
                        (.node (stripT tl) nd.value (stripT tr))
                        (aes.map AEntry.toEntry) = _
                    simp only [insert_pull_loop]
                    rw [if_neg (by omega : ¬ c.cmp v nd.value < 0),
                      if_pos hc]
                    rfl
              · have hrc1 : nd.rc = 1 := by omega
                rcases lt_trichotomy (c.cmp v nd.value) 0 with hc | hc | hc
                · refine ipPost_step_congr c v is_insert n H root (some a)
                    nd.left others aes
                    ((⟨false, a, nd.value, tr⟩ : AEntry T) :: aes)
                    (.node tl (a, nd.value) tr) tl ?_ ?_
                    (ih tl H root nd.left others
                      ((⟨false, a, nd.value, tr⟩ : AEntry T) :: aes)
                      ⟨hwf, ⟨nd, hlook, hrc1, rfl, ⟨rfl, hr⟩,
                        (linkAboveO_some H root aes a).mp hlink⟩,
                       hl, hrc, hrts, hndup⟩ hhl)
                  · simp only [ipLoop, hlook]
                    rw [if_neg hsh, if_pos hc]
                    rfl
                  · show insert_pull_loop c v is_insert
                        (.node (stripT tl) nd.value (stripT tr))
                        (aes.map AEntry.toEntry) = _
                    simp only [insert_pull_loop]
                    rw [if_pos hc]
                    rfl
                · cases is_insert with
                  | true =>
                      have hVW := valueWriteStep H root others aes a nd tl tr
                        v hwf hrc hrts hlook hrc1 hl hr hlink hndup
                      obtain ⟨hwfW, hrcW, hrtsW, hothW, hRTW, hrcpW,
                        hlinkW, hndW⟩ := hVW
                      have hstep : ipLoop c v true (n + 1) H root (some a)
                          (aes.map AEntry.toPair)
                          = ⟨writeH H a { nd with value := v }, root,
                             aes.map AEntry.toPair, some a, true,
                             decide (nd.rc ≤ 1)⟩ := by
                        simp only [ipLoop, hlook]
                        rw [if_neg hsh,
                          if_neg (by omega : ¬ c.cmp v nd.value < 0),
                          if_neg (by omega : ¬ (0 : Int) < c.cmp v nd.value)]
                        rfl
                      have hfr : insert_pull_loop c v true
                          (stripT (.node tl (a, nd.value) tr))
                          (aes.map AEntry.toEntry)
                          = (true, splay_to_top (aes.map AEntry.toEntry)
                              (stripT tl) v (stripT tr)) := by
                        show insert_pull_loop c v true
                            (.node (stripT tl) nd.value (stripT tr))
                            (aes.map AEntry.toEntry) = _
                        simp only [insert_pull_loop]
                        rw [if_neg (by omega : ¬ c.cmp v nd.value < 0),
                          if_neg (by omega : ¬ (0 : Int) < c.cmp v nd.value)]
                        rfl
                      unfold ipPost
                      dsimp only
                      rw [hstep, hfr]
                      dsimp only
                      refine ⟨rfl, ?_, ?_, ?_, ?_, ?_,
                        aes, tl, v, tr, rfl, ?_, ?_, ?_, ?_, rfl⟩
                      · rw [hrc1]
                        rfl
                      · exact hwfW
                      · exact hrcW
                      · exact hrtsW
                      · exact hothW
                      · exact hRTW
                      · exact fun m hm => (hrcpW m hm).trans hrc1
                      · exact hlinkW
                      · exact hndW
                  | false =>
                      have hstep : ipLoop c v false (n + 1) H root (some a)
                          (aes.map AEntry.toPair)
                          = ⟨H, root, aes.map AEntry.toPair, some a, true,
                             true⟩ := by
                        simp only [ipLoop, hlook]
                        rw [if_neg hsh,
                          if_neg (by omega : ¬ c.cmp v nd.value < 0),
                          if_neg (by omega : ¬ (0 : Int) < c.cmp v nd.value)]
                        rfl
                      have hfr : insert_pull_loop c v false
                          (stripT (.node tl (a, nd.value) tr))
                          (aes.map AEntry.toEntry)
                          = (true, splay_to_top (aes.map AEntry.toEntry)
                              (stripT tl) nd.value (stripT tr)) := by
                        show insert_pull_loop c v false
                            (.node (stripT tl) nd.value (stripT tr))
                            (aes.map AEntry.toEntry) = _
                        simp only [insert_pull_loop]
                        rw [if_neg (by omega : ¬ c.cmp v nd.value < 0),
                          if_neg (by omega : ¬ (0 : Int) < c.cmp v nd.value)]
                        rfl
                      unfold ipPost
                      dsimp only
                      rw [hstep, hfr]
                      dsimp only
                      refine ⟨rfl, rfl, hwf, hrc, hrts, fun _ _ _ h => h,
                        aes, tl, nd.value, tr, rfl,
                        @RT.node T _ a nd tl tr hlook hl hr, ?_,
                        (linkAboveO_some H root aes a).mp hlink, hndup, rfl⟩
                      · intro m hm
                        rw [hlook] at hm
                        injection hm with hm
                        subst hm
                        exact hrc1
                · refine ipPost_step_congr c v is_insert n H root (some a)
                    nd.right others aes
                    ((⟨true, a, nd.value, tl⟩ : AEntry T) :: aes)
                    (.node tl (a, nd.value) tr) tr ?_ ?_
                    (ih tr H root nd.right others
                      ((⟨true, a, nd.value, tl⟩ : AEntry T) :: aes)
                      ⟨hwf, ⟨nd, hlook, hrc1, rfl, ⟨rfl, hl⟩,
                        (linkAboveO_some H root aes a).mp hlink⟩,
                       hr, hrc, hrts, hndup⟩ hhr)
                  · simp only [ipLoop, hlook]
                    rw [if_neg hsh,
                      if_neg (by omega : ¬ c.cmp v nd.value < 0),
                      if_pos hc]
                    rfl
                  · show insert_pull_loop c v is_insert
                        (.node (stripT tl) nd.value (stripT tr))
                        (aes.map AEntry.toEntry) = _
                    simp only [insert_pull_loop]
                    rw [if_neg (by omega : ¬ c.cmp v nd.value < 0),
                      if_pos hc]
                    rfl

/-- A live handle: a well-formed heap, a represented tree with duplicate-free
addresses, and correct reference counts over this handle and all others. -/
def HandleOK (H : Heap T) (root : Option Nat) (others : List (Option Nat))
    (tA : Tree (Nat × T)) : Prop :=
  HWF H ∧ RT H root tA ∧ rcCorrect H (root :: others) ∧
    rootsOK H (root :: others) ∧ (maddrs tA).Nodup

/-- `insert_pull` on the heap refines the functional `insert_pull_loop`
followed by the functional splay: the result is a live handle representing
the functional result, every sharing assertion passed, and the trees of all
other handles are untouched. -/
theorem insert_pullH_master (c : Cmp T) (v : T) (is_insert : Bool)
    (fuel : Nat) (H : Heap T) (root : Option Nat)
    (others : List (Option Nat)) (tA : Tree (Nat × T))
    (hok : HandleOK H root others tA) (hfuel : heightT tA < fuel) :
    ∃ tA2,
      (insert_pullH c v is_insert fuel H root).2.2.2 = true ∧
      HWF (insert_pullH c v is_insert fuel H root).1 ∧
      rcCorrect (insert_pullH c v is_insert fuel H root).1
        ((insert_pullH c v is_insert fuel H root).2.1 :: others) ∧
      rootsOK (insert_pullH c v is_insert fuel H root).1
        ((insert_pullH c v is_insert fuel H root).2.1 :: others) ∧
      RT (insert_pullH c v is_insert fuel H root).1
        (insert_pullH c v is_insert fuel H root).2.1 tA2 ∧
      (maddrs tA2).Nodup ∧
      stripT tA2 = (insert_pull_loop c v is_insert (stripT tA) []).2 ∧
      (insert_pullH c v is_insert fuel H root).2.2.1
        = (insert_pull_loop c v is_insert (stripT tA) []).1 ∧
      (∀ oB tB, oB ∈ others → RT H oB tB →
        RT (insert_pullH c v is_insert fuel H root).1 oB tB) ∧
      (∀ m nm, (insert_pullH c v is_insert fuel H root).2.1 = some m →
        lookupH (insert_pullH c v is_insert fuel H root).1 m = some nm →
        nm.rc = 1) := by
  obtain ⟨hwf, hRT, hrc, hrts, hnd⟩ := hok
  have hpost := ipLoop_master c v is_insert fuel tA H root root others []
    ⟨hwf, rfl, hRT, hrc, hrts, hnd⟩ hfuel
  unfold ipPost at hpost
  dsimp only at hpost
  simp only [List.map_nil] at hpost
  obtain ⟨hfound, hok2, hwf2, hrc2, hrts2, hoth2, htgt⟩ := hpost
  have hIP : insert_pullH c v is_insert fuel H root
      = match (ipLoop c v is_insert fuel H root root []).target with
        | none => ((ipLoop c v is_insert fuel H root root []).H,
                   (ipLoop c v is_insert fuel H root root []).root, false,
                   (ipLoop c v is_insert fuel H root root []).ok)
        | some n => ((splayH (ipLoop c v is_insert fuel H root root []).H
                       (ipLoop c v is_insert fuel H root root []).path n).1,
                     some n,
                     (ipLoop c v is_insert fuel H root root []).found,
                     (ipLoop c v is_insert fuel H root root []).ok &&
                       (splayH (ipLoop c v is_insert fuel H root root []).H
                         (ipLoop c v is_insert fuel H root root []).path
                         n).2) := rfl
  rcases hT : (ipLoop c v is_insert fuel H root root []).target with _ | n
  · rw [hT] at htgt
    obtain ⟨hH2, hroot2, hfr2, hrootn⟩ := htgt
    rw [hrootn] at hRT
    cases hRT
    refine ⟨.leaf, ?_, ?_, ?_, ?_, ?_, ?_, ?_, ?_, ?_, ?_⟩
    · rw [hIP, hT]
      exact hok2
    · rw [hIP, hT]
      exact hwf2
    · rw [hIP, hT]
      exact hrc2
    · rw [hIP, hT]
      exact hrts2
    · rw [hIP, hT]
      rw [hroot2, hrootn]
      exact RT.leaf
    · simp [maddrs_leaf]
    · rw [hfr2]
      rfl
    · rw [hIP, hT]
      cases is_insert <;> rfl
    · intro oB tB hB h
      rw [hIP, hT]
      exact hoth2 oB tB hB h
    · intro m nm hm hlk
      have hm2 : (ipLoop c v is_insert fuel H root root []).root = some m := by
        rw [hIP, hT] at hm
        exact hm
      rw [hroot2, hrootn] at hm2
      exact Option.noConfusion hm2
  · rw [hT] at htgt
    obtain ⟨aes2, A2, nv2, B2, hpath, hRT2, hrc12, hlink2, hnd2, hsplay2⟩
      := htgt
    rcases RT_node_inv hRT2 with ⟨nn, hnn, -, -, -⟩
    have hadj : adjust (ipLoop c v is_insert fuel H root root []).H
        (ipLoop c v is_insert fuel H root root []).root aes2 n
        = ((ipLoop c v is_insert fuel H root root []).H,
           (ipLoop c v is_insert fuel H root root []).root) :=
      adjust_id _ _ aes2 n hlink2
    have hsp := splayH_master aes2 A2 (n, nv2) B2
      (ipLoop c v is_insert fuel H root root []).H
      (ipLoop c v is_insert fuel H root root []).root others n
      ⟨hwf2, hlink2, hRT2, hrc12, hnd2, by
        show rcCorrect (adjust (ipLoop c v is_insert fuel H root root []).H
          (ipLoop c v is_insert fuel H root root []).root aes2 n).1
          ((adjust (ipLoop c v is_insert fuel H root root []).H
            (ipLoop c v is_insert fuel H root root []).root aes2 n).2
            :: others)
        rw [hadj]
        exact hrc2⟩
    unfold splayPost at hsp
    dsimp only at hsp
    obtain ⟨hsRT, hsok, hsrc, hswf, hsdom, hsnext, hsfr, hsrcm⟩ := hsp
    have hanchn : Anchored (ipLoop c v is_insert fuel H root root []).H
        (ipLoop c v is_insert fuel H root root []).root n :=
      linkAbove_anchored _ _ aes2 n hlink2 nn hnn (hrc12 nn hnn)
    refine ⟨splayA aes2 A2 (n, nv2) B2, ?_, ?_, ?_, ?_, ?_, ?_, ?_, ?_, ?_, ?_⟩
    · rw [hIP, hT]
      dsimp only
      rw [hpath, hok2, hsok]
      rfl
    · rw [hIP, hT]
      dsimp only
      rw [hpath]
      exact hswf
    · rw [hIP, hT]
      dsimp only
      rw [hpath]
      exact hsrc
    · rw [hIP, hT]
      dsimp only
      rw [hpath]
      intro r2 hr2 x heq
      have hxdom : x ∈ (ipLoop c v is_insert fuel H root root []).H.dom := by
        rcases List.mem_cons.1 hr2 with rfl | hmem
        · injection heq with heq
          subst heq
          refine (hwf2.domOK n).1 ?_
          rw [← lookupH_eq, hnn]
          rfl
        · exact (hwf2.domOK x).1 (hrts2 r2 (List.mem_cons_of_mem _ hmem)
            x heq)
      refine (hswf.domOK x).2 ?_
      rw [hsdom]
      exact hxdom
    · rw [hIP, hT]
      dsimp only
      rw [hpath]
      exact hsRT
    · rw [maddrs_splayA]
      exact hnd2
    · rw [stripT_splayA]
      exact hsplay2
    · rw [hIP, hT]
      dsimp only
      exact hfound
    · intro oB tB hB h
      rw [hIP, hT]
      dsimp only
      rw [hpath]
      have hB2 := hoth2 oB tB hB h
      refine RT_congr_f hB2 ?_
      intro b hb
      refine hsfr b ?_ ?_
      · intro hmem
        rcases List.mem_map.1 hmem with ⟨e, he, heq⟩
        have hanc := linkAbove_anchored_entry _ _ aes2 n hlink2 e he
        have := anchored_notin_other _ hwf2 _ others hrc2 oB hB tB hB2
          e.addr hanc
        rw [heq] at this
        exact this hb
      · intro hbn
        have := anchored_notin_other _ hwf2 _ others hrc2 oB hB tB hB2
          n hanchn
        rw [hbn] at hb
        exact this hb
    · intro m nm hm hlk
      have hm2 : some n = some m := by
        rw [hIP, hT] at hm
        exact hm
      injection hm2 with hm3
      subst hm3
      have hlk2 : lookupH (splayH (ipLoop c v is_insert fuel H root root []).H
          (ipLoop c v is_insert fuel H root root []).path n).1 n = some nm := by
        rw [hIP, hT] at hlk
        exact hlk
      rw [hpath] at hlk2
      have hf1 : (splayH (ipLoop c v is_insert fuel H root root []).H
          (aes2.map AEntry.toPair) n).1.f n = some nm := by
        rw [← lookupH_eq]
        exact hlk2
      have hf2 : (ipLoop c v is_insert fuel H root root []).H.f n = some nn := by
        rw [← lookupH_eq]
        exact hnn
      have hmap := hsrcm n
      rw [hf1, hf2] at hmap
      simp only [Option.map_some'] at hmap
      rw [Option.some_inj] at hmap
      rw [hmap]
      exact hrc12 nn hnn


/-- A heap is determined by its domain, its memory, and its fresh counter. -/
theorem heap_ext (H1 H2 : Heap T) (hdom : H1.dom = H2.dom)
    (hf : ∀ b, H1.f b = H2.f b) (hnext : H1.next = H2.next) : H1 = H2 := by
  cases H1 with
  | mk d1 f1 n1 =>
      cases H2 with
      | mk d2 f2 n2 =>
          simp only at hdom hf hnext
          subst hdom
          subst hnext
          have : f1 = f2 := funext hf
          rw [this]

/-- Only the empty tree is represented by a null pointer slot. -/
theorem RT_leaf_inv {H : Heap T} {o : Option Nat}
    (h : RT H o (.leaf : Tree (Nat × T))) : o = none := by
  cases h
  rfl

/-- A represented node determines its address, node, and children. -/
theorem RT_some_inv {H : Heap T} {o : Option Nat} {l r : Tree (Nat × T)}
    {p : Nat × T} (h : RT H o (.node l p r)) :
    ∃ a nd2, o = some a ∧ p = (a, nd2.value) ∧ lookupH H a = some nd2 ∧
      RT H nd2.left l ∧ RT H nd2.right r := by
  cases h with
  | node hlook hl hr => exact ⟨_, _, rfl, rfl, hlook, hl, hr⟩

/-- `inc_ref` on an allocated address is a plain count bump. -/
theorem incRefO_some (H : Heap T) (b : Nat) (m : HNode T)
    (hlook : lookupH H b = some m) :
    incRefO H (some b) = writeH H b { m with rc := m.rc + 1 } := by
  simp only [incRefO, hlook]

/-- `dec_ref` through a null pointer is a no-op at any fuel. -/
theorem decRefO_none (f : Nat) (H : Heap T) :
    decRefO f H (none : Option Nat) = H := by
  cases f <;> rfl

/-- `dec_ref` on a node with other owners left is a plain count drop. -/
theorem decRefO_shared (f : Nat) (H : Heap T) (b : Nat) (m : HNode T)
    (hlook : lookupH H b = some m) (hsh : 2 ≤ m.rc) :
    decRefO (f + 1) H (some b) = writeH H b { m with rc := m.rc - 1 } := by
  simp only [decRefO, hlook]
  rw [if_neg (by omega)]

/-- Acquiring a root reference keeps the counts correct for the extended
root list. -/
theorem rcCorrect_incRefO (H : Heap T) (R : List (Option Nat))
    (o : Option Nat) (hrc : rcCorrect H R) :
    rcCorrect (incRefO H o) (o :: R) := by
  intro b m hm
  rw [lookupH_incRefO_formula] at hm
  rw [incoming, incomingN_incRefO, rootCount_cons]
  cases h0 : lookupH H b with
  | none => rw [h0] at hm; cases hm
  | some m0 =>
      rw [h0] at hm
      simp only [Option.map_some'] at hm
      injection hm with hm
      subst hm
      have hold := hrc b m0 h0
      rw [incoming] at hold
      dsimp only
      omega

/-- The descent slot keeps its target alive: the recorded reference is
counted, so the target's count is at least one. -/
theorem linkO_target_rc_ge1 (H : Heap T) (root : Option Nat)
    (others : List (Option Nat)) (aes : List (AEntry T)) (a : Nat)
    (nd : HNode T) (hwf : HWF H) (hrc : rcCorrect H (root :: others))
    (hlook : lookupH H a = some nd)
    (hlink : linkAboveO H root aes (some a)) : 1 ≤ nd.rc := by
  have hval := hrc a nd hlook
  cases aes with
  | nil =>
      have hroot : root = some a := hlink
      have h2 : 1 ≤ rootCount (root :: others) a := by
        rw [rootCount_cons, hroot, if_pos rfl]
        omega
      rw [hval]
      show 1 ≤ incomingN H a + rootCount (root :: others) a
      omega
  | cons e rest =>
      rcases hlink with ⟨ne, hne, _, _, hslot, _⟩
      have hle : slotCount ne a ≤ incomingN H a :=
        le_incomingN H hwf e.addr ne hne a
      have hslot1 : 1 ≤ slotCount ne a := by
        simp only [slotCount]
        split at hslot
        · rw [hslot.1, if_pos rfl]
          omega
        · rw [hslot.1, if_pos rfl]
          omega
      rw [hval]
      show 1 ≤ incomingN H a + rootCount (root :: others) a
      omega

/-- What the `pull_max` descent loop guarantees: every sharing assertion
passes, the invariants persist with the new root, other handles' trees are
untouched, and the new root represents the functional `pull_max_loop` result
whose addresses are either old ones or freshly allocated. -/
def pmPost (fuel : Nat) (H : Heap T) (root : Option Nat) (a : Nat)
    (others : List (Option Nat)) (aes : List (AEntry T))
    (tcur : Tree (Nat × T)) : Prop :=
  (pmLoop fuel H root a (aes.map AEntry.toPair)).2.2 = true ∧
  HWF (pmLoop fuel H root a (aes.map AEntry.toPair)).1 ∧
  rcCorrect (pmLoop fuel H root a (aes.map AEntry.toPair)).1
    ((pmLoop fuel H root a (aes.map AEntry.toPair)).2.1 :: others) ∧
  rootsOK (pmLoop fuel H root a (aes.map AEntry.toPair)).1
    ((pmLoop fuel H root a (aes.map AEntry.toPair)).2.1 :: others) ∧
  (∀ oB tB, oB ∈ others → RT H oB tB →
    RT (pmLoop fuel H root a (aes.map AEntry.toPair)).1 oB tB) ∧
  (∀ m nm, (pmLoop fuel H root a (aes.map AEntry.toPair)).2.1 = some m →
    lookupH (pmLoop fuel H root a (aes.map AEntry.toPair)).1 m = some nm →
    nm.rc = 1) ∧
  ∃ tA2, RT (pmLoop fuel H root a (aes.map AEntry.toPair)).1
      (pmLoop fuel H root a (aes.map AEntry.toPair)).2.1 tA2 ∧
    (maddrs tA2).Nodup ∧
    stripT tA2 = pull_max_loop (stripT tcur) (aes.map AEntry.toEntry) ∧
    (∀ x, x ∈ maddrs tA2 → x ∈ maddrs (aplug aes tcur) ∨ H.next ≤ x)

/-- Membership in the addresses of a plugged zipper. -/
theorem mem_maddrs_aplug (aes : List (AEntry T)) (t : Tree (Nat × T))
    (x : Nat) :
    x ∈ maddrs (aplug aes t) ↔ x ∈ maddrs t ∨ x ∈ zipL aes := by
  rw [maddrs_aplug]
  simp [Multiset.mem_add]

/-- Membership in the addresses of a node. -/
theorem mem_maddrs_node (l : Tree (Nat × T)) (b : Nat) (v : T)
    (r : Tree (Nat × T)) (x : Nat) :
    x ∈ maddrs (.node l (b, v) r) ↔ x = b ∨ x ∈ maddrs l ∨ x ∈ maddrs r := by
  rw [maddrs_node]
  simp only [Multiset.mem_add, Multiset.mem_singleton]
  tauto

/-- The empty tree has no addresses. -/
theorem mem_maddrs_leaf (x : Nat) :
    x ∈ maddrs (.leaf : Tree (Nat × T)) ↔ False := by
  simp [maddrs, addrsT]

/-- Membership in the recorded addresses of a path entry. -/
theorem mem_zipL_cons (e : AEntry T) (aes : List (AEntry T)) (x : Nat) :
    x ∈ zipL (e :: aes) ↔ x = e.addr ∨ x ∈ maddrs e.other ∨ x ∈ zipL aes := by
  simp [zipL, maddrs]

/-- The splay that finishes a `pull_max` descent: the deepest right slot is
empty, the target is singly referenced, and splaying it to the top keeps
every invariant. -/
theorem pmExit (H : Heap T) (root : Option Nat) (others : List (Option Nat))
    (aes : List (AEntry T)) (a : Nat) (nd : HNode T) (tl : Tree (Nat × T))
    (hwf : HWF H) (hrc : rcCorrect H (root :: others))
    (hrts : rootsOK H (root :: others))
    (hlook : lookupH H a = some nd) (hrc1 : nd.rc = 1)
    (hl : RT H nd.left tl) (hright : nd.right = none)
    (hlink : linkAbove H root aes a)
    (hndup : (maddrs (aplug aes
      (.node tl (a, nd.value) (.leaf : Tree (Nat × T))))).Nodup) :
    (splayH H (aes.map AEntry.toPair) a).2 = true ∧
    HWF (splayH H (aes.map AEntry.toPair) a).1 ∧
    rcCorrect (splayH H (aes.map AEntry.toPair) a).1 (some a :: others) ∧
    rootsOK (splayH H (aes.map AEntry.toPair) a).1 (some a :: others) ∧
    (∀ oB tB, oB ∈ others → RT H oB tB →
      RT (splayH H (aes.map AEntry.toPair) a).1 oB tB) ∧
    RT (splayH H (aes.map AEntry.toPair) a).1 (some a)
      (splayA aes tl (a, nd.value) (.leaf : Tree (Nat × T))) ∧
    (maddrs (splayA aes tl (a, nd.value) (.leaf : Tree (Nat × T)))).Nodup ∧
    stripT (splayA aes tl (a, nd.value) (.leaf : Tree (Nat × T)))
      = splay_to_top (aes.map AEntry.toEntry) (stripT tl) nd.value .leaf ∧
    (∀ m, lookupH (splayH H (aes.map AEntry.toPair) a).1 a = some m →
      m.rc = 1) := by
  have hRT : RT H (some a) (.node tl (a, nd.value) .leaf) :=
    @RT.node T _ a nd tl .leaf hlook hl (by rw [hright]; exact RT.leaf)
  have hrcf : ∀ m, lookupH H a = some m → m.rc = 1 := by
    intro m hm
    rw [hlook] at hm
    injection hm with hm
    subst hm
    exact hrc1
  have hadj : adjust H root aes a = (H, root) := adjust_id H root aes a hlink
  have hsp := splayH_master aes tl (a, nd.value) .leaf H root others a
    ⟨hwf, hlink, hRT, hrcf, hndup, by
      show rcCorrect (adjust H root aes a).1
        ((adjust H root aes a).2 :: others)
      rw [hadj]
      exact hrc⟩
  unfold splayPost at hsp
  dsimp only at hsp
  obtain ⟨hsRT, hsok, hsrc, hswf, hsdom, hsnext, hsfr, hsrcm⟩ := hsp
  have hanchn : Anchored H root a :=
    linkAbove_anchored H root aes a hlink nd hlook hrc1
  refine ⟨hsok, hswf, hsrc, ?_, ?_, hsRT, ?_, ?_, ?_⟩
  · intro r2 hr2 x heq
    have hxdom : x ∈ H.dom := by
      rcases List.mem_cons.1 hr2 with rfl | hmem
      · injection heq with heq
        subst heq
        refine (hwf.domOK a).1 ?_
        rw [← lookupH_eq, hlook]
        rfl
      · exact (hwf.domOK x).1 (hrts r2 (List.mem_cons_of_mem _ hmem) x heq)
    refine (hswf.domOK x).2 ?_
    rw [hsdom]
    exact hxdom
  · intro oB tB hB h
    refine RT_congr_f h ?_
    intro b hb
    refine hsfr b ?_ ?_
    · intro hmem
      rcases List.mem_map.1 hmem with ⟨e, he, heq⟩
      have hanc := linkAbove_anchored_entry H root aes a hlink e he
      have h2 := anchored_notin_other H hwf root others hrc oB hB tB h
        e.addr hanc
      rw [heq] at h2
      exact h2 hb
    · intro hbn
      have h2 := anchored_notin_other H hwf root others hrc oB hB tB h
        a hanchn
      rw [hbn] at hb
      exact h2 hb
  · rw [maddrs_splayA]
    exact hndup
  · rw [stripT_splayA]
    rfl
  · intro m hm
    have h2 := hsrcm a
    rw [← lookupH_eq, ← lookupH_eq, hm, hlook] at h2
    simp only [Option.map_some'] at h2
    injection h2 with h2
    rw [h2]
    exact hrc1

/-- Plain descent-step transfer for the `pull_max` loop. -/
theorem pmPost_step_congr (fuel : Nat) (H : Heap T) (root : Option Nat)
    (a a2 : Nat) (others : List (Option Nat)) (aes aes2 : List (AEntry T))
    (tcur tcur2 : Tree (Nat × T))
    (hstep : pmLoop (fuel + 1) H root a (aes.map AEntry.toPair)
      = pmLoop fuel H root a2 (aes2.map AEntry.toPair))
    (hfr : pull_max_loop (stripT tcur) (aes.map AEntry.toEntry)
      = pull_max_loop (stripT tcur2) (aes2.map AEntry.toEntry))
    (hplug : maddrs (aplug aes2 tcur2) = maddrs (aplug aes tcur))
    (h : pmPost fuel H root a2 others aes2 tcur2) :
    pmPost (fuel + 1) H root a others aes tcur := by
  unfold pmPost at h ⊢
  rw [hstep, hfr]
  obtain ⟨h1, h2, h3, h4, h5, h5a, tA2, h6, h7, h8, h9⟩ := h
  refine ⟨h1, h2, h3, h4, h5, h5a, tA2, h6, h7, h8, ?_⟩
  intro x hx
  rcases h9 x hx with hx2 | hx2
  · left
    rw [← hplug]
    exact hx2
  · right
    exact hx2

/-- Descent-step transfer through the clone branch of the `pull_max` loop. -/
theorem pmPost_clone_congr (fuel : Nat) (H Hc : Heap T)
    (root rootc : Option Nat) (a a2 : Nat) (others : List (Option Nat))
    (aes aes2 : List (AEntry T)) (tcur tcur2 : Tree (Nat × T)) (okb : Bool)
    (hokb : okb = true)
    (hoth : ∀ oB tB, oB ∈ others → RT H oB tB → RT Hc oB tB)
    (hstep : pmLoop (fuel + 1) H root a (aes.map AEntry.toPair)
      = ((pmLoop fuel Hc rootc a2 (aes2.map AEntry.toPair)).1,
         (pmLoop fuel Hc rootc a2 (aes2.map AEntry.toPair)).2.1,
         okb && (pmLoop fuel Hc rootc a2 (aes2.map AEntry.toPair)).2.2))
    (hfr : pull_max_loop (stripT tcur) (aes.map AEntry.toEntry)
      = pull_max_loop (stripT tcur2) (aes2.map AEntry.toEntry))
    (hbound : ∀ x, x ∈ maddrs (aplug aes2 tcur2) ∨ Hc.next ≤ x →
      x ∈ maddrs (aplug aes tcur) ∨ H.next ≤ x)
    (h : pmPost fuel Hc rootc a2 others aes2 tcur2) :
    pmPost (fuel + 1) H root a others aes tcur := by
  unfold pmPost at h ⊢
  rw [hstep]
  dsimp only
  rw [hfr]
  obtain ⟨h1, h2, h3, h4, h5, h5a, tA2, h6, h7, h8, h9⟩ := h
  refine ⟨?_, h2, h3, h4,
    fun oB tB hB hR => h5 oB tB hB (hoth oB tB hB hR), h5a, tA2, h6, h7,
    h8, fun x hx => hbound x (h9 x hx)⟩
  rw [hokb, h1]
  rfl

/-- The `pull_max` descent loop master theorem: follow right children,
cloning shared nodes, then splay the maximum; all assertions pass, the
invariants persist, and other handles' trees survive. -/
theorem pmLoop_master :
    ∀ (fuel : Nat) (tcur : Tree (Nat × T)) (H : Heap T)
      (root : Option Nat) (a : Nat) (others : List (Option Nat))
      (aes : List (AEntry T)),
      ipPre H root (some a) others aes tcur → heightT tcur < fuel →
      pmPost fuel H root a others aes tcur := by
  intro fuel
  induction fuel with
  | zero =>
      intro tcur H root a others aes hpre hh
      exact absurd hh (by omega)
  | succ n ih =>
      intro tcur H root a others aes hpre hh
      obtain ⟨hwf, hlink, hRT, hrc, hrts, hndup⟩ := hpre
      cases hRT with
      | node hlook hl hr =>
          rename_i nd tl tr
          cases tr with
          | leaf =>
              have hright : nd.right = none := RT_leaf_inv hr
              by_cases hsh : nd.rc > 1
              · have hCS := cloneStep H root others aes a nd tl .leaf
                  (H.dom.length + 1) (by omega) hwf hrc hrts hlook
                  (by omega) hl hr hlink hndup
                obtain ⟨hokC, hwfC, hrcC, hrtsC, hlookC, hlinkC, hltC,
                  hrtC, hndC, hothC, hnextC, hdomC⟩ := hCS
                have hE := pmExit (cloneHeap H nd (H.dom.length + 1)
                    (aes.map AEntry.toPair) root).1
                  (cloneHeap H nd (H.dom.length + 1)
                    (aes.map AEntry.toPair) root).2.1 others aes H.next
                  ⟨nd.left, nd.right, nd.value, 1⟩ tl hwfC hrcC hrtsC
                  hlookC rfl hltC hright
                  ((linkAboveO_some _ _ aes H.next).mp hlinkC) hndC
                obtain ⟨he1, he2, he3, he4, he5, he6, he7, he8, he9⟩ := hE
                dsimp only at he6 he7 he8
                have hstep : pmLoop (n + 1) H root a (aes.map AEntry.toPair)
                    = ((splayH (cloneHeap H nd (H.dom.length + 1)
                          (aes.map AEntry.toPair) root).1
                        (aes.map AEntry.toPair) H.next).1, some H.next,
                       (cloneHeap H nd (H.dom.length + 1)
                          (aes.map AEntry.toPair) root).2.2 &&
                        (splayH (cloneHeap H nd (H.dom.length + 1)
                          (aes.map AEntry.toPair) root).1
                          (aes.map AEntry.toPair) H.next).2) := by
                  simp only [pmLoop, hlook]
                  rw [if_pos hsh]
                  rw [show (allocH H (⟨nd.left, nd.right, nd.value, 0⟩
                      : HNode T)).2 = H.next from rfl]
                  rw [show update_parentH (H.dom.length + 1)
                      (incRefO (incRefO (allocH H
                        (⟨nd.left, nd.right, nd.value, 0⟩ : HNode T)).1
                        nd.left) nd.right) (aes.map AEntry.toPair) root
                        H.next
                      = cloneHeap H nd (H.dom.length + 1)
                        (aes.map AEntry.toPair) root from rfl]
                  rw [hright]
                unfold pmPost
                rw [hstep]
                dsimp only
                refine ⟨?_, he2, he3, he4,
                  fun oB tB hB hR => he5 oB tB hB (hothC oB tB hB hR), ?_,
                  splayA aes tl (H.next, nd.value) .leaf, he6, he7, ?_, ?_⟩
                · rw [hokC, he1]
                  rfl
                · intro m nm hm hnm
                  injection hm with hm
                  subst hm
                  exact he9 nm hnm
                · rw [he8]
                  rfl
                · intro x hx
                  rw [maddrs_splayA] at hx
                  by_cases hxn : x = H.next
                  · right
                    omega
                  · left
                    simp only [mem_maddrs_aplug, mem_maddrs_node,
                      mem_maddrs_leaf, mem_zipL_cons] at hx ⊢
                    tauto
              · have hrc1 : nd.rc = 1 := by
                  have := linkO_target_rc_ge1 H root others aes a nd hwf
                    hrc hlook hlink
                  omega
                have hE := pmExit H root others aes a nd tl hwf hrc hrts
                  hlook hrc1 hl hright
                  ((linkAboveO_some H root aes a).mp hlink) hndup
                obtain ⟨he1, he2, he3, he4, he5, he6, he7, he8, he9⟩ := hE
                have hstep : pmLoop (n + 1) H root a (aes.map AEntry.toPair)
                    = ((splayH H (aes.map AEntry.toPair) a).1, some a,
                       (splayH H (aes.map AEntry.toPair) a).2) := by
                  simp only [pmLoop, hlook]
                  rw [if_neg hsh, hright]
                unfold pmPost
                rw [hstep]
                dsimp only
                refine ⟨he1, he2, he3, he4, he5, ?_,
                  splayA aes tl (a, nd.value) .leaf, he6, he7, ?_, ?_⟩
                · intro m nm hm hnm
                  injection hm with hm
                  subst hm
                  exact he9 nm hnm
                · rw [he8]
                  rfl
                · intro x hx
                  rw [maddrs_splayA] at hx
                  left
                  exact hx
          | node trl rp trr =>
              rcases RT_some_inv hr with ⟨rr, rnd, hrr, hrp, hrlook,
                hrl2, hrr2⟩
              subst hrp
              have hhr : heightT (.node trl (rr, rnd.value) trr) < n := by
                simp only [heightT] at hh ⊢
                omega
              by_cases hsh : nd.rc > 1
              · have hCS := cloneStep H root others aes a nd tl
                  (.node trl (rr, rnd.value) trr) (H.dom.length + 1)
                  (by omega) hwf hrc hrts hlook (by omega) hl hr hlink hndup
                obtain ⟨hokC, hwfC, hrcC, hrtsC, hlookC, hlinkC, hltC,
                  hrtC, hndC, hothC, hnextC, hdomC⟩ := hCS
                refine pmPost_clone_congr n H
                  (cloneHeap H nd (H.dom.length + 1)
                    (aes.map AEntry.toPair) root).1 root
                  (cloneHeap H nd (H.dom.length + 1)
                    (aes.map AEntry.toPair) root).2.1 a rr others aes
                  ((⟨true, H.next, nd.value, tl⟩ : AEntry T) :: aes)
                  (.node tl (a, nd.value) (.node trl (rr, rnd.value) trr))
                  (.node trl (rr, rnd.value) trr)
                  (cloneHeap H nd (H.dom.length + 1)
                    (aes.map AEntry.toPair) root).2.2
                  hokC hothC ?_ ?_ ?_
                  (ih _ _ _ rr others
                    ((⟨true, H.next, nd.value, tl⟩ : AEntry T) :: aes)
                    ⟨hwfC, ⟨⟨nd.left, nd.right, nd.value, 1⟩, hlookC, rfl,
                      rfl, ⟨hrr, hltC⟩,
                      (linkAboveO_some _ _ aes H.next).mp hlinkC⟩,
                     (hrr ▸ hrtC), hrcC, hrtsC, hndC⟩ hhr)
                · simp only [pmLoop, hlook]
                  rw [if_pos hsh]
                  rw [show (allocH H (⟨nd.left, nd.right, nd.value, 0⟩
                      : HNode T)).2 = H.next from rfl]
                  rw [show update_parentH (H.dom.length + 1)
                      (incRefO (incRefO (allocH H
                        (⟨nd.left, nd.right, nd.value, 0⟩ : HNode T)).1
                        nd.left) nd.right) (aes.map AEntry.toPair) root
                        H.next
                      = cloneHeap H nd (H.dom.length + 1)
                        (aes.map AEntry.toPair) root from rfl]
                  rw [hrr]
                  rfl
                · show pull_max_loop (.node (stripT tl) nd.value
                      (.node (stripT trl) rnd.value (stripT trr)))
                      (aes.map AEntry.toEntry) = _
                  simp only [pull_max_loop]
                  rfl
                · intro x hx
                  rcases hx with hx | hx
                  · by_cases hxn : x = H.next
                    · right
                      omega
                    · left
                      simp only [mem_maddrs_aplug, mem_maddrs_node,
                        mem_maddrs_leaf, mem_zipL_cons] at hx ⊢
                      tauto
                  · right
                    rw [hnextC] at hx
                    omega
              · have hrc1 : nd.rc = 1 := by
                  have := linkO_target_rc_ge1 H root others aes a nd hwf
                    hrc hlook hlink
                  omega
                refine pmPost_step_congr n H root a rr others aes
                  ((⟨true, a, nd.value, tl⟩ : AEntry T) :: aes)
                  (.node tl (a, nd.value) (.node trl (rr, rnd.value) trr))
                  (.node trl (rr, rnd.value) trr) ?_ ?_ rfl
                  (ih (.node trl (rr, rnd.value) trr) H root rr others
                    ((⟨true, a, nd.value, tl⟩ : AEntry T) :: aes)
                    ⟨hwf, ⟨nd, hlook, hrc1, rfl, ⟨hrr, hl⟩,
                      (linkAboveO_some H root aes a).mp hlink⟩,
                     (hrr ▸ hr), hrc, hrts, hndup⟩ hhr)
                · simp only [pmLoop, hlook]
                  rw [if_neg hsh, hrr]
                  rfl
                · show pull_max_loop (.node (stripT tl) nd.value
                      (.node (stripT trl) rnd.value (stripT trr)))
                      (aes.map AEntry.toEntry) = _
                  simp only [pull_max_loop]
                  rfl

/-- A pointer that represents a nonempty tree is allocated. -/
theorem RT_some_lookup {H : Heap T} {b : Nat} {t : Tree (Nat × T)}
    (h : RT H (some b) t) : ∃ m, lookupH H b = some m := by
  cases h with
  | node hlook _ _ => exact ⟨_, hlook⟩

/-- Freeing the rc-1 root once its children are held by the temporary
handles: removing the record keeps every invariant, with the children
promoted to handle roots. -/
theorem detach_core (H : Heap T) (a : Nat) (nd : HNode T)
    (others : List (Option Nat)) (tl tr : Tree (Nat × T))
    (hwf : HWF H) (hrc : rcCorrect H (some a :: others))
    (hrts : rootsOK H (some a :: others))
    (hlook : lookupH H a = some nd) (hrc1 : nd.rc = 1)
    (hl : RT H nd.left tl) (hr : RT H nd.right tr)
    (hnd : (maddrs (.node tl (a, nd.value) tr)).Nodup) :
    HWF (removeH H a) ∧
    rcCorrect (removeH H a) (nd.left :: nd.right :: others) ∧
    rootsOK (removeH H a) (nd.left :: nd.right :: others) ∧
    RT (removeH H a) nd.left tl ∧ RT (removeH H a) nd.right tr ∧
    (∀ oB tB, oB ∈ others → RT H oB tB → RT (removeH H a) oB tB) := by
  have hadom : a ∈ H.dom := (hwf.domOK a).1 (by
    rw [← lookupH_eq, hlook]
    rfl)
  have harc := hrc a nd hlook
  rw [incoming, rootCount_cons, if_pos rfl] at harc
  have hin0 : incomingN H a = 0 := by omega
  have hroth : rootCount others a = 0 := by omega
  have hanotl : a ∉ addrsT tl ∧ a ∉ addrsT tr := by
    have h1 := hnd
    rw [maddrs_node, Multiset.nodup_add, Multiset.nodup_add] at h1
    obtain ⟨⟨hna, hntl, hdisj1⟩, hntr, hdisj2⟩ := h1
    constructor
    · intro h
      exact (Multiset.disjoint_left.1 hdisj1)
        (Multiset.mem_singleton_self a) (Multiset.mem_coe.2 h)
    · intro h
      refine (Multiset.disjoint_left.1 hdisj2) ?_ (Multiset.mem_coe.2 h)
      exact Multiset.mem_add.2 (Or.inl (Multiset.mem_singleton_self a))
  refine ⟨HWF_removeH H hwf a hin0, ?_, ?_, ?_, ?_, ?_⟩
  · intro b m hm
    have hba : b ≠ a := by
      intro h
      rw [h, lookupH_eq, f_removeH, if_pos rfl] at hm
      cases hm
    rw [lookupH_eq, f_removeH, if_neg hba, ← lookupH_eq] at hm
    have hold := hrc b m hm
    rw [incoming, rootCount_cons] at hold
    rw [incoming, rootCount_cons, rootCount_cons]
    have hrm := incomingN_removeH H hwf a hadom b
    rw [← lookupH_eq, hlook, slotCountO_some] at hrm
    have hnab : ¬((some a : Option Nat) = some b) := by
      intro h
      injection h with h
      exact hba h.symm
    rw [if_neg hnab] at hold
    have hsc : slotCount nd b = (if nd.left = some b then 1 else 0)
        + (if nd.right = some b then 1 else 0) := rfl
    rw [hsc] at hrm
    linarith
  · intro r hrmem x heq
    have hxa : x ≠ a := by
      intro h
      subst h
      rcases List.mem_cons.1 hrmem with rfl | hr2
      · exact hanotl.1 (RT_some_mem (heq ▸ hl))
      · rcases List.mem_cons.1 hr2 with rfl | hr3
        · exact hanotl.2 (RT_some_mem (heq ▸ hr))
        · have := rootCount_pos others x (heq ▸ hr3)
          omega
    have hxsome : (H.f x).isSome = true := by
      rcases List.mem_cons.1 hrmem with rfl | hr2
      · exact RT_mem_isSome hl x (RT_some_mem (heq ▸ hl))
      · rcases List.mem_cons.1 hr2 with rfl | hr3
        · exact RT_mem_isSome hr x (RT_some_mem (heq ▸ hr))
        · exact hrts r (List.mem_cons_of_mem _ hr3) x heq
    rw [f_removeH, if_neg hxa]
    exact hxsome
  · refine RT_congr_f hl ?_
    intro b hb
    rw [f_removeH, if_neg (fun (h : b = a) => hanotl.1 (h ▸ hb))]
  · refine RT_congr_f hr ?_
    intro b hb
    rw [f_removeH, if_neg (fun (h : b = a) => hanotl.2 (h ▸ hb))]
  · intro oB tB hB hRTB
    have hanch : Anchored H (some a) a := Anchored.base rfl hlook hrc1
    have hno := anchored_notin_other H hwf (some a) others hrc oB hB tB
      hRTB a hanch
    refine RT_congr_f hRTB ?_
    intro b hb
    rw [f_removeH, if_neg (fun (h : b = a) => hno (h ▸ hb))]

/-- The addresses of a node record are mutually fresh. -/
theorem node_nodup_parts (tl tr : Tree (Nat × T)) (a : Nat) (v : T)
    (hnd : (maddrs (.node tl (a, v) tr)).Nodup) :
    a ∉ addrsT tl ∧ a ∉ addrsT tr ∧
      ∀ x, x ∈ addrsT tl → x ∉ addrsT tr := by
  rw [maddrs_node, Multiset.nodup_add, Multiset.nodup_add] at hnd
  obtain ⟨⟨hna, hntl, hdisj1⟩, hntr, hdisj2⟩ := hnd
  refine ⟨?_, ?_, ?_⟩
  · intro h
    exact (Multiset.disjoint_left.1 hdisj1)
      (Multiset.mem_singleton_self a) (Multiset.mem_coe.2 h)
  · intro h
    refine (Multiset.disjoint_left.1 hdisj2) ?_ (Multiset.mem_coe.2 h)
    exact Multiset.mem_add.2 (Or.inl (Multiset.mem_singleton_self a))
  · intro x hx1 hx2
    refine (Multiset.disjoint_left.1 hdisj2) ?_ (Multiset.mem_coe.2 hx2)
    exact Multiset.mem_add.2 (Or.inr (Multiset.mem_coe.2 hx1))

/-- The `erase` detach sequence: acquire both children for the temporary
handles, then release the old rc-1 root.  The net heap effect is exactly
the removal of the root record. -/
theorem detachChildren (f : Nat) (H : Heap T) (a : Nat) (nd : HNode T)
    (others : List (Option Nat)) (tl tr : Tree (Nat × T))
    (hwf : HWF H) (hrc : rcCorrect H (some a :: others))
    (hlook : lookupH H a = some nd) (hrc1 : nd.rc = 1)
    (hl : RT H nd.left tl) (hr : RT H nd.right tr)
    (hnd : (maddrs (.node tl (a, nd.value) tr)).Nodup) :
    decRefO (f + 2) (incRefO (incRefO H nd.left) nd.right) (some a)
      = removeH H a := by
  obtain ⟨hnal, hnar, hdisjlr⟩ := node_nodup_parts tl tr a nd.value hnd
  have hchild1 : ∀ b m, (nd.left = some b ∨ nd.right = some b) →
      lookupH H b = some m → 1 ≤ m.rc := by
    intro b m hdir hm
    have h0 := hrc b m hm
    have h1 := le_incomingN H hwf a nd hlook b
    have h2 : 1 ≤ slotCount nd b := by
      simp only [slotCount]
      rcases hdir with h | h
      · rw [h, if_pos rfl]
        omega
      · rw [h, if_pos rfl]
        omega
    rw [h0]
    show 1 ≤ incomingN H b + rootCount (some a :: others) b
    omega
  cases hleq : nd.left with
  | none =>
      cases hreq : nd.right with
      | none =>
          show decRefO (f + 2) H (some a) = _
          simp only [decRefO, hlook]
          rw [if_pos (by omega), hleq, hreq, decRefO_none, decRefO_none]
      | some ra =>
          rcases RT_some_lookup (hreq ▸ hr) with ⟨nra, hnra⟩
          have hramem : ra ∈ addrsT tr := RT_some_mem (hreq ▸ hr)
          have hraa : ra ≠ a := fun h => hnar (h ▸ hramem)
          have hra1 : 1 ≤ nra.rc :=
            hchild1 ra nra (Or.inr hreq) hnra
          show decRefO (f + 2) (incRefO H (some ra)) (some a) = _
          rw [incRefO_some H ra nra hnra]
          have hlook2 : lookupH (writeH H ra { nra with rc := nra.rc + 1 })
              a = some nd := by
            rw [lookupH_writeH, if_neg (fun (h : a = ra) => hraa h.symm)]
            exact hlook
          simp only [decRefO, hlook2]
          rw [if_pos (by omega), hleq, hreq, decRefO_none]
          have hlook3 : lookupH (removeH (writeH H ra
              { nra with rc := nra.rc + 1 }) a) ra
              = some { nra with rc := nra.rc + 1 } := by
            rw [lookupH_eq, f_removeH, if_neg hraa, ← lookupH_eq,
              lookupH_writeH, if_pos rfl]
          rw [decRefO_shared f _ ra _ hlook3 (by dsimp only; omega)]
          refine heap_ext _ _ ?_ ?_ ?_
          · simp [dom_writeH, dom_removeH]
          · intro b
            simp only [f_writeH, f_removeH]
            by_cases hbra : b = ra
            · rw [if_pos hbra, hbra, if_neg hraa,
                show H.f ra = some nra from hnra]
              rfl
            · rw [if_neg hbra]
              by_cases hba : b = a
              · rw [if_pos hba, if_pos hba]
              · rw [if_neg hba, if_neg hba, if_neg hbra]
          · rfl
  | some la =>
      rcases RT_some_lookup (hleq ▸ hl) with ⟨nla, hnla⟩
      have hlamem : la ∈ addrsT tl := RT_some_mem (hleq ▸ hl)
      have hlaa : la ≠ a := fun h => hnal (h ▸ hlamem)
      have hla1 := hchild1 la nla (Or.inl hleq) hnla
      cases hreq : nd.right with
      | none =>
          show decRefO (f + 2) (incRefO H (some la)) (some a) = _
          rw [incRefO_some H la nla hnla]
          have hlook2 : lookupH (writeH H la { nla with rc := nla.rc + 1 })
              a = some nd := by
            rw [lookupH_writeH, if_neg (fun (h : a = la) => hlaa h.symm)]
            exact hlook
          simp only [decRefO, hlook2]
          rw [if_pos (by omega), hleq, hreq, decRefO_none]
          have hlook3 : lookupH (removeH (writeH H la
              { nla with rc := nla.rc + 1 }) a) la
              = some { nla with rc := nla.rc + 1 } := by
            rw [lookupH_eq, f_removeH, if_neg hlaa, ← lookupH_eq,
              lookupH_writeH, if_pos rfl]
          rw [decRefO_shared f _ la _ hlook3 (by dsimp only; omega)]
          refine heap_ext _ _ ?_ ?_ ?_
          · simp [dom_writeH, dom_removeH]
          · intro b
            simp only [f_writeH, f_removeH]
            by_cases hbla : b = la
            · rw [if_pos hbla, hbla, if_neg hlaa,
                show H.f la = some nla from hnla]
              rfl
            · rw [if_neg hbla]
              by_cases hba : b = a
              · rw [if_pos hba, if_pos hba]
              · rw [if_neg hba, if_neg hba, if_neg hbla]
          · rfl
      | some ra =>
          rcases RT_some_lookup (hreq ▸ hr) with ⟨nra, hnra⟩
          have hramem : ra ∈ addrsT tr := RT_some_mem (hreq ▸ hr)
          have hraa : ra ≠ a := fun h => hnar (h ▸ hramem)
          have hlara : la ≠ ra := fun h => hdisjlr la hlamem (h ▸ hramem)
          have hra1 := hchild1 ra nra (Or.inr hreq) hnra
          show decRefO (f + 2) (incRefO (incRefO H (some la)) (some ra))
            (some a) = _
          rw [incRefO_some H la nla hnla]
          have hnra2 : lookupH (writeH H la { nla with rc := nla.rc + 1 })
              ra = some nra := by
            rw [lookupH_writeH, if_neg (fun (h : ra = la) => hlara h.symm)]
            exact hnra
          rw [incRefO_some _ ra nra hnra2]
          have hlook2 : lookupH (writeH (writeH H la
              { nla with rc := nla.rc + 1 }) ra
              { nra with rc := nra.rc + 1 }) a = some nd := by
            rw [lookupH_writeH, if_neg (fun (h : a = ra) => hraa h.symm),
              lookupH_writeH, if_neg (fun (h : a = la) => hlaa h.symm)]
            exact hlook
          simp only [decRefO, hlook2]
          rw [if_pos (by omega), hleq, hreq]
          have hlook3 : lookupH (removeH (writeH (writeH H la
              { nla with rc := nla.rc + 1 }) ra
              { nra with rc := nra.rc + 1 }) a) la
              = some { nla with rc := nla.rc + 1 } := by
            rw [lookupH_eq, f_removeH, if_neg hlaa, ← lookupH_eq,
              lookupH_writeH, if_neg (fun (h : la = ra) => hlara h),
              lookupH_writeH, if_pos rfl]
          rw [decRefO_shared f _ la _ hlook3 (by dsimp only; omega)]
          have hlook4 : lookupH (writeH (removeH (writeH (writeH H la
              { nla with rc := nla.rc + 1 }) ra
              { nra with rc := nra.rc + 1 }) a) la
              { { nla with rc := nla.rc + 1 } with
                rc := { nla with rc := nla.rc + 1 }.rc - 1 }) ra
              = some { nra with rc := nra.rc + 1 } := by
            rw [lookupH_writeH, if_neg (fun (h : ra = la) => hlara h.symm),
              lookupH_eq, f_removeH, if_neg hraa, ← lookupH_eq,
              lookupH_writeH, if_pos rfl]
          rw [decRefO_shared f _ ra _ hlook4 (by dsimp only; omega)]
          refine heap_ext _ _ ?_ ?_ ?_
          · simp [dom_writeH, dom_removeH]
          · intro b
            simp only [f_writeH, f_removeH]
            by_cases hbra : b = ra
            · rw [if_pos hbra, hbra, if_neg hraa,
                show H.f ra = some nra from hnra]
              rfl
            · rw [if_neg hbra]
              by_cases hbla : b = la
              · rw [if_pos hbla, hbla, if_neg hlaa,
                  show H.f la = some nla from hnla]
                rfl
              · rw [if_neg hbla]
                by_cases hba : b = a
                · rw [if_pos hba, if_pos hba]
                · rw [if_neg hba, if_neg hba, if_neg hbra, if_neg hbla]
          · rfl

/-- The `erase` attach sequence: acquire the right part, write it into the
right slot of the new left root, release the temporary.  The net heap
effect is exactly the single slot write. -/
theorem attachRight_eq (f : Nat) (Hp : Heap T) (lm ra : Nat)
    (lmn nra : HNode T)
    (hlm : lookupH Hp lm = some lmn) (hra : lookupH Hp ra = some nra)
    (hlmra : lm ≠ ra) (hra1 : 1 ≤ nra.rc) :
    decRefO (f + 1) (writeH (incRefO Hp (some ra)) lm
      { (lookupH (incRefO Hp (some ra)) lm).getD lmn with
        right := some ra }) (some ra)
      = writeH Hp lm { lmn with right := some ra } := by
  rw [incRefO_some Hp ra nra hra]
  have h1 : lookupH (writeH Hp ra { nra with rc := nra.rc + 1 }) lm
      = some lmn := by
    rw [lookupH_writeH, if_neg hlmra]
    exact hlm
  rw [h1, Option.getD_some]
  have h2 : lookupH (writeH (writeH Hp ra { nra with rc := nra.rc + 1 })
      lm { lmn with right := some ra }) ra
      = some { nra with rc := nra.rc + 1 } := by
    rw [lookupH_writeH, if_neg (fun (h : ra = lm) => hlmra h.symm),
      lookupH_writeH, if_pos rfl]
  rw [decRefO_shared f _ ra _ h2 (by dsimp only; omega)]
  refine heap_ext _ _ ?_ ?_ ?_
  · simp [dom_writeH]
  · intro b
    simp only [f_writeH]
    by_cases hbra : b = ra
    · rw [if_pos hbra, hbra, if_neg (fun (h : ra = lm) => hlmra h.symm),
        show Hp.f ra = some nra from hra]
      rfl
    · rw [if_neg hbra]
      by_cases hblm : b = lm
      · rw [if_pos hblm, if_pos hblm]
      · rw [if_neg hblm, if_neg hblm, if_neg hbra]
  · rfl

/-- Writing the detached right part into the empty right slot of the
`pull_max` root keeps every invariant; the right part's temporary root
reference is traded for the slot reference. -/
theorem attach_core (Hp : Heap T) (lm ra : Nat) (lmn : HNode T)
    (others : List (Option Nat)) (A3 tr : Tree (Nat × T))
    (hwf : HWF Hp)
    (hrc : rcCorrect Hp (some lm :: some ra :: others))
    (hrts : rootsOK Hp (some lm :: some ra :: others))
    (hlm : lookupH Hp lm = some lmn) (hlmrc : lmn.rc = 1)
    (hlmright : lmn.right = none)
    (hRTl : RT Hp lmn.left A3)
    (hRTr : RT Hp (some ra) tr)
    (hnd : (maddrs (.node A3 (lm, lmn.value) tr)).Nodup) :
    HWF (writeH Hp lm { lmn with right := some ra }) ∧
    rcCorrect (writeH Hp lm { lmn with right := some ra })
      (some lm :: others) ∧
    rootsOK (writeH Hp lm { lmn with right := some ra })
      (some lm :: others) ∧
    RT (writeH Hp lm { lmn with right := some ra }) (some lm)
      (.node A3 (lm, lmn.value) tr) ∧
    (∀ oB tB, oB ∈ others → RT Hp oB tB →
      RT (writeH Hp lm { lmn with right := some ra }) oB tB) := by
  obtain ⟨hnal, hnar, hdisjlr⟩ := node_nodup_parts A3 tr lm lmn.value hnd
  have hlmdom : lm ∈ Hp.dom := (hwf.domOK lm).1 (by
    rw [← lookupH_eq, hlm]
    rfl)
  have hra_is : (Hp.f ra).isSome = true :=
    hrts (some ra) (List.mem_cons_of_mem _ (List.mem_cons_self _ _)) ra rfl
  have hfr : ∀ b, b ≠ lm →
      (writeH Hp lm { lmn with right := some ra }).f b = Hp.f b := by
    intro b hb
    rw [f_writeH, if_neg hb]
  refine ⟨?_, ?_, ?_, ?_, ?_⟩
  · refine HWF_writeH Hp hwf lm _ ?_ (hwf.cvalid lm lmn hlm).1 ?_
    · rw [← lookupH_eq, hlm]
      rfl
    · intro b hb
      injection hb with hb
      subst hb
      rw [lookupH_eq]
      exact hra_is
  · refine rcCorrect_transfer Hp _ (some lm :: some ra :: others)
      (some lm :: others) ?_ ?_ hrc
    · intro b
      rw [f_writeH]
      by_cases hblm : b = lm
      · rw [if_pos hblm, hblm, show Hp.f lm = some lmn from hlm]
        rfl
      · rw [if_neg hblm]
    · intro x
      have he := incoming_writeH Hp hwf.nodup lm hlmdom lmn hlm
        { lmn with right := some ra } (some lm :: others) x
      have hsc1 : slotCount lmn x
          = (if lmn.left = some x then 1 else 0) := by
        simp only [slotCount, hlmright]
        simp
      have hsc2 : slotCount { lmn with right := some ra } x
          = (if lmn.left = some x then 1 else 0)
            + (if (some ra : Option Nat) = some x then 1 else 0) := rfl
      rw [hsc1, hsc2] at he
      simp only [incoming, rootCount_cons] at he ⊢
      linarith
  · intro r hr x heq
    rw [f_writeH]
    split
    · rfl
    · rcases List.mem_cons.1 hr with rfl | hmem
      · exact hrts (some lm) (List.mem_cons_self _ _) x heq
      · exact hrts r (List.mem_cons_of_mem _
          (List.mem_cons_of_mem _ hmem)) x heq
  · have hRT2 := @RT.node T _ lm { lmn with right := some ra } A3 tr
      (by rw [lookupH_writeH, if_pos rfl])
      (RT_congr_f hRTl (fun b hb =>
        hfr b (fun (h : b = lm) => hnal (h ▸ hb))))
      (RT_congr_f hRTr (fun b hb =>
        hfr b (fun (h : b = lm) => hnar (h ▸ hb))))
    exact hRT2
  · intro oB tB hB hRTB
    have hanch : Anchored Hp (some lm) lm := Anchored.base rfl hlm hlmrc
    have hno := anchored_notin_other Hp hwf (some lm) (some ra :: others)
      hrc oB (List.mem_cons_of_mem _ hB) tB hRTB lm hanch
    refine RT_congr_f hRTB ?_
    intro b hb
    exact hfr b (fun (h : b = lm) => hno (h ▸ hb))

/-! ### Tree size: a fuel bound that survives restructuring -/

/-- Number of nodes of a tree. -/
def sizeT {S : Type} : Tree S → Nat
  | .leaf => 0
  | .node l _ r => sizeT l + sizeT r + 1

theorem heightT_le_sizeT {S : Type} (t : Tree S) : heightT t ≤ sizeT t := by
  induction t with
  | leaf => exact Nat.le_refl 0
  | node l v r ihl ihr =>
      simp only [heightT, sizeT]
      omega

theorem sizeT_toList (t : Tree T) : sizeT t = (toList t).length := by
  induction t with
  | leaf => rfl
  | node l v r ihl ihr =>
      simp only [sizeT, toList, List.length_append, List.length_cons,
        ihl, ihr]
      omega

theorem sizeT_mapT {S U : Type} (f : S → U) (t : Tree S) :
    sizeT (mapT f t) = sizeT t := by
  induction t with
  | leaf => rfl
  | node l v r ihl ihr => simp only [mapT, sizeT, ihl, ihr]

theorem sizeT_stripT (t : Tree (Nat × T)) : sizeT (stripT t) = sizeT t :=
  sizeT_mapT Prod.snd t

/-! ### Reduction equations of the functional join -/

theorem join_leaf_l (r : Tree T) : join .leaf r = r := by
  cases r <;> rfl

theorem join_node_leaf (l r : Tree T) (x : T) :
    join (.node l x r) .leaf = .node l x r := rfl

theorem join_node_node (l1 r1 l2 r2 : Tree T) (x1 x2 : T) :
    join (.node l1 x1 r1) (.node l2 x2 r2)
      = match pull_max (.node l1 x1 r1) with
        | .leaf => .leaf
        | .node l3 m _ => .node l3 m (.node l2 x2 r2) := rfl

/-! ### Dropping empty root slots from the accounting lists -/

theorem rootCount_none_cons (R : List (Option Nat)) (x : Nat) :
    rootCount (none :: R) x = rootCount R x := by
  rw [rootCount_cons, if_neg (by simp)]
  omega

theorem rcCorrect_drop_none (H : Heap T) (R : List (Option Nat))
    (h : rcCorrect H (none :: R)) : rcCorrect H R := by
  intro a n hn
  have h2 := h a n hn
  rw [incoming, rootCount_none_cons, ← incoming] at h2
  exact h2

theorem rcCorrect_drop_none2 (H : Heap T) (o : Option Nat)
    (R : List (Option Nat)) (h : rcCorrect H (o :: none :: R)) :
    rcCorrect H (o :: R) := by
  intro a n hn
  have h2 := h a n hn
  rw [incoming, rootCount_cons, rootCount_none_cons, ← rootCount_cons,
    ← incoming] at h2
  exact h2

theorem rootsOK_drop_none (H : Heap T) (R : List (Option Nat))
    (h : rootsOK H (none :: R)) : rootsOK H R :=
  fun r hr => h r (List.mem_cons_of_mem _ hr)

theorem rootsOK_drop_none2 (H : Heap T) (o : Option Nat)
    (R : List (Option Nat)) (h : rootsOK H (o :: none :: R)) :
    rootsOK H (o :: R) := by
  intro r hr
  rcases List.mem_cons.1 hr with rfl | hmem
  · exact h r (List.mem_cons_self _ _)
  · exact h r (List.mem_cons_of_mem _ (List.mem_cons_of_mem _ hmem))

/-- The two subtrees of an address-distinct node are themselves
address-distinct. -/
theorem node_nodup_sub (tl tr : Tree (Nat × T)) (a : Nat) (v : T)
    (hnd : (maddrs (.node tl (a, v) tr)).Nodup) :
    (maddrs tl).Nodup ∧ (maddrs tr).Nodup := by
  rw [maddrs_node, Multiset.nodup_add, Multiset.nodup_add] at hnd
  obtain ⟨⟨hna, hntl, hd1⟩, hntr, hd2⟩ := hnd
  exact ⟨hntl, hntr⟩

set_option maxHeartbeats 1600000 in
/-- `erase` on the heap refines the functional `erase`: the result is a live
handle representing the functional result, every sharing assertion passed,
and the trees of all other handles are untouched.  The fuel only needs to
cover the node count of the input tree. -/
theorem eraseH_master (c : Cmp T) (v : T) (fuel : Nat) (H : Heap T)
    (root : Option Nat) (others : List (Option Nat)) (tA : Tree (Nat × T))
    (hok : HandleOK H root others tA) (hfuel : sizeT tA < fuel) :
    ∃ tA2,
      (eraseH c v fuel H root).2.2 = true ∧
      HWF (eraseH c v fuel H root).1 ∧
      rcCorrect (eraseH c v fuel H root).1
        ((eraseH c v fuel H root).2.1 :: others) ∧
      rootsOK (eraseH c v fuel H root).1
        ((eraseH c v fuel H root).2.1 :: others) ∧
      RT (eraseH c v fuel H root).1 (eraseH c v fuel H root).2.1 tA2 ∧
      (maddrs tA2).Nodup ∧
      stripT tA2 = erase c v (stripT tA) ∧
      (∀ oB tB, oB ∈ others → RT H oB tB →
        RT (eraseH c v fuel H root).1 oB tB) := by
  obtain ⟨tA2, hipok, hipwf, hiprc, hiprts, hipRT, hipnd, hipstrip,
    hipfound, hipoth, hiprc1⟩ :=
    insert_pullH_master c v false fuel H root others tA hok
      (lt_of_le_of_lt (heightT_le_sizeT tA) hfuel)
  cases hf : (insert_pullH c v false fuel H root).2.2.1 with
  | false =>
      -- value absent: the pulled handle is returned unchanged
      have hstep : eraseH c v fuel H root
          = ((insert_pullH c v false fuel H root).1,
             (insert_pullH c v false fuel H root).2.1,
             (insert_pullH c v false fuel H root).2.2.2) := by
        simp only [eraseH, pullH]
        rw [hf, if_neg (by simp)]
      have hfound : (pull c v (stripT tA)).1 = false := by
        have h2 := hipfound
        rw [hf] at h2
        exact h2.symm
      have hfr : erase c v (stripT tA)
          = (insert_pull_loop c v false (stripT tA) []).2 := by
        rcases hp : pull c v (stripT tA) with ⟨fnd, t2⟩
        rw [hp] at hfound
        have hfnd : fnd = false := hfound
        subst hfnd
        simp only [erase, hp]
        rw [show insert_pull_loop c v false (stripT tA) []
              = pull c v (stripT tA) from rfl, hp]
      refine ⟨tA2, ?_, ?_, ?_, ?_, ?_, hipnd, ?_, ?_⟩
      · rw [hstep]
        exact hipok
      · rw [hstep]
        exact hipwf
      · rw [hstep]
        exact hiprc
      · rw [hstep]
        exact hiprts
      · rw [hstep]
        exact hipRT
      · rw [hfr]
        exact hipstrip
      · intro oB tB hB h
        rw [hstep]
        exact hipoth oB tB hB h
  | true =>
      have hfoundT : (pull c v (stripT tA)).1 = true := by
        have h2 := hipfound
        rw [hf] at h2
        exact h2.symm
      obtain ⟨l0, x0, r0, hroot0, hcmp0⟩ :=
        pull_found_root c v (stripT tA) hfoundT
      have hstrip0 : stripT tA2 = Tree.node l0 x0 r0 := by
        rw [hipstrip]
        exact hroot0
      cases tA2 with
      | leaf => exact absurd hstrip0 (by simp [stripT, mapT])
      | node A2 nv2 B2 =>
      obtain ⟨n, nnd, hn, hnv2, hlookn, hA2ip, hB2ip⟩ := RT_some_inv hipRT
      subst hnv2
      have hrc1n : nnd.rc = 1 := hiprc1 n nnd hn hlookn
      have hiprc' : rcCorrect (insert_pullH c v false fuel H root).1
          (some n :: others) := by
        rw [← hn]
        exact hiprc
      have hiprts' : rootsOK (insert_pullH c v false fuel H root).1
          (some n :: others) := by
        rw [← hn]
        exact hiprts
      have htAne : stripT tA ≠ Tree.leaf := by
        intro h
        rw [pull_found_eq_contains] at hfoundT
        rw [h] at hfoundT
        simp [contains, find] at hfoundT
      have hsz1 : 1 ≤ sizeT tA := by
        cases tA with
        | leaf => exact (htAne rfl).elim
        | node l1 p1 r1 =>
            simp only [sizeT]
            omega
      obtain ⟨f2, rfl⟩ : ∃ f2, fuel = f2 + 2 := ⟨fuel - 2, by omega⟩
      cases hle : nnd.left with
      | none =>
          -- left subtree empty: the right part becomes the handle
          rw [hle] at hA2ip
          cases hA2ip
          have hdetach := detachChildren f2
            (insert_pullH c v false (f2 + 2) H root).1 n nnd others
            Tree.leaf B2 hipwf hiprc' hlookn hrc1n
            (by rw [hle]; exact RT.leaf) hB2ip hipnd
          rw [hle] at hdetach
          obtain ⟨hwfD, hrcD, hrtsD, hA2d, hB2d, hothD⟩ :=
            detach_core (insert_pullH c v false (f2 + 2) H root).1 n nnd
              others Tree.leaf B2 hipwf hiprc' hiprts' hlookn hrc1n
              (by rw [hle]; exact RT.leaf) hB2ip hipnd
          rw [hle] at hrcD hrtsD
          have hrcD' := rcCorrect_drop_none _ _ hrcD
          have hrtsD' := rootsOK_drop_none _ _ hrtsD
          have hstep : eraseH c v (f2 + 2) H root
              = (removeH (insert_pullH c v false (f2 + 2) H root).1 n,
                 nnd.right,
                 (insert_pullH c v false (f2 + 2) H root).2.2.2) := by
            simp only [eraseH, pullH]
            rw [hf, if_pos rfl]
            simp only [hn, hlookn, hle]
            rw [hdetach]
          have hpair : pull c v (stripT tA)
              = (true, Tree.node Tree.leaf nnd.value (stripT B2)) := by
            have h1 : (pull c v (stripT tA)).2
                = Tree.node Tree.leaf nnd.value (stripT B2) := hipstrip.symm
            rcases hp : pull c v (stripT tA) with ⟨fnd, t2⟩
            rw [hp] at h1 hfoundT
            have h2 : fnd = true := hfoundT
            have h3 : t2 = Tree.node Tree.leaf nnd.value (stripT B2) := h1
            rw [h2, h3]
          have herase : erase c v (stripT tA) = stripT B2 := by
            simp only [erase, hpair, join_leaf_l]
          refine ⟨B2, ?_, ?_, ?_, ?_, ?_, ?_, ?_, ?_⟩
          · rw [hstep]
            exact hipok
          · rw [hstep]
            exact hwfD
          · rw [hstep]
            exact hrcD'
          · rw [hstep]
            exact hrtsD'
          · rw [hstep]
            exact hB2d
          · exact (node_nodup_sub Tree.leaf B2 n nnd.value hipnd).2
          · rw [herase]
          · intro oB tB hB h
            rw [hstep]
            exact hothD oB tB hB (hipoth oB tB hB h)
      | some la =>
          cases hre : nnd.right with
          | none =>
              -- right subtree empty: the left part becomes the handle
              rw [hre] at hB2ip
              cases hB2ip
              rw [hle] at hA2ip
              cases hA2ip with
              | node hlookla hltl hltr =>
              rename_i lnd ltl ltr
              have hdetach := detachChildren f2
                (insert_pullH c v false (f2 + 2) H root).1 n nnd others
                (Tree.node ltl (la, lnd.value) ltr) Tree.leaf hipwf hiprc'
                hlookn hrc1n
                (by rw [hle]; exact RT.node hlookla hltl hltr)
                (by rw [hre]; exact RT.leaf) hipnd
              rw [hle, hre] at hdetach
              obtain ⟨hwfD, hrcD, hrtsD, hA2d, hB2d, hothD⟩ :=
                detach_core (insert_pullH c v false (f2 + 2) H root).1 n nnd
                  others (Tree.node ltl (la, lnd.value) ltr) Tree.leaf hipwf
                  hiprc' hiprts' hlookn hrc1n
                  (by rw [hle]; exact RT.node hlookla hltl hltr)
                  (by rw [hre]; exact RT.leaf) hipnd
              rw [hle] at hA2d
              rw [hle, hre] at hrcD hrtsD
              have hrcD' := rcCorrect_drop_none2 _ _ _ hrcD
              have hrtsD' := rootsOK_drop_none2 _ _ _ hrtsD
              have hstep : eraseH c v (f2 + 2) H root
                  = (removeH (insert_pullH c v false (f2 + 2) H root).1 n,
                     some la,
                     (insert_pullH c v false (f2 + 2) H root).2.2.2) := by
                simp only [eraseH, pullH]
                rw [hf, if_pos rfl]
                simp only [hn, hlookn, hle, hre]
                rw [hdetach]
              have hpair : pull c v (stripT tA)
                  = (true, Tree.node
                      (Tree.node (stripT ltl) lnd.value (stripT ltr))
                      nnd.value Tree.leaf) := by
                have h1 : (pull c v (stripT tA)).2
                    = Tree.node
                        (Tree.node (stripT ltl) lnd.value (stripT ltr))
                        nnd.value Tree.leaf := hipstrip.symm
                rcases hp : pull c v (stripT tA) with ⟨fnd, t2⟩
                rw [hp] at h1 hfoundT
                have h2 : fnd = true := hfoundT
                have h3 : t2 = Tree.node
                    (Tree.node (stripT ltl) lnd.value (stripT ltr))
                    nnd.value Tree.leaf := h1
                rw [h2, h3]
              have herase : erase c v (stripT tA)
                  = Tree.node (stripT ltl) lnd.value (stripT ltr) := by
                simp only [erase, hpair, join_node_leaf]
              refine ⟨Tree.node ltl (la, lnd.value) ltr,
                ?_, ?_, ?_, ?_, ?_, ?_, ?_, ?_⟩
              · rw [hstep]
                exact hipok
              · rw [hstep]
                exact hwfD
              · rw [hstep]
                exact hrcD'
              · rw [hstep]
                exact hrtsD'
              · rw [hstep]
                exact hA2d
              · exact (node_nodup_sub _ Tree.leaf n nnd.value hipnd).1
              · rw [herase]
                rfl
              · intro oB tB hB h
                rw [hstep]
                exact hothD oB tB hB (hipoth oB tB hB h)
          | some ra =>
              -- both subtrees live: join via pull_max on the left part
              rw [hle] at hA2ip
              rw [hre] at hB2ip
              have hdetach := detachChildren f2
                (insert_pullH c v false (f2 + 2) H root).1 n nnd others
                A2 B2 hipwf hiprc' hlookn hrc1n
                (by rw [hle]; exact hA2ip) (by rw [hre]; exact hB2ip) hipnd
              rw [hle, hre] at hdetach
              obtain ⟨hwfD, hrcD, hrtsD, hA2d, hB2d, hothD⟩ :=
                detach_core (insert_pullH c v false (f2 + 2) H root).1 n nnd
                  others A2 B2 hipwf hiprc' hiprts' hlookn hrc1n
                  (by rw [hle]; exact hA2ip) (by rw [hre]; exact hB2ip)
                  hipnd
              rw [hle] at hA2d
              rw [hre] at hB2d
              rw [hle, hre] at hrcD hrtsD
              have hA2nodup : (maddrs A2).Nodup :=
                (node_nodup_sub A2 B2 n nnd.value hipnd).1
              have hB2nodup : (maddrs B2).Nodup :=
                (node_nodup_sub A2 B2 n nnd.value hipnd).2
              have hparts := node_nodup_parts A2 B2 n nnd.value hipnd
              have hpre : ipPre
                  (removeH (insert_pullH c v false (f2 + 2) H root).1 n)
                  (some la) (some la) (some ra :: others) [] A2 :=
                ⟨hwfD, rfl, hA2d, hrcD, hrtsD, hA2nodup⟩
              have hszA : sizeT A2 < f2 + 2 := by
                have h1 : sizeT (Tree.node A2 (n, nnd.value) B2)
                    = sizeT tA := by
                  rw [← sizeT_stripT (Tree.node A2 (n, nnd.value) B2),
                    ← sizeT_stripT tA, sizeT_toList, sizeT_toList,
                    show stripT (Tree.node A2 (n, nnd.value) B2)
                      = (pull c v (stripT tA)).2 from hipstrip,
                    toList_pull]
                have h2 : sizeT (Tree.node A2 (n, nnd.value) B2)
                    = sizeT A2 + sizeT B2 + 1 := rfl
                omega
              have hpm := pmLoop_master (f2 + 2) A2
                (removeH (insert_pullH c v false (f2 + 2) H root).1 n)
                (some la) la (some ra :: others) [] hpre
                (lt_of_le_of_lt (heightT_le_sizeT A2) hszA)
              unfold pmPost at hpm
              simp only [List.map_nil, aplug] at hpm
              obtain ⟨hpmok, hpmwf, hpmrc, hpmrts, hpmoth, hpmrc1, tA3,
                hpmRT, hpmnd, hpmstrip, hpmbound⟩ := hpm
              have hA2ne : stripT A2 ≠ Tree.leaf := by
                intro h
                cases A2 with
                | leaf => exact Option.noConfusion (RT_leaf_inv hA2d)
                | node l1 p1 r1 => simp [stripT, mapT] at h
              obtain ⟨l3, m3, hshape⟩ := pull_max_loop_shape (stripT A2) []
                hA2ne (by intro e he; cases he)
              have hstrip3 : stripT tA3 = Tree.node l3 m3 Tree.leaf := by
                rw [hpmstrip]
                exact hshape
              cases tA3 with
              | leaf => exact absurd hstrip3 (by simp [stripT, mapT])
              | node A3 nvp B3 =>
              have hB3leaf : B3 = Tree.leaf := by
                have h5 := hstrip3
                rw [show stripT (Tree.node A3 nvp B3)
                    = Tree.node (stripT A3) nvp.2 (stripT B3) from rfl] at h5
                injection h5 with h6 h7 h8
                cases B3 with
                | leaf => rfl
                | node b1 b2 b3 => simp [stripT, mapT] at h8
              subst hB3leaf
              obtain ⟨lm, lmn, hpm21, hnvp, hlmlook, hA3RT, hlmRT⟩ :=
                RT_some_inv hpmRT
              subst hnvp
              have hlmright : lmn.right = none := RT_leaf_inv hlmRT
              have hlmrc1 : lmn.rc = 1 := hpmrc1 lm lmn hpm21 hlmlook
              have hraB2 : RT (pmLoop (f2 + 2)
                  (removeH (insert_pullH c v false (f2 + 2) H root).1 n)
                  (some la) la []).1 (some ra) B2 :=
                hpmoth (some ra) B2 (List.mem_cons_self _ _) hB2d
              obtain ⟨nra, hralook⟩ := RT_some_lookup hraB2
              have hra1 : 1 ≤ nra.rc := by
                have h0 := hpmrc ra nra hralook
                rw [hpm21] at h0
                rw [incoming, rootCount_cons, rootCount_cons,
                  if_pos rfl] at h0
                omega
              have hlmra : lm ≠ ra := by
                intro h
                have hmem : lm ∈ maddrs
                    (Tree.node A3 (lm, lmn.value) Tree.leaf) := by
                  rw [mem_maddrs_node]
                  exact Or.inl rfl
                rcases hpmbound lm hmem with hxa | hxn
                · have hrain : ra ∈ addrsT B2 := RT_some_mem hB2ip
                  exact hparts.2.2 lm (Multiset.mem_coe.1 hxa)
                    (h.symm ▸ hrain)
                · have hradom : ra ∈ (removeH
                      (insert_pullH c v false (f2 + 2) H root).1 n).dom := by
                    refine (hwfD.domOK ra).1 ?_
                    rw [← lookupH_eq]
                    rcases RT_some_lookup hB2d with ⟨mr, hmr⟩
                    rw [hmr]
                    rfl
                  have hfr := hwfD.fresh ra hradom
                  rw [h] at hxn
                  omega
              have hA3lm_nd : ({lm} + maddrs A3 : Multiset Nat).Nodup := by
                have h1 := hpmnd
                rw [maddrs_node, maddrs_leaf, add_zero] at h1
                exact h1
              have hndF : (maddrs
                  (Tree.node A3 (lm, lmn.value) B2)).Nodup := by
                rw [maddrs_node, Multiset.nodup_add]
                refine ⟨hA3lm_nd, hB2nodup, ?_⟩
                rw [Multiset.disjoint_left]
                intro x hx hxB
                have hx2 : x ∈ maddrs
                    (Tree.node A3 (lm, lmn.value) Tree.leaf) := by
                  rw [maddrs_node, maddrs_leaf, add_zero]
                  exact hx
                have hxB' : x ∈ addrsT B2 := Multiset.mem_coe.1 hxB
                rcases hpmbound x hx2 with hxa | hxn
                · exact hparts.2.2 x (Multiset.mem_coe.1 hxa) hxB'
                · have hxdom : x ∈ (removeH
                      (insert_pullH c v false (f2 + 2) H root).1 n).dom := by
                    refine (hwfD.domOK x).1 ?_
                    exact RT_mem_isSome hB2d x hxB'
                  have hfr := hwfD.fresh x hxdom
                  omega
              have hattach : decRefO (f2 + 2)
                  (writeH (incRefO (pmLoop (f2 + 2)
                      (removeH (insert_pullH c v false (f2 + 2) H root).1 n)
                      (some la) la []).1 (some ra)) lm
                    { (lookupH (incRefO (pmLoop (f2 + 2)
                        (removeH (insert_pullH c v false (f2 + 2) H root).1
                          n) (some la) la []).1 (some ra)) lm).getD lmn
                      with right := some ra })
                  (some ra)
                  = writeH (pmLoop (f2 + 2)
                      (removeH (insert_pullH c v false (f2 + 2) H root).1 n)
                      (some la) la []).1 lm
                      { lmn with right := some ra } :=
                attachRight_eq (f2 + 1) _ lm ra lmn nra hlmlook hralook
                  hlmra hra1
              have hpmrc' : rcCorrect (pmLoop (f2 + 2)
                  (removeH (insert_pullH c v false (f2 + 2) H root).1 n)
                  (some la) la []).1 (some lm :: some ra :: others) := by
                rw [← hpm21]
                exact hpmrc
              have hpmrts' : rootsOK (pmLoop (f2 + 2)
                  (removeH (insert_pullH c v false (f2 + 2) H root).1 n)
                  (some la) la []).1 (some lm :: some ra :: others) := by
                rw [← hpm21]
                exact hpmrts
              obtain ⟨hwfW, hrcW, hrtsW, hRTW, hothW⟩ :=
                attach_core (pmLoop (f2 + 2)
                    (removeH (insert_pullH c v false (f2 + 2) H root).1 n)
                    (some la) la []).1 lm ra lmn others A3 B2
                  hpmwf hpmrc' hpmrts' hlmlook hlmrc1 hlmright hA3RT
                  hraB2 hndF
              have hstep : eraseH c v (f2 + 2) H root
                  = (decRefO (f2 + 2)
                      (writeH (incRefO (pmLoop (f2 + 2)
                          (removeH (insert_pullH c v false (f2 + 2) H root).1
                            n) (some la) la []).1 (some ra)) lm
                        { (lookupH (incRefO (pmLoop (f2 + 2)
                            (removeH (insert_pullH c v false (f2 + 2) H
                              root).1 n) (some la) la []).1 (some ra))
                            lm).getD lmn
                          with right := some ra })
                      (some ra),
                     some lm,
                     (insert_pullH c v false (f2 + 2) H root).2.2.2 &&
                       (pmLoop (f2 + 2)
                         (removeH (insert_pullH c v false (f2 + 2) H root).1
                           n) (some la) la []).2.2 &&
                       decide (lmn.right = none)) := by
                simp only [eraseH, pullH]
                rw [hf, if_pos rfl]
                simp only [hn, hlookn, hle, hre]
                rw [hdetach]
                simp only [pull_maxH, hpm21, hlmlook]
              have hfinal : eraseH c v (f2 + 2) H root
                  = (writeH (pmLoop (f2 + 2)
                      (removeH (insert_pullH c v false (f2 + 2) H root).1 n)
                      (some la) la []).1 lm
                      { lmn with right := some ra },
                     some lm, true) := by
                rw [hstep, hattach, hipok, hpmok, hlmright]
                rfl
              -- functional correspondence
              cases hA2d with
              | node hlookla hltl hltr =>
              rename_i lnd ltl ltr
              cases hB2d with
              | node hlookra hrtl hrtr =>
              rename_i rnd rtl rtr
              have hpair : pull c v (stripT tA)
                  = (true, Tree.node
                      (Tree.node (stripT ltl) lnd.value (stripT ltr))
                      nnd.value
                      (Tree.node (stripT rtl) rnd.value (stripT rtr))) := by
                have h1 : (pull c v (stripT tA)).2
                    = Tree.node
                        (Tree.node (stripT ltl) lnd.value (stripT ltr))
                        nnd.value
                        (Tree.node (stripT rtl) rnd.value (stripT rtr)) :=
                  hipstrip.symm
                rcases hp : pull c v (stripT tA) with ⟨fnd, t2⟩
                rw [hp] at h1 hfoundT
                have h2 : fnd = true := hfoundT
                have h3 : t2 = Tree.node
                    (Tree.node (stripT ltl) lnd.value (stripT ltr))
                    nnd.value
                    (Tree.node (stripT rtl) rnd.value (stripT rtr)) := h1
                rw [h2, h3]
              have hmaxeq : pull_max_loop
                  (Tree.node (stripT ltl) lnd.value (stripT ltr)) []
                  = Tree.node (stripT A3) lmn.value Tree.leaf :=
                hpmstrip.symm
              have herase : erase c v (stripT tA)
                  = Tree.node (stripT A3) lmn.value
                      (Tree.node (stripT rtl) rnd.value (stripT rtr)) := by
                simp only [erase, hpair, join_node_node, pull_max, hmaxeq]
              refine ⟨Tree.node A3 (lm, lmn.value)
                  (Tree.node rtl (ra, rnd.value) rtr),
                ?_, ?_, ?_, ?_, ?_, ?_, ?_, ?_⟩
              · rw [hfinal]
              · rw [hfinal]
                exact hwfW
              · rw [hfinal]
                exact hrcW
              · rw [hfinal]
                exact hrtsW
              · rw [hfinal]
                exact hRTW
              · exact hndF
              · rw [herase]
                rfl
              · intro oB tB hB h
                rw [hfinal]
                refine hothW oB tB hB ?_
                refine hpmoth oB tB (List.mem_cons_of_mem _ hB) ?_
                exact hothD oB tB hB (hipoth oB tB hB h)

/-- `find_memoize` on the heap refines the functional `find_memoize`: the
handle afterwards represents the functional result, the returned value
matches, and the trees of all other handles are untouched. -/
theorem find_memoizeH_master (c : Cmp T) (v : T) (fuel : Nat) (H : Heap T)
    (root : Option Nat) (others : List (Option Nat)) (tA : Tree (Nat × T))
    (hok : HandleOK H root others tA) (hfuel : heightT tA < fuel) :
    ∃ tA2,
      (find_memoizeH c v fuel H root).2.2.2 = true ∧
      HWF (find_memoizeH c v fuel H root).1 ∧
      rcCorrect (find_memoizeH c v fuel H root).1
        ((find_memoizeH c v fuel H root).2.1 :: others) ∧
      rootsOK (find_memoizeH c v fuel H root).1
        ((find_memoizeH c v fuel H root).2.1 :: others) ∧
      RT (find_memoizeH c v fuel H root).1
        (find_memoizeH c v fuel H root).2.1 tA2 ∧
      (maddrs tA2).Nodup ∧
      stripT tA2 = (find_memoize c v (stripT tA)).2 ∧
      (find_memoizeH c v fuel H root).2.2.1
        = (find_memoize c v (stripT tA)).1 ∧
      (∀ oB tB, oB ∈ others → RT H oB tB →
        RT (find_memoizeH c v fuel H root).1 oB tB) := by
  obtain ⟨tA2, hipok, hipwf, hiprc, hiprts, hipRT, hipnd, hipstrip,
    hipfound, hipoth, hiprc1⟩ :=
    insert_pullH_master c v false fuel H root others tA hok hfuel
  cases hf : (insert_pullH c v false fuel H root).2.2.1 with
  | false =>
      have hstep : find_memoizeH c v fuel H root
          = ((insert_pullH c v false fuel H root).1,
             (insert_pullH c v false fuel H root).2.1, none,
             (insert_pullH c v false fuel H root).2.2.2) := by
        simp only [find_memoizeH, pullH]
        rw [hf, if_neg (by simp)]
      have hfound : (pull c v (stripT tA)).1 = false := by
        have h2 := hipfound
        rw [hf] at h2
        exact h2.symm
      have hfm : find_memoize c v (stripT tA)
          = (none, (insert_pull_loop c v false (stripT tA) []).2) := by
        rcases hp : pull c v (stripT tA) with ⟨fnd, t2⟩
        rw [hp] at hfound
        have hfnd : fnd = false := hfound
        subst hfnd
        simp only [find_memoize, hp]
        rw [show insert_pull_loop c v false (stripT tA) []
              = pull c v (stripT tA) from rfl, hp]
      refine ⟨tA2, ?_, ?_, ?_, ?_, ?_, hipnd, ?_, ?_, ?_⟩
      · rw [hstep]
        exact hipok
      · rw [hstep]
        exact hipwf
      · rw [hstep]
        exact hiprc
      · rw [hstep]
        exact hiprts
      · rw [hstep]
        exact hipRT
      · rw [hfm]
        exact hipstrip
      · rw [hstep, hfm]
      · intro oB tB hB h
        rw [hstep]
        exact hipoth oB tB hB h
  | true =>
      have hfoundT : (pull c v (stripT tA)).1 = true := by
        have h2 := hipfound
        rw [hf] at h2
        exact h2.symm
      obtain ⟨l0, x0, r0, hroot0, hcmp0⟩ :=
        pull_found_root c v (stripT tA) hfoundT
      have hstrip0 : stripT tA2 = Tree.node l0 x0 r0 := by
        rw [hipstrip]
        exact hroot0
      cases tA2 with
      | leaf => exact absurd hstrip0 (by simp [stripT, mapT])
      | node A2 nv2 B2 =>
      obtain ⟨n, nnd, hn, hnv2, hlookn, hA2ip, hB2ip⟩ := RT_some_inv hipRT
      subst hnv2
      have hstep : find_memoizeH c v fuel H root
          = ((insert_pullH c v false fuel H root).1, some n,
             some nnd.value,
             (insert_pullH c v false fuel H root).2.2.2) := by
        simp only [find_memoizeH, pullH]
        rw [hf, if_pos rfl]
        simp only [hn, hlookn]
      have hpair : pull c v (stripT tA)
          = (true, Tree.node (stripT A2) nnd.value (stripT B2)) := by
        have h1 : (pull c v (stripT tA)).2
            = Tree.node (stripT A2) nnd.value (stripT B2) := hipstrip.symm
        rcases hp : pull c v (stripT tA) with ⟨fnd, t2⟩
        rw [hp] at h1 hfoundT
        have h2 : fnd = true := hfoundT
        have h3 : t2 = Tree.node (stripT A2) nnd.value (stripT B2) := h1
        rw [h2, h3]
      have hfm : find_memoize c v (stripT tA)
          = (some nnd.value,
             Tree.node (stripT A2) nnd.value (stripT B2)) := by
        simp only [find_memoize, hpair, rootVal]
      refine ⟨Tree.node A2 (n, nnd.value) B2,
        ?_, ?_, ?_, ?_, ?_, hipnd, ?_, ?_, ?_⟩
      · rw [hstep]
        exact hipok
      · rw [hstep]
        exact hipwf
      · rw [hstep, ← hn]
        exact hiprc
      · rw [hstep, ← hn]
        exact hiprts
      · rw [hstep, ← hn]
        exact hipRT
      · rw [hfm]
        rfl
      · rw [hstep, hfm]
      · intro oB tB hB h
        rw [hstep]
        exact hipoth oB tB hB h

/-- Every address of a represented tree is either the handle root or sits in
a child slot of an allocated node. -/
theorem RT_reachable_parent {H : Heap T} {o : Option Nat}
    {t : Tree (Nat × T)} (h : RT H o t) :
    ∀ x ∈ addrsT t, o = some x ∨
      ∃ p pn, lookupH H p = some pn ∧
        (pn.left = some x ∨ pn.right = some x) := by
  induction h with
  | leaf =>
      intro x hx
      cases hx
  | node hlook hlt hrt ihl ihr =>
      rename_i a nd tl tr
      intro x hx
      simp only [addrsT, List.mem_cons, List.mem_append] at hx
      rcases hx with rfl | hx | hx
      · exact Or.inl rfl
      · rcases ihl x hx with heq | hp
        · exact Or.inr ⟨a, nd, hlook, Or.inl heq⟩
        · exact Or.inr hp
      · rcases ihr x hx with heq | hp
        · exact Or.inr ⟨a, nd, hlook, Or.inr heq⟩
        · exact Or.inr hp

/-- In a refcount-correct heap every node reachable from a live handle has a
reference count of at least one, equal to the number of incoming
references. -/
theorem reachable_rc_ge1 (H : Heap T) (root : Option Nat)
    (others : List (Option Nat)) (t : Tree (Nat × T)) (hwf : HWF H)
    (hrc : rcCorrect H (root :: others)) (hRT : RT H root t) :
    ∀ x ∈ addrsT t, ∀ m, lookupH H x = some m →
      1 ≤ m.rc ∧ m.rc = incoming H (root :: others) x := by
  intro x hx m hm
  refine ⟨?_, hrc x m hm⟩
  rcases RT_reachable_parent hRT x hx with heq | ⟨p, pn, hp, hslot⟩
  · have h2 := hrc x m hm
    rw [incoming, rootCount_cons, heq, if_pos rfl] at h2
    omega
  · have h2 := hrc x m hm
    have h3 : 1 ≤ slotCount pn x := by
      simp only [slotCount]
      rcases hslot with h | h
      · rw [h, if_pos rfl]
        omega
      · rw [h, if_pos rfl]
        omega
    have h4 := le_incomingN H hwf p pn hp x
    rw [incoming] at h2
    omega

theorem rootsOK_incRefO_dup (H : Heap T) (root : Option Nat)
    (R : List (Option Nat)) (h : rootsOK H (root :: R)) :
    rootsOK (incRefO H root) (root :: root :: R) := by
  intro r hr x heq
  have hsome : (H.f x).isSome = true := by
    rcases List.mem_cons.1 hr with rfl | hmem
    · exact h r (List.mem_cons_self _ _) x heq
    · rcases List.mem_cons.1 hmem with rfl | hmem2
      · exact h r (List.mem_cons_self _ _) x heq
      · exact h r (List.mem_cons_of_mem _ hmem2) x heq
  rw [show (incRefO H root).f x = lookupH (incRefO H root) x from rfl,
    lookupH_incRefO_formula]
  rw [show H.f x = lookupH H x from rfl] at hsome
  cases hx : lookupH H x with
  | none =>
      rw [hx] at hsome
      cases hsome
  | some m =>
      rfl

/-- Detach the head root of an accounting list into a pending release. -/
theorem rcCorrect_to_P (H : Heap T) (root : Option Nat)
    (R : List (Option Nat)) (h : rcCorrect H (root :: R)) :
    rcCorrectP H R (pushP root []) := by
  intro a n hn
  have h2 := h a n hn
  rw [incoming, rootCount_cons] at h2
  rw [incoming, count_pushP, List.count_nil]
  by_cases hr : root = some a
  · rw [if_pos hr] at h2 ⊢
    omega
  · rw [if_neg hr] at h2 ⊢
    omega

theorem rcCorrect_cons_none_intro (H : Heap T) (R : List (Option Nat))
    (h : rcCorrect H R) : rcCorrect H (none :: R) := by
  intro a n hn
  rw [incoming, rootCount_none_cons, ← incoming]
  exact h a n hn

/-- Releasing one of at least two root references to a tree only lowers the
root's count: the represented tree survives.  This is `clear` after `copy`. -/
theorem clear_copy_RT (fuel : Nat) (H : Heap T) (root : Option Nat)
    (others : List (Option Nat)) (tA : Tree (Nat × T))
    (hwf : HWF H) (hRT : RT H root tA)
    (hrc : rcCorrect H (root :: others)) (hfuel : 1 ≤ fuel) :
    RT (decRefO fuel (incRefO H root) root) root tA := by
  cases root with
  | none =>
      rw [show incRefO H (none : Option Nat) = H from rfl, decRefO_none]
      exact hRT
  | some a =>
      obtain ⟨m0, hm0⟩ := RT_some_lookup hRT
      have hrc0 := hrc a m0 hm0
      have hge1 : 1 ≤ m0.rc := by
        rw [incoming, rootCount_cons, if_pos rfl] at hrc0
        omega
      rw [incRefO_some H a m0 hm0]
      have hlook1 : lookupH (writeH H a { m0 with rc := m0.rc + 1 }) a
          = some { m0 with rc := m0.rc + 1 } := by
        rw [lookupH_writeH, if_pos rfl]
      obtain ⟨f, rfl⟩ : ∃ f, fuel = f + 1 := ⟨fuel - 1, by omega⟩
      rw [decRefO_shared f _ a _ hlook1 (by dsimp only; omega)]
      refine RT_congr hRT ?_
      intro b hb
      by_cases hba : b = a
      · rw [f_writeH, if_pos hba, hba, show H.f a = some m0 from hm0]
        rfl
      · rw [f_writeH, if_neg hba, f_writeH, if_neg hba]

/-- The per-handle refcount invariant after an operation: the heap is well
formed, every allocated node's count matches its incoming references, and
every node reachable from the handle is kept alive by at least one
reference. -/
def opOK (H2 : Heap T) (root2 : Option Nat)
    (others : List (Option Nat)) : Prop :=
  HWF H2 ∧ rcCorrect H2 (root2 :: others) ∧
  ∃ t2, RT H2 root2 t2 ∧
    ∀ x ∈ addrsT t2, ∀ m, lookupH H2 x = some m →
      1 ≤ m.rc ∧ m.rc = incoming H2 (root2 :: others) x

set_option maxHeartbeats 800000 in
/-- C7: after every operation (insert, erase, find_memoize, copy, clear)
every node reachable from a live handle has a reference count of at least 1
equal to the number of incoming references (parent child slots plus handle
root slots); and no operation ever mutates a node whose count exceeds 1 —
the returned `ok` flag, which conjoins every per-write `rc == 1` sharing
assertion of the embedded operations (shared nodes are cloned and the
parent or root re-linked instead), is true. -/
theorem claim_C7_refcounts (c : Cmp T) (v : T) (fuel : Nat) (H : Heap T)
    (root : Option Nat) (others : List (Option Nat)) (tA : Tree (Nat × T))
    (hok : HandleOK H root others tA) (hfuel : sizeT tA < fuel) :
    ((insertH c v fuel H root).2.2 = true ∧
      opOK (insertH c v fuel H root).1
        (insertH c v fuel H root).2.1 others) ∧
    ((eraseH c v fuel H root).2.2 = true ∧
      opOK (eraseH c v fuel H root).1
        (eraseH c v fuel H root).2.1 others) ∧
    ((find_memoizeH c v fuel H root).2.2.2 = true ∧
      opOK (find_memoizeH c v fuel H root).1
        (find_memoizeH c v fuel H root).2.1 others) ∧
    opOK (copyH H root).1 (copyH H root).2 (root :: others) ∧
    HWF (clearH fuel H root).1 ∧
    rcCorrect (clearH fuel H root).1
      ((clearH fuel H root).2 :: others) := by
  obtain ⟨hwf, hRT, hrc, hrts, hnd⟩ := hok
  obtain ⟨tI, hIok, hIwf, hIrc, hIrts, hIRT, hInd, hIstrip, hIfound,
    hIoth, hIrc1⟩ :=
    insert_pullH_master c v true fuel H root others tA
      ⟨hwf, hRT, hrc, hrts, hnd⟩
      (lt_of_le_of_lt (heightT_le_sizeT tA) hfuel)
  obtain ⟨tE, hEok, hEwf, hErc, hErts, hERT, hEnd, hEstrip, hEoth⟩ :=
    eraseH_master c v fuel H root others tA
      ⟨hwf, hRT, hrc, hrts, hnd⟩ hfuel
  obtain ⟨tF, hFok, hFwf, hFrc, hFrts, hFRT, hFnd, hFstrip, hFval,
    hFoth⟩ :=
    find_memoizeH_master c v fuel H root others tA
      ⟨hwf, hRT, hrc, hrts, hnd⟩
      (lt_of_le_of_lt (heightT_le_sizeT tA) hfuel)
  have hndL : (addrsT tA).Nodup := by
    rw [← Multiset.coe_nodup]
    exact hnd
  have hP : rcCorrectP H others (pushP root []) :=
    rcCorrect_to_P H root others hrc
  obtain ⟨hCwf, hCP, hCfr, hCcore, hCdom, hCnext⟩ :=
    decRefO_master tA fuel H others [] root hwf hRT hndL hP
      (lt_of_le_of_lt (heightT_le_sizeT tA) hfuel)
  refine ⟨⟨hIok, hIwf, hIrc, tI, hIRT, ?_⟩,
          ⟨hEok, hEwf, hErc, tE, hERT, ?_⟩,
          ⟨hFok, hFwf, hFrc, tF, hFRT, ?_⟩,
          ⟨HWF_incRefO H hwf root,
           rcCorrect_incRefO H (root :: others) root hrc, tA,
           RT_congr hRT (fun b _ => core_incRefO H root b), ?_⟩,
          hCwf,
          rcCorrect_cons_none_intro _ _ ((rcCorrectP_nil _ _).1 hCP)⟩
  · exact reachable_rc_ge1 _ _ others tI hIwf hIrc hIRT
  · exact reachable_rc_ge1 _ _ others tE hEwf hErc hERT
  · exact reachable_rc_ge1 _ _ others tF hFwf hFrc hFRT
  · exact reachable_rc_ge1 _ _ (root :: others) tA
      (HWF_incRefO H hwf root)
      (rcCorrect_incRefO H (root :: others) root hrc)
      (RT_congr hRT (fun b _ => core_incRefO H root b))

set_option maxHeartbeats 800000 in
/-- C8: persistence under aliasing — after `B := copy(A)` (which shares the
root and acquires one reference) any mutating operation through `A`'s
handle (insert, erase, find_memoize, clear) leaves `B`'s represented tree
exactly as it was at the time of the copy, while the mutated handle
represents the functional result; this is also the non-member
`insert(t, v)` / `erase(t, v)` (copy → mutate → return), whose input
handle is unchanged. -/
theorem claim_C8_persistence (c : Cmp T) (v : T) (fuel : Nat) (H : Heap T)
    (root : Option Nat) (others : List (Option Nat)) (tA : Tree (Nat × T))
    (hok : HandleOK H root others tA) (hfuel : sizeT tA < fuel) :
    (copyH H root).2 = root ∧
    RT (copyH H root).1 (copyH H root).2 tA ∧
    RT (insertH c v fuel (copyH H root).1 (copyH H root).2).1 root tA ∧
    (∃ tI, RT (insertH c v fuel (copyH H root).1 (copyH H root).2).1
        (insertH c v fuel (copyH H root).1 (copyH H root).2).2.1 tI ∧
      stripT tI = insert c v (stripT tA)) ∧
    RT (eraseH c v fuel (copyH H root).1 (copyH H root).2).1 root tA ∧
    (∃ tE, RT (eraseH c v fuel (copyH H root).1 (copyH H root).2).1
        (eraseH c v fuel (copyH H root).1 (copyH H root).2).2.1 tE ∧
      stripT tE = erase c v (stripT tA)) ∧
    RT (find_memoizeH c v fuel (copyH H root).1 (copyH H root).2).1
      root tA ∧
    RT (clearH fuel (copyH H root).1 (copyH H root).2).1 root tA := by
  obtain ⟨hwf, hRT, hrc, hrts, hnd⟩ := hok
  have hwf1 : HWF (incRefO H root) := HWF_incRefO H hwf root
  have hRT1 : RT (incRefO H root) root tA :=
    RT_congr hRT (fun b _ => core_incRefO H root b)
  have hrc1 : rcCorrect (incRefO H root) (root :: root :: others) :=
    rcCorrect_incRefO H (root :: others) root hrc
  have hrts1 : rootsOK (incRefO H root) (root :: root :: others) :=
    rootsOK_incRefO_dup H root others hrts
  have hok1 : HandleOK (incRefO H root) root (root :: others) tA :=
    ⟨hwf1, hRT1, hrc1, hrts1, hnd⟩
  obtain ⟨tI, hIok, hIwf, hIrc, hIrts, hIRT, hInd, hIstrip, hIfound,
    hIoth, hIrc1⟩ :=
    insert_pullH_master c v true fuel (incRefO H root) root
      (root :: others) tA hok1
      (lt_of_le_of_lt (heightT_le_sizeT tA) hfuel)
  obtain ⟨tE, hEok, hEwf, hErc, hErts, hERT, hEnd, hEstrip, hEoth⟩ :=
    eraseH_master c v fuel (incRefO H root) root (root :: others) tA
      hok1 hfuel
  obtain ⟨tF, hFok, hFwf, hFrc, hFrts, hFRT, hFnd, hFstrip, hFval,
    hFoth⟩ :=
    find_memoizeH_master c v fuel (incRefO H root) root (root :: others)
      tA hok1 (lt_of_le_of_lt (heightT_le_sizeT tA) hfuel)
  refine ⟨rfl, hRT1, ?_, ⟨tI, hIRT, hIstrip⟩, ?_, ⟨tE, hERT, hEstrip⟩,
    ?_, ?_⟩
  · exact hIoth root tA (List.mem_cons_self _ _) hRT1
  · exact hEoth root tA (List.mem_cons_self _ _) hRT1
  · exact hFoth root tA (List.mem_cons_self _ _) hRT1
  · exact clear_copy_RT fuel H root others tA hwf hRT hrc (by omega)

/-! ### A concrete one-node heap for exercising the heap-level theorems -/

/-- One allocated node at address 0 holding value 5, owned by one root. -/
def heap1 : Heap Int :=
  ⟨[0], fun a => if a = 0 then some ⟨none, none, 5, 1⟩ else none, 1⟩

/-- The annotated tree represented by `heap1` from root 0. -/
def tree1A : Tree (Nat × Int) := .node .leaf (0, 5) .leaf

theorem heap1_hwf : HWF heap1 := by
  refine ⟨by decide, ?_, by decide, ?_⟩
  · intro a
    by_cases h : a = 0
    · subst h
      simp [heap1]
    · simp [heap1, h]
  · intro a n h
    by_cases ha : a = 0
    · subst ha
      have h2 : some (⟨none, none, 5, 1⟩ : HNode Int) = some n := h
      injection h2 with h3
      subst h3
      exact ⟨fun a' ha' => Option.noConfusion ha',
        fun a' ha' => Option.noConfusion ha'⟩
    · exfalso
      rw [show heap1.f a
          = (if a = 0 then some (⟨none, none, 5, 1⟩ : HNode Int) else none)
          from rfl, if_neg ha] at h
      cases h

theorem heap1_rc : rcCorrect heap1 [some 0] := by
  intro a n h
  by_cases ha : a = 0
  · subst ha
    have h2 : some (⟨none, none, 5, 1⟩ : HNode Int) = some n := h
    injection h2 with h3
    subst h3
    rfl
  · exfalso
    rw [show lookupH heap1 a
        = (if a = 0 then some (⟨none, none, 5, 1⟩ : HNode Int) else none)
        from rfl, if_neg ha] at h
    cases h

theorem heap1_rts : rootsOK heap1 [some 0] := by
  intro r hr x heq
  simp only [List.mem_singleton] at hr
  subst hr
  injection heq with heq2
  subst heq2
  rfl

theorem heap1_hok : HandleOK heap1 (some 0) [] tree1A :=
  ⟨heap1_hwf,
   @RT.node Int heap1 0 ⟨none, none, 5, 1⟩ Tree.leaf Tree.leaf rfl
     RT.leaf RT.leaf,
   heap1_rc, heap1_rts, by decide⟩

theorem claim_C7_refcounts_witness :
    ((insertH intCmp 7 2 heap1 (some 0)).2.2 = true ∧
      opOK (insertH intCmp 7 2 heap1 (some 0)).1
        (insertH intCmp 7 2 heap1 (some 0)).2.1 []) ∧
    ((eraseH intCmp 7 2 heap1 (some 0)).2.2 = true ∧
      opOK (eraseH intCmp 7 2 heap1 (some 0)).1
        (eraseH intCmp 7 2 heap1 (some 0)).2.1 []) ∧
    ((find_memoizeH intCmp 7 2 heap1 (some 0)).2.2.2 = true ∧
      opOK (find_memoizeH intCmp 7 2 heap1 (some 0)).1
        (find_memoizeH intCmp 7 2 heap1 (some 0)).2.1 []) ∧
    opOK (copyH heap1 (some 0)).1 (copyH heap1 (some 0)).2 [some 0] ∧
    HWF (clearH 2 heap1 (some 0)).1 ∧
    rcCorrect (clearH 2 heap1 (some 0)).1
      ((clearH 2 heap1 (some 0)).2 :: []) :=
  claim_C7_refcounts intCmp 7 2 heap1 (some 0) [] tree1A heap1_hok
    (by decide)

theorem claim_C8_persistence_witness :
    (copyH heap1 (some 0)).2 = some 0 ∧
    RT (copyH heap1 (some 0)).1 (copyH heap1 (some 0)).2 tree1A ∧
    RT (insertH intCmp 7 2 (copyH heap1 (some 0)).1
        (copyH heap1 (some 0)).2).1 (some 0) tree1A ∧
    (∃ tI, RT (insertH intCmp 7 2 (copyH heap1 (some 0)).1
          (copyH heap1 (some 0)).2).1
        (insertH intCmp 7 2 (copyH heap1 (some 0)).1
          (copyH heap1 (some 0)).2).2.1 tI ∧
      stripT tI = insert intCmp 7 (stripT tree1A)) ∧
    RT (eraseH intCmp 7 2 (copyH heap1 (some 0)).1
        (copyH heap1 (some 0)).2).1 (some 0) tree1A ∧
    (∃ tE, RT (eraseH intCmp 7 2 (copyH heap1 (some 0)).1
          (copyH heap1 (some 0)).2).1
        (eraseH intCmp 7 2 (copyH heap1 (some 0)).1
          (copyH heap1 (some 0)).2).2.1 tE ∧
      stripT tE = erase intCmp 7 (stripT tree1A)) ∧
    RT (find_memoizeH intCmp 7 2 (copyH heap1 (some 0)).1
        (copyH heap1 (some 0)).2).1 (some 0) tree1A ∧
    RT (clearH 2 (copyH heap1 (some 0)).1 (copyH heap1 (some 0)).2).1
      (some 0) tree1A :=
  claim_C8_persistence intCmp 7 2 heap1 (some 0) [] tree1A heap1_hok
    (by decide)

end HeapModel
end SplayTree
